import Mathlib

/-!
# Retroactive containers: treap, retroactive deque, retroactive unordered multiset

A shallow embedding of `retroactive-deque/retroactive_deque.h` and
`retroactive-unordered-multiset/retroactive_unordered_multiset.h`.

* `long long` values are integers; the only place where the source can leave the 64-bit
  range on a representable input is `tm - 1` in `treap::erase` (and `+ 1` in
  `get_last_time`), which is reduced with `wrap64`.  The aggregates `balance`, `min_pref`,
  `min_suff`, `max_suff` are bounded in absolute value by the number of nodes of the tree.
* `rand()` is not modelled: every function that allocates a treap node takes the priority
  of the new node as an argument.
* Pointers to uniquely owned nodes are values of an inductive type; `nullptr` is `null`.
-/

/-- The value `std::numeric_limits<long long>::max()`. -/
def INT64_MAX : Int := 9223372036854775807

/-- The value `std::numeric_limits<long long>::min()`. -/
def INT64_MIN : Int := -9223372036854775808

/-- Reduction of an integer to the signed 64-bit range (two's complement). -/
def wrap64 (x : Int) : Int := (x + 9223372036854775808) % 18446744073709551616 - 9223372036854775808

/-- The integer is a value of type `long long`. -/
def isInt64 (x : Int) : Prop := INT64_MIN ≤ x ∧ x ≤ INT64_MAX

instance (x : Int) : Decidable (isInt64 x) := by
  unfold isInt64; exact inferInstance

/-! ## The treap of both containers -/

/-- The node type `struct treap`.  The multiset's copy of the struct has no `min_suff`
field; no function of the multiset reads it. -/
inductive treap where
  | null : treap
  | node (L R : treap) (prior : Nat) (ins : Bool)
      (tm balance min_pref min_suff max_suff : Int) : treap
  deriving DecidableEq, Repr

namespace treap

/-- The expression `ins ? 1 : -1`. -/
def sign (ins : Bool) : Int := if ins then 1 else -1

/-- The constructor `treap(cur_time, inserted)`, with the drawn priority as an argument. -/
def new_node (cur_time : Int) (inserted : Bool) (prior : Nat) : treap :=
  node null null prior inserted cur_time (sign inserted) (sign inserted) (sign inserted)
    (sign inserted)

/-- The test `!t`. -/
def isNull : treap → Bool
  | null => true
  | node .. => false

def get_balance : treap → Int
  | null => 0
  | node _ _ _ _ _ b _ _ _ => b

def get_min_pref : treap → Int
  | null => 0
  | node _ _ _ _ _ _ mp _ _ => mp

def get_min_suff : treap → Int
  | null => 0
  | node _ _ _ _ _ _ _ ms _ => ms

def get_max_suff : treap → Int
  | null => 0
  | node _ _ _ _ _ _ _ _ xs => xs

def recalc : treap → treap
  | null => null
  | node L R p ins tm _ _ _ _ =>
    node L R p ins tm
      (sign ins + get_balance L + get_balance R)
      (min (if L.isNull then INT64_MAX else get_min_pref L)
           (get_balance L + sign ins + min 0 (get_min_pref R)))
      (min (if R.isNull then INT64_MAX else get_min_suff R)
           (get_balance R + sign ins + min 0 (get_min_suff L)))
      (max (if R.isNull then INT64_MIN else get_max_suff R)
           (get_balance R + sign ins + max 0 (get_max_suff L)))

/-- The function `treap::merge(t, l, r)`, returning `t`.  The recursion of the source
descends into `l->R` or into `r->L`; it is written as a recursion on `l` whose inner
function `go` recurses on `r` (see `merge_node_node` for the equation of the source). -/
def merge : treap → treap → treap
  | null, r => recalc r
  | node lL lR lp li lt lb lmp lms lxs, r =>
    go lL lR lp li lt lb lmp lms lxs (merge lR) r
where
  /-- The function `merge (node lL lR ..)`, given `mergeR = merge lR`. -/
  go (lL lR : treap) (lp : Nat) (li : Bool) (lt lb lmp lms lxs : Int)
      (mergeR : treap → treap) : treap → treap
    | null => recalc (node lL lR lp li lt lb lmp lms lxs)
    | node rL rR rp ri rt rb rmp rms rxs =>
      if lp > rp then
        recalc (node lL (mergeR (node rL rR rp ri rt rb rmp rms rxs)) lp li lt lb lmp lms lxs)
      else
        recalc (node (go lL lR lp li lt lb lmp lms lxs mergeR rL) rR rp ri rt rb rmp rms rxs)

/-- The function `treap::split(t, l, r, x)`, returning `(l, r)`: times `<= x` go to `l`. -/
def split : treap → Int → treap × treap
  | null, _ => (null, null)
  | node L R p ins tm b mp ms xs, x =>
    if tm ≤ x then
      (recalc (node L (split R x).1 p ins tm b mp ms xs), recalc (split R x).2)
    else
      (recalc (split L x).1, recalc (node (split L x).2 R p ins tm b mp ms xs))

/-- The function `treap::insert(t, tm, ins)`; `prior` is the priority of the new node. -/
def insert (t : treap) (tm : Int) (ins : Bool) (prior : Nat) : treap :=
  let t1 := (split t tm).1
  let t2 := (split t tm).2
  let t1 := merge t1 (new_node tm ins prior)
  merge t1 t2

/-- The function `treap::erase(t, tm)`.  The second split is at `tm - 1` computed in
64-bit arithmetic; the middle part `t2` is dropped. -/
def erase (t : treap) (tm : Int) : treap :=
  let t1 := (split t tm).1
  let t3 := (split t tm).2
  let t1 := (split t1 (wrap64 (tm - 1))).1
  merge t1 t3

/-- The function `treap::get_kth(t, k)`; the loop is a recursion on the tree. -/
def get_kth : treap → Int → Int
  | null, _ => INT64_MAX
  | node L R _ ins tm _ _ _ _, k =>
    if !R.isNull && (decide (k ≥ get_min_suff R) && decide (k ≤ get_max_suff R)) then
      get_kth R k
    else
      let right_balance := get_balance R + sign ins
      if right_balance = k then tm else get_kth L (k - right_balance)

/-- The in-order sequence of `(tm, ins)` pairs of a tree. -/
def inorder : treap → List (Int × Bool)
  | null => []
  | node L R _ ins tm _ _ _ _ => inorder L ++ (tm, ins) :: inorder R

end treap

/-! ## `std::map<long long, T>` and `std::set<long long>` as key-sorted lists -/

/-- The lookup `m.find(k)`. -/
def map_find {T : Type} : List (Int × T) → Int → Option T
  | [], _ => none
  | (k', v) :: m, k => if k' = k then some v else map_find m k

/-- The assignment `m[k] = v`. -/
def map_assign {T : Type} : List (Int × T) → Int → T → List (Int × T)
  | [], k, v => [(k, v)]
  | (k', v') :: m, k, v =>
    if k < k' then (k, v) :: (k', v') :: m
    else if k = k' then (k, v) :: m
    else (k', v') :: map_assign m k v

/-- The removal `m.erase(k)`. -/
def map_erase {T : Type} (m : List (Int × T)) (k : Int) : List (Int × T) :=
  m.filter (fun e => e.1 ≠ k)

/-- The read `m[k]`: a missing key is first inserted with the value `T()`. -/
def map_index {T : Type} [Inhabited T] (m : List (Int × T)) (k : Int) : T × List (Int × T) :=
  match map_find m k with
  | some v => (v, m)
  | none => (default, map_assign m k default)

/-- The insertion `s.insert(k)` into a `std::set<long long>`. -/
def set_insert : List Int → Int → List Int
  | [], k => [k]
  | k' :: s, k =>
    if k < k' then k :: k' :: s
    else if k = k' then k' :: s
    else k' :: set_insert s k

/-- The removal `s.erase(k)` from a `std::set<long long>`. -/
def set_erase (s : List Int) (k : Int) : List Int :=
  s.filter (fun e => e ≠ k)

/-! ## The retroactive deque -/

/-- The data members of `retroactive_deque<T>`. -/
structure retroactive_deque (T : Type) where
  operations : List (Int × T)
  pop_operations : List Int
  ul : treap
  ur : treap
  balance_tree : treap

namespace retroactive_deque

variable {T : Type}

/-- The default constructor. -/
def empty_deque : retroactive_deque T :=
  { operations := [], pop_operations := [], ul := .null, ur := .null, balance_tree := .null }

def check_valid (d : retroactive_deque T) : Bool :=
  decide (treap.get_min_pref d.balance_tree ≥ 0)

/-- The test `operations.find(tm) != end || pop_operations.find(tm) != end`. -/
def time_used (d : retroactive_deque T) (tm : Int) : Bool :=
  (map_find d.operations tm).isSome || decide (tm ∈ d.pop_operations)

/-- The function `insert_push_operation`; `p₁` is the priority of the node created in
`balance_tree`, `p₂` that of the node created in `ur` or `ul`. -/
def insert_push_operation (d : retroactive_deque T) (x : T) (tm : Int) (back_op : Bool)
    (p₁ p₂ : Nat) : Bool × retroactive_deque T :=
  if d.time_used tm then (false, d)
  else
    let d₁ := { d with balance_tree := treap.insert d.balance_tree tm true p₁ }
    if !d₁.check_valid then
      (false, { d₁ with balance_tree := treap.erase d₁.balance_tree tm })
    else
      let d₂ := { d₁ with operations := map_assign d₁.operations tm x }
      if back_op then (true, { d₂ with ur := treap.insert d₂.ur tm true p₂ })
      else (true, { d₂ with ul := treap.insert d₂.ul tm true p₂ })

def insert_push_back (d : retroactive_deque T) (x : T) (tm : Int) (p₁ p₂ : Nat) :
    Bool × retroactive_deque T :=
  insert_push_operation d x tm true p₁ p₂

def insert_push_front (d : retroactive_deque T) (x : T) (tm : Int) (p₁ p₂ : Nat) :
    Bool × retroactive_deque T :=
  insert_push_operation d x tm false p₁ p₂

/-- The function `insert_pop_operation`, with the priorities as in
`insert_push_operation`. -/
def insert_pop_operation (d : retroactive_deque T) (tm : Int) (back_op : Bool)
    (p₁ p₂ : Nat) : Bool × retroactive_deque T :=
  if d.time_used tm then (false, d)
  else
    let d₁ := { d with balance_tree := treap.insert d.balance_tree tm false p₁ }
    if !d₁.check_valid then
      (false, { d₁ with balance_tree := treap.erase d₁.balance_tree tm })
    else
      let d₂ := { d₁ with pop_operations := set_insert d₁.pop_operations tm }
      if back_op then (true, { d₂ with ur := treap.insert d₂.ur tm false p₂ })
      else (true, { d₂ with ul := treap.insert d₂.ul tm false p₂ })

def insert_pop_back (d : retroactive_deque T) (tm : Int) (p₁ p₂ : Nat) :
    Bool × retroactive_deque T :=
  insert_pop_operation d tm true p₁ p₂

def insert_pop_front (d : retroactive_deque T) (tm : Int) (p₁ p₂ : Nat) :
    Bool × retroactive_deque T :=
  insert_pop_operation d tm false p₁ p₂

/-- The function `delete_operation`; `p₁` is the priority of the node that the rollback
re-inserts into `balance_tree`. -/
def delete_operation (d : retroactive_deque T) (tm : Int) (p₁ : Nat) :
    Bool × retroactive_deque T :=
  if (map_find d.operations tm).isSome then
    let d₁ := { d with balance_tree := treap.erase d.balance_tree tm }
    if !d₁.check_valid then
      (false, { d₁ with balance_tree := treap.insert d₁.balance_tree tm true p₁ })
    else
      (true, { d₁ with ul := treap.erase d₁.ul tm, ur := treap.erase d₁.ur tm,
                       operations := map_erase d₁.operations tm })
  else if tm ∈ d.pop_operations then
    let d₁ := { d with balance_tree := treap.erase d.balance_tree tm }
    if !d₁.check_valid then
      (false, { d₁ with balance_tree := treap.insert d₁.balance_tree tm false p₁ })
    else
      (true, { d₁ with ul := treap.erase d₁.ul tm, ur := treap.erase d₁.ur tm,
                       pop_operations := set_erase d₁.pop_operations tm })
  else (false, d)

/-- The query `back(tm)`: the answer and the deque after the call (`operations[..]` may
create an entry, and both side trees are split and merged again). -/
def back [Inhabited T] (d : retroactive_deque T) (tm : Int) : T × retroactive_deque T :=
  let ul1 := (treap.split d.ul tm).1
  let ul2 := (treap.split d.ul tm).2
  let ur1 := (treap.split d.ur tm).1
  let ur2 := (treap.split d.ur tm).2
  let key :=
    if treap.get_max_suff ur1 > max 0 (-treap.get_min_pref ul1) then treap.get_kth ur1 1
    else treap.get_kth ul1 (treap.get_balance ul1 + treap.get_balance ur1)
  let ans := map_index d.operations key
  (ans.1, { d with operations := ans.2, ul := treap.merge ul1 ul2, ur := treap.merge ur1 ur2 })

/-- The query `front(tm)`. -/
def front [Inhabited T] (d : retroactive_deque T) (tm : Int) : T × retroactive_deque T :=
  let ul1 := (treap.split d.ul tm).1
  let ul2 := (treap.split d.ul tm).2
  let ur1 := (treap.split d.ur tm).1
  let ur2 := (treap.split d.ur tm).2
  let key :=
    if treap.get_max_suff ul1 > max 0 (-treap.get_min_pref ur1) then treap.get_kth ul1 1
    else treap.get_kth ur1 (treap.get_balance ur1 + treap.get_balance ul1)
  let ans := map_index d.operations key
  (ans.1, { d with operations := ans.2, ul := treap.merge ul1 ul2, ur := treap.merge ur1 ur2 })

/-- The function `size()`: the balance of `balance_tree` converted to `size_t`. -/
def size (d : retroactive_deque T) : Nat :=
  (treap.get_balance d.balance_tree % 18446744073709551616).toNat

/-- The function `empty()`. -/
def empty (d : retroactive_deque T) : Bool := d.size == 0

def clear (_d : retroactive_deque T) : retroactive_deque T := empty_deque

end retroactive_deque

namespace retroactive_deque

variable {T : Type}

/-- The function `get_last_time`; the final `+ 1` is a 64-bit addition. -/
def get_last_time (d : retroactive_deque T) : Int :=
  if d.operations.isEmpty && d.pop_operations.isEmpty then 0
  else
    wrap64 (max ((d.operations.getLast?.map Prod.fst).getD INT64_MIN)
                (d.pop_operations.getLast?.getD INT64_MIN) + 1)

/-- The function `push_back(x)`: the synthesized time and the deque after the call. -/
def push_back (d : retroactive_deque T) (x : T) (p₁ p₂ : Nat) : Int × retroactive_deque T :=
  (d.get_last_time, (d.insert_push_back x d.get_last_time p₁ p₂).2)

def push_front (d : retroactive_deque T) (x : T) (p₁ p₂ : Nat) : Int × retroactive_deque T :=
  (d.get_last_time, (d.insert_push_front x d.get_last_time p₁ p₂).2)

def pop_back (d : retroactive_deque T) (p₁ p₂ : Nat) : Int × retroactive_deque T :=
  (d.get_last_time, (d.insert_pop_back d.get_last_time p₁ p₂).2)

def pop_front (d : retroactive_deque T) (p₁ p₂ : Nat) : Int × retroactive_deque T :=
  (d.get_last_time, (d.insert_pop_front d.get_last_time p₁ p₂).2)

end retroactive_deque

/-! ## The retroactive unordered multiset -/

/-- The data members of `retroactive_unordered_multiset<T>`; `sequences` is the
`std::map<T, treap*>` as an association list with one entry per key. -/
structure retroactive_unordered_multiset (T : Type) where
  operations : List (Int × T)
  sequences : List (T × treap)

namespace retroactive_unordered_multiset

variable {T : Type} [DecidableEq T]

/-- The lookup `sequences.find(x)`. -/
def seq_find {V : Type} : List (T × V) → T → Option V
  | [], _ => none
  | (y, t) :: m, x => if y = x then some t else seq_find m x

/-- The tree pointer `sequences[x]`, which is null for a key that had no entry. -/
def seq_get (m : List (T × treap)) (x : T) : treap := (seq_find m x).getD .null

/-- The map after the tree pointer `sequences[x]` has been given the value `t`. -/
def seq_assign {V : Type} : List (T × V) → T → V → List (T × V)
  | [], x, t => [(x, t)]
  | (y, t') :: m, x, t => if y = x then (y, t) :: m else (y, t') :: seq_assign m x t

/-- The removal `sequences.erase(seq_it)` of the entry of key `x`. -/
def seq_erase {V : Type} (m : List (T × V)) (x : T) : List (T × V) :=
  m.filter (fun e => e.1 ≠ x)

/-- The default constructor. -/
def empty_multiset : retroactive_unordered_multiset T :=
  { operations := [], sequences := [] }

/-- The retroactive `insert(x, tm)`; `p` is the priority of the new node. -/
def insert (s : retroactive_unordered_multiset T) (x : T) (tm : Int) (p : Nat) :
    Bool × retroactive_unordered_multiset T :=
  if (map_find s.operations tm).isSome then (false, s)
  else
    (true, { sequences := seq_assign s.sequences x (treap.insert (seq_get s.sequences x) tm true p),
             operations := map_assign s.operations tm x })

/-- The retroactive `erase(x, tm)`; `p` is the priority of the new node. -/
def erase (s : retroactive_unordered_multiset T) (x : T) (tm : Int) (p : Nat) :
    Bool × retroactive_unordered_multiset T :=
  if (map_find s.operations tm).isSome then (false, s)
  else
    let t := treap.insert (seq_get s.sequences x) tm false p
    if !decide (treap.get_min_pref t ≥ 0) then
      let t' := treap.erase t tm
      if t'.isNull then (false, { s with sequences := seq_erase s.sequences x })
      else (false, { s with sequences := seq_assign s.sequences x t' })
    else
      (true, { sequences := seq_assign s.sequences x t,
               operations := map_assign s.operations tm x })

/-- The function `delete_operation(tm)`; `p` is the priority of the node that the rollback
re-inserts.  The result is `none` where the source dereferences `sequences.end()`. -/
def delete_operation (s : retroactive_unordered_multiset T) (tm : Int) (p : Nat) :
    Option (Bool × retroactive_unordered_multiset T) :=
  match map_find s.operations tm with
  | none => some (false, s)
  | some x =>
    match seq_find s.sequences x with
    | none => none
    | some t =>
      let t' := treap.erase t tm
      if !decide (treap.get_min_pref t' ≥ 0) then
        some (false, { s with sequences := seq_assign s.sequences x (treap.insert t' tm true p) })
      else if t'.isNull then
        some (true, { sequences := seq_erase s.sequences x,
                      operations := map_erase s.operations tm })
      else
        some (true, { sequences := seq_assign s.sequences x t',
                      operations := map_erase s.operations tm })

/-- The query `find(x, tm)`: the answer and the multiset after the call (the tree of `x`
is split and merged again). -/
def find (s : retroactive_unordered_multiset T) (x : T) (tm : Int) :
    Bool × retroactive_unordered_multiset T :=
  match seq_find s.sequences x with
  | none => (false, s)
  | some t =>
    let s1 := (treap.split t tm).1
    let s2 := (treap.split t tm).2
    (decide (treap.get_max_suff s1 > 0),
     { s with sequences := seq_assign s.sequences x (treap.merge s1 s2) })

/-- The function `get_last_time`; the `+ 1` is a 64-bit addition. -/
def get_last_time (s : retroactive_unordered_multiset T) : Int :=
  match s.operations.getLast? with
  | none => 0
  | some e => wrap64 (e.1 + 1)

/-- The present-time `insert(x)`. -/
def insert_now (s : retroactive_unordered_multiset T) (x : T) (p : Nat) :
    Bool × retroactive_unordered_multiset T :=
  s.insert x s.get_last_time p

/-- The present-time `erase(x)`. -/
def erase_now (s : retroactive_unordered_multiset T) (x : T) (p : Nat) :
    Bool × retroactive_unordered_multiset T :=
  s.erase x s.get_last_time p

def clear (_s : retroactive_unordered_multiset T) : retroactive_unordered_multiset T :=
  empty_multiset

end retroactive_unordered_multiset

/-! ## Event sequences

The in-order sequence of a treap is a list of `(tm, ins)` events.  The functions below are
the quantities that the treap fields and functions compute, stated on that list. -/

namespace events

/-- The sum of the signed values of the events. -/
def balance (l : List (Int × Bool)) : Int := (l.map fun e => treap.sign e.2).sum

/-- The minimum of the sums of the non-empty prefixes (`0` for the empty sequence). -/
def min_pref : List (Int × Bool) → Int
  | [] => 0
  | e :: l => treap.sign e.2 + min 0 (min_pref l)

/-- The maximum of the sums of the non-empty prefixes (`0` for the empty sequence). -/
def max_pref : List (Int × Bool) → Int
  | [] => 0
  | e :: l => treap.sign e.2 + max 0 (max_pref l)

/-- The minimum of the sums of the non-empty suffixes (`0` for the empty sequence). -/
def min_suff (l : List (Int × Bool)) : Int := min_pref l.reverse

/-- The maximum of the sums of the non-empty suffixes (`0` for the empty sequence). -/
def max_suff (l : List (Int × Bool)) : Int := max_pref l.reverse

/-- Scanning a sequence from its head: the time of the first event at which the running
sum equals `k`, or `INT64_MAX`. -/
def first_reaching : List (Int × Bool) → Int → Int
  | [], _ => INT64_MAX
  | e :: l, k => if treap.sign e.2 = k then e.1 else first_reaching l (k - treap.sign e.2)

/-- The time of the last event from which the sum of the signed values through the end of
the sequence equals `k`, or `INT64_MAX`. -/
def kth (l : List (Int × Bool)) (k : Int) : Int := first_reaching l.reverse k

/-- The sequence after `treap::insert`: the new event follows the events of time `<= tm`. -/
def insert (l : List (Int × Bool)) (tm : Int) (ins : Bool) : List (Int × Bool) :=
  l.filter (fun e => decide (e.1 ≤ tm)) ++ (tm, ins) :: l.filter (fun e => decide (tm < e.1))

/-- The sequence after `treap::erase`: the events of time in `(tm - 1, tm]` are dropped,
with `tm - 1` computed in 64-bit arithmetic. -/
def erase (l : List (Int × Bool)) (tm : Int) : List (Int × Bool) :=
  (l.filter (fun e => decide (e.1 ≤ tm))).filter (fun e => decide (e.1 ≤ wrap64 (tm - 1)))
    ++ l.filter (fun e => decide (tm < e.1))

/-- Every prefix of the sequence has a sum `>= 0`. -/
def prefixes_nonneg (l : List (Int × Bool)) : Prop := ∀ n : Nat, 0 ≤ balance (l.take n)

/-- The events are in non-decreasing order of time. -/
def sorted (l : List (Int × Bool)) : Prop := l.Pairwise (fun a b => a.1 ≤ b.1)

end events

namespace treap

/-- The stored aggregates of every node are those of the in-order sequence of its
subtree. -/
def aggOK : treap → Prop
  | null => True
  | node L R _ ins tm b mp ms xs =>
    aggOK L ∧ aggOK R ∧
    b = events.balance (inorder L ++ (tm, ins) :: inorder R) ∧
    mp = events.min_pref (inorder L ++ (tm, ins) :: inorder R) ∧
    ms = events.min_suff (inorder L ++ (tm, ins) :: inorder R) ∧
    xs = events.max_suff (inorder L ++ (tm, ins) :: inorder R)

/-- A well-formed treap: correct aggregates and times in non-decreasing order. -/
def wf (t : treap) : Prop := aggOK t ∧ events.sorted (inorder t)

end treap


/-! ## The deque on event sequences

The functions of the deque with every treap replaced by its in-order sequence and every
treap function by the function of `events` that it computes. -/

/-- The state of a deque in which each treap is given by its in-order sequence. -/
structure deque_events (T : Type) where
  operations : List (Int × T)
  pop_operations : List Int
  ul : List (Int × Bool)
  ur : List (Int × Bool)
  balance_tree : List (Int × Bool)
  deriving DecidableEq

/-- The logs and in-order sequences of a deque. -/
def retroactive_deque.view {T : Type} (d : retroactive_deque T) : deque_events T :=
  { operations := d.operations, pop_operations := d.pop_operations,
    ul := d.ul.inorder, ur := d.ur.inorder, balance_tree := d.balance_tree.inorder }

/-- The three treaps of a deque are well formed. -/
def retroactive_deque.wf {T : Type} (d : retroactive_deque T) : Prop :=
  d.ul.wf ∧ d.ur.wf ∧ d.balance_tree.wf

namespace deque_events

variable {T : Type}

def empty_deque : deque_events T :=
  { operations := [], pop_operations := [], ul := [], ur := [], balance_tree := [] }

def check_valid (v : deque_events T) : Bool :=
  decide (events.min_pref v.balance_tree ≥ 0)

def time_used (v : deque_events T) (tm : Int) : Bool :=
  (map_find v.operations tm).isSome || decide (tm ∈ v.pop_operations)

def insert_push_operation (v : deque_events T) (x : T) (tm : Int) (back_op : Bool) :
    Bool × deque_events T :=
  if v.time_used tm then (false, v)
  else
    let v₁ := { v with balance_tree := events.insert v.balance_tree tm true }
    if !v₁.check_valid then
      (false, { v₁ with balance_tree := events.erase v₁.balance_tree tm })
    else
      let v₂ := { v₁ with operations := map_assign v₁.operations tm x }
      if back_op then (true, { v₂ with ur := events.insert v₂.ur tm true })
      else (true, { v₂ with ul := events.insert v₂.ul tm true })

def insert_pop_operation (v : deque_events T) (tm : Int) (back_op : Bool) :
    Bool × deque_events T :=
  if v.time_used tm then (false, v)
  else
    let v₁ := { v with balance_tree := events.insert v.balance_tree tm false }
    if !v₁.check_valid then
      (false, { v₁ with balance_tree := events.erase v₁.balance_tree tm })
    else
      let v₂ := { v₁ with pop_operations := set_insert v₁.pop_operations tm }
      if back_op then (true, { v₂ with ur := events.insert v₂.ur tm false })
      else (true, { v₂ with ul := events.insert v₂.ul tm false })

def delete_operation (v : deque_events T) (tm : Int) : Bool × deque_events T :=
  if (map_find v.operations tm).isSome then
    let v₁ := { v with balance_tree := events.erase v.balance_tree tm }
    if !v₁.check_valid then
      (false, { v₁ with balance_tree := events.insert v₁.balance_tree tm true })
    else
      (true, { v₁ with ul := events.erase v₁.ul tm, ur := events.erase v₁.ur tm,
                       operations := map_erase v₁.operations tm })
  else if tm ∈ v.pop_operations then
    let v₁ := { v with balance_tree := events.erase v.balance_tree tm }
    if !v₁.check_valid then
      (false, { v₁ with balance_tree := events.insert v₁.balance_tree tm false })
    else
      (true, { v₁ with ul := events.erase v₁.ul tm, ur := events.erase v₁.ur tm,
                       pop_operations := set_erase v₁.pop_operations tm })
  else (false, v)

/-- The events of time `<= tm`: the left part of `treap::split`. -/
def upto (l : List (Int × Bool)) (tm : Int) : List (Int × Bool) :=
  l.filter (fun e => decide (e.1 ≤ tm))

def back [Inhabited T] (v : deque_events T) (tm : Int) : T × deque_events T :=
  let ul1 := upto v.ul tm
  let ur1 := upto v.ur tm
  let key :=
    if events.max_suff ur1 > max 0 (-events.min_pref ul1) then events.kth ur1 1
    else events.kth ul1 (events.balance ul1 + events.balance ur1)
  let ans := map_index v.operations key
  (ans.1, { v with operations := ans.2 })

def front [Inhabited T] (v : deque_events T) (tm : Int) : T × deque_events T :=
  let ul1 := upto v.ul tm
  let ur1 := upto v.ur tm
  let key :=
    if events.max_suff ul1 > max 0 (-events.min_pref ur1) then events.kth ul1 1
    else events.kth ur1 (events.balance ur1 + events.balance ul1)
  let ans := map_index v.operations key
  (ans.1, { v with operations := ans.2 })

def size (v : deque_events T) : Nat :=
  (events.balance v.balance_tree % 18446744073709551616).toNat

end deque_events

/-! ## Sequences of public calls on a deque -/

/-- A call of a public member function of the deque, with its arguments and the
priorities of the treap nodes that it may create. -/
inductive deque_call (T : Type) where
  | insert_push_back (x : T) (tm : Int) (p₁ p₂ : Nat)
  | insert_push_front (x : T) (tm : Int) (p₁ p₂ : Nat)
  | insert_pop_back (tm : Int) (p₁ p₂ : Nat)
  | insert_pop_front (tm : Int) (p₁ p₂ : Nat)
  | delete_operation (tm : Int) (p₁ : Nat)
  | push_back (x : T) (p₁ p₂ : Nat)
  | push_front (x : T) (p₁ p₂ : Nat)
  | pop_back (p₁ p₂ : Nat)
  | pop_front (p₁ p₂ : Nat)
  | clear
  | back (tm : Int)
  | front (tm : Int)
  | size
  | empty

/-- The value returned by a call. -/
inductive deque_result (T : Type) where
  | flag (b : Bool)
  | time (tm : Int)
  | value (x : T)
  | count (n : Nat)
  | done
  deriving DecidableEq

namespace deque_events

variable {T : Type}

def get_last_time (v : deque_events T) : Int :=
  if v.operations.isEmpty && v.pop_operations.isEmpty then 0
  else
    wrap64 (max ((v.operations.getLast?.map Prod.fst).getD INT64_MIN)
                (v.pop_operations.getLast?.getD INT64_MIN) + 1)

/-- The effect of a call on the logs and in-order sequences. -/
def call [Inhabited T] (v : deque_events T) : deque_call T → deque_result T × deque_events T
  | .insert_push_back x tm _ _ =>
    (.flag (v.insert_push_operation x tm true).1, (v.insert_push_operation x tm true).2)
  | .insert_push_front x tm _ _ =>
    (.flag (v.insert_push_operation x tm false).1, (v.insert_push_operation x tm false).2)
  | .insert_pop_back tm _ _ =>
    (.flag (v.insert_pop_operation tm true).1, (v.insert_pop_operation tm true).2)
  | .insert_pop_front tm _ _ =>
    (.flag (v.insert_pop_operation tm false).1, (v.insert_pop_operation tm false).2)
  | .delete_operation tm _ => (.flag (v.delete_operation tm).1, (v.delete_operation tm).2)
  | .push_back x _ _ => (.time v.get_last_time, (v.insert_push_operation x v.get_last_time true).2)
  | .push_front x _ _ =>
    (.time v.get_last_time, (v.insert_push_operation x v.get_last_time false).2)
  | .pop_back _ _ => (.time v.get_last_time, (v.insert_pop_operation v.get_last_time true).2)
  | .pop_front _ _ => (.time v.get_last_time, (v.insert_pop_operation v.get_last_time false).2)
  | .clear => (.done, empty_deque)
  | .back tm => (.value (v.back tm).1, (v.back tm).2)
  | .front tm => (.value (v.front tm).1, (v.front tm).2)
  | .size => (.count v.size, v)
  | .empty => (.flag (v.size == 0), v)

/-- The results of a sequence of calls and the final state. -/
def run [Inhabited T] (v : deque_events T) :
    List (deque_call T) → List (deque_result T) × deque_events T
  | [] => ([], v)
  | c :: cs => ((v.call c).1 :: ((v.call c).2.run cs).1, ((v.call c).2.run cs).2)

end deque_events

namespace retroactive_deque

variable {T : Type}

/-- The result of a call and the deque after it. -/
def call [Inhabited T] (d : retroactive_deque T) :
    deque_call T → deque_result T × retroactive_deque T
  | .insert_push_back x tm p₁ p₂ =>
    (.flag (d.insert_push_back x tm p₁ p₂).1, (d.insert_push_back x tm p₁ p₂).2)
  | .insert_push_front x tm p₁ p₂ =>
    (.flag (d.insert_push_front x tm p₁ p₂).1, (d.insert_push_front x tm p₁ p₂).2)
  | .insert_pop_back tm p₁ p₂ =>
    (.flag (d.insert_pop_back tm p₁ p₂).1, (d.insert_pop_back tm p₁ p₂).2)
  | .insert_pop_front tm p₁ p₂ =>
    (.flag (d.insert_pop_front tm p₁ p₂).1, (d.insert_pop_front tm p₁ p₂).2)
  | .delete_operation tm p₁ => (.flag (d.delete_operation tm p₁).1, (d.delete_operation tm p₁).2)
  | .push_back x p₁ p₂ => (.time (d.push_back x p₁ p₂).1, (d.push_back x p₁ p₂).2)
  | .push_front x p₁ p₂ => (.time (d.push_front x p₁ p₂).1, (d.push_front x p₁ p₂).2)
  | .pop_back p₁ p₂ => (.time (d.pop_back p₁ p₂).1, (d.pop_back p₁ p₂).2)
  | .pop_front p₁ p₂ => (.time (d.pop_front p₁ p₂).1, (d.pop_front p₁ p₂).2)
  | .clear => (.done, d.clear)
  | .back tm => (.value (d.back tm).1, (d.back tm).2)
  | .front tm => (.value (d.front tm).1, (d.front tm).2)
  | .size => (.count d.size, d)
  | .empty => (.flag d.empty, d)

/-- The results of a sequence of calls and the final deque. -/
def run [Inhabited T] (d : retroactive_deque T) :
    List (deque_call T) → List (deque_result T) × retroactive_deque T
  | [] => ([], d)
  | c :: cs => ((d.call c).1 :: ((d.call c).2.run cs).1, ((d.call c).2.run cs).2)

end retroactive_deque

/-! ## A plain double-ended queue -/

/-- An update of a plain double-ended queue. -/
inductive plain_update (T : Type) where
  | push_back (x : T)
  | push_front (x : T)
  | pop_back
  | pop_front

/-- The plain queue, front first, after one update. -/
def plain_apply {T : Type} (q : List T) : plain_update T → List T
  | .push_back x => q ++ [x]
  | .push_front x => x :: q
  | .pop_back => q.dropLast
  | .pop_front => q.tail

/-- The plain queue obtained by replaying updates, given in increasing time order, from
the empty queue. -/
def plain_replay {T : Type} (us : List (plain_update T)) : List T :=
  us.foldl plain_apply []

/-! ## The multiset on event sequences

The functions of the multiset with every treap replaced by its in-order sequence. -/

/-- The state of a multiset in which each treap is given by its in-order sequence. -/
structure multiset_events (T : Type) where
  operations : List (Int × T)
  sequences : List (T × List (Int × Bool))
  deriving DecidableEq

/-- The log and the in-order sequences of a multiset. -/
def retroactive_unordered_multiset.view {T : Type} (s : retroactive_unordered_multiset T) :
    multiset_events T :=
  { operations := s.operations,
    sequences := s.sequences.map fun e => (e.1, e.2.inorder) }

/-- Every treap of a multiset is well formed. -/
def retroactive_unordered_multiset.wf {T : Type} (s : retroactive_unordered_multiset T) :
    Prop :=
  ∀ e ∈ s.sequences, e.2.wf

/-- A call of a public member function of the multiset, with its arguments and the
priority of the treap node that it may create. -/
inductive multiset_call (T : Type) where
  | insert (x : T) (tm : Int) (p : Nat)
  | erase (x : T) (tm : Int) (p : Nat)
  | delete_operation (tm : Int) (p : Nat)
  | find (x : T) (tm : Int)
  | insert_now (x : T) (p : Nat)
  | erase_now (x : T) (p : Nat)
  | clear

namespace multiset_events

open retroactive_unordered_multiset (seq_find seq_assign seq_erase)

variable {T : Type} [DecidableEq T]

def empty_multiset : multiset_events T := { operations := [], sequences := [] }

/-- The event sequence of key `x`, empty for a key without entry. -/
def seq_get (m : List (T × List (Int × Bool))) (x : T) : List (Int × Bool) :=
  (seq_find m x).getD []

def insert (v : multiset_events T) (x : T) (tm : Int) : Bool × multiset_events T :=
  if (map_find v.operations tm).isSome then (false, v)
  else
    (true, { sequences := seq_assign v.sequences x (events.insert (seq_get v.sequences x) tm true),
             operations := map_assign v.operations tm x })

def erase (v : multiset_events T) (x : T) (tm : Int) : Bool × multiset_events T :=
  if (map_find v.operations tm).isSome then (false, v)
  else
    let t := events.insert (seq_get v.sequences x) tm false
    if !decide (events.min_pref t ≥ 0) then
      let t' := events.erase t tm
      if t'.isEmpty then (false, { v with sequences := seq_erase v.sequences x })
      else (false, { v with sequences := seq_assign v.sequences x t' })
    else
      (true, { sequences := seq_assign v.sequences x t,
               operations := map_assign v.operations tm x })

def delete_operation (v : multiset_events T) (tm : Int) : Option (Bool × multiset_events T) :=
  match map_find v.operations tm with
  | none => some (false, v)
  | some x =>
    match seq_find v.sequences x with
    | none => none
    | some t =>
      let t' := events.erase t tm
      if !decide (events.min_pref t' ≥ 0) then
        some (false, { v with sequences := seq_assign v.sequences x (events.insert t' tm true) })
      else if t'.isEmpty then
        some (true, { sequences := seq_erase v.sequences x,
                      operations := map_erase v.operations tm })
      else
        some (true, { sequences := seq_assign v.sequences x t',
                      operations := map_erase v.operations tm })

/-- The answer of `find(x, tm)`; the in-order sequences do not change. -/
def find (v : multiset_events T) (x : T) (tm : Int) : Bool :=
  match seq_find v.sequences x with
  | none => false
  | some t => decide (events.max_suff (t.filter fun e => decide (e.1 ≤ tm)) > 0)

def get_last_time (v : multiset_events T) : Int :=
  match v.operations.getLast? with
  | none => 0
  | some e => wrap64 (e.1 + 1)

/-- The effect of a call on the log and the in-order sequences; `none` where the source
dereferences `sequences.end()`. -/
def call (v : multiset_events T) : multiset_call T → Option (Option Bool × multiset_events T)
  | .insert x tm _ => some (some (v.insert x tm).1, (v.insert x tm).2)
  | .erase x tm _ => some (some (v.erase x tm).1, (v.erase x tm).2)
  | .delete_operation tm _ => (v.delete_operation tm).map fun r => (some r.1, r.2)
  | .find x tm => some (some (v.find x tm), v)
  | .insert_now x _ => some (some (v.insert x v.get_last_time).1, (v.insert x v.get_last_time).2)
  | .erase_now x _ => some (some (v.erase x v.get_last_time).1, (v.erase x v.get_last_time).2)
  | .clear => some (none, empty_multiset)

/-- The results of a sequence of calls and the final state. -/
def run (v : multiset_events T) :
    List (multiset_call T) → Option (List (Option Bool) × multiset_events T)
  | [] => some ([], v)
  | c :: cs =>
    match v.call c with
    | none => none
    | some r =>
      match r.2.run cs with
      | none => none
      | some rs => some (r.1 :: rs.1, rs.2)

end multiset_events

namespace retroactive_unordered_multiset

variable {T : Type} [DecidableEq T]

/-- The result of a call (the returned flag, if the function returns one) and the multiset
after it; `none` where the source dereferences `sequences.end()`. -/
def call (s : retroactive_unordered_multiset T) :
    multiset_call T → Option (Option Bool × retroactive_unordered_multiset T)
  | .insert x tm p => some (some (s.insert x tm p).1, (s.insert x tm p).2)
  | .erase x tm p => some (some (s.erase x tm p).1, (s.erase x tm p).2)
  | .delete_operation tm p => (s.delete_operation tm p).map fun r => (some r.1, r.2)
  | .find x tm => some (some (s.find x tm).1, (s.find x tm).2)
  | .insert_now x p => some (some (s.insert_now x p).1, (s.insert_now x p).2)
  | .erase_now x p => some (some (s.erase_now x p).1, (s.erase_now x p).2)
  | .clear => some (none, s.clear)

/-- The results of a sequence of calls and the final multiset. -/
def run (s : retroactive_unordered_multiset T) :
    List (multiset_call T) → Option (List (Option Bool) × retroactive_unordered_multiset T)
  | [] => some ([], s)
  | c :: cs =>
    match s.call c with
    | none => none
    | some r =>
      match r.2.run cs with
      | none => none
      | some rs => some (r.1 :: rs.1, rs.2)

end retroactive_unordered_multiset

/-! ## Histories that avoid the smallest time -/

/-- A time for which `tm - 1` does not leave the 64-bit range. -/
def above_min (tm : Int) : Prop := INT64_MIN < tm ∧ tm ≤ INT64_MAX

instance (tm : Int) : Decidable (above_min tm) := by
  unfold above_min; exact inferInstance

namespace events

/-- The events are in strictly increasing order of time. -/
def strictly_sorted (l : List (Int × Bool)) : Prop := l.Pairwise (fun a b => a.1 < b.1)

/-- The number of inserts minus the number of erases among the events of time `<= t`. -/
def count_at (l : List (Int × Bool)) (t : Int) : Int :=
  balance (l.filter fun e => decide (e.1 ≤ t))

end events

namespace multiset_events

open retroactive_unordered_multiset (seq_find seq_assign seq_erase)

variable {T : Type} [DecidableEq T]

/-- The consistency of the log with the per-key sequences: every stored sequence is
non-empty, has distinct increasing times, has all prefix sums `>= 0` and holds only events
that the log maps to its key; and every logged time has its event in the sequence of the
logged key. -/
def inv (v : multiset_events T) : Prop :=
  (∀ x l, seq_find v.sequences x = some l →
    l ≠ [] ∧ events.strictly_sorted l ∧ 0 ≤ events.min_pref l ∧
    ∀ ev ∈ l, map_find v.operations ev.1 = some x) ∧
  (∀ tm x, map_find v.operations tm = some x →
    ∃ l b, seq_find v.sequences x = some l ∧ (tm, b) ∈ l)

end multiset_events

namespace retroactive_unordered_multiset

variable {T : Type} [DecidableEq T]

/-- The time that a call hands to `treap::insert` or `treap::erase` is above the smallest
64-bit value (for the present-time calls: the synthesized time). -/
def call_above_min (s : retroactive_unordered_multiset T) : multiset_call T → Prop
  | .insert _ tm _ => above_min tm
  | .erase _ tm _ => above_min tm
  | .delete_operation tm _ => above_min tm
  | .find _ tm => isInt64 tm
  | .insert_now _ _ => above_min s.get_last_time
  | .erase_now _ _ => above_min s.get_last_time
  | .clear => True

/-- The multisets reachable from the empty multiset by public calls whose times are above
the smallest 64-bit value. -/
inductive reachable_above_min : retroactive_unordered_multiset T → Prop where
  | empty : reachable_above_min empty_multiset
  | step (s : retroactive_unordered_multiset T) (c : multiset_call T)
      (r : Option Bool × retroactive_unordered_multiset T) :
      reachable_above_min s → s.call_above_min c → s.call c = some r →
      reachable_above_min r.2

/-- The count of `x` at time `t`: the inserts minus the erases among the events of `x`
of time `<= t`. -/
def count_at (s : retroactive_unordered_multiset T) (x : T) (t : Int) : Int :=
  events.count_at (seq_get s.sequences x).inorder t

end retroactive_unordered_multiset

namespace deque_events

variable {T : Type}

/-- The consistency of the logs with the three sequences: distinct increasing times, all
prefix sums of the balance sequence `>= 0`, the pushes of the balance sequence are the
logged pushes and its pops the logged pops, the balance sequence is the union of the two
side sequences, the two sides share no time, and both logs have increasing keys. -/
def inv (v : deque_events T) : Prop :=
  events.strictly_sorted v.balance_tree ∧ events.strictly_sorted v.ul ∧
  events.strictly_sorted v.ur ∧
  0 ≤ events.min_pref v.balance_tree ∧
  (∀ tm, (tm, true) ∈ v.balance_tree ↔ (map_find v.operations tm).isSome = true) ∧
  (∀ tm, (tm, false) ∈ v.balance_tree ↔ tm ∈ v.pop_operations) ∧
  (∀ ev, ev ∈ v.balance_tree ↔ ev ∈ v.ul ∨ ev ∈ v.ur) ∧
  (∀ a ∈ v.ul, ∀ b ∈ v.ur, a.1 ≠ b.1) ∧
  (v.operations.map Prod.fst).Pairwise (· < ·) ∧ v.pop_operations.Pairwise (· < ·)

end deque_events

namespace retroactive_deque

variable {T : Type}

/-- The call is an update whose time, given or synthesized, is in the 64-bit range and,
where the call can reach `treap::erase`, above the smallest 64-bit value.  The queries
`back` and `front` are not updates (they can add an entry to `operations`). -/
def update_above_min (d : retroactive_deque T) : deque_call T → Prop
  | .insert_push_back _ tm _ _ => isInt64 tm
  | .insert_push_front _ tm _ _ => isInt64 tm
  | .insert_pop_back tm _ _ => above_min tm
  | .insert_pop_front tm _ _ => above_min tm
  | .delete_operation tm _ => above_min tm
  | .push_back _ _ _ => True
  | .push_front _ _ _ => True
  | .pop_back _ _ => above_min d.get_last_time
  | .pop_front _ _ => above_min d.get_last_time
  | .clear => True
  | .back _ => False
  | .front _ => False
  | .size => True
  | .empty => True

/-- The deques reachable from the empty deque by update calls whose times are above the
smallest 64-bit value. -/
inductive reachable_above_min [Inhabited T] : retroactive_deque T → Prop where
  | empty : reachable_above_min empty_deque
  | step (d : retroactive_deque T) (c : deque_call T) :
      reachable_above_min d → d.update_above_min c → reachable_above_min (d.call c).2

end retroactive_deque

/-! ## The retroactive dictionary

A shallow embedding of `retroactive-dictionary/retroactive_dictionary.h`. -/

/-- The assignment `m[k] = v` in a `std::map<long long, bool, std::greater<long long>>`,
a list of `(time, is insert)` entries in decreasing order of time. -/
def gmap_assign : List (Int × Bool) → Int → Bool → List (Int × Bool)
  | [], k, v => [(k, v)]
  | (k', v') :: m, k, v =>
    if k > k' then (k, v) :: (k', v') :: m
    else if k = k' then (k, v) :: m
    else (k', v') :: gmap_assign m k v

/-- The removal `m.erase(k)` in such a map. -/
def gmap_erase (m : List (Int × Bool)) (k : Int) : List (Int × Bool) :=
  m.filter (fun e => e.1 ≠ k)

/-- The search `m.lower_bound(k)` in such a map: the first entry, in the order of the map,
whose time does not come before `k` in that order, that is, whose time is `<= k`;
`none` is `m.end()`. -/
def gmap_lower_bound : List (Int × Bool) → Int → Option (Int × Bool)
  | [], _ => none
  | e :: m, k => if e.1 ≤ k then some e else gmap_lower_bound m k

/-- The data members of `retroactive_dictionary<T>`. -/
structure retroactive_dictionary (T : Type) where
  operations : List (Int × T)
  sequences : List (T × List (Int × Bool))

/-- A call of a public member function of the dictionary. -/
inductive dictionary_call (T : Type) where
  | insert (x : T) (tm : Int)
  | erase (x : T) (tm : Int)
  | delete_operation (tm : Int)
  | find (x : T) (tm : Int)
  | insert_now (x : T)
  | erase_now (x : T)
  | clear

namespace retroactive_dictionary

open retroactive_unordered_multiset (seq_find seq_assign seq_erase)

variable {T : Type} [DecidableEq T]

/-- The default constructor. -/
def empty_dictionary : retroactive_dictionary T := { operations := [], sequences := [] }

/-- The entries of `sequences[x]`, none for a key without entry. -/
def events (s : retroactive_dictionary T) (x : T) : List (Int × Bool) :=
  (seq_find s.sequences x).getD []

/-- The retroactive `insert(x, tm)`. -/
def insert (s : retroactive_dictionary T) (x : T) (tm : Int) : Bool × retroactive_dictionary T :=
  if (map_find s.operations tm).isSome then (false, s)
  else
    (true, { operations := map_assign s.operations tm x,
             sequences := seq_assign s.sequences x (gmap_assign (s.events x) tm true) })

/-- The retroactive `erase(x, tm)`. -/
def erase (s : retroactive_dictionary T) (x : T) (tm : Int) : Bool × retroactive_dictionary T :=
  if (map_find s.operations tm).isSome then (false, s)
  else
    (true, { operations := map_assign s.operations tm x,
             sequences := seq_assign s.sequences x (gmap_assign (s.events x) tm false) })

/-- The function `delete_operation(tm)`; `none` where the source dereferences
`sequences.end()`. -/
def delete_operation (s : retroactive_dictionary T) (tm : Int) :
    Option (Bool × retroactive_dictionary T) :=
  match map_find s.operations tm with
  | none => some (false, s)
  | some x =>
    match seq_find s.sequences x with
    | none => none
    | some m =>
      if m.length = 1 then
        some (true, { sequences := seq_erase s.sequences x,
                      operations := map_erase s.operations tm })
      else
        some (true, { sequences := seq_assign s.sequences x (gmap_erase m tm),
                      operations := map_erase s.operations tm })

/-- The query `find(x, tm)`. -/
def find (s : retroactive_dictionary T) (x : T) (tm : Int) : Bool :=
  match seq_find s.sequences x with
  | none => false
  | some m =>
    match gmap_lower_bound m tm with
    | none => false
    | some e => e.2

/-- The function `get_last_time`; the `+ 1` is a 64-bit addition. -/
def get_last_time (s : retroactive_dictionary T) : Int :=
  match s.operations.getLast? with
  | none => 0
  | some e => wrap64 (e.1 + 1)

def clear (_s : retroactive_dictionary T) : retroactive_dictionary T := empty_dictionary

/-- The effect of a call: the returned flag, if the function returns one, and the
dictionary after it; `none` where the source dereferences `sequences.end()`. -/
def call (s : retroactive_dictionary T) :
    dictionary_call T → Option (Option Bool × retroactive_dictionary T)
  | .insert x tm => some (some (s.insert x tm).1, (s.insert x tm).2)
  | .erase x tm => some (some (s.erase x tm).1, (s.erase x tm).2)
  | .delete_operation tm => (s.delete_operation tm).map fun r => (some r.1, r.2)
  | .find x tm => some (some (s.find x tm), s)
  | .insert_now x => some (some (s.insert x s.get_last_time).1, (s.insert x s.get_last_time).2)
  | .erase_now x => some (some (s.erase x s.get_last_time).1, (s.erase x s.get_last_time).2)
  | .clear => some (none, s.clear)

/-- The times of a call are values of type `long long`. -/
def call_in_range : dictionary_call T → Prop
  | .insert _ tm => isInt64 tm
  | .erase _ tm => isInt64 tm
  | .delete_operation tm => isInt64 tm
  | .find _ tm => isInt64 tm
  | _ => True

/-- The dictionaries reachable from the empty dictionary by public calls. -/
inductive reachable : retroactive_dictionary T → Prop where
  | empty : reachable empty_dictionary
  | step (s : retroactive_dictionary T) (c : dictionary_call T)
      (r : Option Bool × retroactive_dictionary T) :
      reachable s → call_in_range c → s.call c = some r → reachable r.2

/-- The consistency of the log with the per-key maps: every stored map is not empty, has
strictly decreasing times in the 64-bit range and holds only times that the log maps to
its key; every logged time is in the map of the logged key. -/
def inv (s : retroactive_dictionary T) : Prop :=
  (∀ x m, seq_find s.sequences x = some m →
    m ≠ [] ∧ m.Pairwise (fun a b => a.1 > b.1) ∧
    ∀ e ∈ m, isInt64 e.1 ∧ map_find s.operations e.1 = some x) ∧
  (∀ tm x, map_find s.operations tm = some x →
    ∃ m b, seq_find s.sequences x = some m ∧ (tm, b) ∈ m)

/-- The event of the largest time `<= t` in a list of events, if there is one. -/
def latest_event : List (Int × Bool) → Int → Option (Int × Bool)
  | [], _ => none
  | e :: l, t =>
    match latest_event l t with
    | none => if e.1 ≤ t then some e else none
    | some e' => if e.1 ≤ t ∧ e'.1 < e.1 then some e else some e'

/-- The event of the smallest time `>= t` in a list of events, if there is one. -/
def next_event : List (Int × Bool) → Int → Option (Int × Bool)
  | [], _ => none
  | e :: l, t =>
    match next_event l t with
    | none => if t ≤ e.1 then some e else none
    | some e' => if t ≤ e.1 ∧ e.1 < e'.1 then some e else some e'

/-- The kinds alternate insert, erase, insert, ..., starting with an insert. -/
def alternates : List Bool → Bool
  | [] => true
  | [b] => b
  | b :: c :: l => b && !c && alternates l

end retroactive_dictionary


/-! ## The partially retroactive set

The key type is an integer type, as in the command-line program; a key is an `Int`.
`operations` and `elements` are lists sorted by key, `sequences` is an association list,
a `std::vector<long long>` is a list with `push_back` at the end. -/

/-- The data members of `partially_retroactive_set<T>`. -/
structure partially_retroactive_set where
  operations : List (Int × Int)
  sequences : List (Int × List Int)
  elements : List Int

/-- A call of a public member function of the partially retroactive set. -/
inductive partial_set_call where
  | insert (x : Int) (tm : Int)
  | erase (x : Int) (tm : Int)
  | delete_operation (tm : Int)
  | insert_now (x : Int)
  | erase_now (x : Int)
  | lower_bound (x : Int)
  | upper_bound (x : Int)
  | find (x : Int)
  | clear

/-- What a call of a set returns: a flag, a key, or nothing. -/
inductive set_result where
  | flag (b : Bool)
  | key (k : Int)
  | unit
deriving DecidableEq

namespace partially_retroactive_set

open retroactive_unordered_multiset (seq_find seq_assign seq_erase)

/-- The default constructor. -/
def empty_set : partially_retroactive_set :=
  { operations := [], sequences := [], elements := [] }

/-- The vector `sequences[x]` as read; it is empty for a key without entry. -/
def events (s : partially_retroactive_set) (x : Int) : List Int :=
  (seq_find s.sequences x).getD []

/-- The retroactive `insert(x, tm)`. The reference `sequences[x]` is taken after the test
of the log, so a call rejected by the second test leaves an entry for `x`; `back()` is
read for a vector that is not empty only. -/
def insert (s : partially_retroactive_set) (x : Int) (tm : Int) :
    Bool × partially_retroactive_set :=
  if (map_find s.operations tm).isSome then (false, s)
  else
    if (s.events x).length % 2 != 0 ||
        (!(s.events x).isEmpty && decide ((s.events x).getLast?.getD 0 > tm)) then
      (false, { s with sequences := seq_assign s.sequences x (s.events x) })
    else
      (true, { operations := map_assign s.operations tm x,
               elements := set_insert s.elements x,
               sequences := seq_assign s.sequences x (s.events x ++ [tm]) })

/-- The retroactive `erase(x, tm)`; `back()` is read for a vector of odd size only. -/
def erase (s : partially_retroactive_set) (x : Int) (tm : Int) :
    Bool × partially_retroactive_set :=
  if (map_find s.operations tm).isSome then (false, s)
  else
    if (s.events x).length % 2 == 0 || decide ((s.events x).getLast?.getD 0 > tm) then
      (false, { s with sequences := seq_assign s.sequences x (s.events x) })
    else
      (true, { operations := map_assign s.operations tm x,
               elements := set_erase s.elements x,
               sequences := seq_assign s.sequences x (s.events x ++ [tm]) })

/-- The function `delete_operation(tm)`; `none` where the source reads `back()` of an
empty vector. -/
def delete_operation (s : partially_retroactive_set) (tm : Int) :
    Option (Bool × partially_retroactive_set) :=
  match map_find s.operations tm with
  | none => some (false, s)
  | some x =>
    match (s.events x).getLast? with
    | none => none
    | some b =>
      if b != tm then
        some (false, { s with sequences := seq_assign s.sequences x (s.events x) })
      else
        some (true,
          { operations := map_erase s.operations tm,
            elements :=
              if (s.events x).dropLast.length % 2 != 0 then set_insert s.elements x
              else set_erase s.elements x,
            sequences := seq_assign s.sequences x (s.events x).dropLast })

/-- The function `get_last_time`; the `+ 1` is a 64-bit addition. -/
def get_last_time (s : partially_retroactive_set) : Int :=
  match s.operations.getLast? with
  | none => 0
  | some e => wrap64 (e.1 + 1)

/-- The query `lower_bound(x)`; `none` where the source dereferences `elements.end()`. -/
def lower_bound (s : partially_retroactive_set) (x : Int) : Option Int :=
  s.elements.find? (fun y => decide (x ≤ y))

/-- The query `upper_bound(x)`; `none` where the source dereferences `elements.end()`. -/
def upper_bound (s : partially_retroactive_set) (x : Int) : Option Int :=
  s.elements.find? (fun y => decide (x < y))

/-- The query `find(x)`. -/
def find (s : partially_retroactive_set) (x : Int) : Bool :=
  s.elements.contains x

def clear (_s : partially_retroactive_set) : partially_retroactive_set := empty_set

/-- The effect of a call: what it returns and the set after it; `none` where the source
has no defined behaviour. -/
def call (s : partially_retroactive_set) :
    partial_set_call → Option (set_result × partially_retroactive_set)
  | .insert x tm => some (.flag (s.insert x tm).1, (s.insert x tm).2)
  | .erase x tm => some (.flag (s.erase x tm).1, (s.erase x tm).2)
  | .delete_operation tm => (s.delete_operation tm).map fun r => (.flag r.1, r.2)
  | .insert_now x =>
    some (.flag (s.insert x s.get_last_time).1, (s.insert x s.get_last_time).2)
  | .erase_now x =>
    some (.flag (s.erase x s.get_last_time).1, (s.erase x s.get_last_time).2)
  | .lower_bound x => (s.lower_bound x).map fun k => (.key k, s)
  | .upper_bound x => (s.upper_bound x).map fun k => (.key k, s)
  | .find x => some (.flag (s.find x), s)
  | .clear => some (.unit, s.clear)

/-- The times of a call are values of type `long long`. -/
def call_in_range : partial_set_call → Prop
  | .insert _ tm => isInt64 tm
  | .erase _ tm => isInt64 tm
  | .delete_operation tm => isInt64 tm
  | _ => True

/-- The sets reachable from the empty set by public calls. -/
inductive reachable : partially_retroactive_set → Prop where
  | empty : reachable empty_set
  | step (s : partially_retroactive_set) (c : partial_set_call)
      (r : set_result × partially_retroactive_set) :
      reachable s → call_in_range c → s.call c = some r → reachable r.2

/-- The consistency of the log with the per-key vectors: the event times of a key are
strictly increasing and the log maps each of them to the key. -/
def inv (s : partially_retroactive_set) : Prop :=
  ∀ x, (s.events x).Pairwise (fun a b => a < b) ∧
    ∀ e ∈ s.events x, map_find s.operations e = some x

/-- The condition of P-3 in the words of the specification: `t` falls after an even
number of the events and after the latest of them. -/
def falls_after_even_and_latest (events : List Int) (t : Int) : Prop :=
  (events.filter (fun e => decide (e < t))).length % 2 = 0 ∧ ∀ e ∈ events, e < t

instance (events : List Int) (t : Int) : Decidable (falls_after_even_and_latest events t) := by
  unfold falls_after_even_and_latest; exact inferInstance

end partially_retroactive_set

/-! ## The retroactive set

The key type is an integer type: a key is an `Int`, and `T_max` is the value of
`std::numeric_limits<T>::max()`, a parameter of the queries. -/

/-- A pointer to a `segtree` node: null, or a node with its two children and its bucket
(a `std::set<T>`, a sorted list here). -/
inductive segtree where
  | null
  | node (L R : segtree) (bucket : List Int)
deriving DecidableEq

namespace segtree

/-- The value of `(tl >> 1) + (tr >> 1) + (tl & tr & 1LL)`. Each shift halves rounding
down, and the last term is 1 when both bounds are odd and 0 otherwise; for 64-bit bounds
no intermediate value leaves the 64-bit range. -/
def midpoint (tl tr : Int) : Int :=
  tl / 2 + tr / 2 + (if tl % 2 = 1 ∧ tr % 2 = 1 then 1 else 0)

/-- The node that `if (!p) p = new segtree();` leaves in `p`. -/
def ensure : segtree → segtree
  | .null => .node .null .null []
  | t => t

/-- The function `add(l, r, x, tl, tr)`, called on the node `this`; the result is the
node after the call. Every recursive call is on a range of half the size, and the range
of the root has `2^64` times, so the source recursion is at most 65 calls deep: the first
argument bounds the depth, and `none` stands for a deeper recursion and for a call on a
null pointer. -/
def add : Nat → segtree → Int → Int → Int → Int → Int → Option segtree
  | 0, _, _, _, _, _, _ => none
  | _ + 1, .null, _, _, _, _, _ => none
  | k + 1, .node L R b, l, r, x, tl, tr =>
    if tl = l ∧ tr = r then some (.node L R (set_insert b x))
    else
      match (if l ≤ midpoint tl tr then
              add k (ensure L) l (min r (midpoint tl tr)) x tl (midpoint tl tr)
             else some L) with
      | none => none
      | some L' =>
        match (if r > midpoint tl tr then
                add k (ensure R) (max l (midpoint tl tr + 1)) r x (midpoint tl tr + 1) tr
               else some R) with
        | none => none
        | some R' => some (.node L' R' b)

/-- The function `remove(l, r, x, tl, tr)`, with the depth bound of `add`; the children
are not tested for null before the recursive calls. -/
def remove : Nat → segtree → Int → Int → Int → Int → Int → Option segtree
  | 0, _, _, _, _, _, _ => none
  | _ + 1, .null, _, _, _, _, _ => none
  | k + 1, .node L R b, l, r, x, tl, tr =>
    if tl = l ∧ tr = r then some (.node L R (set_erase b x))
    else
      match (if l ≤ midpoint tl tr then
              remove k L l (min r (midpoint tl tr)) x tl (midpoint tl tr)
             else some L) with
      | none => none
      | some L' =>
        match (if r > midpoint tl tr then
                remove k R (max l (midpoint tl tr + 1)) r x (midpoint tl tr + 1) tr
               else some R) with
        | none => none
        | some R' => some (.node L' R' b)

/-- The loop of `lower_bound(t, x, tl, tr)` from the node `tree` on, with the current
value of `ans`. -/
def lower_bound : segtree → Int → Int → Int → Int → Int → Int
  | .null, _, _, _, _, ans => ans
  | .node L R b, t, x, tl, tr, ans =>
    if t ≤ midpoint tl tr then
      lower_bound L t x tl (midpoint tl tr)
        (match b.find? (fun y => decide (x ≤ y)) with
         | some y => min ans y
         | none => ans)
    else
      lower_bound R t x (midpoint tl tr + 1) tr
        (match b.find? (fun y => decide (x ≤ y)) with
         | some y => min ans y
         | none => ans)

/-- The loop of `upper_bound(t, x, tl, tr)`. -/
def upper_bound : segtree → Int → Int → Int → Int → Int → Int
  | .null, _, _, _, _, ans => ans
  | .node L R b, t, x, tl, tr, ans =>
    if t ≤ midpoint tl tr then
      upper_bound L t x tl (midpoint tl tr)
        (match b.find? (fun y => decide (x < y)) with
         | some y => min ans y
         | none => ans)
    else
      upper_bound R t x (midpoint tl tr + 1) tr
        (match b.find? (fun y => decide (x < y)) with
         | some y => min ans y
         | none => ans)

end segtree

/-- The data members of `retroactive_set<T>`. -/
structure retroactive_set where
  operations : List (Int × Int)
  sequences : List (Int × List Int)
  tree : segtree

/-- A call of a public member function of the retroactive set. -/
inductive set_call where
  | insert (x : Int) (tm : Int)
  | erase (x : Int) (tm : Int)
  | delete_operation (tm : Int)
  | lower_bound (x : Int) (tm : Int)
  | upper_bound (x : Int) (tm : Int)
  | find (x : Int) (tm : Int)
  | insert_now (x : Int)
  | erase_now (x : Int)
  | clear

namespace retroactive_set

open retroactive_unordered_multiset (seq_find seq_assign seq_erase)

/-- The default constructor: the root of the tree is a fresh node. -/
def empty_set : retroactive_set :=
  { operations := [], sequences := [], tree := .node .null .null [] }

/-- The vector `sequences[x]` as read; it is empty for a key without entry. -/
def events (s : retroactive_set) (x : Int) : List Int :=
  (seq_find s.sequences x).getD []

/-- The call `tree->add(l, r, x)`, with the default range of the root. -/
def tree_add (t : segtree) (l r x : Int) : Option segtree :=
  segtree.add 65 t l r x INT64_MIN INT64_MAX

/-- The call `tree->remove(l, r, x)`, with the default range of the root. -/
def tree_remove (t : segtree) (l r x : Int) : Option segtree :=
  segtree.remove 65 t l r x INT64_MIN INT64_MAX

/-- The retroactive `insert(x, tm)`; `none` where a tree call has no result. The
reference `sequences[x]` is taken after the test of the log, so a call rejected by the
second test leaves an entry for `x`. -/
def insert (s : retroactive_set) (x : Int) (tm : Int) : Option (Bool × retroactive_set) :=
  if (map_find s.operations tm).isSome then some (false, s)
  else
    if (s.events x).length % 2 != 0 ||
        (!(s.events x).isEmpty && decide ((s.events x).getLast?.getD 0 > tm)) then
      some (false, { s with sequences := seq_assign s.sequences x (s.events x) })
    else
      match tree_add s.tree tm INT64_MAX x with
      | none => none
      | some t =>
        some (true, { operations := map_assign s.operations tm x,
                      tree := t,
                      sequences := seq_assign s.sequences x (s.events x ++ [tm]) })

/-- The retroactive `erase(x, tm)`; `tm - 1` is a 64-bit subtraction, and `back()` is
read for a vector of odd size only. -/
def erase (s : retroactive_set) (x : Int) (tm : Int) : Option (Bool × retroactive_set) :=
  if (map_find s.operations tm).isSome then some (false, s)
  else
    if (s.events x).length % 2 == 0 || decide ((s.events x).getLast?.getD 0 > tm) then
      some (false, { s with sequences := seq_assign s.sequences x (s.events x) })
    else
      match tree_remove s.tree ((s.events x).getLast?.getD 0) INT64_MAX x with
      | none => none
      | some t₁ =>
        match tree_add t₁ ((s.events x).getLast?.getD 0) (wrap64 (tm - 1)) x with
        | none => none
        | some t₂ =>
          some (true, { operations := map_assign s.operations tm x,
                        tree := t₂,
                        sequences := seq_assign s.sequences x (s.events x ++ [tm]) })

/-- The function `delete_operation(tm)`; `none` where the source reads `back()` of an
empty vector or a tree call has no result. -/
def delete_operation (s : retroactive_set) (tm : Int) : Option (Bool × retroactive_set) :=
  match map_find s.operations tm with
  | none => some (false, s)
  | some x =>
    match (s.events x).getLast? with
    | none => none
    | some b =>
      if b != tm then
        some (false, { s with sequences := seq_assign s.sequences x (s.events x) })
      else
        match
          (if (s.events x).dropLast.length % 2 != 0 then
            match tree_remove s.tree ((s.events x).dropLast.getLast?.getD 0)
                (wrap64 (tm - 1)) x with
            | none => none
            | some t₁ =>
              tree_add t₁ ((s.events x).dropLast.getLast?.getD 0) INT64_MAX x
           else tree_remove s.tree tm INT64_MAX x) with
        | none => none
        | some t =>
          some (true, { operations := map_erase s.operations tm,
                        tree := t,
                        sequences := seq_assign s.sequences x (s.events x).dropLast })

/-- The query `lower_bound(x, tm)`. -/
def lower_bound (T_max : Int) (s : retroactive_set) (x : Int) (tm : Int) : Int :=
  segtree.lower_bound s.tree tm x INT64_MIN INT64_MAX T_max

/-- The query `upper_bound(x, tm)`. -/
def upper_bound (T_max : Int) (s : retroactive_set) (x : Int) (tm : Int) : Int :=
  segtree.upper_bound s.tree tm x INT64_MIN INT64_MAX T_max

/-- The query `find(x, tm)`. -/
def find (T_max : Int) (s : retroactive_set) (x : Int) (tm : Int) : Bool :=
  lower_bound T_max s x tm == x

/-- The function `get_last_time`; the `+ 1` is a 64-bit addition. -/
def get_last_time (s : retroactive_set) : Int :=
  match s.operations.getLast? with
  | none => 0
  | some e => wrap64 (e.1 + 1)

def clear (_s : retroactive_set) : retroactive_set := empty_set

/-- The effect of a call: what it returns and the set after it; `none` where the call has
no result. -/
def call (T_max : Int) (s : retroactive_set) : set_call → Option (set_result × retroactive_set)
  | .insert x tm => (s.insert x tm).map fun r => (.flag r.1, r.2)
  | .erase x tm => (s.erase x tm).map fun r => (.flag r.1, r.2)
  | .delete_operation tm => (s.delete_operation tm).map fun r => (.flag r.1, r.2)
  | .lower_bound x tm => some (.key (lower_bound T_max s x tm), s)
  | .upper_bound x tm => some (.key (upper_bound T_max s x tm), s)
  | .find x tm => some (.flag (find T_max s x tm), s)
  | .insert_now x => (s.insert x s.get_last_time).map fun r => (.flag r.1, r.2)
  | .erase_now x => (s.erase x s.get_last_time).map fun r => (.flag r.1, r.2)
  | .clear => some (.unit, s.clear)

/-- The arguments of a call are values of their types: a time is a `long long`, a key is
at most `T_max`. -/
def call_in_range (T_max : Int) : set_call → Prop
  | .insert x tm => x ≤ T_max ∧ isInt64 tm
  | .erase x tm => x ≤ T_max ∧ isInt64 tm
  | .delete_operation tm => isInt64 tm
  | .lower_bound x tm => x ≤ T_max ∧ isInt64 tm
  | .upper_bound x tm => x ≤ T_max ∧ isInt64 tm
  | .find x tm => x ≤ T_max ∧ isInt64 tm
  | .insert_now x => x ≤ T_max
  | .erase_now x => x ≤ T_max
  | .clear => True

/-- The sets reachable from the empty set by public calls. -/
inductive reachable (T_max : Int) : retroactive_set → Prop where
  | empty : reachable T_max empty_set
  | step (s : retroactive_set) (c : set_call) (r : set_result × retroactive_set) :
      reachable T_max s → call_in_range T_max c → s.call T_max c = some r →
      reachable T_max r.2

/-- The set after a call, the set itself where the call has no result. -/
def after (T_max : Int) (s : retroactive_set) (c : set_call) : retroactive_set :=
  match s.call T_max c with
  | some r => r.2
  | none => s

/-- The set of the historical query scenario, for a 32-bit key type: the set after
insert(5)@10, insert(3)@20 and erase(5)@30. -/
def scenario : retroactive_set :=
  after 2147483647
    (after 2147483647 (after 2147483647 empty_set (.insert 5 10)) (.insert 3 20))
    (.erase 5 30)

/-- Membership at time `t` read from the event times of a key, which are in increasing
order an insert, the erase that follows it, an insert, ...: the key is a member when
some insert has a time `<= t` and is not followed by an erase of time `<= t`. -/
def member_at : List Int → Int → Bool
  | [], _ => false
  | [a], t => decide (a ≤ t)
  | a :: b :: l, t => (decide (a ≤ t) && !decide (b ≤ t)) || member_at l t

end retroactive_set

namespace segtree

/-- All buckets of a tree are strictly increasing lists. -/
def sorted : segtree → Prop
  | .null => True
  | .node L R b => b.Pairwise (fun a c => a < c) ∧ sorted L ∧ sorted R

/-- No bucket of the tree holds `x`. -/
def free (x : Int) : segtree → Prop
  | .null => True
  | .node L R b => x ∉ b ∧ free x L ∧ free x R

/-- Some bucket on the path from the node of range `[tl, tr]` towards the time `t`
holds `y`. -/
def on_path (y : Int) (t : Int) : segtree → Int → Int → Prop
  | .null, _, _ => False
  | .node L R b, tl, tr =>
    y ∈ b ∨ (if t ≤ midpoint tl tr then on_path y t L tl (midpoint tl tr)
             else on_path y t R (midpoint tl tr + 1) tr)

/-- The tree of range `[tl, tr]` stores the set `P` of times for the key `x` in the
canonical way: a node whose whole range is in `P` holds `x` and nothing below it does;
any other node does not hold `x` and its children store `P` on their halves; a null
pointer stores the empty set only. -/
def canon (x : Int) (P : Int → Prop) : segtree → Int → Int → Prop
  | .null, tl, tr => ∀ t, tl ≤ t → t ≤ tr → ¬ P t
  | .node L R b, tl, tr =>
    ((tl ≤ tr ∧ ∀ t, tl ≤ t → t ≤ tr → P t) → x ∈ b ∧ free x L ∧ free x R) ∧
    (¬ (tl ≤ tr ∧ ∀ t, tl ≤ t → t ≤ tr → P t) →
      x ∉ b ∧ canon x P L tl (midpoint tl tr) ∧ canon x P R (midpoint tl tr + 1) tr)

end segtree

namespace retroactive_set

/-- The consistency of a set: the event times of a key are strictly increasing 64-bit
values that the log maps to the key; every logged time is an event time of its key, which
is at most `T_max`; the root of the tree is a node; the buckets are sorted; and for every
key the tree stores the times at which the key is a member. -/
def inv (T_max : Int) (s : retroactive_set) : Prop :=
  (∀ x, (s.events x).Pairwise (fun a b => a < b) ∧
    ∀ e ∈ s.events x, isInt64 e ∧ map_find s.operations e = some x) ∧
  (∀ tm x, map_find s.operations tm = some x → tm ∈ s.events x ∧ x ≤ T_max) ∧
  s.tree ≠ .null ∧ s.tree.sorted ∧
  (∀ x, segtree.canon x (fun t => member_at (s.events x) t = true) s.tree
    INT64_MIN INT64_MAX)

end retroactive_set

/-! ## Copies of a deque, and the treap aggregates in the words of the specification -/

namespace treap

/-- The function `treap::copy(dest, src)`, returning the node `*dest` after the call:
`*dest = *src`, then a fresh copy of each child that is not null. The result is `none`
where `src` is null, which the source dereferences. -/
def copy : treap → Option treap
  | null => none
  | node L R p ins tm b mp ms xs =>
    match (if L.isNull then some null else copy L),
          (if R.isNull then some null else copy R) with
    | some L', some R' => some (node L' R' p ins tm b mp ms xs)
    | _, _ => none

/-- The treaps produced from the empty tree by `insert`, `erase`, `split` and `merge`. -/
inductive produced : treap → Prop where
  | null : produced null
  | insert (t : treap) (tm : Int) (ins : Bool) (p : Nat) :
      produced t → produced (insert t tm ins p)
  | erase (t : treap) (tm : Int) : produced t → produced (erase t tm)
  | split_left (t : treap) (x : Int) : produced t → produced (split t x).1
  | split_right (t : treap) (x : Int) : produced t → produced (split t x).2
  | merge (l r : treap) : produced l → produced r → produced (merge l r)

end treap

namespace retroactive_deque

variable {T : Type}

/-- The copy constructor; `none` where `treap::copy` dereferences a null pointer. -/
def copy_construct (other : retroactive_deque T) : Option (retroactive_deque T) :=
  match treap.copy other.ul with
  | none => none
  | some ul =>
    match treap.copy other.ur with
    | none => none
    | some ur =>
      match treap.copy other.balance_tree with
      | none => none
      | some bt =>
        some { operations := other.operations, pop_operations := other.pop_operations,
               ul := ul, ur := ur, balance_tree := bt }

/-- The copy assignment `*this = other`: the logs are assigned, the trees of `*this` are
destroyed, and each tree is set to a fresh node `new treap()` and filled by `treap::copy`
from the tree of `other`. For two distinct objects these are the steps of the copy
constructor, whatever the old trees of `*this` were. When `other` is `*this` itself
(`same_object`), `other.ul` is, at the call of `treap::copy`, the fresh node, whose
fields the constructor `treap()` leaves uninitialised, and `treap::copy` reads them:
`none`. -/
def copy_assign (_d other : retroactive_deque T) (same_object : Bool) :
    Option (retroactive_deque T) :=
  if same_object then none else copy_construct other

/-- The comparison `operator==`. -/
def equal [DecidableEq T] (x y : retroactive_deque T) : Bool :=
  x.operations == y.operations && x.pop_operations == y.pop_operations

end retroactive_deque

namespace events

/-- The sums of the non-empty prefixes of a sequence, the shortest first. -/
def sums_of_prefixes (l : List (Int × Bool)) : List Int :=
  (List.range l.length).map (fun n => balance (l.take (n + 1)))

/-- The sums of the non-empty suffixes of a sequence, the longest first. -/
def sums_of_suffixes (l : List (Int × Bool)) : List Int :=
  (List.range l.length).map (fun n => balance (l.drop n))

/-- The value `m` is the minimum of the values `vs`. -/
def is_min (m : Int) (vs : List Int) : Prop := m ∈ vs ∧ ∀ v ∈ vs, m ≤ v

/-- The value `m` is the maximum of the values `vs`. -/
def is_max (m : Int) (vs : List Int) : Prop := m ∈ vs ∧ ∀ v ∈ vs, v ≤ m

end events

namespace treap

/-- The aggregate invariant in the words of the specification: at every node, over the
in-order sequence of signed values of its subtree, `balance` is the sum, `min_pref` the
minimum of the sums of the non-empty prefixes, `min_suff` the minimum and `max_suff` the
maximum of the sums of the non-empty suffixes. -/
def aggregates_as_specified : treap → Prop
  | null => True
  | node L R _ ins tm b mp ms xs =>
    aggregates_as_specified L ∧ aggregates_as_specified R ∧
    b = events.balance (inorder L ++ (tm, ins) :: inorder R) ∧
    events.is_min mp (events.sums_of_prefixes (inorder L ++ (tm, ins) :: inorder R)) ∧
    events.is_min ms (events.sums_of_suffixes (inorder L ++ (tm, ins) :: inorder R)) ∧
    events.is_max xs (events.sums_of_suffixes (inorder L ++ (tm, ins) :: inorder R))

end treap

/-! ## The midpoint of the segment tree on the bits

The expression `(tl >> 1) + (tr >> 1) + (tl & tr & 1LL)` with its machine operations: a
64-bit value is an `Int` in the 64-bit range, `>>` is the arithmetic shift, `&` acts on
the two's complement bit patterns, and every sum is reduced to 64 bits. -/

namespace segtree

/-- The bit pattern of a 64-bit value: the value modulo `2^64`, as a natural number. -/
def to_unsigned (x : Int) : Nat := (x % 18446744073709551616).toNat

/-- The arithmetic right shift `x >> 1`. -/
def sar1 (x : Int) : Int := x >>> (1 : Nat)

/-- The bitwise `a & b` of two 64-bit values. -/
def and64 (a b : Int) : Int := wrap64 (Int.ofNat (to_unsigned a &&& to_unsigned b))

/-- The expression `(tl >> 1) + (tr >> 1) + (tl & tr & 1LL)`, each sum a 64-bit
addition. -/
def midpoint_bits (tl tr : Int) : Int :=
  wrap64 (wrap64 (sar1 tl + sar1 tr) + and64 (and64 tl tr) 1)

end segtree

namespace retroactive_set

/-- The intervals of times on which a key with the event times `e0 < e1 < e2 < ...` is
live, in the words of the specification: `[e0, e1 - 1]`, `[e2, e3 - 1]`, ..., the last one
extending to the largest time when the number of events is odd. -/
def live_intervals : List Int → List (Int × Int)
  | [] => []
  | [a] => [(a, INT64_MAX)]
  | a :: b :: l => (a, b - 1) :: live_intervals l

/-- The key with the event times `ev` is live at the time `t`. -/
def live (ev : List Int) (t : Int) : Prop :=
  ∃ i ∈ live_intervals ev, i.1 ≤ t ∧ t ≤ i.2

end retroactive_set

/-! ## The mirror image of a deque -/

/-- The call with the two sides exchanged: front for back and back for front, with the
same times, payloads and priorities. -/
def deque_call.mirror {T : Type} : deque_call T → deque_call T
  | .insert_push_back x tm p₁ p₂ => .insert_push_front x tm p₁ p₂
  | .insert_push_front x tm p₁ p₂ => .insert_push_back x tm p₁ p₂
  | .insert_pop_back tm p₁ p₂ => .insert_pop_front tm p₁ p₂
  | .insert_pop_front tm p₁ p₂ => .insert_pop_back tm p₁ p₂
  | .delete_operation tm p₁ => .delete_operation tm p₁
  | .push_back x p₁ p₂ => .push_front x p₁ p₂
  | .push_front x p₁ p₂ => .push_back x p₁ p₂
  | .pop_back p₁ p₂ => .pop_front p₁ p₂
  | .pop_front p₁ p₂ => .pop_back p₁ p₂
  | .clear => .clear
  | .back tm => .front tm
  | .front tm => .back tm
  | .size => .size
  | .empty => .empty

namespace retroactive_deque

/-- The deque with its two side trees exchanged. -/
def mirror {T : Type} (d : retroactive_deque T) : retroactive_deque T :=
  { d with ul := d.ur, ur := d.ul }

end retroactive_deque

/-! ## The `get_kth` call of the deque queries -/

namespace retroactive_deque

variable {T : Type}

/-- The value of the `get_kth` call that `back(tm)` makes. -/
def back_key (d : retroactive_deque T) (tm : Int) : Int :=
  let ul1 := (treap.split d.ul tm).1
  let ur1 := (treap.split d.ur tm).1
  if treap.get_max_suff ur1 > max 0 (-treap.get_min_pref ul1) then treap.get_kth ur1 1
  else treap.get_kth ul1 (treap.get_balance ul1 + treap.get_balance ur1)

/-- The value of the `get_kth` call that `front(tm)` makes. -/
def front_key (d : retroactive_deque T) (tm : Int) : Int :=
  let ul1 := (treap.split d.ul tm).1
  let ur1 := (treap.split d.ur tm).1
  if treap.get_max_suff ul1 > max 0 (-treap.get_min_pref ur1) then treap.get_kth ul1 1
  else treap.get_kth ur1 (treap.get_balance ur1 + treap.get_balance ul1)

/-- The number of logged pushes with time `<= t` minus the number of logged pops with
time `<= t`. -/
def size_at (d : retroactive_deque T) (t : Int) : Int :=
  ((d.operations.filter (fun e => decide (e.1 ≤ t))).length : Int) -
    ((d.pop_operations.filter (fun p => decide (p ≤ t))).length : Int)

end retroactive_deque

/-- The call as its caller writes it: the priorities, which the code draws from `rand()`,
are set to 0. -/
def deque_call.without_priorities {T : Type} : deque_call T → deque_call T
  | .insert_push_back x tm _ _ => .insert_push_back x tm 0 0
  | .insert_push_front x tm _ _ => .insert_push_front x tm 0 0
  | .insert_pop_back tm _ _ => .insert_pop_back tm 0 0
  | .insert_pop_front tm _ _ => .insert_pop_front tm 0 0
  | .delete_operation tm _ => .delete_operation tm 0
  | .push_back x _ _ => .push_back x 0 0
  | .push_front x _ _ => .push_front x 0 0
  | .pop_back _ _ => .pop_back 0 0
  | .pop_front _ _ => .pop_front 0 0
  | .clear => .clear
  | .back tm => .back tm
  | .front tm => .front tm
  | .size => .size
  | .empty => .empty

/-- The multiset call as its caller writes it: the priority, which the code draws from
`rand()`, is set to 0. -/
def multiset_call.without_priorities {T : Type} : multiset_call T → multiset_call T
  | .insert x tm _ => .insert x tm 0
  | .erase x tm _ => .erase x tm 0
  | .delete_operation tm _ => .delete_operation tm 0
  | .find x tm => .find x tm
  | .insert_now x _ => .insert_now x 0
  | .erase_now x _ => .erase_now x 0
  | .clear => .clear

/-! ## The deque as a FIFO queue, replayed from its logs -/

namespace retroactive_deque

variable {T : Type}

/-- The history of the deque is that of a FIFO queue: every event of the left tree is a
pop (`pop_front`) and every event of the right tree is a push (`push_back`). -/
def fifo_history (d : retroactive_deque T) : Prop :=
  (∀ e ∈ d.ul.inorder, e.2 = false) ∧ (∀ e ∈ d.ur.inorder, e.2 = true)

/-- The logged times `<= t`, of pushes and of pops, in increasing order. -/
def logged_times (d : retroactive_deque T) (t : Int) : List Int :=
  ((d.operations.map Prod.fst ++ d.pop_operations).insertionSort (fun a b => a ≤ b)).filter
    (fun tm => decide (tm ≤ t))

/-- The update of a FIFO queue that is logged at a time: `push_back` of the logged payload
at a time of the push log, `pop_front` at any other time. -/
def fifo_update (d : retroactive_deque T) (tm : Int) : plain_update T :=
  match map_find d.operations tm with
  | some x => .push_back x
  | none => .pop_front

/-- The plain queue, front first, obtained by replaying the logged updates of time `<= t`
in time order as `push_back` and `pop_front`. -/
def fifo_replay (d : retroactive_deque T) (t : Int) : List T :=
  plain_replay ((d.logged_times t).map d.fifo_update)

end retroactive_deque

/-- The call is one of a FIFO queue: a push at the back, a pop at the front, a deletion, or
a call that adds no event. -/
def deque_call.fifo {T : Type} : deque_call T → Prop
  | .insert_push_front _ _ _ _ => False
  | .insert_pop_back _ _ _ => False
  | .push_front _ _ _ => False
  | .pop_back _ _ => False
  | _ => True

/-- On the in-order sequences: every event of the left sequence is a pop and every event
of the right sequence is a push. -/
def deque_events.fifo_history {T : Type} (v : deque_events T) : Prop :=
  (∀ e ∈ v.ul, e.2 = false) ∧ (∀ e ∈ v.ur, e.2 = true)
/-! # Theorems

## Properties of the treap -/

namespace events

theorem sign_cases (b : Bool) : treap.sign b = 1 ∨ treap.sign b = -1 := by
  cases b <;> simp [treap.sign]

@[simp] theorem balance_nil : balance [] = 0 := rfl

@[simp] theorem balance_cons (e : Int × Bool) (l : List (Int × Bool)) :
    balance (e :: l) = treap.sign e.2 + balance l := by
  simp [balance]

@[simp] theorem balance_append (a b : List (Int × Bool)) :
    balance (a ++ b) = balance a + balance b := by
  simp [balance]

@[simp] theorem balance_reverse (a : List (Int × Bool)) : balance a.reverse = balance a := by
  simp [balance, List.sum_reverse]

theorem min_pref_le_one (l : List (Int × Bool)) (h : l ≠ []) : min_pref l ≤ 1 := by
  cases l with
  | nil => exact absurd rfl h
  | cons e l =>
    have := sign_cases e.2
    simp only [min_pref]; omega

theorem max_pref_ge_neg_one (l : List (Int × Bool)) (h : l ≠ []) : -1 ≤ max_pref l := by
  cases l with
  | nil => exact absurd rfl h
  | cons e l =>
    have := sign_cases e.2
    simp only [max_pref]; omega

theorem min_pref_append (a : List (Int × Bool)) (e : Int × Bool) (b : List (Int × Bool)) :
    min_pref (a ++ e :: b) =
      if a = [] then treap.sign e.2 + min 0 (min_pref b)
      else min (min_pref a) (balance a + treap.sign e.2 + min 0 (min_pref b)) := by
  induction a with
  | nil => simp [min_pref]
  | cons x a ih =>
    have hx := sign_cases x.2
    rw [List.cons_append, min_pref, ih]
    by_cases ha : a = []
    · subst ha; simp [min_pref]; omega
    · simp only [ha, if_false, reduceCtorEq, min_pref, balance_cons]; omega

theorem max_pref_append (a : List (Int × Bool)) (e : Int × Bool) (b : List (Int × Bool)) :
    max_pref (a ++ e :: b) =
      if a = [] then treap.sign e.2 + max 0 (max_pref b)
      else max (max_pref a) (balance a + treap.sign e.2 + max 0 (max_pref b)) := by
  induction a with
  | nil => simp [max_pref]
  | cons x a ih =>
    have hx := sign_cases x.2
    rw [List.cons_append, max_pref, ih]
    by_cases ha : a = []
    · subst ha; simp [max_pref]; omega
    · simp only [ha, if_false, reduceCtorEq, max_pref, balance_cons]; omega

end events

namespace treap

theorem isNull_iff (t : treap) : t.isNull = true ↔ inorder t = [] := by
  cases t <;> simp [isNull, inorder]

theorem isNull_eq_false_iff (t : treap) : t.isNull = false ↔ inorder t ≠ [] := by
  cases t <;> simp [isNull, inorder]

@[simp] theorem inorder_recalc (t : treap) : inorder (recalc t) = inorder t := by
  cases t <;> simp [recalc, inorder]

@[simp] theorem inorder_new_node (tm : Int) (ins : Bool) (p : Nat) :
    inorder (new_node tm ins p) = [(tm, ins)] := by
  simp [new_node, inorder]

/-- The equation of the source for two non-null arguments. -/
theorem merge_node_node (lL lR : treap) (lp : Nat) (li : Bool) (lt lb lmp lms lxs : Int)
    (rL rR : treap) (rp : Nat) (ri : Bool) (rt rb rmp rms rxs : Int) :
    merge (node lL lR lp li lt lb lmp lms lxs) (node rL rR rp ri rt rb rmp rms rxs) =
      if lp > rp then
        recalc (node lL (merge lR (node rL rR rp ri rt rb rmp rms rxs)) lp li lt lb lmp lms lxs)
      else
        recalc (node (merge (node lL lR lp li lt lb lmp lms lxs) rL) rR rp ri rt rb rmp rms rxs) := by
  simp [merge, merge.go]

theorem merge_node_null (lL lR : treap) (lp : Nat) (li : Bool) (lt lb lmp lms lxs : Int) :
    merge (node lL lR lp li lt lb lmp lms lxs) null =
      recalc (node lL lR lp li lt lb lmp lms lxs) := by
  simp [merge, merge.go]

theorem merge_null (r : treap) : merge null r = recalc r := by
  simp [merge]

/-- Induction principle following the recursion of `merge`. -/
theorem merge_induction (P : treap → treap → Prop)
    (h₁ : ∀ r, P null r)
    (h₂ : ∀ lL lR lp li lt lb lmp lms lxs, P (node lL lR lp li lt lb lmp lms lxs) null)
    (h₃ : ∀ lL lR lp li lt lb lmp lms lxs rL rR rp ri rt rb rmp rms rxs,
      P lR (node rL rR rp ri rt rb rmp rms rxs) →
      P (node lL lR lp li lt lb lmp lms lxs) rL →
      P (node lL lR lp li lt lb lmp lms lxs) (node rL rR rp ri rt rb rmp rms rxs))
    (l r : treap) : P l r := by
  induction l generalizing r with
  | null => exact h₁ r
  | node lL lR lp li lt lb lmp lms lxs _ ihR =>
    induction r with
    | null => exact h₂ ..
    | node rL rR rp ri rt rb rmp rms rxs ihrL _ =>
      exact h₃ _ _ _ _ _ _ _ _ _ _ _ _ _ _ _ _ _ _ (ihR _) ihrL

theorem inorder_merge (l r : treap) : inorder (merge l r) = inorder l ++ inorder r := by
  induction l, r using merge_induction with
  | h₁ r => simp [merge_null, inorder]
  | h₂ => simp [merge_node_null, inorder]
  | h₃ lL lR lp li lt lb lmp lms lxs rL rR rp ri rt rb rmp rms rxs ih₁ ih₂ =>
    rw [merge_node_node]
    split
    · rw [inorder_recalc]; simp [inorder, ih₁]
    · rw [inorder_recalc]; simp only [inorder, ih₂]; simp

theorem inorder_split_append (t : treap) (x : Int) :
    inorder (split t x).1 ++ inorder (split t x).2 = inorder t := by
  induction t with
  | null => simp [split, inorder]
  | node L R p ins tm b mp ms xs ihL ihR =>
    simp only [split]
    split
    · simp [inorder, ihR]
    · simp only [inorder_recalc, inorder]
      rw [← List.append_assoc, ihL]

theorem sorted_append {a b : List (Int × Bool)} :
    events.sorted (a ++ b) ↔
      events.sorted a ∧ events.sorted b ∧ ∀ x ∈ a, ∀ y ∈ b, x.1 ≤ y.1 := by
  simp [events.sorted, List.pairwise_append]

theorem inorder_split (t : treap) (x : Int) (h : events.sorted (inorder t)) :
    inorder (split t x).1 = (inorder t).filter (fun e => decide (e.1 ≤ x)) ∧
    inorder (split t x).2 = (inorder t).filter (fun e => decide (x < e.1)) := by
  induction t with
  | null => simp [split, inorder]
  | node L R p ins tm b mp ms xs ihL ihR =>
    simp only [inorder] at h
    rw [sorted_append] at h
    obtain ⟨hL, hR, hLR⟩ := h
    have hR' : events.sorted (inorder R) := by
      simp only [events.sorted, List.pairwise_cons] at hR; exact hR.2
    have hmR : ∀ y ∈ inorder R, tm ≤ y.1 := by
      simp only [events.sorted, List.pairwise_cons] at hR; exact hR.1
    have hmL : ∀ y ∈ inorder L, y.1 ≤ tm := fun y hy => hLR y hy (tm, ins) (by simp)
    simp only [split]
    split
    · rename_i hle
      obtain ⟨i1, i2⟩ := ihR hR'
      simp only [inorder_recalc, inorder, i1, i2, List.filter_append, List.filter_cons]
      have e1 : (inorder L).filter (fun e => decide (e.1 ≤ x)) = inorder L := by
        rw [List.filter_eq_self]; intro y hy; simpa using le_trans (hmL y hy) hle
      have e2 : (inorder L).filter (fun e => decide (x < e.1)) = [] := by
        rw [List.filter_eq_nil_iff]; intro y hy; simpa using le_trans (hmL y hy) hle
      simp [e1, e2, hle, not_lt.mpr hle]
    · rename_i hle
      have hlt : x < tm := not_le.mp hle
      obtain ⟨i1, i2⟩ := ihL hL
      simp only [inorder_recalc, inorder, i1, i2, List.filter_append, List.filter_cons]
      have e1 : (inorder R).filter (fun e => decide (x < e.1)) = inorder R := by
        rw [List.filter_eq_self]; intro y hy; simpa using lt_of_lt_of_le hlt (hmR y hy)
      have e2 : (inorder R).filter (fun e => decide (e.1 ≤ x)) = [] := by
        rw [List.filter_eq_nil_iff]; intro y hy; simpa using lt_of_lt_of_le hlt (hmR y hy)
      simp [e1, e2, hle, hlt]

end treap

namespace treap

theorem aggOK_getters (t : treap) (h : aggOK t) :
    get_balance t = events.balance (inorder t) ∧
    get_min_pref t = events.min_pref (inorder t) ∧
    get_min_suff t = events.min_suff (inorder t) ∧
    get_max_suff t = events.max_suff (inorder t) := by
  cases t with
  | null => simp [get_balance, get_min_pref, get_min_suff, get_max_suff, inorder,
      events.min_pref, events.min_suff, events.max_suff, events.max_pref]
  | node L R p ins tm b mp ms xs =>
    simp only [aggOK] at h
    obtain ⟨_, _, h1, h2, h3, h4⟩ := h
    simp [get_balance, get_min_pref, get_min_suff, get_max_suff, inorder, h1, h2, h3, h4]

theorem get_balance_eq (t : treap) (h : aggOK t) :
    get_balance t = events.balance (inorder t) := (aggOK_getters t h).1

theorem get_min_pref_eq (t : treap) (h : aggOK t) :
    get_min_pref t = events.min_pref (inorder t) := (aggOK_getters t h).2.1

theorem get_min_suff_eq (t : treap) (h : aggOK t) :
    get_min_suff t = events.min_suff (inorder t) := (aggOK_getters t h).2.2.1

theorem get_max_suff_eq (t : treap) (h : aggOK t) :
    get_max_suff t = events.max_suff (inorder t) := (aggOK_getters t h).2.2.2

theorem aggOK_recalc_node (L R : treap) (p : Nat) (ins : Bool) (tm b mp ms xs : Int)
    (hL : aggOK L) (hR : aggOK R) : aggOK (recalc (node L R p ins tm b mp ms xs)) := by
  obtain ⟨bL, pL, sL, xL⟩ := aggOK_getters L hL
  obtain ⟨bR, pR, sR, xR⟩ := aggOK_getters R hR
  have hs := events.sign_cases ins
  simp only [recalc, aggOK]
  refine ⟨hL, hR, ?_, ?_, ?_, ?_⟩
  · simp [bL, bR]; ring
  · rw [events.min_pref_append, bL, pL, pR]
    cases hn : L.isNull
    · have : inorder L ≠ [] := (isNull_eq_false_iff L).mp hn
      rw [if_neg this]; simp
    · have : inorder L = [] := (isNull_iff L).mp hn
      simp only [this, if_true, ↓reduceIte, events.balance_nil, INT64_MAX]
      omega
  · simp only [events.min_suff, List.reverse_append, List.reverse_cons, List.append_assoc,
      List.singleton_append]
    rw [events.min_pref_append, bR, sR, sL]
    simp only [events.min_suff, events.balance_reverse, List.reverse_eq_nil_iff]
    cases hn : R.isNull
    · have : inorder R ≠ [] := (isNull_eq_false_iff R).mp hn
      rw [if_neg this]; simp
    · have : inorder R = [] := (isNull_iff R).mp hn
      simp only [this, if_true, ↓reduceIte, events.balance_nil, INT64_MAX, List.reverse_nil]
      omega
  · simp only [events.max_suff, List.reverse_append, List.reverse_cons, List.append_assoc,
      List.singleton_append]
    rw [events.max_pref_append, bR, xR, xL]
    simp only [events.max_suff, events.balance_reverse, List.reverse_eq_nil_iff]
    cases hn : R.isNull
    · have : inorder R ≠ [] := (isNull_eq_false_iff R).mp hn
      rw [if_neg this]; simp
    · have : inorder R = [] := (isNull_iff R).mp hn
      simp only [this, if_true, ↓reduceIte, events.balance_nil, INT64_MIN, List.reverse_nil]
      omega

theorem aggOK_recalc (t : treap) (h : aggOK t) : aggOK (recalc t) := by
  cases t with
  | null => simp [recalc, aggOK]
  | node L R p ins tm b mp ms xs =>
    simp only [aggOK] at h
    exact aggOK_recalc_node _ _ _ _ _ _ _ _ _ h.1 h.2.1

theorem aggOK_new_node (tm : Int) (ins : Bool) (p : Nat) : aggOK (new_node tm ins p) := by
  cases ins <;>
  simp [new_node, aggOK, inorder, events.balance, events.min_pref, events.min_suff,
    events.max_suff, events.max_pref, sign]

theorem aggOK_merge (l r : treap) (hl : aggOK l) (hr : aggOK r) : aggOK (merge l r) := by
  induction l, r using merge_induction with
  | h₁ r => rw [merge_null]; exact aggOK_recalc r hr
  | h₂ lL lR lp li lt lb lmp lms lxs => rw [merge_node_null]; exact aggOK_recalc _ hl
  | h₃ lL lR lp li lt lb lmp lms lxs rL rR rp ri rt rb rmp rms rxs ih₁ ih₂ =>
    rw [merge_node_node]
    have hl' := hl
    have hr' := hr
    simp only [aggOK] at hl' hr'
    split
    · exact aggOK_recalc_node _ _ _ _ _ _ _ _ _ hl'.1 (ih₁ hl'.2.1 hr)
    · exact aggOK_recalc_node _ _ _ _ _ _ _ _ _ (ih₂ hl hr'.1) hr'.2.1

theorem aggOK_split (t : treap) (x : Int) (h : aggOK t) :
    aggOK (split t x).1 ∧ aggOK (split t x).2 := by
  induction t with
  | null => simp [split, aggOK]
  | node L R p ins tm b mp ms xs ihL ihR =>
    simp only [aggOK] at h
    simp only [split]
    split
    · constructor
      · exact aggOK_recalc_node L _ p ins tm b mp ms xs h.1 (ihR h.2.1).1
      · exact aggOK_recalc _ (ihR h.2.1).2
    · constructor
      · exact aggOK_recalc _ (ihL h.1).1
      · exact aggOK_recalc_node _ R p ins tm b mp ms xs (ihL h.1).2 h.2.1

theorem sorted_filter (l : List (Int × Bool)) (f : Int × Bool → Bool)
    (h : events.sorted l) : events.sorted (l.filter f) :=
  List.Pairwise.filter f h

theorem sorted_insert (l : List (Int × Bool)) (tm : Int) (ins : Bool)
    (h : events.sorted l) : events.sorted (events.insert l tm ins) := by
  unfold events.insert
  rw [sorted_append]
  refine ⟨sorted_filter _ _ h, ?_, ?_⟩
  · simp only [events.sorted, List.pairwise_cons]
    refine ⟨?_, sorted_filter _ _ h⟩
    intro y hy
    simp only [List.mem_filter, decide_eq_true_eq] at hy
    exact le_of_lt hy.2
  · intro x hx y hy
    simp only [List.mem_filter, decide_eq_true_eq] at hx
    simp only [List.mem_cons, List.mem_filter, decide_eq_true_eq] at hy
    rcases hy with rfl | hy
    · exact hx.2
    · exact le_trans hx.2 (le_of_lt hy.2)

theorem sorted_erase (l : List (Int × Bool)) (tm : Int)
    (h : events.sorted l) : events.sorted (events.erase l tm) := by
  unfold events.erase
  rw [sorted_append]
  refine ⟨sorted_filter _ _ (sorted_filter _ _ h), sorted_filter _ _ h, ?_⟩
  intro x hx y hy
  simp only [List.mem_filter, decide_eq_true_eq] at hx hy
  exact le_trans hx.1.2 (le_of_lt hy.2)

theorem wf_null : wf null := by simp [wf, aggOK, inorder, events.sorted]

/-- The function `treap::insert` on the in-order sequence. -/
theorem insert_spec (t : treap) (tm : Int) (ins : Bool) (p : Nat) (h : wf t) :
    wf (insert t tm ins p) ∧ inorder (insert t tm ins p) = events.insert (inorder t) tm ins := by
  obtain ⟨ha, hs⟩ := h
  obtain ⟨s1, s2⟩ := inorder_split t tm hs
  obtain ⟨a1, a2⟩ := aggOK_split t tm ha
  have hi : inorder (insert t tm ins p) = events.insert (inorder t) tm ins := by
    simp [insert, inorder_merge, s1, s2, events.insert]
  refine ⟨⟨?_, ?_⟩, hi⟩
  · exact aggOK_merge _ _ (aggOK_merge _ _ a1 (aggOK_new_node tm ins p)) a2
  · rw [hi]; exact sorted_insert _ _ _ hs

/-- The function `treap::erase` on the in-order sequence. -/
theorem erase_spec (t : treap) (tm : Int) (h : wf t) :
    wf (erase t tm) ∧ inorder (erase t tm) = events.erase (inorder t) tm := by
  obtain ⟨ha, hs⟩ := h
  obtain ⟨s1, s2⟩ := inorder_split t tm hs
  obtain ⟨a1, a2⟩ := aggOK_split t tm ha
  have hs1 : events.sorted (inorder (split t tm).1) := by
    rw [s1]; exact sorted_filter _ _ hs
  obtain ⟨s3, _⟩ := inorder_split (split t tm).1 (wrap64 (tm - 1)) hs1
  obtain ⟨a3, _⟩ := aggOK_split (split t tm).1 (wrap64 (tm - 1)) a1
  have hi : inorder (erase t tm) = events.erase (inorder t) tm := by
    simp only [erase, inorder_merge, s3, s1, s2, events.erase]
  refine ⟨⟨?_, ?_⟩, hi⟩
  · exact aggOK_merge _ _ a3 a2
  · rw [hi]; exact sorted_erase _ _ hs

/-- Splitting and merging again keeps the in-order sequence. -/
theorem split_merge_spec (t : treap) (x : Int) (h : wf t) :
    wf (merge (split t x).1 (split t x).2) ∧
    inorder (merge (split t x).1 (split t x).2) = inorder t := by
  obtain ⟨ha, hs⟩ := h
  obtain ⟨a1, a2⟩ := aggOK_split t x ha
  have hi : inorder (merge (split t x).1 (split t x).2) = inorder t := by
    rw [inorder_merge, inorder_split_append]
  exact ⟨⟨aggOK_merge _ _ a1 a2, by rw [hi]; exact hs⟩, hi⟩

end treap

namespace events

theorem first_reaching_append (a b : List (Int × Bool)) (k : Int) :
    first_reaching (a ++ b) k =
      if a ≠ [] ∧ min_pref a ≤ k ∧ k ≤ max_pref a then first_reaching a k
      else first_reaching b (k - balance a) := by
  induction a generalizing k with
  | nil => simp
  | cons e a ih =>
    have he := sign_cases e.2
    rw [List.cons_append, first_reaching, ih]
    simp only [first_reaching, balance_cons, min_pref, max_pref]
    by_cases hk : treap.sign e.2 = k
    · have h1 : treap.sign e.2 + min 0 (min_pref a) ≤ k := by omega
      have h2 : k ≤ treap.sign e.2 + max 0 (max_pref a) := by omega
      simp [hk, h1, h2]
    · simp only [hk, if_false, ne_eq, reduceCtorEq, not_false_eq_true, true_and]
      have hsub : k - treap.sign e.2 - balance a = k - (treap.sign e.2 + balance a) := by ring
      rw [hsub]
      by_cases ha : a = []
      · subst ha
        have : ¬ (treap.sign e.2 + min 0 (min_pref []) ≤ k ∧
            k ≤ treap.sign e.2 + max 0 (max_pref [])) := by
          simp only [min_pref, max_pref]; omega
        simp [this]
      · have h1 := min_pref_le_one a ha
        have h2 := max_pref_ge_neg_one a ha
        have hiff : (min_pref a ≤ k - treap.sign e.2 ∧ k - treap.sign e.2 ≤ max_pref a) ↔
            (treap.sign e.2 + min 0 (min_pref a) ≤ k ∧
              k ≤ treap.sign e.2 + max 0 (max_pref a)) := by
          omega
        by_cases hr : min_pref a ≤ k - treap.sign e.2 ∧ k - treap.sign e.2 ≤ max_pref a
        · rw [if_pos ⟨ha, hr⟩, if_pos (hiff.mp hr)]
        · have hr' := fun h => hr (hiff.mpr h)
          rw [if_neg (fun h => hr h.2), if_neg hr']

end events

namespace treap

/-- The function `treap::get_kth` on the in-order sequence. -/
theorem get_kth_eq (t : treap) (h : aggOK t) (k : Int) :
    get_kth t k = events.kth (inorder t) k := by
  induction t generalizing k with
  | null => simp [get_kth, events.kth, inorder, events.first_reaching]
  | node L R p ins tm b mp ms xs ihL ihR =>
    simp only [aggOK] at h
    obtain ⟨hL, hR, -⟩ := h
    obtain ⟨bR, -, sR, xR⟩ := aggOK_getters R hR
    simp only [get_kth, inorder, events.kth, List.reverse_append, List.reverse_cons,
      List.append_assoc, List.singleton_append]
    rw [events.first_reaching_append, bR, sR, xR, ihR hR]
    simp only [events.min_suff, events.max_suff, events.balance_reverse, events.kth]
    have hn : (!R.isNull) = true ↔ (inorder R).reverse ≠ [] := by
      cases R <;> simp [isNull, inorder]
    by_cases hc : (inorder R).reverse ≠ [] ∧
        events.min_pref (inorder R).reverse ≤ k ∧ k ≤ events.max_pref (inorder R).reverse
    · have : (!R.isNull && (decide (k ≥ events.min_pref (inorder R).reverse) &&
          decide (k ≤ events.max_pref (inorder R).reverse))) = true := by
        simp only [Bool.and_eq_true, decide_eq_true_eq, hn]; exact hc
      rw [if_pos this, if_pos hc]
    · have : ¬ ((!R.isNull && (decide (k ≥ events.min_pref (inorder R).reverse) &&
          decide (k ≤ events.max_pref (inorder R).reverse))) = true) := by
        simp only [Bool.and_eq_true, decide_eq_true_eq, hn]; exact hc
      rw [if_neg this, if_neg hc]
      simp only [events.first_reaching, ihL hL, events.kth]
      by_cases hk : events.balance (inorder R) + sign ins = k
      · have : sign ins = k - events.balance (inorder R) := by omega
        simp [hk, this]
      · have : ¬ sign ins = k - events.balance (inorder R) := by omega
        simp only [hk, this, if_false]
        congr 1; ring

end treap

/-! # The deque on event sequences -/

namespace retroactive_deque

variable {T : Type}

theorem wf_empty : (empty_deque : retroactive_deque T).wf :=
  ⟨treap.wf_null, treap.wf_null, treap.wf_null⟩

theorem view_empty : (empty_deque : retroactive_deque T).view = deque_events.empty_deque := rfl

theorem check_valid_view (d : retroactive_deque T) (h : d.balance_tree.wf) :
    d.check_valid = d.view.check_valid := by
  simp [check_valid, deque_events.check_valid, view, treap.get_min_pref_eq _ h.1]

theorem time_used_view (d : retroactive_deque T) (tm : Int) :
    d.time_used tm = d.view.time_used tm := rfl

/-- The function `insert_push_operation` acts on the logs and in-order sequences as
`deque_events.insert_push_operation`, whatever the priorities. -/
theorem insert_push_operation_view (d : retroactive_deque T) (x : T) (tm : Int)
    (back_op : Bool) (p₁ p₂ : Nat) (h : d.wf) :
    (d.insert_push_operation x tm back_op p₁ p₂).2.wf ∧
    (d.insert_push_operation x tm back_op p₁ p₂).1 =
      (d.view.insert_push_operation x tm back_op).1 ∧
    (d.insert_push_operation x tm back_op p₁ p₂).2.view =
      (d.view.insert_push_operation x tm back_op).2 := by
  obtain ⟨hl, hr, hb⟩ := h
  obtain ⟨wb, ib⟩ := treap.insert_spec d.balance_tree tm true p₁ hb
  obtain ⟨wbe, ibe⟩ := treap.erase_spec _ tm wb
  obtain ⟨wl, il⟩ := treap.insert_spec d.ul tm true p₂ hl
  obtain ⟨wr, ir⟩ := treap.insert_spec d.ur tm true p₂ hr
  unfold insert_push_operation deque_events.insert_push_operation
  rw [← time_used_view]
  cases d.time_used tm
  · simp only [Bool.false_eq_true, if_false]
    rw [check_valid_view _ wb]
    simp only [view, ib]
    split
    · exact ⟨⟨hl, hr, wbe⟩, rfl, by simp [ibe, ib]⟩
    · cases back_op
      · exact ⟨⟨wl, hr, wb⟩, rfl, by simp [il, ib]⟩
      · exact ⟨⟨hl, wr, wb⟩, rfl, by simp [ir, ib]⟩
  · exact ⟨⟨hl, hr, hb⟩, rfl, rfl⟩

/-- The function `insert_pop_operation` acts on the logs and in-order sequences as
`deque_events.insert_pop_operation`, whatever the priorities. -/
theorem insert_pop_operation_view (d : retroactive_deque T) (tm : Int)
    (back_op : Bool) (p₁ p₂ : Nat) (h : d.wf) :
    (d.insert_pop_operation tm back_op p₁ p₂).2.wf ∧
    (d.insert_pop_operation tm back_op p₁ p₂).1 =
      (d.view.insert_pop_operation tm back_op).1 ∧
    (d.insert_pop_operation tm back_op p₁ p₂).2.view =
      (d.view.insert_pop_operation tm back_op).2 := by
  obtain ⟨hl, hr, hb⟩ := h
  obtain ⟨wb, ib⟩ := treap.insert_spec d.balance_tree tm false p₁ hb
  obtain ⟨wbe, ibe⟩ := treap.erase_spec _ tm wb
  obtain ⟨wl, il⟩ := treap.insert_spec d.ul tm false p₂ hl
  obtain ⟨wr, ir⟩ := treap.insert_spec d.ur tm false p₂ hr
  unfold insert_pop_operation deque_events.insert_pop_operation
  rw [← time_used_view]
  cases d.time_used tm
  · simp only [Bool.false_eq_true, if_false]
    rw [check_valid_view _ wb]
    simp only [view, ib]
    split
    · exact ⟨⟨hl, hr, wbe⟩, rfl, by simp [ibe, ib]⟩
    · cases back_op
      · exact ⟨⟨wl, hr, wb⟩, rfl, by simp [il, ib]⟩
      · exact ⟨⟨hl, wr, wb⟩, rfl, by simp [ir, ib]⟩
  · exact ⟨⟨hl, hr, hb⟩, rfl, rfl⟩

/-- The function `delete_operation` acts on the logs and in-order sequences as
`deque_events.delete_operation`, whatever the priority. -/
theorem delete_operation_view (d : retroactive_deque T) (tm : Int) (p₁ : Nat) (h : d.wf) :
    (d.delete_operation tm p₁).2.wf ∧
    (d.delete_operation tm p₁).1 = (d.view.delete_operation tm).1 ∧
    (d.delete_operation tm p₁).2.view = (d.view.delete_operation tm).2 := by
  obtain ⟨hl, hr, hb⟩ := h
  obtain ⟨wb, ib⟩ := treap.erase_spec d.balance_tree tm hb
  obtain ⟨wbt, ibt⟩ := treap.insert_spec _ tm true p₁ wb
  obtain ⟨wbf, ibf⟩ := treap.insert_spec _ tm false p₁ wb
  obtain ⟨wl, il⟩ := treap.erase_spec d.ul tm hl
  obtain ⟨wr, ir⟩ := treap.erase_spec d.ur tm hr
  unfold delete_operation deque_events.delete_operation
  have hops : d.view.operations = d.operations := rfl
  have hpops : d.view.pop_operations = d.pop_operations := rfl
  rw [hops, hpops]
  split
  · simp only []
    rw [check_valid_view _ wb]
    simp only [view, ib]
    split
    · exact ⟨⟨hl, hr, wbt⟩, rfl, by simp [ibt, ib]⟩
    · exact ⟨⟨wl, wr, wb⟩, rfl, by simp [il, ir, ib]⟩
  · split
    · simp only []
      rw [check_valid_view _ wb]
      simp only [view, ib]
      split
      · exact ⟨⟨hl, hr, wbf⟩, rfl, by simp [ibf, ib]⟩
      · exact ⟨⟨wl, wr, wb⟩, rfl, by simp [il, ir, ib]⟩
    · exact ⟨⟨hl, hr, hb⟩, rfl, rfl⟩

/-- The query `back` returns the value computed on the in-order sequences and leaves
them unchanged. -/
theorem back_view [Inhabited T] (d : retroactive_deque T) (tm : Int) (h : d.wf) :
    (d.back tm).2.wf ∧ (d.back tm).1 = (d.view.back tm).1 ∧
    (d.back tm).2.view = (d.view.back tm).2 := by
  obtain ⟨hl, hr, hb⟩ := h
  obtain ⟨wl, il⟩ := treap.split_merge_spec d.ul tm hl
  obtain ⟨wr, ir⟩ := treap.split_merge_spec d.ur tm hr
  obtain ⟨al1, -⟩ := treap.aggOK_split d.ul tm hl.1
  obtain ⟨ar1, -⟩ := treap.aggOK_split d.ur tm hr.1
  obtain ⟨sl1, -⟩ := treap.inorder_split d.ul tm hl.2
  obtain ⟨sr1, -⟩ := treap.inorder_split d.ur tm hr.2
  simp only [back, deque_events.back, treap.get_max_suff_eq _ ar1, treap.get_min_pref_eq _ al1,
    treap.get_kth_eq _ ar1, treap.get_kth_eq _ al1, treap.get_balance_eq _ al1,
    treap.get_balance_eq _ ar1, sl1, sr1, deque_events.upto]
  exact ⟨⟨wl, wr, hb⟩, rfl, by simp [view, il, ir]⟩

/-- The query `front` returns the value computed on the in-order sequences and leaves
them unchanged. -/
theorem front_view [Inhabited T] (d : retroactive_deque T) (tm : Int) (h : d.wf) :
    (d.front tm).2.wf ∧ (d.front tm).1 = (d.view.front tm).1 ∧
    (d.front tm).2.view = (d.view.front tm).2 := by
  obtain ⟨hl, hr, hb⟩ := h
  obtain ⟨wl, il⟩ := treap.split_merge_spec d.ul tm hl
  obtain ⟨wr, ir⟩ := treap.split_merge_spec d.ur tm hr
  obtain ⟨al1, -⟩ := treap.aggOK_split d.ul tm hl.1
  obtain ⟨ar1, -⟩ := treap.aggOK_split d.ur tm hr.1
  obtain ⟨sl1, -⟩ := treap.inorder_split d.ul tm hl.2
  obtain ⟨sr1, -⟩ := treap.inorder_split d.ur tm hr.2
  simp only [front, deque_events.front, treap.get_max_suff_eq _ al1,
    treap.get_min_pref_eq _ ar1, treap.get_kth_eq _ ar1, treap.get_kth_eq _ al1,
    treap.get_balance_eq _ al1, treap.get_balance_eq _ ar1, sl1, sr1, deque_events.upto]
  exact ⟨⟨wl, wr, hb⟩, rfl, by simp [view, il, ir]⟩

theorem size_view (d : retroactive_deque T) (h : d.wf) : d.size = d.view.size := by
  simp [size, deque_events.size, view, treap.get_balance_eq _ h.2.2.1]

end retroactive_deque

namespace retroactive_deque

variable {T : Type}

theorem get_last_time_view (d : retroactive_deque T) :
    d.get_last_time = d.view.get_last_time := rfl

/-- Every call acts on the logs and in-order sequences as `deque_events.call`, whatever
the priorities. -/
theorem call_view [Inhabited T] (d : retroactive_deque T) (c : deque_call T) (h : d.wf) :
    (d.call c).2.wf ∧ (d.call c).1 = (d.view.call c).1 ∧
    (d.call c).2.view = (d.view.call c).2 := by
  cases c with
  | insert_push_back x tm p₁ p₂ =>
    obtain ⟨a, b, c⟩ := insert_push_operation_view d x tm true p₁ p₂ h
    exact ⟨a, by simp [call, deque_events.call, insert_push_back, b], c⟩
  | insert_push_front x tm p₁ p₂ =>
    obtain ⟨a, b, c⟩ := insert_push_operation_view d x tm false p₁ p₂ h
    exact ⟨a, by simp [call, deque_events.call, insert_push_front, b], c⟩
  | insert_pop_back tm p₁ p₂ =>
    obtain ⟨a, b, c⟩ := insert_pop_operation_view d tm true p₁ p₂ h
    exact ⟨a, by simp [call, deque_events.call, insert_pop_back, b], c⟩
  | insert_pop_front tm p₁ p₂ =>
    obtain ⟨a, b, c⟩ := insert_pop_operation_view d tm false p₁ p₂ h
    exact ⟨a, by simp [call, deque_events.call, insert_pop_front, b], c⟩
  | delete_operation tm p₁ =>
    obtain ⟨a, b, c⟩ := delete_operation_view d tm p₁ h
    exact ⟨a, by simp [call, deque_events.call, b], c⟩
  | push_back x p₁ p₂ =>
    obtain ⟨a, -, c⟩ := insert_push_operation_view d x d.get_last_time true p₁ p₂ h
    exact ⟨a, rfl, c⟩
  | push_front x p₁ p₂ =>
    obtain ⟨a, -, c⟩ := insert_push_operation_view d x d.get_last_time false p₁ p₂ h
    exact ⟨a, rfl, c⟩
  | pop_back p₁ p₂ =>
    obtain ⟨a, -, c⟩ := insert_pop_operation_view d d.get_last_time true p₁ p₂ h
    exact ⟨a, rfl, c⟩
  | pop_front p₁ p₂ =>
    obtain ⟨a, -, c⟩ := insert_pop_operation_view d d.get_last_time false p₁ p₂ h
    exact ⟨a, rfl, c⟩
  | clear => exact ⟨wf_empty, rfl, rfl⟩
  | back tm =>
    obtain ⟨a, b, c⟩ := back_view d tm h
    exact ⟨a, by simp [call, deque_events.call, b], c⟩
  | front tm =>
    obtain ⟨a, b, c⟩ := front_view d tm h
    exact ⟨a, by simp [call, deque_events.call, b], c⟩
  | size => exact ⟨h, by simp [call, deque_events.call, size_view d h], rfl⟩
  | empty => exact ⟨h, by simp [call, deque_events.call, empty, size_view d h], rfl⟩

/-- A sequence of calls returns the results computed on the logs and in-order sequences,
whatever the priorities. -/
theorem run_view [Inhabited T] (d : retroactive_deque T) (cs : List (deque_call T))
    (h : d.wf) :
    (d.run cs).2.wf ∧ (d.run cs).1 = (d.view.run cs).1 ∧
    (d.run cs).2.view = (d.view.run cs).2 := by
  induction cs generalizing d with
  | nil => exact ⟨h, rfl, rfl⟩
  | cons c cs ih =>
    obtain ⟨a, b, e⟩ := call_view d c h
    obtain ⟨a', b', e'⟩ := ih _ a
    simp only [run, deque_events.run]
    rw [← e, ← b]
    exact ⟨a', by rw [b'], e'⟩

end retroactive_deque

/-! # The claims on the retroactive deque -/

namespace retroactive_deque

/-- C1 (P-6 fails on the code): the five updates push_back(101)@1, pop_front@2,
push_front(103)@3, pop_back@4, push_back(105)@5 are all accepted, the replay of this
history into a plain double-ended queue ends as the one-element queue [105], and yet
back(+inf) and front(+inf) both return 103, the payload of a push that the history has
already popped.  This holds for every choice of treap priorities. -/
theorem C1_back_front_differ_from_replay (p₁ p₂ p₃ p₄ p₅ p₆ p₇ p₈ p₉ p₁₀ : Nat) :
    ((empty_deque : retroactive_deque Int).run
      [.insert_push_back 101 1 p₁ p₂, .insert_pop_front 2 p₃ p₄,
       .insert_push_front 103 3 p₅ p₆, .insert_pop_back 4 p₇ p₈,
       .insert_push_back 105 5 p₉ p₁₀, .back INT64_MAX, .front INT64_MAX]).1 =
      [.flag true, .flag true, .flag true, .flag true, .flag true, .value 103, .value 103] ∧
    plain_replay [.push_back 101, .pop_front, .push_front 103, .pop_back, .push_back 105] =
      [(105 : Int)] := by
  obtain ⟨-, h, -⟩ := run_view (empty_deque : retroactive_deque Int)
    [.insert_push_back 101 1 p₁ p₂, .insert_pop_front 2 p₃ p₄,
     .insert_push_front 103 3 p₅ p₆, .insert_pop_back 4 p₇ p₈,
     .insert_push_back 105 5 p₉ p₁₀, .back INT64_MAX, .front INT64_MAX] wf_empty
  rw [h, view_empty]
  simp only [deque_events.run, deque_events.call]
  decide!

end retroactive_deque

namespace retroactive_deque

/-- C2 (the scenario as the spec states it fails): with concrete priorities, after
push_back(1)@10, push_back(2)@20, push_back(3)@30 and the accepted insert_pop_front@15,
front() returns 2, not 3. -/
theorem C2_front_is_not_three :
    ((empty_deque : retroactive_deque Int).run
      [.insert_push_back 1 10 11 12, .insert_push_back 2 20 13 14,
       .insert_push_back 3 30 15 16, .insert_pop_front 15 17 18]).1 =
      [.flag true, .flag true, .flag true, .flag true] ∧
    (((empty_deque : retroactive_deque Int).run
      [.insert_push_back 1 10 11 12, .insert_push_back 2 20 13 14,
       .insert_push_back 3 30 15 16, .insert_pop_front 15 17 18]).2.front INT64_MAX).1 = 2 ∧
    (((empty_deque : retroactive_deque Int).run
      [.insert_push_back 1 10 11 12, .insert_push_back 2 20 13 14,
       .insert_push_back 3 30 15 16, .insert_pop_front 15 17 18]).2.front INT64_MAX).1 ≠ 3 := by
  decide!

/-- C2 (amended): after push_back(1)@10, push_back(2)@20, push_back(3)@30 the call
insert_pop_front(15) returns true, and afterwards front() returns 2 and back() returns 3,
for every choice of treap priorities. -/
theorem C2_scenario_front_two_back_three (p₁ p₂ p₃ p₄ p₅ p₆ p₇ p₈ : Nat) :
    ((empty_deque : retroactive_deque Int).run
      [.insert_push_back 1 10 p₁ p₂, .insert_push_back 2 20 p₃ p₄,
       .insert_push_back 3 30 p₅ p₆, .insert_pop_front 15 p₇ p₈,
       .front INT64_MAX, .back INT64_MAX]).1 =
      [.flag true, .flag true, .flag true, .flag true, .value 2, .value 3] := by
  obtain ⟨-, h, -⟩ := run_view (empty_deque : retroactive_deque Int)
    [.insert_push_back 1 10 p₁ p₂, .insert_push_back 2 20 p₃ p₄,
     .insert_push_back 3 30 p₅ p₆, .insert_pop_front 15 p₇ p₈,
     .front INT64_MAX, .back INT64_MAX] wf_empty
  rw [h, view_empty]
  simp only [deque_events.run, deque_events.call]
  decide!

/-- C3 (the admission rule fails on the code): the rejected insert_pop_back at the
smallest 64-bit time leaves both logs empty, so time 0 is unused and the event stream with
a push added at 0 is the single event +1; yet insert_push_back(7, 0) returns false.  The
rollback `treap::erase(balance_tree, tm)` splits at `tm - 1`, which wraps to the largest
time, and leaves the tentative -1 event in the balance tree. -/
theorem C3_push_at_unused_time_rejected (p₁ p₂ p₃ p₄ : Nat) :
    ((empty_deque : retroactive_deque Int).run [.insert_pop_back INT64_MIN p₁ p₂]).1 =
      [.flag false] ∧
    ((empty_deque : retroactive_deque Int).run
      [.insert_pop_back INT64_MIN p₁ p₂]).2.operations = [] ∧
    ((empty_deque : retroactive_deque Int).run
      [.insert_pop_back INT64_MIN p₁ p₂]).2.pop_operations = [] ∧
    ((empty_deque : retroactive_deque Int).run
      [.insert_pop_back INT64_MIN p₁ p₂, .insert_push_back 7 0 p₃ p₄]).1 =
      [.flag false, .flag false] := by
  obtain ⟨-, h₁, e₁⟩ := run_view (empty_deque : retroactive_deque Int)
    [.insert_pop_back INT64_MIN p₁ p₂] wf_empty
  obtain ⟨-, h₂, -⟩ := run_view (empty_deque : retroactive_deque Int)
    [.insert_pop_back INT64_MIN p₁ p₂, .insert_push_back 7 0 p₃ p₄] wf_empty
  have e₂ : ((empty_deque : retroactive_deque Int).run
      [.insert_pop_back INT64_MIN p₁ p₂]).2.operations =
      ((empty_deque : retroactive_deque Int).run
      [.insert_pop_back INT64_MIN p₁ p₂]).2.view.operations := rfl
  have e₃ : ((empty_deque : retroactive_deque Int).run
      [.insert_pop_back INT64_MIN p₁ p₂]).2.pop_operations =
      ((empty_deque : retroactive_deque Int).run
      [.insert_pop_back INT64_MIN p₁ p₂]).2.view.pop_operations := rfl
  rw [e₂, e₃, e₁, h₁, h₂, view_empty]
  simp only [deque_events.run, deque_events.call]
  decide!

/-- C4 (invariant I-5 fails on the code): after the rejected insert_pop_back at the
smallest 64-bit time on the empty deque, the balance tree still holds the event
(INT64_MIN, -1), and `min_pref` of the balance tree is -1, so `check_valid` is false. -/
theorem C4_min_pref_negative_after_rejected_pop (p₁ p₂ : Nat) :
    ((empty_deque : retroactive_deque Int).insert_pop_back INT64_MIN p₁ p₂).1 = false ∧
    ((empty_deque : retroactive_deque Int).insert_pop_back INT64_MIN p₁ p₂).2.balance_tree.inorder
      = [(INT64_MIN, false)] ∧
    treap.get_min_pref
      ((empty_deque : retroactive_deque Int).insert_pop_back INT64_MIN p₁ p₂).2.balance_tree
      = -1 ∧
    ((empty_deque : retroactive_deque Int).insert_pop_back INT64_MIN p₁ p₂).2.check_valid
      = false := by
  obtain ⟨w, h, e⟩ := insert_pop_operation_view (empty_deque : retroactive_deque Int)
    INT64_MIN true p₁ p₂ wf_empty
  have eb : ((empty_deque : retroactive_deque Int).insert_pop_operation INT64_MIN true p₁
      p₂).2.balance_tree.inorder =
      ((empty_deque : retroactive_deque Int).insert_pop_operation INT64_MIN true p₁
      p₂).2.view.balance_tree := rfl
  simp only [insert_pop_back]
  rw [check_valid_view _ w.2.2, treap.get_min_pref_eq _ w.2.2.1, eb, h, e, view_empty]
  decide!

/-- C5 (rollback atomicity fails on the code): insert_pop_back at the smallest 64-bit
time on the empty deque returns false, and the in-order sequence of the balance tree,
empty before the call, is [(INT64_MIN, -1)] after it. -/
theorem C5_rejected_pop_changes_balance_tree (p₁ p₂ : Nat) :
    ((empty_deque : retroactive_deque Int).insert_pop_back INT64_MIN p₁ p₂).1 = false ∧
    (empty_deque : retroactive_deque Int).view.balance_tree = [] ∧
    ((empty_deque : retroactive_deque Int).insert_pop_back INT64_MIN p₁ p₂).2.view.balance_tree
      = [(INT64_MIN, false)] ∧
    ((empty_deque : retroactive_deque Int).insert_pop_back INT64_MIN p₁ p₂).2.view ≠
      (empty_deque : retroactive_deque Int).view := by
  obtain ⟨-, h, e⟩ := insert_pop_operation_view (empty_deque : retroactive_deque Int)
    INT64_MIN true p₁ p₂ wf_empty
  simp only [insert_pop_back]
  rw [h, e, view_empty]
  decide!

/-- C6 (size fails on the code): after the rejected insert_pop_back at the smallest 64-bit
time on the empty deque no push and no pop is logged, and the replay of the empty history
is the empty queue; yet size() returns 2^64 - 1 and empty() returns false. -/
theorem C6_size_of_unlogged_event (p₁ p₂ : Nat) :
    ((empty_deque : retroactive_deque Int).run
      [.insert_pop_back INT64_MIN p₁ p₂, .size, .empty]).1 =
      [.flag false, .count 18446744073709551615, .flag false] ∧
    ((empty_deque : retroactive_deque Int).run
      [.insert_pop_back INT64_MIN p₁ p₂, .size, .empty]).2.view.operations = [] ∧
    ((empty_deque : retroactive_deque Int).run
      [.insert_pop_back INT64_MIN p₁ p₂, .size, .empty]).2.view.pop_operations = [] ∧
    plain_replay ([] : List (plain_update Int)) = ([] : List Int) := by
  obtain ⟨-, h, e⟩ := run_view (empty_deque : retroactive_deque Int)
    [.insert_pop_back INT64_MIN p₁ p₂, .size, .empty] wf_empty
  rw [h, e, view_empty]
  simp only [deque_events.run, deque_events.call]
  decide!

end retroactive_deque

/-! # The multiset on event sequences -/

namespace retroactive_unordered_multiset

theorem wf_empty_multiset {T : Type} : (empty_multiset : retroactive_unordered_multiset T).wf := by
  intro e he; simp [empty_multiset] at he

theorem view_empty_multiset {T : Type} :
    (empty_multiset : retroactive_unordered_multiset T).view =
      multiset_events.empty_multiset := rfl

variable {T : Type} [DecidableEq T]

theorem seq_find_map {V W : Type} (f : V → W) (m : List (T × V)) (x : T) :
    seq_find (m.map fun e => (e.1, f e.2)) x = (seq_find m x).map f := by
  induction m with
  | nil => rfl
  | cons e m ih =>
    obtain ⟨y, t⟩ := e
    simp only [List.map_cons, seq_find]
    split <;> simp [ih]

theorem seq_assign_map {V W : Type} (f : V → W) (m : List (T × V)) (x : T) (t : V) :
    (seq_assign m x t).map (fun e => (e.1, f e.2)) =
      seq_assign (m.map fun e => (e.1, f e.2)) x (f t) := by
  induction m with
  | nil => rfl
  | cons e m ih =>
    obtain ⟨y, t'⟩ := e
    simp only [List.map_cons, seq_assign]
    split <;> simp [ih]

theorem seq_erase_map {V W : Type} (f : V → W) (m : List (T × V)) (x : T) :
    (seq_erase m x).map (fun e => (e.1, f e.2)) =
      seq_erase (m.map fun e => (e.1, f e.2)) x := by
  simp only [seq_erase, List.filter_map]
  rfl

theorem seq_assign_self {V : Type} (m : List (T × V)) (x : T) (t : V)
    (h : seq_find m x = some t) : seq_assign m x t = m := by
  induction m with
  | nil => simp [seq_find] at h
  | cons e m ih =>
    obtain ⟨y, t'⟩ := e
    simp only [seq_find] at h
    simp only [seq_assign]
    split
    · rename_i hy; simp only [hy, if_true, Option.some.injEq] at h; rw [h]
    · rename_i hy; simp only [hy, if_false] at h; rw [ih h]

theorem mem_seq_assign {V : Type} (m : List (T × V)) (x : T) (t : V) (e : T × V)
    (h : e ∈ seq_assign m x t) : e ∈ m ∨ e = (x, t) := by
  induction m with
  | nil => simp [seq_assign] at h; exact Or.inr h
  | cons e' m ih =>
    obtain ⟨y, t'⟩ := e'
    simp only [seq_assign] at h
    split at h
    · rename_i hy
      simp only [List.mem_cons] at h ⊢
      rcases h with h | h
      · right; rw [h, hy]
      · left; right; exact h
    · simp only [List.mem_cons] at h ⊢
      rcases h with h | h
      · left; left; exact h
      · rcases ih h with h | h
        · left; right; exact h
        · right; exact h

theorem mem_of_seq_find {V : Type} (m : List (T × V)) (x : T) (t : V)
    (h : seq_find m x = some t) : (x, t) ∈ m := by
  induction m with
  | nil => simp [seq_find] at h
  | cons e m ih =>
    obtain ⟨y, t'⟩ := e
    simp only [seq_find] at h
    split at h
    · rename_i hy; simp only [Option.some.injEq] at h; simp [hy, h]
    · exact List.mem_cons_of_mem _ (ih h)

theorem wf_seq_assign (s : retroactive_unordered_multiset T) (x : T) (t : treap)
    (h : s.wf) (ht : t.wf) (ops : List (Int × T)) :
    ({ operations := ops, sequences := seq_assign s.sequences x t } :
      retroactive_unordered_multiset T).wf := by
  intro e he
  rcases mem_seq_assign _ _ _ _ he with he | he
  · exact h e he
  · rw [he]; exact ht

theorem wf_seq_erase (s : retroactive_unordered_multiset T) (x : T)
    (h : s.wf) (ops : List (Int × T)) :
    ({ operations := ops, sequences := seq_erase s.sequences x } :
      retroactive_unordered_multiset T).wf := by
  intro e he
  exact h e (List.mem_of_mem_filter he)

theorem wf_of_seq_find (s : retroactive_unordered_multiset T) (x : T) (t : treap)
    (h : s.wf) (hf : seq_find s.sequences x = some t) : t.wf :=
  h _ (mem_of_seq_find _ _ _ hf)

theorem wf_seq_get (s : retroactive_unordered_multiset T) (x : T) (h : s.wf) :
    (seq_get s.sequences x).wf := by
  unfold seq_get
  cases hf : seq_find s.sequences x with
  | none => exact treap.wf_null
  | some t => exact wf_of_seq_find s x t h hf

theorem seq_find_view (s : retroactive_unordered_multiset T) (x : T) :
    seq_find s.view.sequences x = (seq_find s.sequences x).map treap.inorder :=
  seq_find_map treap.inorder s.sequences x

theorem seq_get_view (s : retroactive_unordered_multiset T) (x : T) :
    (seq_get s.sequences x).inorder = multiset_events.seq_get s.view.sequences x := by
  unfold seq_get multiset_events.seq_get
  rw [seq_find_view]
  cases seq_find s.sequences x <;> rfl

/-- The retroactive `insert` acts on the log and in-order sequences as
`multiset_events.insert`, whatever the priority. -/
theorem ms_insert_view (s : retroactive_unordered_multiset T) (x : T) (tm : Int) (p : Nat)
    (h : s.wf) :
    (s.insert x tm p).2.wf ∧ (s.insert x tm p).1 = (s.view.insert x tm).1 ∧
    (s.insert x tm p).2.view = (s.view.insert x tm).2 := by
  obtain ⟨wi, ii⟩ := treap.insert_spec _ tm true p (wf_seq_get s x h)
  unfold insert multiset_events.insert
  have hops : s.view.operations = s.operations := rfl
  rw [hops]
  split
  · exact ⟨h, rfl, rfl⟩
  · refine ⟨wf_seq_assign s x _ h wi _, rfl, ?_⟩
    simp only [view]
    rw [seq_assign_map treap.inorder, ii, seq_get_view]
    rfl

theorem isNull_eq_isEmpty (t : treap) : t.isNull = t.inorder.isEmpty := by
  cases t <;> simp [treap.isNull, treap.inorder]

/-- The retroactive `erase` acts on the log and in-order sequences as
`multiset_events.erase`, whatever the priority. -/
theorem ms_erase_view (s : retroactive_unordered_multiset T) (x : T) (tm : Int) (p : Nat)
    (h : s.wf) :
    (s.erase x tm p).2.wf ∧ (s.erase x tm p).1 = (s.view.erase x tm).1 ∧
    (s.erase x tm p).2.view = (s.view.erase x tm).2 := by
  obtain ⟨wi, ii⟩ := treap.insert_spec _ tm false p (wf_seq_get s x h)
  obtain ⟨we, ie⟩ := treap.erase_spec _ tm wi
  unfold erase multiset_events.erase
  have hops : s.view.operations = s.operations := rfl
  rw [hops]
  split
  · exact ⟨h, rfl, rfl⟩
  · simp only [treap.get_min_pref_eq _ wi.1, ii, seq_get_view, isNull_eq_isEmpty, ie]
    split
    · split
      · refine ⟨wf_seq_erase s x h _, rfl, ?_⟩
        simp only [view]
        rw [seq_erase_map treap.inorder]
      · refine ⟨wf_seq_assign s x _ h we _, rfl, ?_⟩
        simp only [view]
        rw [seq_assign_map treap.inorder, ie, ii, seq_get_view]
        rfl
    · refine ⟨wf_seq_assign s x _ h wi _, rfl, ?_⟩
      simp only [view]
      rw [seq_assign_map treap.inorder, ii, seq_get_view]
      rfl

/-- The function `delete_operation` acts on the log and in-order sequences as
`multiset_events.delete_operation`, whatever the priority; it is undefined on the one iff
it is undefined on the other. -/
theorem ms_delete_operation_view (s : retroactive_unordered_multiset T) (tm : Int) (p : Nat)
    (h : s.wf) :
    (∀ r, s.delete_operation tm p = some r → r.2.wf) ∧
    (s.delete_operation tm p).map (fun r => (r.1, r.2.view)) = s.view.delete_operation tm := by
  unfold delete_operation multiset_events.delete_operation
  have hops : s.view.operations = s.operations := rfl
  rw [hops]
  cases map_find s.operations tm with
  | none => exact ⟨fun r hr => by simp only [Option.some.injEq] at hr; rw [← hr]; exact h, rfl⟩
  | some x =>
    simp only []
    rw [seq_find_view]
    cases hf : seq_find s.sequences x with
    | none => exact ⟨fun r hr => by simp at hr, rfl⟩
    | some t =>
      have wt := wf_of_seq_find s x t h hf
      obtain ⟨we, ie⟩ := treap.erase_spec t tm wt
      obtain ⟨wi, ii⟩ := treap.insert_spec _ tm true p we
      simp only [Option.map_some', treap.get_min_pref_eq _ we.1, ie, isNull_eq_isEmpty]
      split
      · refine ⟨fun r hr => ?_, ?_⟩
        · simp only [Option.some.injEq] at hr; rw [← hr]
          exact wf_seq_assign s x _ h wi _
        · simp only [Option.map_some', view, Option.some.injEq, Prod.mk.injEq, true_and]
          rw [seq_assign_map treap.inorder, ii, ie]
      · split
        · refine ⟨fun r hr => ?_, ?_⟩
          · simp only [Option.some.injEq] at hr; rw [← hr]
            exact wf_seq_erase s x h _
          · simp only [Option.map_some', view, Option.some.injEq, Prod.mk.injEq, true_and]
            rw [seq_erase_map treap.inorder]
        · refine ⟨fun r hr => ?_, ?_⟩
          · simp only [Option.some.injEq] at hr; rw [← hr]
            exact wf_seq_assign s x _ h we _
          · simp only [Option.map_some', view, Option.some.injEq, Prod.mk.injEq, true_and]
            rw [seq_assign_map treap.inorder, ie]

/-- The query `find` returns the answer computed on the in-order sequences and leaves
them unchanged. -/
theorem ms_find_view (s : retroactive_unordered_multiset T) (x : T) (tm : Int) (h : s.wf) :
    (s.find x tm).2.wf ∧ (s.find x tm).1 = s.view.find x tm ∧
    (s.find x tm).2.view = s.view := by
  unfold find multiset_events.find
  rw [seq_find_view]
  cases hf : seq_find s.sequences x with
  | none => exact ⟨h, rfl, rfl⟩
  | some t =>
    have wt := wf_of_seq_find s x t h hf
    obtain ⟨wm, im⟩ := treap.split_merge_spec t tm wt
    obtain ⟨a1, -⟩ := treap.aggOK_split t tm wt.1
    obtain ⟨s1, -⟩ := treap.inorder_split t tm wt.2
    refine ⟨wf_seq_assign s x _ h wm _, ?_, ?_⟩
    · simp only [Option.map_some', treap.get_max_suff_eq _ a1, s1]
    · simp only [view]
      rw [seq_assign_map treap.inorder, im]
      have := seq_assign_self (s.sequences.map fun e => (e.1, e.2.inorder)) x t.inorder
        (by rw [seq_find_map treap.inorder, hf]; rfl)
      rw [this]

omit [DecidableEq T] in
theorem ms_get_last_time_view (s : retroactive_unordered_multiset T) :
    s.get_last_time = s.view.get_last_time := rfl

/-- Every call acts on the log and in-order sequences as `multiset_events.call`, whatever
the priority. -/
theorem ms_call_view (s : retroactive_unordered_multiset T) (c : multiset_call T) (h : s.wf) :
    (∀ r, s.call c = some r → r.2.wf) ∧
    (s.call c).map (fun r => (r.1, r.2.view)) = s.view.call c := by
  cases c with
  | insert x tm p =>
    obtain ⟨a, b, e⟩ := ms_insert_view s x tm p h
    refine ⟨fun r hr => ?_, ?_⟩
    · simp only [call, Option.some.injEq] at hr; rw [← hr]; exact a
    · simp [call, multiset_events.call, b, e]
  | erase x tm p =>
    obtain ⟨a, b, e⟩ := ms_erase_view s x tm p h
    refine ⟨fun r hr => ?_, ?_⟩
    · simp only [call, Option.some.injEq] at hr; rw [← hr]; exact a
    · simp [call, multiset_events.call, b, e]
  | delete_operation tm p =>
    obtain ⟨a, b⟩ := ms_delete_operation_view s tm p h
    refine ⟨fun r hr => ?_, ?_⟩
    · simp only [call, Option.map_eq_some'] at hr
      obtain ⟨r', hr', e⟩ := hr
      rw [← e]; exact a r' hr'
    · simp only [call, multiset_events.call, ← b, Option.map_map]
      rfl
  | find x tm =>
    obtain ⟨a, b, e⟩ := ms_find_view s x tm h
    refine ⟨fun r hr => ?_, ?_⟩
    · simp only [call, Option.some.injEq] at hr; rw [← hr]; exact a
    · simp [call, multiset_events.call, b, e]
  | insert_now x p =>
    obtain ⟨a, b, e⟩ := ms_insert_view s x s.get_last_time p h
    refine ⟨fun r hr => ?_, ?_⟩
    · simp only [call, Option.some.injEq] at hr; rw [← hr]; exact a
    · rw [ms_get_last_time_view] at b e
      simp [call, multiset_events.call, insert_now, b, e, ms_get_last_time_view]
  | erase_now x p =>
    obtain ⟨a, b, e⟩ := ms_erase_view s x s.get_last_time p h
    refine ⟨fun r hr => ?_, ?_⟩
    · simp only [call, Option.some.injEq] at hr; rw [← hr]; exact a
    · rw [ms_get_last_time_view] at b e
      simp [call, multiset_events.call, erase_now, b, e, ms_get_last_time_view]
  | clear =>
    refine ⟨fun r hr => ?_, rfl⟩
    simp only [call, Option.some.injEq] at hr; rw [← hr]; exact wf_empty_multiset

/-- A sequence of calls returns the results computed on the log and in-order sequences,
whatever the priorities. -/
theorem ms_run_view (s : retroactive_unordered_multiset T) (cs : List (multiset_call T))
    (h : s.wf) :
    (∀ r, s.run cs = some r → r.2.wf) ∧
    (s.run cs).map (fun r => (r.1, r.2.view)) = s.view.run cs := by
  induction cs generalizing s with
  | nil =>
    refine ⟨fun r hr => ?_, rfl⟩
    simp only [run, Option.some.injEq] at hr; rw [← hr]; exact h
  | cons c cs ih =>
    obtain ⟨a, b⟩ := ms_call_view s c h
    simp only [run, multiset_events.run]
    rw [← b]
    cases hc : s.call c with
    | none => exact ⟨fun r hr => by simp at hr, rfl⟩
    | some r =>
      obtain ⟨a', b'⟩ := ih r.2 (a r hc)
      simp only [Option.map_some']
      rw [← b']
      cases hr : r.2.run cs with
      | none => exact ⟨fun r hr => by simp at hr, rfl⟩
      | some rs =>
        refine ⟨fun r' hr' => ?_, rfl⟩
        simp only [Option.some.injEq] at hr'
        rw [← hr']
        exact a' rs hr

end retroactive_unordered_multiset

/-! # The claims on the retroactive unordered multiset -/

namespace retroactive_unordered_multiset

/-- C7 (the count-at-time reading of find fails on the code): insert(7) at the smallest
64-bit time is accepted and delete_operation at that time returns true, after which the
log is empty, so no insert and no erase of 7 is logged; yet find(7, 0) returns true.
`treap::erase` splits at `tm - 1`, which wraps to the largest time, and the +1 event
stays in the tree of key 7. -/
theorem C7_find_true_with_empty_log (p₁ p₂ : Nat) :
    ((empty_multiset : retroactive_unordered_multiset Int).run
      [.insert 7 INT64_MIN p₁, .delete_operation INT64_MIN p₂, .find 7 0]).map
      (fun r => (r.1, r.2.view)) =
    some ([some true, some true, some true],
          { operations := [], sequences := [(7, [(INT64_MIN, true)])] }) := by
  obtain ⟨-, h⟩ := ms_run_view (empty_multiset : retroactive_unordered_multiset Int)
    [.insert 7 INT64_MIN p₁, .delete_operation INT64_MIN p₂, .find 7 0] wf_empty_multiset
  rw [h, view_empty_multiset]
  simp only [multiset_events.run, multiset_events.call]
  decide!

/-- C9 (invariant I-4 fails on the code): erase(7) at the smallest 64-bit time on the
empty multiset returns false, and afterwards the event sequence stored for key 7 is the
single event -1, whose first prefix sum is -1. -/
theorem C9_negative_prefix_after_rejected_erase (p : Nat) :
    ((empty_multiset : retroactive_unordered_multiset Int).erase 7 INT64_MIN p).1 = false ∧
    ((empty_multiset : retroactive_unordered_multiset Int).erase 7 INT64_MIN p).2.view.sequences
      = [(7, [(INT64_MIN, false)])] ∧
    events.balance ([(INT64_MIN, false)].take 1) = -1 ∧
    ¬ events.prefixes_nonneg [(INT64_MIN, false)] := by
  obtain ⟨-, h, e⟩ := ms_erase_view (empty_multiset : retroactive_unordered_multiset Int)
    7 INT64_MIN p wf_empty_multiset
  rw [h, e, view_empty_multiset]
  refine ⟨by decide!, by decide!, by decide!, ?_⟩
  intro hn
  have := hn 1
  revert this
  decide!

/-- C10 (admission and rollback fail on the code): (c) erase(7) at the smallest 64-bit time
on the empty multiset returns false but changes the state: key 7 had no event sequence
before the call and has the sequence [(INT64_MIN, -1)] after it; (b) after insert(7) at the
smallest time and erase(7)@5, delete_operation at the smallest time returns true, although
the sequence of key 7 with the insert removed is the single event -1. -/
theorem C10_rejected_erase_changes_state (p₁ p₂ p₃ p₄ : Nat) :
    ((empty_multiset : retroactive_unordered_multiset Int).erase 7 INT64_MIN p₁).1 = false ∧
    (empty_multiset : retroactive_unordered_multiset Int).view.sequences = [] ∧
    ((empty_multiset : retroactive_unordered_multiset Int).erase 7 INT64_MIN p₁).2.view.sequences
      = [(7, [(INT64_MIN, false)])] ∧
    ((empty_multiset : retroactive_unordered_multiset Int).run
      [.insert 7 INT64_MIN p₂, .erase 7 5 p₃, .delete_operation INT64_MIN p₄]).map
      (fun r => (r.1, r.2.view)) =
    some ([some true, some true, some true],
          { operations := [(5, 7)], sequences := [(7, [(INT64_MIN, true), (5, false)])] }) ∧
    ¬ events.prefixes_nonneg [(5, false)] := by
  obtain ⟨-, h, e⟩ := ms_erase_view (empty_multiset : retroactive_unordered_multiset Int)
    7 INT64_MIN p₁ wf_empty_multiset
  obtain ⟨-, h'⟩ := ms_run_view (empty_multiset : retroactive_unordered_multiset Int)
    [.insert 7 INT64_MIN p₂, .erase 7 5 p₃, .delete_operation INT64_MIN p₄] wf_empty_multiset
  rw [h, e, h', view_empty_multiset]
  simp only [multiset_events.run, multiset_events.call]
  refine ⟨by decide!, by decide!, by decide!, by decide!, ?_⟩
  intro hn
  have := hn 1
  revert this
  decide!

end retroactive_unordered_multiset

/-! # Event sequences with distinct times -/

namespace events

theorem bool_eq_of_iff {a b : Bool} (h : a = true ↔ b = true) : a = b :=
  Bool.eq_iff_iff.mpr h

theorem wrap64_pred (tm : Int) (h : above_min tm) : wrap64 (tm - 1) = tm - 1 := by
  obtain ⟨h1, h2⟩ := h
  simp only [INT64_MIN, INT64_MAX] at h1 h2
  simp only [wrap64]
  omega

theorem sorted_of_strictly_sorted (l : List (Int × Bool)) (h : strictly_sorted l) :
    sorted l :=
  List.Pairwise.imp (fun h => le_of_lt h) h

theorem erase_eq (l : List (Int × Bool)) (tm : Int) (h : above_min tm) :
    erase l tm = l.filter (fun e => decide (e.1 < tm)) ++ l.filter (fun e => decide (tm < e.1)) := by
  simp only [erase, wrap64_pred tm h, List.filter_filter]
  congr 1
  apply List.filter_congr
  intro e _
  apply bool_eq_of_iff
  simp only [Bool.and_eq_true, decide_eq_true_eq]
  omega

theorem sorted_decomp (l : List (Int × Bool)) (tm : Int) (h : sorted l) :
    l.filter (fun e => decide (e.1 < tm)) ++
      (l.filter (fun e => decide (e.1 = tm)) ++ l.filter (fun e => decide (tm < e.1))) = l := by
  induction l with
  | nil => rfl
  | cons e l ih =>
    simp only [sorted, List.pairwise_cons] at h
    obtain ⟨he, hl⟩ := h
    have ih := ih hl
    rcases lt_trichotomy e.1 tm with hlt | heq | hgt
    · rw [List.filter_cons_of_pos (by simpa using hlt),
        List.filter_cons_of_neg (by simp only [decide_eq_true_eq]; omega),
        List.filter_cons_of_neg (by simp only [decide_eq_true_eq]; omega),
        List.cons_append, ih]
    · have e1 : l.filter (fun e => decide (e.1 < tm)) = [] := by
        rw [List.filter_eq_nil_iff]; intro y hy
        have := he y hy
        simp only [decide_eq_true_eq]; omega
      rw [e1] at ih
      rw [List.filter_cons_of_neg (by simp only [decide_eq_true_eq]; omega),
        List.filter_cons_of_pos (by simpa using heq),
        List.filter_cons_of_neg (by simp only [decide_eq_true_eq]; omega), e1]
      simp only [List.nil_append, List.cons_append] at ih ⊢
      rw [ih]
    · have e1 : l.filter (fun e => decide (e.1 < tm)) = [] := by
        rw [List.filter_eq_nil_iff]; intro y hy
        have := he y hy
        simp only [decide_eq_true_eq]; omega
      have e2 : l.filter (fun e => decide (e.1 = tm)) = [] := by
        rw [List.filter_eq_nil_iff]; intro y hy
        have := he y hy
        simp only [decide_eq_true_eq]; omega
      rw [e1, e2] at ih
      rw [List.filter_cons_of_neg (by simp only [decide_eq_true_eq]; omega),
        List.filter_cons_of_neg (by simp only [decide_eq_true_eq]; omega),
        List.filter_cons_of_pos (by simpa using hgt), e1, e2]
      simp only [List.nil_append] at ih ⊢
      rw [ih]

theorem filter_le_eq (l : List (Int × Bool)) (tm : Int) (h : sorted l) :
    l.filter (fun e => decide (e.1 ≤ tm)) =
      l.filter (fun e => decide (e.1 < tm)) ++ l.filter (fun e => decide (e.1 = tm)) := by
  have hd := sorted_decomp l tm h
  have h1 : (l.filter (fun e => decide (e.1 < tm))).filter (fun e => decide (e.1 ≤ tm)) =
      l.filter (fun e => decide (e.1 < tm)) := by
    rw [List.filter_filter]; apply List.filter_congr; intro e _
    apply bool_eq_of_iff
    simp only [Bool.and_eq_true, decide_eq_true_eq]; omega
  have h2 : (l.filter (fun e => decide (e.1 = tm))).filter (fun e => decide (e.1 ≤ tm)) =
      l.filter (fun e => decide (e.1 = tm)) := by
    rw [List.filter_filter]; apply List.filter_congr; intro e _
    apply bool_eq_of_iff
    simp only [Bool.and_eq_true, decide_eq_true_eq]; omega
  have h3 : (l.filter (fun e => decide (tm < e.1))).filter (fun e => decide (e.1 ≤ tm)) = [] := by
    rw [List.filter_filter, List.filter_eq_nil_iff]; intro e _
    simp only [Bool.and_eq_true, decide_eq_true_eq]; omega
  conv_lhs => rw [← hd]
  simp only [List.filter_append, h1, h2, h3, List.append_nil]

theorem filter_eq_nil_of_unused (l : List (Int × Bool)) (tm : Int)
    (h : ∀ e ∈ l, e.1 ≠ tm) : l.filter (fun e => decide (e.1 = tm)) = [] := by
  rw [List.filter_eq_nil_iff]; intro e he
  simpa using h e he

theorem filter_eq_singleton (l : List (Int × Bool)) (tm : Int) (b : Bool)
    (h : strictly_sorted l) (hm : (tm, b) ∈ l) :
    l.filter (fun e => decide (e.1 = tm)) = [(tm, b)] := by
  induction l with
  | nil => simp at hm
  | cons e l ih =>
    simp only [strictly_sorted, List.pairwise_cons] at h
    obtain ⟨he, hl⟩ := h
    simp only [List.mem_cons] at hm
    rcases hm with hm | hm
    · subst hm
      have : l.filter (fun e => decide (e.1 = tm)) = [] := by
        rw [List.filter_eq_nil_iff]; intro y hy
        have := he y hy
        simp only [decide_eq_true_eq]; simp only at this; omega
      simp [List.filter_cons, this]
    · have hne : ¬ e.1 = tm := by
        have := he _ hm
        simp only at this; omega
      simp only [List.filter_cons, hne, decide_False, Bool.false_eq_true, if_false]
      exact ih hl hm

/-- Inserting an event at an unused time and erasing that time restores the sequence. -/
theorem erase_insert (l : List (Int × Bool)) (tm : Int) (b : Bool) (hs : sorted l)
    (hu : ∀ e ∈ l, e.1 ≠ tm) (ht : above_min tm) : erase (insert l tm b) tm = l := by
  rw [erase_eq _ _ ht]
  have h0 := filter_eq_nil_of_unused l tm hu
  have hd := sorted_decomp l tm hs
  rw [h0, List.nil_append] at hd
  simp only [insert, List.filter_append, List.filter_cons, List.filter_filter, lt_irrefl,
    decide_False, Bool.false_eq_true, if_false]
  have h1 : l.filter (fun e => decide (e.1 < tm) && decide (e.1 ≤ tm)) =
      l.filter (fun e => decide (e.1 < tm)) := by
    apply List.filter_congr; intro e _
    apply bool_eq_of_iff
    simp only [Bool.and_eq_true, decide_eq_true_eq]; omega
  have h2 : l.filter (fun e => decide (e.1 < tm) && decide (tm < e.1)) = [] := by
    rw [List.filter_eq_nil_iff]; intro e _
    simp only [Bool.and_eq_true, decide_eq_true_eq]; omega
  have h3 : l.filter (fun e => decide (tm < e.1) && decide (e.1 ≤ tm)) = [] := by
    rw [List.filter_eq_nil_iff]; intro e _
    simp only [Bool.and_eq_true, decide_eq_true_eq]; omega
  have h4 : l.filter (fun e => decide (tm < e.1) && decide (tm < e.1)) =
      l.filter (fun e => decide (tm < e.1)) := by
    apply List.filter_congr; intro e _
    simp
  rw [h1, h2, h3, h4]
  simpa using hd

/-- Erasing a present event and inserting it again restores the sequence. -/
theorem insert_erase (l : List (Int × Bool)) (tm : Int) (b : Bool) (hs : strictly_sorted l)
    (hm : (tm, b) ∈ l) (ht : above_min tm) : insert (erase l tm) tm b = l := by
  rw [erase_eq _ _ ht]
  have h0 := filter_eq_singleton l tm b hs hm
  have hd := sorted_decomp l tm (sorted_of_strictly_sorted l hs)
  rw [h0] at hd
  simp only [insert, List.filter_append, List.filter_filter]
  have h1 : l.filter (fun e => decide (e.1 ≤ tm) && decide (e.1 < tm)) =
      l.filter (fun e => decide (e.1 < tm)) := by
    apply List.filter_congr; intro e _
    apply bool_eq_of_iff
    simp only [Bool.and_eq_true, decide_eq_true_eq]; omega
  have h2 : l.filter (fun e => decide (e.1 ≤ tm) && decide (tm < e.1)) = [] := by
    rw [List.filter_eq_nil_iff]; intro e _
    simp only [Bool.and_eq_true, decide_eq_true_eq]; omega
  have h3 : l.filter (fun e => decide (tm < e.1) && decide (e.1 < tm)) = [] := by
    rw [List.filter_eq_nil_iff]; intro e _
    simp only [Bool.and_eq_true, decide_eq_true_eq]; omega
  have h4 : l.filter (fun e => decide (tm < e.1) && decide (tm < e.1)) =
      l.filter (fun e => decide (tm < e.1)) := by
    apply List.filter_congr; intro e _
    simp
  rw [h1, h2, h3, h4]
  simpa using hd

end events

namespace events

theorem min_pref_le_balance (l : List (Int × Bool)) (h : l ≠ []) : min_pref l ≤ balance l := by
  induction l with
  | nil => exact absurd rfl h
  | cons e l ih =>
    simp only [min_pref, balance_cons]
    by_cases hl : l = []
    · subst hl; simp [min_pref]
    · have := ih hl; omega

theorem min_pref_append_general (a b : List (Int × Bool)) :
    min_pref (a ++ b) =
      if a = [] then min_pref b
      else if b = [] then min_pref a
      else min (min_pref a) (balance a + min_pref b) := by
  cases b with
  | nil => by_cases ha : a = [] <;> simp [ha, min_pref]
  | cons e b =>
    rw [min_pref_append]
    by_cases ha : a = []
    · simp [ha, min_pref]
    · simp only [ha, if_false, reduceCtorEq, min_pref]
      congr 1; ring

theorem valid_prefix (a b : List (Int × Bool)) (h : 0 ≤ min_pref (a ++ b)) :
    0 ≤ min_pref a := by
  rw [min_pref_append_general] at h
  by_cases ha : a = []
  · subst ha; simp [min_pref]
  · by_cases hb : b = []
    · simpa [ha, hb] using h
    · simp only [ha, hb, if_false] at h; omega

theorem valid_insert_pos (a b : List (Int × Bool)) (t : Int)
    (h : 0 ≤ min_pref (a ++ b)) : 0 ≤ min_pref (a ++ (t, true) :: b) := by
  rw [min_pref_append]
  rw [min_pref_append_general] at h
  have hs : treap.sign (t, true).2 = 1 := rfl
  rw [hs]
  by_cases ha : a = []
  · simp only [ha, if_true] at h ⊢; omega
  · have hab := min_pref_le_balance a ha
    by_cases hb : b = []
    · simp only [ha, hb, if_false, if_true, min_pref] at h ⊢; omega
    · simp only [ha, hb, if_false] at h ⊢; omega

theorem valid_remove_neg (a b : List (Int × Bool)) (t : Int)
    (h : 0 ≤ min_pref (a ++ (t, false) :: b)) : 0 ≤ min_pref (a ++ b) := by
  rw [min_pref_append] at h
  rw [min_pref_append_general]
  have hs : treap.sign (t, false).2 = -1 := rfl
  rw [hs] at h
  by_cases ha : a = []
  · simp only [ha, if_true] at h ⊢; omega
  · have hab := min_pref_le_balance a ha
    by_cases hb : b = []
    · simp only [ha, hb, if_false, if_true, min_pref] at h ⊢; omega
    · simp only [ha, hb, if_false] at h ⊢; omega

/-- The largest suffix sum and the smallest prefix sum, the empty suffix and prefix
included, add up to the balance. -/
theorem max_suff_add_min_pref (l : List (Int × Bool)) :
    max 0 (max_suff l) = balance l - min 0 (min_pref l) := by
  induction l with
  | nil => simp [max_suff, max_pref, min_pref]
  | cons e l ih =>
    have he := sign_cases e.2
    simp only [max_suff, List.reverse_cons] at ih ⊢
    have hx : max_pref (l.reverse ++ [e]) =
        if l.reverse = [] then treap.sign e.2 + max 0 (max_pref [])
        else max (max_pref l.reverse)
          (balance l.reverse + treap.sign e.2 + max 0 (max_pref [])) :=
      max_pref_append l.reverse e []
    rw [hx]
    simp only [min_pref, balance_cons, max_pref, balance_reverse, List.reverse_eq_nil_iff]
    by_cases hl : l = []
    · subst hl; simp [min_pref]; omega
    · simp only [hl, if_false]; omega

/-- In a sequence whose prefix sums are all `>= 0`, the test `max_suff > 0` of find is
the test `balance > 0`. -/
theorem max_suff_pos_iff (l : List (Int × Bool)) (h : 0 ≤ min_pref l) :
    0 < max_suff l ↔ 0 < balance l := by
  have := max_suff_add_min_pref l
  omega

theorem filter_le_append_filter_gt (l : List (Int × Bool)) (tm : Int) (h : sorted l) :
    l.filter (fun e => decide (e.1 ≤ tm)) ++ l.filter (fun e => decide (tm < e.1)) = l := by
  rw [filter_le_eq l tm h, List.append_assoc]
  exact sorted_decomp l tm h

/-- Adding an insert keeps all prefix sums `>= 0`. -/
theorem valid_insert_true (l : List (Int × Bool)) (tm : Int) (hs : sorted l)
    (h : 0 ≤ min_pref l) : 0 ≤ min_pref (insert l tm true) := by
  unfold insert
  apply valid_insert_pos
  rw [filter_le_append_filter_gt l tm hs]
  exact h

/-- Removing an erase keeps all prefix sums `>= 0`. -/
theorem valid_erase_false (l : List (Int × Bool)) (tm : Int) (hs : strictly_sorted l)
    (hm : (tm, false) ∈ l) (ht : above_min tm) (h : 0 ≤ min_pref l) :
    0 ≤ min_pref (erase l tm) := by
  rw [erase_eq _ _ ht]
  apply valid_remove_neg _ _ tm
  have hd := sorted_decomp l tm (sorted_of_strictly_sorted l hs)
  rw [filter_eq_singleton l tm false hs hm] at hd
  simp only [List.singleton_append] at hd
  rw [hd]
  exact h

/-- Erasing a time at which the sequence has no event leaves it unchanged. -/
theorem erase_unused (l : List (Int × Bool)) (tm : Int) (hs : sorted l)
    (hu : ∀ e ∈ l, e.1 ≠ tm) (ht : above_min tm) : erase l tm = l := by
  rw [erase_eq _ _ ht]
  have hd := sorted_decomp l tm hs
  rw [filter_eq_nil_of_unused l tm hu, List.nil_append] at hd
  exact hd

end events

/-! # The multiset away from the smallest time -/

theorem map_find_assign {T : Type} (m : List (Int × T)) (k : Int) (v : T) (k' : Int) :
    map_find (map_assign m k v) k' = if k' = k then some v else map_find m k' := by
  induction m with
  | nil =>
    simp only [map_assign, map_find]
    by_cases h : k = k'
    · simp [h]
    · have : ¬ k' = k := fun e => h e.symm
      simp [h, this]
  | cons e m ih =>
    obtain ⟨k₀, v₀⟩ := e
    simp only [map_assign]
    by_cases h1 : k < k₀
    · simp only [h1, if_true, map_find]
      by_cases h : k = k'
      · simp [h]
      · have : ¬ k' = k := fun e => h e.symm
        simp [h, this]
    · simp only [h1, if_false]
      by_cases h2 : k = k₀
      · subst h2
        simp only [if_true, map_find]
        by_cases h : k = k'
        · simp [h]
        · have : ¬ k' = k := fun e => h e.symm
          simp [h, this]
      · simp only [h2, if_false, map_find, ih]
        by_cases h : k₀ = k'
        · have : ¬ k' = k := fun e => h2 (by rw [← e, h])
          simp [h, this]
        · simp [h]

theorem map_find_erase {T : Type} (m : List (Int × T)) (k : Int) (k' : Int) :
    map_find (map_erase m k) k' = if k' = k then none else map_find m k' := by
  induction m with
  | nil => simp [map_erase, map_find]
  | cons e m ih =>
    obtain ⟨k₀, v₀⟩ := e
    simp only [map_erase] at ih ⊢
    by_cases h : k₀ = k
    · subst h
      rw [List.filter_cons_of_neg (by simp), ih]
      by_cases h' : k' = k₀
      · simp [h']
      · have : ¬ k₀ = k' := fun e => h' e.symm
        simp [h', map_find, this]
    · rw [List.filter_cons_of_pos (by simpa using h)]
      simp only [map_find, ih]
      by_cases h' : k₀ = k'
      · have : ¬ k' = k := fun e => h (by rw [h', e])
        simp [h', this]
      · simp [h']

namespace retroactive_unordered_multiset

variable {T : Type} [DecidableEq T]

theorem seq_find_assign {V : Type} (m : List (T × V)) (x : T) (t : V) (y : T) :
    seq_find (seq_assign m x t) y = if y = x then some t else seq_find m y := by
  induction m with
  | nil =>
    simp only [seq_assign, seq_find]
    by_cases h : x = y
    · simp [h]
    · have : ¬ y = x := fun e => h e.symm
      simp [h, this]
  | cons e m ih =>
    obtain ⟨y₀, t₀⟩ := e
    simp only [seq_assign]
    by_cases h1 : y₀ = x
    · subst h1
      simp only [if_true, seq_find]
      by_cases h : y₀ = y
      · simp [h]
      · have : ¬ y = y₀ := fun e => h e.symm
        simp [h, this]
    · simp only [h1, if_false, seq_find, ih]
      by_cases h : y₀ = y
      · have : ¬ y = x := fun e => h1 (by rw [h, e])
        simp [h, this]
      · simp [h]

theorem seq_find_erase {V : Type} (m : List (T × V)) (x : T) (y : T) :
    seq_find (seq_erase m x) y = if y = x then none else seq_find m y := by
  induction m with
  | nil => simp [seq_erase, seq_find]
  | cons e m ih =>
    obtain ⟨y₀, t₀⟩ := e
    simp only [seq_erase] at ih ⊢
    by_cases h : y₀ = x
    · subst h
      rw [List.filter_cons_of_neg (by simp), ih]
      by_cases h' : y = y₀
      · simp [h']
      · have : ¬ y₀ = y := fun e => h' e.symm
        simp [h', seq_find, this]
    · rw [List.filter_cons_of_pos (by simpa using h)]
      simp only [seq_find, ih]
      by_cases h' : y₀ = y
      · have : ¬ y = x := fun e => h (by rw [h', e])
        simp [h', this]
      · simp [h']

theorem seq_erase_absent {V : Type} (m : List (T × V)) (x : T)
    (h : seq_find m x = none) : seq_erase m x = m := by
  induction m with
  | nil => rfl
  | cons e m ih =>
    obtain ⟨y₀, t₀⟩ := e
    simp only [seq_find] at h
    by_cases h1 : y₀ = x
    · simp [h1] at h
    · simp only [h1, if_false] at h
      simp only [seq_erase] at ih ⊢
      rw [List.filter_cons_of_pos (by simpa using h1), ih h]

end retroactive_unordered_multiset

namespace events

theorem mem_insert (l : List (Int × Bool)) (tm : Int) (b : Bool) (ev : Int × Bool) :
    ev ∈ insert l tm b ↔ ev = (tm, b) ∨ ev ∈ l := by
  simp only [insert, List.mem_append, List.mem_cons, List.mem_filter, decide_eq_true_eq]
  constructor
  · rintro (h | h | h)
    · exact Or.inr h.1
    · exact Or.inl h
    · exact Or.inr h.1
  · rintro (h | h)
    · exact Or.inr (Or.inl h)
    · rcases le_or_lt ev.1 tm with h' | h'
      · exact Or.inl ⟨h, h'⟩
      · exact Or.inr (Or.inr ⟨h, h'⟩)

theorem mem_erase (l : List (Int × Bool)) (tm : Int) (ht : above_min tm) (ev : Int × Bool) :
    ev ∈ erase l tm ↔ ev ∈ l ∧ ev.1 ≠ tm := by
  rw [erase_eq _ _ ht]
  simp only [List.mem_append, List.mem_filter, decide_eq_true_eq]
  constructor
  · rintro (h | h)
    · exact ⟨h.1, by omega⟩
    · exact ⟨h.1, by omega⟩
  · rintro ⟨h, h'⟩
    rcases lt_or_gt_of_ne h' with h'' | h''
    · exact Or.inl ⟨h, h''⟩
    · exact Or.inr ⟨h, h''⟩

theorem strictly_sorted_insert (l : List (Int × Bool)) (tm : Int) (b : Bool)
    (hs : strictly_sorted l) (hu : ∀ e ∈ l, e.1 ≠ tm) :
    strictly_sorted (insert l tm b) := by
  unfold insert strictly_sorted
  rw [List.pairwise_append]
  refine ⟨List.Pairwise.filter _ hs, ?_, ?_⟩
  · rw [List.pairwise_cons]
    refine ⟨?_, List.Pairwise.filter _ hs⟩
    intro y hy
    simp only [List.mem_filter, decide_eq_true_eq] at hy
    exact hy.2
  · intro x hx y hy
    simp only [List.mem_filter, decide_eq_true_eq] at hx
    simp only [List.mem_cons, List.mem_filter, decide_eq_true_eq] at hy
    have := hu x hx.1
    rcases hy with rfl | hy
    · simp only; omega
    · omega

theorem strictly_sorted_erase (l : List (Int × Bool)) (tm : Int) (ht : above_min tm)
    (hs : strictly_sorted l) : strictly_sorted (erase l tm) := by
  rw [erase_eq _ _ ht]
  unfold strictly_sorted
  rw [List.pairwise_append]
  refine ⟨List.Pairwise.filter _ hs, List.Pairwise.filter _ hs, ?_⟩
  intro x hx y hy
  simp only [List.mem_filter, decide_eq_true_eq] at hx hy
  omega

theorem insert_ne_nil (l : List (Int × Bool)) (tm : Int) (b : Bool) : insert l tm b ≠ [] := by
  simp [insert]

end events

namespace multiset_events

open retroactive_unordered_multiset (seq_find seq_assign seq_erase seq_find_assign
  seq_find_erase seq_assign_self seq_erase_absent)

variable {T : Type} [DecidableEq T]

theorem ms_inv_empty : (empty_multiset : multiset_events T).inv := by
  constructor
  · intro x l h; simp [empty_multiset, seq_find] at h
  · intro tm x h; simp [empty_multiset, map_find] at h

/-- The events of the sequence of a key, when the log has no entry at `tm`, are at other
times. -/
theorem ms_unused_of_inv (v : multiset_events T) (hv : v.inv) (x : T) (tm : Int)
    (hu : map_find v.operations tm = none) :
    events.strictly_sorted (seq_get v.sequences x) ∧ 0 ≤ events.min_pref (seq_get v.sequences x) ∧
    (∀ ev ∈ seq_get v.sequences x, map_find v.operations ev.1 = some x) ∧
    ∀ ev ∈ seq_get v.sequences x, ev.1 ≠ tm := by
  unfold seq_get
  cases hf : seq_find v.sequences x with
  | none =>
    simp [events.strictly_sorted, events.min_pref]
  | some l =>
    obtain ⟨-, h2, h3, h4⟩ := hv.1 x l hf
    refine ⟨h2, h3, h4, ?_⟩
    intro ev hev he
    have := h4 ev hev
    rw [he, hu] at this
    simp at this

theorem ms_inv_add_event (v : multiset_events T) (hv : v.inv) (x : T) (tm : Int) (b : Bool)
    (hu : map_find v.operations tm = none)
    (hval : 0 ≤ events.min_pref (events.insert (seq_get v.sequences x) tm b)) :
    ({ sequences := seq_assign v.sequences x (events.insert (seq_get v.sequences x) tm b),
       operations := map_assign v.operations tm x } : multiset_events T).inv := by
  obtain ⟨hs, -, hlog, hun⟩ := ms_unused_of_inv v hv x tm hu
  constructor
  · intro y l hy
    simp only [seq_find_assign] at hy
    by_cases hyx : y = x
    · subst hyx
      simp only [if_true, Option.some.injEq] at hy
      subst hy
      refine ⟨events.insert_ne_nil _ _ _, events.strictly_sorted_insert _ _ _ hs hun, hval, ?_⟩
      intro ev hev
      rw [events.mem_insert] at hev
      simp only [map_find_assign]
      rcases hev with rfl | hev
      · simp
      · simp [hun ev hev, hlog ev hev]
    · simp only [hyx, if_false] at hy
      obtain ⟨h1, h2, h3, h4⟩ := hv.1 y l hy
      refine ⟨h1, h2, h3, ?_⟩
      intro ev hev
      simp only [map_find_assign]
      have hne : ev.1 ≠ tm := by
        intro he
        have := h4 ev hev
        rw [he, hu] at this
        simp at this
      simp [hne, h4 ev hev]
  · intro tm' y hy
    simp only [map_find_assign] at hy
    by_cases ht : tm' = tm
    · subst ht
      simp only [if_true, Option.some.injEq] at hy
      subst hy
      refine ⟨events.insert (seq_get v.sequences x) tm' b, b, by simp [seq_find_assign], ?_⟩
      rw [events.mem_insert]; exact Or.inl rfl
    · simp only [ht, if_false] at hy
      obtain ⟨l, b', hl, hm⟩ := hv.2 tm' y hy
      by_cases hyx : y = x
      · subst hyx
        refine ⟨events.insert (seq_get v.sequences y) tm b, b',
          by simp [seq_find_assign], ?_⟩
        rw [events.mem_insert]
        right
        simp only [seq_get, hl, Option.getD_some]
        exact hm
      · exact ⟨l, b', by simp [seq_find_assign, hyx, hl], hm⟩

theorem ms_inv_insert (v : multiset_events T) (hv : v.inv) (x : T) (tm : Int) :
    (v.insert x tm).2.inv := by
  unfold insert
  cases hu : map_find v.operations tm with
  | some y => simpa using hv
  | none =>
    simp only [Option.isSome_none, Bool.false_eq_true, if_false]
    obtain ⟨hs, hval, -, -⟩ := ms_unused_of_inv v hv x tm hu
    exact ms_inv_add_event v hv x tm true hu
      (events.valid_insert_true _ _ (events.sorted_of_strictly_sorted _ hs) hval)

theorem seq_get_eq_nil_iff (v : multiset_events T) (hv : v.inv) (x : T) :
    seq_get v.sequences x = [] ↔ seq_find v.sequences x = none := by
  unfold seq_get
  cases hf : seq_find v.sequences x with
  | none => simp
  | some l => simpa using (hv.1 x l hf).1

/-- A rejected `erase` at a time above the smallest one leaves the log and every sequence
as they were; an accepted one keeps the invariant. -/
theorem ms_inv_erase (v : multiset_events T) (hv : v.inv) (x : T) (tm : Int)
    (ht : above_min tm) :
    (v.erase x tm).2.inv ∧ ((v.erase x tm).1 = false → (v.erase x tm).2 = v) := by
  unfold erase
  cases hu : map_find v.operations tm with
  | some y => simpa using hv
  | none =>
    simp only [Option.isSome_none, Bool.false_eq_true, if_false]
    obtain ⟨hs, hval, -, hun⟩ := ms_unused_of_inv v hv x tm hu
    have hback := events.erase_insert (seq_get v.sequences x) tm false
      (events.sorted_of_strictly_sorted _ hs) hun ht
    by_cases hc : 0 ≤ events.min_pref (events.insert (seq_get v.sequences x) tm false)
    · simp only [ge_iff_le, hc, decide_True, Bool.not_true, Bool.false_eq_true, if_false]
      exact ⟨ms_inv_add_event v hv x tm false hu hc, by simp⟩
    · simp only [ge_iff_le, hc, decide_False, Bool.not_false, if_true, hback]
      cases hf : seq_find v.sequences x with
      | none =>
        have hn : seq_get v.sequences x = [] := (seq_get_eq_nil_iff v hv x).mpr hf
        simp only [hn, List.isEmpty_nil, if_true, seq_erase_absent _ _ hf]
        exact ⟨hv, by simp⟩
      | some l =>
        have hn : seq_get v.sequences x = l := by simp [seq_get, hf]
        have hl : l ≠ [] := (hv.1 x l hf).1
        have he : l.isEmpty = false := by cases l <;> simp_all
        simp only [hn, he, Bool.false_eq_true, if_false, seq_assign_self _ _ _ hf]
        exact ⟨hv, by simp⟩

/-- On a consistent state `delete_operation` at a time above the smallest one is defined;
a rejected call leaves the log and every sequence as they were, an accepted one keeps the
invariant. -/
theorem ms_inv_delete_operation (v : multiset_events T) (hv : v.inv) (tm : Int)
    (ht : above_min tm) :
    ∃ r, v.delete_operation tm = some r ∧ r.2.inv ∧ (r.1 = false → r.2 = v) := by
  unfold delete_operation
  cases hu : map_find v.operations tm with
  | none => exact ⟨(false, v), rfl, hv, fun _ => rfl⟩
  | some x =>
    obtain ⟨l, b, hl, hm⟩ := hv.2 tm x hu
    obtain ⟨hne, hs, hval, hlog⟩ := hv.1 x l hl
    simp only [hl]
    by_cases hc : 0 ≤ events.min_pref (events.erase l tm)
    · simp only [ge_iff_le, hc, decide_True, Bool.not_true, Bool.false_eq_true, if_false]
      have hothers : ∀ y l', y ≠ x → seq_find v.sequences y = some l' →
          ∀ ev ∈ l', map_find (map_erase v.operations tm) ev.1 = some y := by
        intro y l' hyx hy ev hev
        have h4 := (hv.1 y l' hy).2.2.2 ev hev
        have hne' : ev.1 ≠ tm := by
          intro he
          rw [he, hu] at h4
          simp only [Option.some.injEq] at h4
          exact hyx h4.symm
        simp [map_find_erase, hne', h4]
      cases he : (events.erase l tm).isEmpty
      · simp only [Bool.false_eq_true, if_false]
        refine ⟨_, rfl, ?_, by simp⟩
        constructor
        · intro y l' hy
          simp only [seq_find_assign] at hy
          by_cases hyx : y = x
          · subst hyx
            simp only [if_true, Option.some.injEq] at hy
            subst hy
            refine ⟨by intro h; rw [h] at he; simp at he,
              events.strictly_sorted_erase _ _ ht hs, hc, ?_⟩
            intro ev hev
            rw [events.mem_erase _ _ ht] at hev
            simp [map_find_erase, hev.2, hlog ev hev.1]
          · simp only [hyx, if_false] at hy
            obtain ⟨h1, h2, h3, -⟩ := hv.1 y l' hy
            exact ⟨h1, h2, h3, hothers y l' hyx hy⟩
        · intro tm' y hy
          simp only [map_find_erase] at hy
          by_cases htt : tm' = tm
          · simp [htt] at hy
          · simp only [htt, if_false] at hy
            obtain ⟨l', b', hl', hm'⟩ := hv.2 tm' y hy
            by_cases hyx : y = x
            · subst hyx
              rw [hl] at hl'
              simp only [Option.some.injEq] at hl'
              subst hl'
              refine ⟨events.erase l tm, b', by simp [seq_find_assign], ?_⟩
              rw [events.mem_erase _ _ ht]
              exact ⟨hm', htt⟩
            · exact ⟨l', b', by simp [seq_find_assign, hyx, hl'], hm'⟩
      · simp only [if_true]
        have hnil : events.erase l tm = [] := by
          cases h : events.erase l tm with
          | nil => rfl
          | cons a t => rw [h] at he; simp at he
        refine ⟨_, rfl, ?_, by simp⟩
        constructor
        · intro y l' hy
          simp only [seq_find_erase] at hy
          by_cases hyx : y = x
          · simp [hyx] at hy
          · simp only [hyx, if_false] at hy
            obtain ⟨h1, h2, h3, -⟩ := hv.1 y l' hy
            exact ⟨h1, h2, h3, hothers y l' hyx hy⟩
        · intro tm' y hy
          simp only [map_find_erase] at hy
          by_cases htt : tm' = tm
          · simp [htt] at hy
          · simp only [htt, if_false] at hy
            obtain ⟨l', b', hl', hm'⟩ := hv.2 tm' y hy
            by_cases hyx : y = x
            · subst hyx
              rw [hl] at hl'
              simp only [Option.some.injEq] at hl'
              subst hl'
              have : (tm', b') ∈ events.erase l tm := by
                rw [events.mem_erase _ _ ht]; exact ⟨hm', htt⟩
              rw [hnil] at this
              simp at this
            · exact ⟨l', b', by simp [seq_find_erase, hyx, hl'], hm'⟩
    · simp only [ge_iff_le, hc, decide_False, Bool.not_false, if_true]
      have hb : b = true := by
        cases b with
        | true => rfl
        | false => exact absurd (events.valid_erase_false l tm hs hm ht hval) hc
      subst hb
      rw [events.insert_erase l tm true hs hm ht, seq_assign_self _ _ _ hl]
      exact ⟨_, rfl, hv, fun _ => rfl⟩

end multiset_events

namespace multiset_events

variable {T : Type} [DecidableEq T]

/-- Every call whose time is above the smallest one keeps the invariant. -/
theorem ms_inv_call (v : multiset_events T) (hv : v.inv) (c : multiset_call T)
    (r : Option Bool × multiset_events T) (hr : v.call c = some r)
    (hc : match c with
      | .erase _ tm _ => above_min tm
      | .delete_operation tm _ => above_min tm
      | .erase_now _ _ => above_min v.get_last_time
      | _ => True) : r.2.inv := by
  cases c with
  | insert x tm p =>
    simp only [call, Option.some.injEq] at hr
    rw [← hr]; exact ms_inv_insert v hv x tm
  | erase x tm p =>
    simp only [call, Option.some.injEq] at hr
    rw [← hr]; exact (ms_inv_erase v hv x tm hc).1
  | delete_operation tm p =>
    obtain ⟨r', h1, h2, -⟩ := ms_inv_delete_operation v hv tm hc
    simp only [call, h1, Option.map_some', Option.some.injEq] at hr
    rw [← hr]; exact h2
  | find x tm =>
    simp only [call, Option.some.injEq] at hr
    rw [← hr]; exact hv
  | insert_now x p =>
    simp only [call, Option.some.injEq] at hr
    rw [← hr]; exact ms_inv_insert v hv x _
  | erase_now x p =>
    simp only [call, Option.some.injEq] at hr
    rw [← hr]; exact (ms_inv_erase v hv x _ hc).1
  | clear =>
    simp only [call, Option.some.injEq] at hr
    rw [← hr]; exact ms_inv_empty

/-- On a consistent state the answer of find is the test `count > 0` at the query time. -/
theorem find_iff_count (v : multiset_events T) (hv : v.inv) (x : T) (t : Int) :
    v.find x t = true ↔ 0 < events.count_at (seq_get v.sequences x) t := by
  unfold find seq_get events.count_at
  cases hf : retroactive_unordered_multiset.seq_find v.sequences x with
  | none => simp
  | some l =>
    obtain ⟨-, hs, hval, -⟩ := hv.1 x l hf
    have hp : 0 ≤ events.min_pref (l.filter fun e => decide (e.1 ≤ t)) := by
      apply events.valid_prefix _ (l.filter fun e => decide (t < e.1))
      rw [events.filter_le_append_filter_gt l t (events.sorted_of_strictly_sorted l hs)]
      exact hval
    simp only [Option.getD_some, gt_iff_lt, decide_eq_true_eq]
    exact events.max_suff_pos_iff _ hp

end multiset_events

namespace retroactive_unordered_multiset

variable {T : Type} [DecidableEq T]

/-- Every multiset reached through calls above the smallest time has well-formed treaps
and a log consistent with its sequences. -/
theorem inv_of_reachable_above_min (s : retroactive_unordered_multiset T)
    (h : reachable_above_min s) : s.wf ∧ s.view.inv := by
  induction h with
  | empty => exact ⟨wf_empty_multiset, multiset_events.ms_inv_empty⟩
  | step s c r _ hc hr ih =>
    obtain ⟨hw, hv⟩ := ih
    obtain ⟨a, b⟩ := ms_call_view s c hw
    refine ⟨a r hr, ?_⟩
    have hr' : s.view.call c = some (r.1, r.2.view) := by rw [← b, hr]; rfl
    apply multiset_events.ms_inv_call s.view hv c _ hr'
    cases c <;> first | exact hc | trivial

/-- C8 (amended): in every multiset reached from the empty one by calls whose times are
above the smallest 64-bit value, find(x, t) returns true iff the count of x at t itself
(the inserts minus the erases among the events of x of time `<= t`) is strictly
positive. -/
theorem C8_find_tests_count_at_query_time (s : retroactive_unordered_multiset T)
    (h : reachable_above_min s) (x : T) (t : Int) :
    (s.find x t).1 = true ↔ 0 < s.count_at x t := by
  obtain ⟨hw, hv⟩ := inv_of_reachable_above_min s h
  rw [(ms_find_view s x t hw).2.1, count_at, seq_get_view]
  exact multiset_events.find_iff_count s.view hv x t

/-- C8 (the ever-positive reading fails): after insert(7)@10 and erase(7)@20 the count of 7
is 1 at time 10, which is `<= 25`, and find(7, 25) returns false. -/
theorem C8_find_false_though_count_was_positive :
    ((((empty_multiset : retroactive_unordered_multiset Int).insert 7 10 1).2.erase 7 20
        2).2.find 7 25).1 = false ∧
    (10 : Int) ≤ 25 ∧
    0 < (((empty_multiset : retroactive_unordered_multiset Int).insert 7 10 1).2.erase 7 20
        2).2.count_at 7 10 := by
  decide!

/-- C8 (amended), at the history insert(7)@10, erase(7)@20: the multiset is reachable and
find(7, 25) agrees with the count at time 25. -/
theorem C8_find_tests_count_at_query_time_witness :
    reachable_above_min
      (((empty_multiset : retroactive_unordered_multiset Int).insert 7 10 1).2.erase 7 20 2).2 ∧
    (((((empty_multiset : retroactive_unordered_multiset Int).insert 7 10 1).2.erase 7 20
        2).2.find 7 25).1 = true ↔
      0 < (((empty_multiset : retroactive_unordered_multiset Int).insert 7 10 1).2.erase 7 20
        2).2.count_at 7 25) :=
  have h₁ : reachable_above_min
      ((empty_multiset : retroactive_unordered_multiset Int).insert 7 10 1).2 :=
    reachable_above_min.step empty_multiset (.insert 7 10 1) _ reachable_above_min.empty
      (show above_min 10 by decide) rfl
  have h₂ : reachable_above_min
      (((empty_multiset : retroactive_unordered_multiset Int).insert 7 10 1).2.erase 7 20 2).2 :=
    reachable_above_min.step _ (.erase 7 20 2) _ h₁ (show above_min 20 by decide) rfl
  ⟨h₂, C8_find_tests_count_at_query_time _ h₂ 7 25⟩

end retroactive_unordered_multiset

namespace events

theorem prefixes_nonneg_of_min_pref (l : List (Int × Bool)) (h : 0 ≤ min_pref l) :
    prefixes_nonneg l := by
  intro n
  have h' : 0 ≤ min_pref (l.take n ++ l.drop n) := by rw [List.take_append_drop]; exact h
  have hp := valid_prefix _ _ h'
  by_cases hn : l.take n = []
  · rw [hn]; simp
  · exact le_trans hp (min_pref_le_balance _ hn)

theorem min_pref_of_prefixes_nonneg (l : List (Int × Bool)) (h : prefixes_nonneg l) :
    0 ≤ min_pref l := by
  induction l with
  | nil => simp [min_pref]
  | cons e l ih =>
    have h1 := h 1
    simp only [List.take_succ_cons, List.take_zero, balance_cons, balance_nil] at h1
    by_cases hl : l = []
    · subst hl; simp only [min_pref]; omega
    · -- every prefix sum of `e :: l` is `sign e` plus a prefix sum of `l`
      have key : ∀ (m : List (Int × Bool)) (c : Int), m ≠ [] →
          (∀ n : Nat, 0 < n → 0 ≤ c + balance (m.take n)) → 0 ≤ c + min_pref m := by
        intro m
        induction m with
        | nil => intro c hm; exact absurd rfl hm
        | cons a m ihm =>
          intro c _ hall
          have ha := hall 1 (by omega)
          simp only [List.take_succ_cons, List.take_zero, balance_cons, balance_nil] at ha
          by_cases hm : m = []
          · subst hm; simp only [min_pref]; omega
          · have := ihm (c + treap.sign a.2) hm (fun n hn => by
              have := hall (n + 1) (by omega)
              simp only [List.take_succ_cons, balance_cons] at this
              omega)
            simp only [min_pref]; omega
      have := key l (treap.sign e.2) hl (fun n _ => by
        have := h (n + 1)
        simp only [List.take_succ_cons, balance_cons] at this
        exact this)
      simp only [min_pref]; omega

/-- The test of `check_valid`: `min_pref >= 0` says that every prefix sum is `>= 0`. -/
theorem min_pref_nonneg_iff (l : List (Int × Bool)) :
    0 ≤ min_pref l ↔ prefixes_nonneg l :=
  ⟨prefixes_nonneg_of_min_pref l, min_pref_of_prefixes_nonneg l⟩

end events

namespace retroactive_unordered_multiset

variable {T : Type} [DecidableEq T]

/-- Invariant I-4 away from the smallest time: in every multiset reached by calls whose
times are above the smallest 64-bit value, every stored sequence has all prefix sums
`>= 0` and is not empty. -/
theorem I4_of_reachable_above_min (s : retroactive_unordered_multiset T)
    (h : reachable_above_min s) (x : T) (l : List (Int × Bool))
    (hl : seq_find s.view.sequences x = some l) : events.prefixes_nonneg l ∧ l ≠ [] := by
  obtain ⟨-, hv⟩ := inv_of_reachable_above_min s h
  obtain ⟨h1, -, h3, -⟩ := hv.1 x l hl
  exact ⟨events.prefixes_nonneg_of_min_pref l h3, h1⟩

/-- Rollback away from the smallest time: a rejected `erase` leaves the log and every
in-order sequence as they were, and an `erase` is accepted iff the time is unused and the
sequence of the key with the new event keeps every prefix sum `>= 0`. -/
theorem erase_above_min (s : retroactive_unordered_multiset T) (h : reachable_above_min s)
    (x : T) (tm : Int) (p : Nat) (ht : above_min tm) :
    ((s.erase x tm p).1 = false → (s.erase x tm p).2.view = s.view) ∧
    ((s.erase x tm p).1 = true ↔
      map_find s.operations tm = none ∧
      events.prefixes_nonneg (events.insert (seq_get s.sequences x).inorder tm false)) := by
  obtain ⟨hw, hv⟩ := inv_of_reachable_above_min s h
  obtain ⟨-, h1, h2⟩ := ms_erase_view s x tm p hw
  rw [h1, h2]
  refine ⟨(multiset_events.ms_inv_erase s.view hv x tm ht).2, ?_⟩
  rw [← events.min_pref_nonneg_iff, seq_get_view]
  unfold multiset_events.erase
  have hops : s.view.operations = s.operations := rfl
  rw [hops]
  cases hu : map_find s.operations tm with
  | some y => simp
  | none =>
    simp only [Option.isSome_none, Bool.false_eq_true, if_false, true_and]
    by_cases hc : 0 ≤ events.min_pref
        (events.insert (multiset_events.seq_get s.view.sequences x) tm false)
    · simp [hc]
    · simp only [ge_iff_le, hc, decide_False, Bool.not_false, if_true, iff_false]
      split <;> simp

/-- Rollback away from the smallest time: `delete_operation` is defined, and a rejected
call leaves the log and every in-order sequence as they were. -/
theorem delete_operation_above_min (s : retroactive_unordered_multiset T)
    (h : reachable_above_min s) (tm : Int) (p : Nat) (ht : above_min tm) :
    ∃ r, s.delete_operation tm p = some r ∧ (r.1 = false → r.2.view = s.view) := by
  obtain ⟨hw, hv⟩ := inv_of_reachable_above_min s h
  obtain ⟨-, h1⟩ := ms_delete_operation_view s tm p hw
  obtain ⟨r', hr', -, hrb⟩ := multiset_events.ms_inv_delete_operation s.view hv tm ht
  rw [hr'] at h1
  cases hd : s.delete_operation tm p with
  | none => rw [hd] at h1; simp at h1
  | some r =>
    rw [hd] at h1
    simp only [Option.map_some', Option.some.injEq] at h1
    refine ⟨r, rfl, fun hf => ?_⟩
    have e1 : r'.1 = r.1 := by rw [← h1]
    have e2 : r'.2 = r.2.view := by rw [← h1]
    rw [← e2]
    exact hrb (by rw [e1]; exact hf)

end retroactive_unordered_multiset

/-! # The deque away from the smallest time -/

theorem map_find_isSome_iff {T : Type} (m : List (Int × T)) (k : Int) :
    (map_find m k).isSome = true ↔ k ∈ m.map Prod.fst := by
  induction m with
  | nil => simp [map_find]
  | cons e m ih =>
    obtain ⟨k₀, v₀⟩ := e
    simp only [map_find, List.map_cons, List.mem_cons]
    by_cases h : k₀ = k
    · simp [h]
    · have : ¬ k = k₀ := fun e => h e.symm
      simp [h, this, ih]

theorem keys_map_assign_sorted {T : Type} (m : List (Int × T)) (k : Int) (v : T)
    (h : (m.map Prod.fst).Pairwise (· < ·)) :
    ((map_assign m k v).map Prod.fst).Pairwise (· < ·) ∧
    ∀ k', k' ∈ (map_assign m k v).map Prod.fst ↔ k' = k ∨ k' ∈ m.map Prod.fst := by
  induction m with
  | nil => simp [map_assign]
  | cons e m ih =>
    obtain ⟨k₀, v₀⟩ := e
    simp only [List.map_cons, List.pairwise_cons] at h
    obtain ⟨h1, h2⟩ := h
    obtain ⟨ih1, ih2⟩ := ih h2
    simp only [map_assign]
    by_cases c1 : k < k₀
    · simp only [c1, if_true, List.map_cons, List.pairwise_cons, List.mem_cons]
      refine ⟨⟨?_, h1, h2⟩, by simp⟩
      intro a ha
      rcases ha with rfl | ha
      · exact c1
      · exact lt_trans c1 (h1 a ha)
    · simp only [c1, if_false]
      by_cases c2 : k = k₀
      · subst c2
        simp only [if_true, List.map_cons, List.pairwise_cons, List.mem_cons]
        exact ⟨⟨h1, h2⟩, fun k' => by tauto⟩
      · simp only [c2, if_false, List.map_cons, List.pairwise_cons, List.mem_cons]
        refine ⟨⟨?_, ih1⟩, fun k' => by rw [ih2]; tauto⟩
        intro a ha
        rw [ih2] at ha
        rcases ha with rfl | ha
        · omega
        · exact h1 a ha

theorem set_insert_sorted (s : List Int) (k : Int) (h : s.Pairwise (· < ·)) :
    (set_insert s k).Pairwise (· < ·) ∧ ∀ k', k' ∈ set_insert s k ↔ k' = k ∨ k' ∈ s := by
  induction s with
  | nil => simp [set_insert]
  | cons k₀ s ih =>
    simp only [List.pairwise_cons] at h
    obtain ⟨h1, h2⟩ := h
    obtain ⟨ih1, ih2⟩ := ih h2
    simp only [set_insert]
    by_cases c1 : k < k₀
    · simp only [c1, if_true, List.pairwise_cons, List.mem_cons]
      refine ⟨⟨?_, h1, h2⟩, by simp⟩
      intro a ha
      rcases ha with rfl | ha
      · exact c1
      · exact lt_trans c1 (h1 a ha)
    · simp only [c1, if_false]
      by_cases c2 : k = k₀
      · subst c2
        simp only [if_true, List.pairwise_cons, List.mem_cons]
        exact ⟨⟨h1, h2⟩, fun k' => by tauto⟩
      · simp only [c2, if_false, List.pairwise_cons, List.mem_cons]
        refine ⟨⟨?_, ih1⟩, fun k' => by rw [ih2]; tauto⟩
        intro a ha
        rw [ih2] at ha
        rcases ha with rfl | ha
        · omega
        · exact h1 a ha

theorem keys_map_erase {T : Type} (m : List (Int × T)) (k : Int)
    (h : (m.map Prod.fst).Pairwise (· < ·)) :
    ((map_erase m k).map Prod.fst).Pairwise (· < ·) := by
  unfold map_erase
  induction m with
  | nil => simp
  | cons e m ih =>
    simp only [List.map_cons, List.pairwise_cons] at h
    obtain ⟨h1, h2⟩ := h
    by_cases c : e.1 = k
    · rw [List.filter_cons_of_neg (by simpa using c)]; exact ih h2
    · rw [List.filter_cons_of_pos (by simpa using c)]
      simp only [List.map_cons, List.pairwise_cons]
      refine ⟨?_, ih h2⟩
      intro a ha
      apply h1
      simp only [List.mem_map, List.mem_filter] at ha ⊢
      obtain ⟨x, ⟨hx, -⟩, rfl⟩ := ha
      exact ⟨x, hx, rfl⟩

namespace events

theorem unique_at_time (l : List (Int × Bool)) (tm : Int) (b b' : Bool)
    (hs : strictly_sorted l) (h : (tm, b) ∈ l) (h' : (tm, b') ∈ l) : b = b' := by
  have e := filter_eq_singleton l tm b hs h
  have : (tm, b') ∈ l.filter (fun e => decide (e.1 = tm)) := by
    simp [List.mem_filter, h']
  rw [e] at this
  simp only [List.mem_singleton, Prod.mk.injEq, true_and] at this
  exact this.symm

end events

namespace deque_events

variable {T : Type}

theorem inv_empty : (empty_deque : deque_events T).inv := by
  simp [inv, empty_deque, events.strictly_sorted, events.min_pref, map_find]

theorem unused_of_inv (v : deque_events T) (hv : v.inv) (tm : Int)
    (hu : v.time_used tm = false) :
    (∀ ev ∈ v.balance_tree, ev.1 ≠ tm) ∧ (∀ ev ∈ v.ul, ev.1 ≠ tm) ∧
    (∀ ev ∈ v.ur, ev.1 ≠ tm) := by
  obtain ⟨-, -, -, -, h3, h4, h5, -⟩ := hv
  simp only [time_used, Bool.or_eq_false_iff, decide_eq_false_iff_not] at hu
  have hb : ∀ ev ∈ v.balance_tree, ev.1 ≠ tm := by
    intro ev hev he
    obtain ⟨t, b⟩ := ev
    simp only at he
    subst he
    cases b with
    | true => have := (h3 t).mp hev; rw [hu.1] at this; simp at this
    | false => exact hu.2 ((h4 t).mp hev)
  exact ⟨hb, fun ev hev => hb ev ((h5 ev).mpr (Or.inl hev)),
    fun ev hev => hb ev ((h5 ev).mpr (Or.inr hev))⟩

theorem inv_push (v : deque_events T) (hv : v.inv) (x : T) (tm : Int) (back_op : Bool)
    (hu : v.time_used tm = false) :
    ({ v with balance_tree := events.insert v.balance_tree tm true,
              operations := map_assign v.operations tm x,
              ur := if back_op then events.insert v.ur tm true else v.ur,
              ul := if back_op then v.ul else events.insert v.ul tm true } :
      deque_events T).inv := by
  obtain ⟨ub, ul, ur⟩ := unused_of_inv v hv tm hu
  obtain ⟨h1, h1l, h1r, h2, h3, h4, h5, h6, h7, h8⟩ := hv
  refine ⟨events.strictly_sorted_insert _ _ _ h1 ub, ?_, ?_,
    events.valid_insert_true _ _ (events.sorted_of_strictly_sorted _ h1) h2, ?_, ?_, ?_, ?_,
    (keys_map_assign_sorted _ _ _ h7).1, h8⟩
  · cases back_op
    · exact events.strictly_sorted_insert _ _ _ h1l ul
    · exact h1l
  · cases back_op
    · exact h1r
    · exact events.strictly_sorted_insert _ _ _ h1r ur
  · intro t
    simp only [events.mem_insert, Prod.mk.injEq, and_true, map_find_assign, h3]
    by_cases ht : t = tm <;> simp [ht]
  · intro t
    simp only [events.mem_insert, Prod.mk.injEq, h4]
    simp
  · intro ev
    cases back_op
    · simp only [events.mem_insert, h5, Bool.false_eq_true, if_false]; tauto
    · simp only [events.mem_insert, h5, if_true]; tauto
  · intro a ha b hb
    cases back_op
    · simp only [Bool.false_eq_true, if_false, events.mem_insert] at ha hb
      rcases ha with rfl | ha
      · exact fun e => ur b hb e.symm
      · exact h6 a ha b hb
    · simp only [if_true, events.mem_insert] at ha hb
      rcases hb with rfl | hb
      · exact ul a ha
      · exact h6 a ha b hb

theorem inv_pop (v : deque_events T) (hv : v.inv) (tm : Int) (back_op : Bool)
    (hu : v.time_used tm = false)
    (hval : 0 ≤ events.min_pref (events.insert v.balance_tree tm false)) :
    ({ v with balance_tree := events.insert v.balance_tree tm false,
              pop_operations := set_insert v.pop_operations tm,
              ur := if back_op then events.insert v.ur tm false else v.ur,
              ul := if back_op then v.ul else events.insert v.ul tm false } :
      deque_events T).inv := by
  obtain ⟨ub, ul, ur⟩ := unused_of_inv v hv tm hu
  obtain ⟨h1, h1l, h1r, h2, h3, h4, h5, h6, h7, h8⟩ := hv
  refine ⟨events.strictly_sorted_insert _ _ _ h1 ub, ?_, ?_, hval, ?_, ?_, ?_, ?_, h7,
    (set_insert_sorted _ _ h8).1⟩
  · cases back_op
    · exact events.strictly_sorted_insert _ _ _ h1l ul
    · exact h1l
  · cases back_op
    · exact h1r
    · exact events.strictly_sorted_insert _ _ _ h1r ur
  · intro t
    simp only [events.mem_insert, Prod.mk.injEq, h3]
    simp
  · intro t
    simp only [events.mem_insert, Prod.mk.injEq, and_true, h4, (set_insert_sorted _ _ h8).2]
  · intro ev
    cases back_op
    · simp only [events.mem_insert, h5, Bool.false_eq_true, if_false]; tauto
    · simp only [events.mem_insert, h5, if_true]; tauto
  · intro a ha b hb
    cases back_op
    · simp only [Bool.false_eq_true, if_false, events.mem_insert] at ha hb
      rcases ha with rfl | ha
      · exact fun e => ur b hb e.symm
      · exact h6 a ha b hb
    · simp only [if_true, events.mem_insert] at ha hb
      rcases hb with rfl | hb
      · exact ul a ha
      · exact h6 a ha b hb

theorem inv_remove (v : deque_events T) (hv : v.inv) (tm : Int) (ht : above_min tm) (b : Bool)
    (hm : (tm, b) ∈ v.balance_tree)
    (hval : 0 ≤ events.min_pref (events.erase v.balance_tree tm)) :
    ({ v with balance_tree := events.erase v.balance_tree tm,
              ul := events.erase v.ul tm, ur := events.erase v.ur tm,
              operations := if b then map_erase v.operations tm else v.operations,
              pop_operations := if b then v.pop_operations
                                else set_erase v.pop_operations tm } :
      deque_events T).inv := by
  obtain ⟨h1, h1l, h1r, h2, h3, h4, h5, h6, h7, h8⟩ := hv
  refine ⟨events.strictly_sorted_erase _ _ ht h1, events.strictly_sorted_erase _ _ ht h1l,
    events.strictly_sorted_erase _ _ ht h1r, hval, ?_, ?_, ?_, ?_, ?_, ?_⟩
  · intro t
    rw [events.mem_erase _ _ ht, h3]
    cases b
    · simp only [Bool.false_eq_true, if_false, and_iff_left_iff_imp]
      intro hs he
      subst he
      have := events.unique_at_time _ _ _ _ h1 hm ((h3 t).mpr hs)
      simp at this
    · simp only [if_true, map_find_erase]
      by_cases he : t = tm <;> simp [he]
  · intro t
    rw [events.mem_erase _ _ ht, h4]
    cases b
    · simp [set_erase, List.mem_filter]
    · simp only [if_true, and_iff_left_iff_imp]
      intro hs he
      subst he
      have := events.unique_at_time _ _ _ _ h1 hm ((h4 t).mpr hs)
      simp at this
  · intro ev
    simp only [events.mem_erase _ _ ht, h5]; tauto
  · intro a ha c hc
    rw [events.mem_erase _ _ ht] at ha hc
    exact h6 a ha.1 c hc.1
  · cases b
    · exact h7
    · exact keys_map_erase _ _ h7
  · cases b
    · exact List.Pairwise.filter _ h8
    · exact h8

end deque_events

namespace deque_events

variable {T : Type}

/-- On a consistent state a retroactive push is accepted iff its time is unused (the
balance check cannot fail), it keeps the invariant, and a rejected push changes nothing. -/
theorem inv_insert_push_operation (v : deque_events T) (hv : v.inv) (x : T) (tm : Int)
    (back_op : Bool) :
    (v.insert_push_operation x tm back_op).2.inv ∧
    ((v.insert_push_operation x tm back_op).1 = false →
      (v.insert_push_operation x tm back_op).2 = v) ∧
    ((v.insert_push_operation x tm back_op).1 = true ↔ v.time_used tm = false) := by
  unfold insert_push_operation
  cases hu : v.time_used tm
  · have hval := events.valid_insert_true v.balance_tree tm
      (events.sorted_of_strictly_sorted _ hv.1) hv.2.2.2.1
    have hi := inv_push v hv x tm back_op hu
    simp only [Bool.false_eq_true, if_false, check_valid, ge_iff_le, hval, decide_True,
      Bool.not_true]
    cases back_op
    · simp only [Bool.false_eq_true, if_false] at hi ⊢
      exact ⟨hi, by simp, by simp⟩
    · simp only [if_true] at hi ⊢
      exact ⟨hi, by simp, by simp⟩
  · simp only [if_true]
    exact ⟨hv, by simp, by simp⟩

/-- On a consistent state a retroactive pop above the smallest time is accepted iff its
time is unused and the balance sequence with the pop added keeps every prefix sum `>= 0`;
it keeps the invariant, and a rejected pop changes nothing. -/
theorem inv_insert_pop_operation (v : deque_events T) (hv : v.inv) (tm : Int)
    (back_op : Bool) (ht : above_min tm) :
    (v.insert_pop_operation tm back_op).2.inv ∧
    ((v.insert_pop_operation tm back_op).1 = false →
      (v.insert_pop_operation tm back_op).2 = v) ∧
    ((v.insert_pop_operation tm back_op).1 = true ↔
      v.time_used tm = false ∧ 0 ≤ events.min_pref (events.insert v.balance_tree tm false)) := by
  unfold insert_pop_operation
  cases hu : v.time_used tm
  · simp only [Bool.false_eq_true, if_false, check_valid, ge_iff_le, true_and]
    by_cases hval : 0 ≤ events.min_pref (events.insert v.balance_tree tm false)
    · have hi := inv_pop v hv tm back_op hu hval
      simp only [hval, decide_True, Bool.not_true, Bool.false_eq_true, if_false]
      cases back_op
      · simp only [Bool.false_eq_true, if_false] at hi ⊢
        exact ⟨hi, by simp, by simp⟩
      · simp only [if_true] at hi ⊢
        exact ⟨hi, by simp, by simp⟩
    · obtain ⟨ub, -, -⟩ := unused_of_inv v hv tm hu
      have hback := events.erase_insert v.balance_tree tm false
        (events.sorted_of_strictly_sorted _ hv.1) ub ht
      simp only [hval, decide_False, Bool.not_false, if_true, hback]
      exact ⟨hv, by simp, by simp⟩
  · simp only [if_true]
    exact ⟨hv, by simp, by simp⟩

/-- On a consistent state `delete_operation` above the smallest time is accepted iff an
update is logged at the time and the balance sequence without it keeps every prefix sum
`>= 0`; it keeps the invariant, and a rejected call changes nothing. -/
theorem inv_delete_operation (v : deque_events T) (hv : v.inv) (tm : Int)
    (ht : above_min tm) :
    (v.delete_operation tm).2.inv ∧
    ((v.delete_operation tm).1 = false → (v.delete_operation tm).2 = v) ∧
    ((v.delete_operation tm).1 = true ↔
      v.time_used tm = true ∧ 0 ≤ events.min_pref (events.erase v.balance_tree tm)) := by
  unfold delete_operation
  by_cases hp : (map_find v.operations tm).isSome = true
  · have hm : (tm, true) ∈ v.balance_tree := (hv.2.2.2.2.1 tm).mpr hp
    have hused : v.time_used tm = true := by simp [time_used, hp]
    simp only [hp, if_true, check_valid, ge_iff_le, hused, true_and]
    by_cases hval : 0 ≤ events.min_pref (events.erase v.balance_tree tm)
    · have hi := inv_remove v hv tm ht true hm hval
      simp only [if_true] at hi
      simp only [hval, decide_True, Bool.not_true, Bool.false_eq_true, if_false]
      exact ⟨hi, by simp, by simp⟩
    · have hback := events.insert_erase v.balance_tree tm true hv.1 hm ht
      simp only [hval, decide_False, Bool.not_false, if_true, hback]
      exact ⟨hv, by simp, by simp⟩
  · simp only [hp, Bool.false_eq_true, if_false]
    by_cases hq : tm ∈ v.pop_operations
    · have hm : (tm, false) ∈ v.balance_tree := (hv.2.2.2.2.2.1 tm).mpr hq
      have hused : v.time_used tm = true := by simp [time_used, hq]
      have hval := events.valid_erase_false v.balance_tree tm hv.1 hm ht hv.2.2.2.1
      have hi := inv_remove v hv tm ht false hm hval
      simp only [Bool.false_eq_true, if_false] at hi
      simp only [hq, if_true, check_valid, ge_iff_le, hval, decide_True, Bool.not_true,
        Bool.false_eq_true, if_false, hused]
      exact ⟨hi, by simp, by simp⟩
    · have hused : v.time_used tm = false := by
        simp only [time_used, Bool.or_eq_false_iff, decide_eq_false_iff_not]
        exact ⟨by simpa using hp, hq⟩
      simp only [hq, if_false, hused]
      exact ⟨hv, by simp, by simp⟩

/-- Every update call whose time is above the smallest one keeps the invariant. -/
theorem inv_call [Inhabited T] (v : deque_events T) (hv : v.inv) (c : deque_call T)
    (hc : match c with
      | .insert_pop_back tm _ _ => above_min tm
      | .insert_pop_front tm _ _ => above_min tm
      | .delete_operation tm _ => above_min tm
      | .pop_back _ _ => above_min v.get_last_time
      | .pop_front _ _ => above_min v.get_last_time
      | .back _ => False
      | .front _ => False
      | _ => True) : (v.call c).2.inv := by
  cases c with
  | insert_push_back x tm p₁ p₂ => exact (inv_insert_push_operation v hv x tm true).1
  | insert_push_front x tm p₁ p₂ => exact (inv_insert_push_operation v hv x tm false).1
  | insert_pop_back tm p₁ p₂ => exact (inv_insert_pop_operation v hv tm true hc).1
  | insert_pop_front tm p₁ p₂ => exact (inv_insert_pop_operation v hv tm false hc).1
  | delete_operation tm p₁ => exact (inv_delete_operation v hv tm hc).1
  | push_back x p₁ p₂ => exact (inv_insert_push_operation v hv x _ true).1
  | push_front x p₁ p₂ => exact (inv_insert_push_operation v hv x _ false).1
  | pop_back p₁ p₂ => exact (inv_insert_pop_operation v hv _ true hc).1
  | pop_front p₁ p₂ => exact (inv_insert_pop_operation v hv _ false hc).1
  | clear => exact inv_empty
  | back tm => exact absurd hc id
  | front tm => exact absurd hc id
  | size => exact hv
  | empty => exact hv

end deque_events

namespace retroactive_deque

variable {T : Type}

/-- Every deque reached through update calls above the smallest time has well-formed
treaps and logs consistent with its sequences. -/
theorem inv_of_reachable [Inhabited T] (d : retroactive_deque T)
    (h : reachable_above_min d) : d.wf ∧ d.view.inv := by
  induction h with
  | empty => exact ⟨wf_empty, deque_events.inv_empty⟩
  | step d c _ hc ih =>
    obtain ⟨hw, hv⟩ := ih
    obtain ⟨a, -, e⟩ := call_view d c hw
    refine ⟨a, ?_⟩
    rw [e]
    apply deque_events.inv_call d.view hv c
    cases c <;> first | exact hc | trivial

end retroactive_deque

namespace events

theorem balance_eq_counts (l : List (Int × Bool)) :
    balance l = ((l.filter fun e => e.2).length : Int) - ((l.filter fun e => !e.2).length : Int) := by
  induction l with
  | nil => simp
  | cons e l ih =>
    obtain ⟨t, b⟩ := e
    cases b
    · simp only [balance_cons, ih, treap.sign, Bool.false_eq_true, if_false, List.filter_cons,
        Bool.not_false, if_true, List.length_cons]
      push_cast; ring
    · simp only [balance_cons, ih, treap.sign, if_true, List.filter_cons,
        Bool.not_true, Bool.false_eq_true, if_false, List.length_cons]
      push_cast; ring

theorem nodup_times (l : List (Int × Bool)) (h : strictly_sorted l) (f : Int × Bool → Bool) :
    ((l.filter f).map Prod.fst).Nodup := by
  have h1 : (l.filter f).Pairwise (fun a b => a.1 < b.1) := List.Pairwise.filter f h
  have h2 : ((l.filter f).map Prod.fst).Pairwise (· < ·) := by
    rw [List.pairwise_map]; exact h1
  exact List.Pairwise.imp (fun h => ne_of_lt h) h2

theorem balance_nonneg (l : List (Int × Bool)) (h : 0 ≤ min_pref l) : 0 ≤ balance l := by
  by_cases hl : l = []
  · subst hl; simp
  · exact le_trans h (min_pref_le_balance l hl)

end events

namespace retroactive_deque

variable {T : Type} [Inhabited T]

/-- Invariant I-5 away from the smallest time: in every deque reached by update calls
whose times are above the smallest 64-bit value, `check_valid` holds and every prefix sum
of the in-order sequence of the balance tree is `>= 0`. -/
theorem I5_of_reachable_above_min (d : retroactive_deque T) (h : reachable_above_min d) :
    d.check_valid = true ∧ events.prefixes_nonneg d.balance_tree.inorder := by
  obtain ⟨hw, hv⟩ := inv_of_reachable d h
  have h2 : 0 ≤ events.min_pref d.balance_tree.inorder := hv.2.2.2.1
  refine ⟨?_, events.prefixes_nonneg_of_min_pref _ h2⟩
  rw [check_valid_view d hw.2.2]
  simpa [deque_events.check_valid] using h2

/-- Rollback away from the smallest time: a retroactive push, a retroactive pop above the
smallest time and a delete_operation above the smallest time that return false leave the
logs and the three in-order sequences as they were. -/
theorem rejected_update_leaves_view (d : retroactive_deque T) (h : reachable_above_min d)
    (x : T) (tm : Int) (back_op : Bool) (p₁ p₂ : Nat) (ht : above_min tm) :
    ((d.insert_push_operation x tm back_op p₁ p₂).1 = false →
      (d.insert_push_operation x tm back_op p₁ p₂).2.view = d.view) ∧
    ((d.insert_pop_operation tm back_op p₁ p₂).1 = false →
      (d.insert_pop_operation tm back_op p₁ p₂).2.view = d.view) ∧
    ((d.delete_operation tm p₁).1 = false → (d.delete_operation tm p₁).2.view = d.view) := by
  obtain ⟨hw, hv⟩ := inv_of_reachable d h
  obtain ⟨-, a1, a2⟩ := insert_push_operation_view d x tm back_op p₁ p₂ hw
  obtain ⟨-, b1, b2⟩ := insert_pop_operation_view d tm back_op p₁ p₂ hw
  obtain ⟨-, c1, c2⟩ := delete_operation_view d tm p₁ hw
  rw [a1, a2, b1, b2, c1, c2]
  exact ⟨(deque_events.inv_insert_push_operation d.view hv x tm back_op).2.1,
    (deque_events.inv_insert_pop_operation d.view hv tm back_op ht).2.1,
    (deque_events.inv_delete_operation d.view hv tm ht).2.1⟩

/-- The admission rule away from the smallest time: a retroactive push is accepted iff its
time is unused; a retroactive pop iff its time is unused and the balance sequence with the
pop added has every prefix sum `>= 0`; a delete_operation iff an update is logged at the
time and the balance sequence without the events of that time has every prefix sum
`>= 0`. -/
theorem admission_above_min (d : retroactive_deque T) (h : reachable_above_min d)
    (x : T) (tm : Int) (back_op : Bool) (p₁ p₂ : Nat) (ht : above_min tm) :
    ((d.insert_push_operation x tm back_op p₁ p₂).1 = true ↔ d.time_used tm = false) ∧
    ((d.insert_pop_operation tm back_op p₁ p₂).1 = true ↔
      d.time_used tm = false ∧
      events.prefixes_nonneg (events.insert d.balance_tree.inorder tm false)) ∧
    ((d.delete_operation tm p₁).1 = true ↔
      d.time_used tm = true ∧
      events.prefixes_nonneg (events.erase d.balance_tree.inorder tm)) := by
  obtain ⟨hw, hv⟩ := inv_of_reachable d h
  obtain ⟨-, a1, -⟩ := insert_push_operation_view d x tm back_op p₁ p₂ hw
  obtain ⟨-, b1, -⟩ := insert_pop_operation_view d tm back_op p₁ p₂ hw
  obtain ⟨-, c1, -⟩ := delete_operation_view d tm p₁ hw
  rw [a1, b1, c1, ← events.min_pref_nonneg_iff, ← events.min_pref_nonneg_iff]
  exact ⟨(deque_events.inv_insert_push_operation d.view hv x tm back_op).2.2,
    (deque_events.inv_insert_pop_operation d.view hv tm back_op ht).2.2,
    (deque_events.inv_delete_operation d.view hv tm ht).2.2⟩

/-- The function `size` away from the smallest time: in every deque reached by update calls
above the smallest 64-bit value, with fewer than 2^64 logged pushes, `size()` is the number
of logged pushes minus the number of logged pops, and there are at least as many pushes
as pops. -/
theorem size_eq_pushes_minus_pops (d : retroactive_deque T) (h : reachable_above_min d)
    (hlen : d.operations.length < 18446744073709551616) :
    d.pop_operations.length ≤ d.operations.length ∧
    d.size = d.operations.length - d.pop_operations.length := by
  obtain ⟨hw, hv⟩ := inv_of_reachable d h
  obtain ⟨h1, -, -, h2, h3, h4, -, -, h7, h8⟩ := hv
  have hpush : ((d.view.balance_tree.filter fun e => e.2).map Prod.fst).length =
      (d.operations.map Prod.fst).length := by
    apply List.Perm.length_eq
    have n1 : ((d.view.balance_tree.filter fun e => e.2).map Prod.fst).Nodup :=
      events.nodup_times _ h1 _
    have n2 : (d.operations.map Prod.fst).Nodup := List.Pairwise.imp (fun h => ne_of_lt h) h7
    apply (List.perm_ext_iff_of_nodup n1 n2).mpr
    intro t
    have h3' : (t, true) ∈ d.view.balance_tree ↔ t ∈ d.operations.map Prod.fst := by
      rw [h3, map_find_isSome_iff]; rfl
    rw [← h3']
    simp only [List.mem_map, List.mem_filter]
    constructor
    · rintro ⟨⟨t', b⟩, ⟨hm, hb⟩, rfl⟩
      simp only at hb; subst hb; exact hm
    · intro hb; exact ⟨(t, true), ⟨hb, rfl⟩, rfl⟩
  have hpop : ((d.view.balance_tree.filter fun e => !e.2).map Prod.fst).length =
      d.pop_operations.length := by
    apply List.Perm.length_eq
    have n1 : ((d.view.balance_tree.filter fun e => !e.2).map Prod.fst).Nodup :=
      events.nodup_times _ h1 _
    have n2 : d.pop_operations.Nodup := List.Pairwise.imp (fun h => ne_of_lt h) h8
    apply (List.perm_ext_iff_of_nodup n1 n2).mpr
    intro t
    have h4' : (t, false) ∈ d.view.balance_tree ↔ t ∈ d.pop_operations := h4 t
    rw [← h4']
    simp only [List.mem_map, List.mem_filter]
    constructor
    · rintro ⟨⟨t', b⟩, ⟨hm, hb⟩, rfl⟩
      simp only [Bool.not_eq_true'] at hb; subst hb; exact hm
    · intro hb; exact ⟨(t, false), ⟨hb, rfl⟩, rfl⟩
  simp only [List.length_map] at hpush hpop
  have hb := events.balance_eq_counts d.view.balance_tree
  have hnn := events.balance_nonneg _ h2
  rw [size_view d hw, deque_events.size]
  rw [hpush, hpop] at hb
  constructor
  · omega
  · rw [hb]; omega

end retroactive_deque

/-! # The retroactive dictionary -/

theorem gmap_assign_spec (m : List (Int × Bool)) (k : Int) (v : Bool)
    (hs : m.Pairwise (fun a b => a.1 > b.1)) (hk : ∀ e ∈ m, e.1 ≠ k) :
    (gmap_assign m k v).Pairwise (fun a b => a.1 > b.1) ∧
    ∀ e, e ∈ gmap_assign m k v ↔ e = (k, v) ∨ e ∈ m := by
  induction m with
  | nil => simp [gmap_assign]
  | cons a m ih =>
    obtain ⟨k₀, v₀⟩ := a
    simp only [List.pairwise_cons] at hs
    obtain ⟨h1, h2⟩ := hs
    have hk0 : k₀ ≠ k := hk (k₀, v₀) (by simp)
    obtain ⟨ih1, ih2⟩ := ih h2 (fun e he => hk e (List.mem_cons_of_mem _ he))
    simp only [gmap_assign]
    by_cases c1 : k > k₀
    · simp only [c1, if_true, List.pairwise_cons, List.mem_cons]
      refine ⟨⟨?_, h1, h2⟩, by simp⟩
      intro e he
      rcases he with rfl | he
      · exact c1
      · have := h1 e he; simp only at this ⊢; omega
    · have c2 : ¬ k = k₀ := fun e => hk0 e.symm
      simp only [c1, c2, if_false, List.pairwise_cons, List.mem_cons]
      refine ⟨⟨?_, ih1⟩, fun e => by rw [ih2]; tauto⟩
      intro e he
      rw [ih2] at he
      rcases he with rfl | he
      · simp only; omega
      · exact h1 e he

theorem gmap_lower_bound_spec (m : List (Int × Bool)) (k : Int)
    (hs : m.Pairwise (fun a b => a.1 > b.1)) (e : Int × Bool) :
    gmap_lower_bound m k = some e ↔
      e ∈ m ∧ e.1 ≤ k ∧ ∀ e' ∈ m, e'.1 ≤ k → e'.1 ≤ e.1 := by
  induction m with
  | nil => simp [gmap_lower_bound]
  | cons a m ih =>
    simp only [List.pairwise_cons] at hs
    obtain ⟨h1, h2⟩ := hs
    simp only [gmap_lower_bound]
    by_cases c : a.1 ≤ k
    · simp only [c, if_true, Option.some.injEq, List.mem_cons]
      constructor
      · rintro rfl
        refine ⟨Or.inl rfl, c, ?_⟩
        intro e' he' _
        rcases he' with rfl | he'
        · exact le_refl _
        · exact le_of_lt (h1 e' he')
      · rintro ⟨he, hek, hmax⟩
        rcases he with rfl | he
        · rfl
        · have := hmax a (Or.inl rfl) c
          have := h1 e he
          omega
    · simp only [c, if_false, ih h2, List.mem_cons]
      constructor
      · rintro ⟨he, hek, hmax⟩
        refine ⟨Or.inr he, hek, ?_⟩
        intro e' he' hk'
        rcases he' with rfl | he'
        · exact absurd hk' c
        · exact hmax e' he' hk'
      · rintro ⟨he, hek, hmax⟩
        rcases he with rfl | he
        · exact absurd hek c
        · exact ⟨he, hek, fun e' he' hk' => hmax e' (Or.inr he') hk'⟩

theorem gmap_lower_bound_none (m : List (Int × Bool)) (k : Int) :
    gmap_lower_bound m k = none ↔ ∀ e ∈ m, ¬ e.1 ≤ k := by
  induction m with
  | nil => simp [gmap_lower_bound]
  | cons a m ih =>
    simp only [gmap_lower_bound, List.mem_cons, forall_eq_or_imp]
    by_cases c : a.1 ≤ k
    · simp [c]
    · simp [c, ih]

namespace retroactive_dictionary

open retroactive_unordered_multiset (seq_find seq_assign seq_erase seq_find_assign
  seq_find_erase)

variable {T : Type} [DecidableEq T]

theorem dict_inv_empty : (empty_dictionary : retroactive_dictionary T).inv := by
  constructor
  · intro x m h; simp [empty_dictionary, seq_find] at h
  · intro tm x h; simp [empty_dictionary, map_find] at h

theorem dict_inv_record (s : retroactive_dictionary T) (hs : s.inv) (x : T) (tm : Int)
    (ins : Bool) (ht : isInt64 tm) (hu : map_find s.operations tm = none) :
    ({ operations := map_assign s.operations tm x,
       sequences := seq_assign s.sequences x (gmap_assign (s.events x) tm ins) } :
      retroactive_dictionary T).inv := by
  have hev : (s.events x).Pairwise (fun a b => a.1 > b.1) ∧
      ∀ e ∈ s.events x, isInt64 e.1 ∧ map_find s.operations e.1 = some x := by
    unfold events
    cases hf : seq_find s.sequences x with
    | none => simp
    | some m => exact (hs.1 x m hf).2
  have hne : ∀ e ∈ s.events x, e.1 ≠ tm := by
    intro e he h
    have := (hev.2 e he).2
    rw [h, hu] at this
    simp at this
  obtain ⟨g1, g2⟩ := gmap_assign_spec (s.events x) tm ins hev.1 hne
  constructor
  · intro y m hy
    simp only [seq_find_assign] at hy
    by_cases hyx : y = x
    · subst hyx
      simp only [if_true, Option.some.injEq] at hy
      subst hy
      refine ⟨?_, g1, ?_⟩
      · intro h
        have := (g2 (tm, ins)).mpr (Or.inl rfl)
        rw [h] at this; simp at this
      · intro e he
        rw [g2] at he
        simp only [map_find_assign]
        rcases he with rfl | he
        · exact ⟨ht, by simp⟩
        · exact ⟨(hev.2 e he).1, by simp [hne e he, (hev.2 e he).2]⟩
    · simp only [hyx, if_false] at hy
      obtain ⟨a, b, c⟩ := hs.1 y m hy
      refine ⟨a, b, ?_⟩
      intro e he
      have hne' : e.1 ≠ tm := by
        intro h
        have := (c e he).2
        rw [h, hu] at this
        simp at this
      exact ⟨(c e he).1, by simp [map_find_assign, hne', (c e he).2]⟩
  · intro tm' y hy
    simp only [map_find_assign] at hy
    by_cases htt : tm' = tm
    · subst htt
      simp only [if_true, Option.some.injEq] at hy
      subst hy
      exact ⟨gmap_assign (s.events x) tm' ins, ins, by simp [seq_find_assign],
        (g2 _).mpr (Or.inl rfl)⟩
    · simp only [htt, if_false] at hy
      obtain ⟨m, b, hm, hb⟩ := hs.2 tm' y hy
      by_cases hyx : y = x
      · subst hyx
        refine ⟨gmap_assign (s.events y) tm ins, b, by simp [seq_find_assign], ?_⟩
        rw [g2]
        right
        simp only [events, hm, Option.getD_some]
        exact hb
      · exact ⟨m, b, by simp [seq_find_assign, hyx, hm], hb⟩

theorem dict_inv_insert (s : retroactive_dictionary T) (hs : s.inv) (x : T) (tm : Int)
    (ht : isInt64 tm) : (s.insert x tm).2.inv := by
  unfold insert
  cases hu : map_find s.operations tm with
  | some y => simpa using hs
  | none => simpa using dict_inv_record s hs x tm true ht hu

theorem dict_inv_erase (s : retroactive_dictionary T) (hs : s.inv) (x : T) (tm : Int)
    (ht : isInt64 tm) : (s.erase x tm).2.inv := by
  unfold erase
  cases hu : map_find s.operations tm with
  | some y => simpa using hs
  | none => simpa using dict_inv_record s hs x tm false ht hu

end retroactive_dictionary

theorem isInt64_wrap64 (x : Int) : isInt64 (wrap64 x) := by
  simp only [isInt64, wrap64, INT64_MIN, INT64_MAX]
  omega

namespace retroactive_dictionary

open retroactive_unordered_multiset (seq_find seq_assign seq_erase seq_find_assign
  seq_find_erase)

variable {T : Type} [DecidableEq T]

/-- On a consistent state `delete_operation` is defined and keeps the invariant. -/
theorem dict_inv_delete_operation (s : retroactive_dictionary T) (hs : s.inv) (tm : Int) :
    ∃ r, s.delete_operation tm = some r ∧ r.2.inv := by
  unfold delete_operation
  cases hu : map_find s.operations tm with
  | none => exact ⟨(false, s), rfl, hs⟩
  | some x =>
    obtain ⟨m, b, hm, hb⟩ := hs.2 tm x hu
    obtain ⟨hne, hsort, hlog⟩ := hs.1 x m hm
    simp only [hm]
    have hothers : ∀ y m', y ≠ x → seq_find s.sequences y = some m' →
        ∀ e ∈ m', isInt64 e.1 ∧ map_find (map_erase s.operations tm) e.1 = some y := by
      intro y m' hyx hy e he
      have h4 := (hs.1 y m' hy).2.2 e he
      have hne' : e.1 ≠ tm := by
        intro h
        rw [h, hu] at h4
        simp only [Option.some.injEq] at h4
        exact hyx h4.2.symm
      exact ⟨h4.1, by simp [map_find_erase, hne', h4.2]⟩
    by_cases hl : m.length = 1
    · simp only [hl, if_true]
      refine ⟨_, rfl, ?_⟩
      have hm1 : m = [(tm, b)] := by
        match m, hl, hb with
        | [e], _, hb => simp only [List.mem_singleton] at hb; rw [hb]
      constructor
      · intro y m' hy
        simp only [seq_find_erase] at hy
        by_cases hyx : y = x
        · simp [hyx] at hy
        · simp only [hyx, if_false] at hy
          obtain ⟨h1, h2, -⟩ := hs.1 y m' hy
          exact ⟨h1, h2, hothers y m' hyx hy⟩
      · intro tm' y hy
        simp only [map_find_erase] at hy
        by_cases htt : tm' = tm
        · simp [htt] at hy
        · simp only [htt, if_false] at hy
          obtain ⟨m', b', hm', hb'⟩ := hs.2 tm' y hy
          by_cases hyx : y = x
          · subst hyx
            rw [hm] at hm'
            simp only [Option.some.injEq] at hm'
            subst hm'
            rw [hm1] at hb'
            simp only [List.mem_singleton, Prod.mk.injEq] at hb'
            exact absurd hb'.1 htt
          · exact ⟨m', b', by simp [seq_find_erase, hyx, hm'], hb'⟩
    · simp only [hl, if_false]
      refine ⟨_, rfl, ?_⟩
      constructor
      · intro y m' hy
        simp only [seq_find_assign] at hy
        by_cases hyx : y = x
        · subst hyx
          simp only [if_true, Option.some.injEq] at hy
          subst hy
          refine ⟨?_, List.Pairwise.filter _ hsort, ?_⟩
          · -- a map with at least two entries keeps one after the removal of `tm`
            intro hnil
            have hall : ∀ e ∈ m, e.1 = tm := by
              intro e he
              by_contra hc
              have : e ∈ gmap_erase m tm := by
                simp only [gmap_erase, List.mem_filter]
                exact ⟨he, by simpa using hc⟩
              rw [hnil] at this; simp at this
            match m, hl, hne, hsort, hall with
            | [e], hl, _, _, _ => simp at hl
            | e₁ :: e₂ :: _, _, _, hsort, hall =>
              simp only [List.pairwise_cons, List.mem_cons] at hsort
              have h1 := hall e₁ (by simp)
              have h2 := hall e₂ (by simp)
              have := hsort.1 e₂ (Or.inl rfl)
              omega
          · intro e he
            simp only [gmap_erase, List.mem_filter, ne_eq, decide_not, Bool.not_eq_true',
              decide_eq_false_iff_not] at he
            exact ⟨(hlog e he.1).1, by simp [map_find_erase, he.2, (hlog e he.1).2]⟩
        · simp only [hyx, if_false] at hy
          obtain ⟨h1, h2, -⟩ := hs.1 y m' hy
          exact ⟨h1, h2, hothers y m' hyx hy⟩
      · intro tm' y hy
        simp only [map_find_erase] at hy
        by_cases htt : tm' = tm
        · simp [htt] at hy
        · simp only [htt, if_false] at hy
          obtain ⟨m', b', hm', hb'⟩ := hs.2 tm' y hy
          by_cases hyx : y = x
          · subst hyx
            rw [hm] at hm'
            simp only [Option.some.injEq] at hm'
            subst hm'
            refine ⟨gmap_erase m tm, b', by simp [seq_find_assign], ?_⟩
            simp only [gmap_erase, List.mem_filter]
            exact ⟨hb', by simpa using htt⟩
          · exact ⟨m', b', by simp [seq_find_assign, hyx, hm'], hb'⟩

/-- Every reachable dictionary is consistent. -/
theorem dict_inv_of_reachable (s : retroactive_dictionary T) (h : reachable s) : s.inv := by
  induction h with
  | empty => exact dict_inv_empty
  | step s c r _ hc hr ih =>
    cases c with
    | insert x tm =>
      simp only [call, Option.some.injEq] at hr
      rw [← hr]; exact dict_inv_insert s ih x tm hc
    | erase x tm =>
      simp only [call, Option.some.injEq] at hr
      rw [← hr]; exact dict_inv_erase s ih x tm hc
    | delete_operation tm =>
      obtain ⟨r', h1, h2⟩ := dict_inv_delete_operation s ih tm
      simp only [call, h1, Option.map_some', Option.some.injEq] at hr
      rw [← hr]; exact h2
    | find x tm =>
      simp only [call, Option.some.injEq] at hr
      rw [← hr]; exact ih
    | insert_now x =>
      simp only [call, Option.some.injEq] at hr
      rw [← hr]
      apply dict_inv_insert s ih x
      unfold get_last_time; split
      · decide
      · exact isInt64_wrap64 _
    | erase_now x =>
      simp only [call, Option.some.injEq] at hr
      rw [← hr]
      apply dict_inv_erase s ih x
      unfold get_last_time; split
      · decide
      · exact isInt64_wrap64 _
    | clear =>
      simp only [call, Option.some.injEq] at hr
      rw [← hr]; exact dict_inv_empty

/-- The events of a key in a consistent dictionary: strictly decreasing times in the
64-bit range. -/
theorem dict_events_sorted (s : retroactive_dictionary T) (hs : s.inv) (x : T) :
    (s.events x).Pairwise (fun a b => a.1 > b.1) ∧ ∀ e ∈ s.events x, isInt64 e.1 := by
  unfold events
  cases hf : seq_find s.sequences x with
  | none => simp
  | some m =>
    obtain ⟨-, h2, h3⟩ := hs.1 x m hf
    exact ⟨h2, fun e he => (h3 e he).1⟩

theorem dict_find_eq (s : retroactive_dictionary T) (x : T) (tm : Int) :
    s.find x tm = ((gmap_lower_bound (s.events x) tm).map Prod.snd).getD false := by
  unfold find events
  cases seq_find s.sequences x with
  | none => simp [gmap_lower_bound]
  | some m =>
    simp only [Option.getD_some]
    cases gmap_lower_bound m tm <;> simp

end retroactive_dictionary

theorem latest_event_mem (l : List (Int × Bool)) (t : Int) (e : Int × Bool)
    (h : retroactive_dictionary.latest_event l t = some e) : e ∈ l ∧ e.1 ≤ t := by
  induction l generalizing e with
  | nil => simp [retroactive_dictionary.latest_event] at h
  | cons a l ih =>
    simp only [retroactive_dictionary.latest_event] at h
    cases hl : retroactive_dictionary.latest_event l t with
    | none =>
      simp only [hl] at h
      split at h
      · simp only [Option.some.injEq] at h; subst h; exact ⟨by simp, by assumption⟩
      · simp at h
    | some e' =>
      simp only [hl] at h
      have := ih e' hl
      split at h
      · simp only [Option.some.injEq] at h; subst h
        rename_i hc
        exact ⟨by simp, hc.1⟩
      · simp only [Option.some.injEq] at h; subst h
        exact ⟨List.mem_cons_of_mem _ this.1, this.2⟩

/-- In a map ordered by decreasing time, `lower_bound(t)` is the event of the largest
time `<= t`. -/
theorem gmap_lower_bound_eq_latest_event (m : List (Int × Bool))
    (hm : m.Pairwise (fun a b => a.1 > b.1)) (t : Int) :
    gmap_lower_bound m t = retroactive_dictionary.latest_event m t := by
  induction m with
  | nil => rfl
  | cons a m ih =>
    simp only [List.pairwise_cons] at hm
    simp only [gmap_lower_bound, retroactive_dictionary.latest_event]
    rw [ih hm.2]
    cases hl : retroactive_dictionary.latest_event m t with
    | none => rfl
    | some e' =>
      have h1 := hm.1 e' (latest_event_mem m t e' hl).1
      by_cases ha : a.1 ≤ t
      · simp only [ha, if_true, true_and]
        rw [if_pos (by omega)]
      · simp [ha]

namespace retroactive_dictionary

open retroactive_unordered_multiset (seq_find seq_assign seq_erase)

variable {T : Type} [DecidableEq T]

/-- C16: for every reachable dictionary, key x and time t, find(x, t) is true iff x has
an event of time `<= t` and the one of the largest such time is an insert; the events of
x are the entries of its map, each logged for x in the operation log; and find at the
largest 64-bit time is true iff the event of the largest time on x is an insert (false
when x has no event). -/
theorem C16_find_reads_latest_event_at_or_before (s : retroactive_dictionary T)
    (h : reachable s) (x : T) (t : Int) :
    (s.find x t = true ↔
      ∃ e ∈ s.events x, e.1 ≤ t ∧ (∀ e' ∈ s.events x, e'.1 ≤ t → e'.1 ≤ e.1) ∧
        e.2 = true) ∧
    (∀ e ∈ s.events x, map_find s.operations e.1 = some x) ∧
    (s.find x INT64_MAX = true ↔
      ∃ e ∈ s.events x, (∀ e' ∈ s.events x, e'.1 ≤ e.1) ∧ e.2 = true) ∧
    (s.events x = [] → s.find x INT64_MAX = false) := by
  have hi := dict_inv_of_reachable s h
  obtain ⟨hsort, hrange⟩ := dict_events_sorted s hi x
  have key : ∀ t, (s.find x t = true ↔
      ∃ e ∈ s.events x, e.1 ≤ t ∧ (∀ e' ∈ s.events x, e'.1 ≤ t → e'.1 ≤ e.1) ∧
        e.2 = true) := by
    intro t
    rw [dict_find_eq]
    constructor
    · intro hf
      cases hl : gmap_lower_bound (s.events x) t with
      | none => simp [hl] at hf
      | some e =>
        simp only [hl, Option.map_some', Option.getD_some] at hf
        obtain ⟨h1, h2, h3⟩ := (gmap_lower_bound_spec _ t hsort e).mp hl
        exact ⟨e, h1, h2, h3, hf⟩
    · rintro ⟨e, h1, h2, h3, h4⟩
      rw [(gmap_lower_bound_spec _ t hsort e).mpr ⟨h1, h2, h3⟩]
      simpa using h4
  refine ⟨key t, ?_, ?_, ?_⟩
  · intro e he
    unfold events at he
    cases hf : seq_find s.sequences x with
    | none => simp [hf] at he
    | some m =>
      simp only [hf, Option.getD_some] at he
      exact ((hi.1 x m hf).2.2 e he).2
  · rw [key INT64_MAX]
    constructor
    · rintro ⟨e, h1, -, h3, h4⟩
      exact ⟨e, h1, fun e' he' => h3 e' he' (hrange e' he').2, h4⟩
    · rintro ⟨e, h1, h3, h4⟩
      exact ⟨e, h1, (hrange e h1).2, fun e' he' _ => h3 e' he', h4⟩
  · intro hnil
    rw [dict_find_eq, hnil]
    rfl

/-- C16 at the history insert(7)@5, erase(7)@10: the dictionary is reachable, and
find(7, 7) is true, the event of the largest time `<= 7` being the insert at 5. -/
theorem C16_find_reads_latest_event_at_or_before_witness :
    reachable
      (((empty_dictionary : retroactive_dictionary Int).insert 7 5).2.erase 7 10).2 ∧
    ((((empty_dictionary : retroactive_dictionary Int).insert 7 5).2.erase 7 10).2.find 7 7
        = true ↔
      ∃ e ∈ (((empty_dictionary : retroactive_dictionary Int).insert 7 5).2.erase 7
          10).2.events 7,
        e.1 ≤ 7 ∧
        (∀ e' ∈ (((empty_dictionary : retroactive_dictionary Int).insert 7 5).2.erase 7
          10).2.events 7, e'.1 ≤ 7 → e'.1 ≤ e.1) ∧
        e.2 = true) :=
  have h₁ : reachable ((empty_dictionary : retroactive_dictionary Int).insert 7 5).2 :=
    reachable.step empty_dictionary (.insert 7 5) _ reachable.empty
      (show isInt64 5 by decide) rfl
  have h₂ : reachable
      (((empty_dictionary : retroactive_dictionary Int).insert 7 5).2.erase 7 10).2 :=
    reachable.step _ (.erase 7 10) _ h₁ (show isInt64 10 by decide) rfl
  ⟨h₂, (C16_find_reads_latest_event_at_or_before _ h₂ 7 7).1⟩

/-- C17 (fails): after insert(7)@5 and erase(7)@10 the event on 7 of the smallest time
`>= 7` is the erase at 10, and find(7, 7) returns true. -/
theorem C17_find_is_not_the_next_event :
    reachable
      (((empty_dictionary : retroactive_dictionary Int).insert 7 5).2.erase 7 10).2 ∧
    next_event
      ((((empty_dictionary : retroactive_dictionary Int).insert 7 5).2.erase 7 10).2.events 7)
      7 = some (10, false) ∧
    (((empty_dictionary : retroactive_dictionary Int).insert 7 5).2.erase 7 10).2.find 7 7
      = true :=
  have h₁ : reachable ((empty_dictionary : retroactive_dictionary Int).insert 7 5).2 :=
    reachable.step empty_dictionary (.insert 7 5) _ reachable.empty
      (show isInt64 5 by decide) rfl
  have h₂ : reachable
      (((empty_dictionary : retroactive_dictionary Int).insert 7 5).2.erase 7 10).2 :=
    reachable.step _ (.erase 7 10) _ h₁ (show isInt64 10 by decide) rfl
  ⟨h₂, by decide, by decide⟩

/-- C17 (amended): for every reachable dictionary, key x and time t, find(x, t) locates
the event on x of the largest recorded time `<= t`; if there is none find returns false,
otherwise it returns true iff that event is an insert. -/
theorem C17_find_looks_up_latest_event (s : retroactive_dictionary T)
    (h : reachable s) (x : T) (t : Int) :
    s.find x t =
      match latest_event (s.events x) t with
      | none => false
      | some e => e.2 := by
  have hi := dict_inv_of_reachable s h
  rw [dict_find_eq, gmap_lower_bound_eq_latest_event _ (dict_events_sorted s hi x).1]
  cases latest_event (s.events x) t <;> rfl

/-- C17 (amended) at the history insert(7)@5, erase(7)@10 and the query find(7, 7). -/
theorem C17_find_looks_up_latest_event_witness :
    reachable
      (((empty_dictionary : retroactive_dictionary Int).insert 7 5).2.erase 7 10).2 ∧
    (((empty_dictionary : retroactive_dictionary Int).insert 7 5).2.erase 7 10).2.find 7 7 =
      match latest_event
        ((((empty_dictionary : retroactive_dictionary Int).insert 7 5).2.erase 7
          10).2.events 7) 7 with
      | none => false
      | some e => e.2 :=
  have h₁ : reachable ((empty_dictionary : retroactive_dictionary Int).insert 7 5).2 :=
    reachable.step empty_dictionary (.insert 7 5) _ reachable.empty
      (show isInt64 5 by decide) rfl
  have h₂ : reachable
      (((empty_dictionary : retroactive_dictionary Int).insert 7 5).2.erase 7 10).2 :=
    reachable.step _ (.erase 7 10) _ h₁ (show isInt64 10 by decide) rfl
  ⟨h₂, C17_find_looks_up_latest_event _ h₂ 7 7⟩

/-- C18 (fails): on the empty dictionary erase(7)@5 is accepted, and the time-ordered
event sequence of key 7 then starts with an erase. -/
theorem C18_sequence_starts_with_erase :
    ((empty_dictionary : retroactive_dictionary Int).erase 7 5).1 = true ∧
    reachable ((empty_dictionary : retroactive_dictionary Int).erase 7 5).2 ∧
    (((empty_dictionary : retroactive_dictionary Int).erase 7 5).2.events 7).reverse
      = [(5, false)] ∧
    alternates
      ((((empty_dictionary : retroactive_dictionary Int).erase 7 5).2.events 7).reverse.map
        Prod.snd) = false :=
  ⟨by decide,
   reachable.step empty_dictionary (.erase 7 5) _ reachable.empty
     (show isInt64 5 by decide) rfl,
   by decide, by decide⟩

/-- C18 (amended): in every reachable dictionary the time-ordered event sequence of every
key has strictly increasing times, each of them logged for that key in the operation log,
and every logged time has an event in the sequence of its key; an insert or an erase is
accepted iff its time is not in the log, whatever the events of the key are. -/
theorem C18_sequences_ordered_and_logged (s : retroactive_dictionary T)
    (h : reachable s) (x : T) (t : Int) :
    (s.events x).reverse.Pairwise (fun a b => a.1 < b.1) ∧
    (∀ e ∈ (s.events x).reverse, map_find s.operations e.1 = some x) ∧
    (map_find s.operations t = some x → ∃ b, (t, b) ∈ (s.events x).reverse) ∧
    ((s.insert x t).1 = true ↔ map_find s.operations t = none) ∧
    ((s.erase x t).1 = true ↔ map_find s.operations t = none) := by
  have hi := dict_inv_of_reachable s h
  refine ⟨?_, ?_, ?_, ?_, ?_⟩
  · rw [List.pairwise_reverse]
    exact (dict_events_sorted s hi x).1
  · intro e he
    rw [List.mem_reverse] at he
    unfold events at he
    cases hf : seq_find s.sequences x with
    | none => simp [hf] at he
    | some m =>
      simp only [hf, Option.getD_some] at he
      exact ((hi.1 x m hf).2.2 e he).2
  · intro hl
    obtain ⟨m, b, hm, hb⟩ := hi.2 t x hl
    exact ⟨b, by simp [events, hm, hb]⟩
  · unfold insert
    cases map_find s.operations t <;> simp
  · unfold erase
    cases map_find s.operations t <;> simp

/-- C18 (amended) at the dictionary after erase(7)@5 and insert(7)@3. -/
theorem C18_sequences_ordered_and_logged_witness :
    reachable
      (((empty_dictionary : retroactive_dictionary Int).erase 7 5).2.insert 7 3).2 ∧
    ((((empty_dictionary : retroactive_dictionary Int).erase 7 5).2.insert 7 3).2.events
        7).reverse.Pairwise (fun a b => a.1 < b.1) :=
  have h₁ : reachable ((empty_dictionary : retroactive_dictionary Int).erase 7 5).2 :=
    reachable.step empty_dictionary (.erase 7 5) _ reachable.empty
      (show isInt64 5 by decide) rfl
  have h₂ : reachable
      (((empty_dictionary : retroactive_dictionary Int).erase 7 5).2.insert 7 3).2 :=
    reachable.step _ (.insert 7 3) _ h₁ (show isInt64 3 by decide) rfl
  ⟨h₂, (C18_sequences_ordered_and_logged _ h₂ 7 0).1⟩

end retroactive_dictionary

namespace partially_retroactive_set

open retroactive_unordered_multiset (seq_find seq_assign seq_erase)

theorem pset_events_assign (s : partially_retroactive_set) (x : Int) (l : List Int)
    (ops : List (Int × Int)) (el : List Int) (y : Int) :
    events { operations := ops, sequences := seq_assign s.sequences x l, elements := el } y
      = if y = x then l else s.events y := by
  unfold events
  simp only [retroactive_unordered_multiset.seq_find_assign]
  split <;> rfl

theorem pset_inv_empty : inv empty_set := by
  intro x
  simp [events, empty_set, seq_find]

/-- A state that differs from `s` by an entry of `sequences` holding what was read for
that key has the events and the log of `s`. -/
theorem pset_inv_touch (s : partially_retroactive_set) (hs : s.inv) (x : Int) :
    inv { s with sequences := seq_assign s.sequences x (s.events x) } := by
  intro y
  have h := hs y
  rw [pset_events_assign]
  by_cases hy : y = x
  · subst hy; simpa using h
  · simpa [hy] using h

theorem pset_last_max (l : List Int) (hl : l.Pairwise (fun a b => a < b)) (e : Int)
    (he : e ∈ l) : e ≤ l.getLast?.getD 0 := by
  induction l generalizing e with
  | nil => simp at he
  | cons a l ih =>
    simp only [List.pairwise_cons] at hl
    cases l with
    | nil => simp only [List.mem_singleton] at he; subst he; simp
    | cons b l =>
      rw [List.getLast?_cons_cons]
      rcases List.mem_cons.mp he with h | h
      · subst h
        have h1 := hl.1 b (by simp)
        have h2 := ih hl.2 b (List.mem_cons_self _ _)
        omega
      · exact ih hl.2 e h

theorem pset_last_mem (l : List Int) (hl : l ≠ []) : l.getLast?.getD 0 ∈ l := by
  rw [List.getLast?_eq_getLast _ hl]
  exact List.getLast_mem hl

/-- The state after an accepted update at an unused time, not before the last event of
the key, is consistent. -/
theorem pset_inv_push (s : partially_retroactive_set) (hs : s.inv) (x tm : Int)
    (el : List Int) (hu : map_find s.operations tm = none)
    (hb : s.events x = [] ∨ (s.events x).getLast?.getD 0 ≤ tm) :
    inv { operations := map_assign s.operations tm x, elements := el,
          sequences := seq_assign s.sequences x (s.events x ++ [tm]) } := by
  intro y
  have h := hs y
  rw [pset_events_assign]
  by_cases hy : y = x
  · subst hy
    simp only [if_true]
    constructor
    · rw [List.pairwise_append]
      refine ⟨h.1, by simp, ?_⟩
      intro a ha b hb'
      simp only [List.mem_singleton] at hb'
      subst hb'
      rcases hb with hb | hb
      · rw [hb] at ha; simp at ha
      · have h1 := pset_last_max _ h.1 a ha
        have h2 : a ≠ b := by
          intro hab
          have := h.2 a ha
          rw [hab, hu] at this
          simp at this
        omega
    · intro e he
      simp only [List.mem_append, List.mem_singleton] at he
      rw [map_find_assign]
      rcases he with he | he
      · split
        · rfl
        · exact h.2 e he
      · simp [he]
  · simp only [hy, if_false]
    refine ⟨h.1, ?_⟩
    intro e he
    rw [map_find_assign]
    have h1 := h.2 e he
    have : e ≠ tm := by
      intro hc; rw [hc, hu] at h1; simp at h1
    simp [this, h1]

theorem pset_inv_insert (s : partially_retroactive_set) (hs : s.inv) (x tm : Int) :
    (s.insert x tm).2.inv := by
  unfold insert
  split
  · exact hs
  · rename_i hu
    have hu' : map_find s.operations tm = none := by
      cases h : map_find s.operations tm <;> simp_all
    split
    · exact pset_inv_touch s hs x
    · rename_i hc
      apply pset_inv_push s hs x tm _ hu'
      simp only [Bool.or_eq_true, Bool.and_eq_true, Bool.not_eq_true', decide_eq_true_eq,
        not_or, not_and, not_lt] at hc
      by_cases he : s.events x = []
      · exact Or.inl he
      · exact Or.inr (hc.2 (by simpa using he))

theorem pset_inv_erase (s : partially_retroactive_set) (hs : s.inv) (x tm : Int) :
    (s.erase x tm).2.inv := by
  unfold erase
  split
  · exact hs
  · rename_i hu
    have hu' : map_find s.operations tm = none := by
      cases h : map_find s.operations tm <;> simp_all
    split
    · exact pset_inv_touch s hs x
    · rename_i hc
      apply pset_inv_push s hs x tm _ hu'
      simp only [Bool.or_eq_true, decide_eq_true_eq, not_or, not_lt] at hc
      exact Or.inr hc.2

theorem pset_inv_delete_operation (s : partially_retroactive_set) (hs : s.inv) (tm : Int)
    (r : Bool × partially_retroactive_set) (hr : s.delete_operation tm = some r) :
    r.2.inv := by
  unfold delete_operation at hr
  cases hu : map_find s.operations tm with
  | none =>
    simp only [hu, Option.some.injEq] at hr
    rw [← hr]; exact hs
  | some x =>
    simp only [hu] at hr
    cases hl : (s.events x).getLast? with
    | none => simp [hl] at hr
    | some b =>
      simp only [hl] at hr
      split at hr
      · simp only [Option.some.injEq] at hr
        rw [← hr]; exact pset_inv_touch s hs x
      · rename_i hb
        simp only [bne_iff_ne, ne_eq, not_not] at hb
        subst hb
        simp only [Option.some.injEq] at hr
        rw [← hr]
        obtain ⟨l, hl'⟩ : ∃ l, s.events x = l ++ [b] := by
          rw [List.getLast?_eq_some_iff] at hl
          exact hl
        intro y
        have h := hs y
        rw [pset_events_assign]
        by_cases hy : y = x
        · subst hy
          simp only [if_true]
          rw [hl'] at h ⊢
          simp only [List.dropLast_concat]
          rw [List.pairwise_append] at h
          refine ⟨h.1.1, ?_⟩
          intro e he
          have h1 := h.1.2.2 e he b (by simp)
          rw [map_find_erase, if_neg (by omega)]
          exact h.2 e (by simp [he])
        · simp only [hy, if_false]
          refine ⟨h.1, ?_⟩
          intro e he
          have h1 := h.2 e he
          have : e ≠ b := by
            intro hc; rw [hc, hu] at h1
            simp only [Option.some.injEq] at h1
            exact hy h1.symm
          rw [map_find_erase, if_neg this]
          exact h1

/-- Every reachable partially retroactive set is consistent. -/
theorem pset_inv_of_reachable (s : partially_retroactive_set) (h : reachable s) : s.inv := by
  induction h with
  | empty => exact pset_inv_empty
  | step s c r _ _ hr ih =>
    cases c with
    | insert x tm =>
      simp only [call, Option.some.injEq] at hr
      rw [← hr]; exact pset_inv_insert s ih x tm
    | erase x tm =>
      simp only [call, Option.some.injEq] at hr
      rw [← hr]; exact pset_inv_erase s ih x tm
    | delete_operation tm =>
      simp only [call, Option.map_eq_some'] at hr
      obtain ⟨r', h1, h2⟩ := hr
      rw [← h2]; exact pset_inv_delete_operation s ih tm r' h1
    | insert_now x =>
      simp only [call, Option.some.injEq] at hr
      rw [← hr]; exact pset_inv_insert s ih x _
    | erase_now x =>
      simp only [call, Option.some.injEq] at hr
      rw [← hr]; exact pset_inv_erase s ih x _
    | lower_bound x =>
      simp only [call, Option.map_eq_some'] at hr
      obtain ⟨r', _, h2⟩ := hr
      rw [← h2]; exact ih
    | upper_bound x =>
      simp only [call, Option.map_eq_some'] at hr
      obtain ⟨r', _, h2⟩ := hr
      rw [← h2]; exact ih
    | find x =>
      simp only [call, Option.some.injEq] at hr
      rw [← hr]; exact ih
    | clear =>
      simp only [call, Option.some.injEq] at hr
      rw [← hr]; exact pset_inv_empty

/-- C14 (fails): after insert(1)@5 key 2 has no event, so time 5 falls after an even
number (zero) of its events and after all of them, and insert(2)@5 is rejected, the
time 5 being in the log. -/
theorem C14_insert_rejected_at_logged_time :
    reachable (empty_set.insert 1 5).2 ∧
    falls_after_even_and_latest ((empty_set.insert 1 5).2.events 2) 5 ∧
    ((empty_set.insert 1 5).2.insert 2 5).1 = false :=
  ⟨reachable.step empty_set (.insert 1 5) _ reachable.empty (show isInt64 5 by decide) rfl,
   by decide, by decide⟩

/-- C14 (amended): for every reachable partially retroactive set, key x and time t,
insert(x, t) succeeds iff t is not in the operation log and, among the logged events on
key x, t falls after an even number of events and after the latest event time of x. -/
theorem C14_insert_admission (s : partially_retroactive_set) (h : reachable s)
    (x t : Int) :
    (s.insert x t).1 = true ↔
      map_find s.operations t = none ∧ falls_after_even_and_latest (s.events x) t := by
  have hi := pset_inv_of_reachable s h x
  unfold insert falls_after_even_and_latest
  cases hu : map_find s.operations t with
  | some y => simp
  | none =>
    simp only [Option.isSome_none, Bool.false_eq_true, if_false, true_and]
    have hall : (∀ e ∈ s.events x, e < t) →
        (s.events x).filter (fun e => decide (e < t)) = s.events x := by
      intro ha
      rw [List.filter_eq_self]
      intro e he
      simpa using ha e he
    split
    · rename_i hc
      simp only [Bool.or_eq_true, Bool.and_eq_true, Bool.not_eq_true', decide_eq_true_eq,
        bne_iff_ne, ne_eq] at hc
      simp only [Bool.false_eq_true, false_iff, not_and]
      intro hev ha
      rw [hall ha] at hev
      rcases hc with hc | hc
      · exact hc hev
      · have hne : s.events x ≠ [] := by simpa using hc.1
        have := ha _ (pset_last_mem _ hne)
        omega
    · rename_i hc
      simp only [Bool.or_eq_true, Bool.and_eq_true, Bool.not_eq_true', decide_eq_true_eq,
        bne_iff_ne, ne_eq, not_or, not_and, not_lt, not_not] at hc
      simp only [true_iff]
      have ha : ∀ e ∈ s.events x, e < t := by
        intro e he
        have hne : s.events x ≠ [] := List.ne_nil_of_mem he
        have h1 := pset_last_max _ hi.1 e he
        have h2 := hc.2 (by simpa using hne)
        have h3 : e ≠ t := by
          intro hh
          have := hi.2 e he
          rw [hh, hu] at this; simp at this
        omega
      exact ⟨by rw [hall ha]; exact hc.1, ha⟩

/-- C14 (amended) at the set after insert(1)@5 and the call insert(2)@7. -/
theorem C14_insert_admission_witness :
    reachable (empty_set.insert 1 5).2 ∧
    (((empty_set.insert 1 5).2.insert 2 7).1 = true ↔
      map_find (empty_set.insert 1 5).2.operations 7 = none ∧
      falls_after_even_and_latest ((empty_set.insert 1 5).2.events 2) 7) :=
  have h₁ : reachable (empty_set.insert 1 5).2 :=
    reachable.step empty_set (.insert 1 5) _ reachable.empty (show isInt64 5 by decide) rfl
  ⟨h₁, C14_insert_admission _ h₁ 2 7⟩

end partially_retroactive_set

namespace retroactive_deque

/-- C19 (the round trip fails on the code): on the deque S obtained by insert_push_back of
7 at the smallest 64-bit time, delete_operation at that time returns true and re-issuing
the push returns true, but the result holds the push event twice in the balance sequence
and in the right sequence, where S holds it once, and size() returns 2, where on S it
returns 1. In the multiset the same three calls with key 7 leave the insert event twice in
the sequence of 7, and two later erases of 7 are both accepted, where S rejects the
second. `treap::erase` splits at `tm - 1`, which wraps to the largest time. -/
theorem C19_round_trip_duplicates_event (p₁ p₂ p₃ p₄ p₅ : Nat) :
    (((empty_deque : retroactive_deque Int).run
        [.insert_push_back 7 INT64_MIN p₁ p₂, .size]).1 = [.flag true, .count 1] ∧
     ((empty_deque : retroactive_deque Int).run
        [.insert_push_back 7 INT64_MIN p₁ p₂, .size]).2.view =
      { operations := [(INT64_MIN, 7)], pop_operations := [], ul := [],
        ur := [(INT64_MIN, true)], balance_tree := [(INT64_MIN, true)] }) ∧
    (((empty_deque : retroactive_deque Int).run
        [.insert_push_back 7 INT64_MIN p₁ p₂, .delete_operation INT64_MIN p₃,
         .insert_push_back 7 INT64_MIN p₄ p₅, .size]).1 =
      [.flag true, .flag true, .flag true, .count 2] ∧
     ((empty_deque : retroactive_deque Int).run
        [.insert_push_back 7 INT64_MIN p₁ p₂, .delete_operation INT64_MIN p₃,
         .insert_push_back 7 INT64_MIN p₄ p₅, .size]).2.view =
      { operations := [(INT64_MIN, 7)], pop_operations := [], ul := [],
        ur := [(INT64_MIN, true), (INT64_MIN, true)],
        balance_tree := [(INT64_MIN, true), (INT64_MIN, true)] }) ∧
    ((retroactive_unordered_multiset.empty_multiset : retroactive_unordered_multiset Int).run
        [.insert 7 INT64_MIN p₁, .erase 7 1 p₂, .erase 7 2 p₃]).map
        (fun r => (r.1, r.2.view)) =
      some ([some true, some true, some false],
            { operations := [(INT64_MIN, 7), (1, 7)],
              sequences := [(7, [(INT64_MIN, true), (1, false)])] }) ∧
    ((retroactive_unordered_multiset.empty_multiset : retroactive_unordered_multiset Int).run
        [.insert 7 INT64_MIN p₁, .delete_operation INT64_MIN p₂, .insert 7 INT64_MIN p₃,
         .erase 7 1 p₄, .erase 7 2 p₅]).map (fun r => (r.1, r.2.view)) =
      some ([some true, some true, some true, some true, some true],
            { operations := [(INT64_MIN, 7), (1, 7), (2, 7)],
              sequences := [(7, [(INT64_MIN, true), (INT64_MIN, true), (1, false),
                (2, false)])] }) := by
  obtain ⟨-, h₁, e₁⟩ := run_view (empty_deque : retroactive_deque Int)
    [.insert_push_back 7 INT64_MIN p₁ p₂, .size] wf_empty
  obtain ⟨-, h₂, e₂⟩ := run_view (empty_deque : retroactive_deque Int)
    [.insert_push_back 7 INT64_MIN p₁ p₂, .delete_operation INT64_MIN p₃,
     .insert_push_back 7 INT64_MIN p₄ p₅, .size] wf_empty
  obtain ⟨-, h₃⟩ := retroactive_unordered_multiset.ms_run_view
    (retroactive_unordered_multiset.empty_multiset : retroactive_unordered_multiset Int)
    [.insert 7 INT64_MIN p₁, .erase 7 1 p₂, .erase 7 2 p₃]
    retroactive_unordered_multiset.wf_empty_multiset
  obtain ⟨-, h₄⟩ := retroactive_unordered_multiset.ms_run_view
    (retroactive_unordered_multiset.empty_multiset : retroactive_unordered_multiset Int)
    [.insert 7 INT64_MIN p₁, .delete_operation INT64_MIN p₂, .insert 7 INT64_MIN p₃,
     .erase 7 1 p₄, .erase 7 2 p₅]
    retroactive_unordered_multiset.wf_empty_multiset
  rw [h₁, e₁, h₂, e₂, h₃, h₄, view_empty, retroactive_unordered_multiset.view_empty_multiset]
  simp only [deque_events.run, deque_events.call, multiset_events.run, multiset_events.call]
  decide!

/-- C20 (the present-time push fails on the code): after the rejected insert_pop_back at
the smallest 64-bit time on the empty deque nothing is logged, so no used time reaches the
largest 64-bit value; push_back(7) returns 0, but the push is rejected: the log stays
empty and size() returns 2^64 - 1 before and after the call. -/
theorem C20_present_time_push_rejected (p₁ p₂ p₃ p₄ : Nat) :
    ((empty_deque : retroactive_deque Int).run
        [.insert_pop_back INT64_MIN p₁ p₂, .size, .push_back 7 p₃ p₄, .size]).1 =
      [.flag false, .count 18446744073709551615, .time 0, .count 18446744073709551615] ∧
    ((empty_deque : retroactive_deque Int).run
        [.insert_pop_back INT64_MIN p₁ p₂, .size, .push_back 7 p₃ p₄, .size]).2.view =
      { operations := [], pop_operations := [], ul := [], ur := [],
        balance_tree := [(INT64_MIN, false)] } := by
  obtain ⟨-, h, e⟩ := run_view (empty_deque : retroactive_deque Int)
    [.insert_pop_back INT64_MIN p₁ p₂, .size, .push_back 7 p₃ p₄, .size] wf_empty
  rw [h, e, view_empty]
  simp only [deque_events.run, deque_events.call]
  decide!

end retroactive_deque

theorem mem_set_insert (s : List Int) (k y : Int) : y ∈ set_insert s k ↔ y = k ∨ y ∈ s := by
  induction s with
  | nil => simp [set_insert]
  | cons a s ih =>
    simp only [set_insert]
    split
    · simp
    · split
      · rename_i h; subst h; simp
      · simp only [List.mem_cons, ih]
        constructor
        · rintro (h | h | h) <;> simp [h]
        · rintro (h | h | h) <;> simp [h]

theorem mem_set_erase (s : List Int) (k y : Int) : y ∈ set_erase s k ↔ y ≠ k ∧ y ∈ s := by
  simp only [set_erase, List.mem_filter, ne_eq, decide_not, Bool.not_eq_true',
    decide_eq_false_iff_not]
  exact and_comm

namespace segtree

/-- The midpoint is the mean of the bounds rounded down. -/
theorem midpoint_spec (tl tr : Int) :
    2 * midpoint tl tr ≤ tl + tr ∧ tl + tr ≤ 2 * midpoint tl tr + 1 := by
  unfold midpoint
  split <;> omega

theorem ensure_ne_null (t : segtree) : ensure t ≠ .null := by
  cases t <;> simp [ensure]

theorem canon_congr (x : Int) (P Q : Int → Prop) (N : segtree) (tl tr : Int)
    (h : ∀ t, tl ≤ t → t ≤ tr → (P t ↔ Q t)) (hc : canon x P N tl tr) :
    canon x Q N tl tr := by
  induction N generalizing tl tr with
  | null =>
    intro t h1 h2 hq
    exact hc t h1 h2 ((h t h1 h2).mpr hq)
  | node L R b ihL ihR =>
    have hm := midpoint_spec tl tr
    have hcov : (tl ≤ tr ∧ ∀ t, tl ≤ t → t ≤ tr → P t) ↔
        (tl ≤ tr ∧ ∀ t, tl ≤ t → t ≤ tr → Q t) := by
      constructor
      · rintro ⟨h1, h2⟩; exact ⟨h1, fun t a b => (h t a b).mp (h2 t a b)⟩
      · rintro ⟨h1, h2⟩; exact ⟨h1, fun t a b => (h t a b).mpr (h2 t a b)⟩
    simp only [canon] at hc ⊢
    rw [← hcov]
    refine ⟨hc.1, fun hn => ?_⟩
    obtain ⟨h1, h2, h3⟩ := hc.2 hn
    refine ⟨h1, ihL _ _ ?_ h2, ihR _ _ ?_ h3⟩
    · intro t a b; exact h t a (by omega)
    · intro t a b; exact h t (by omega) b

theorem canon_of_free (x : Int) (P : Int → Prop) (N : segtree) (tl tr : Int)
    (hf : free x N) (he : ∀ t, tl ≤ t → t ≤ tr → ¬ P t) : canon x P N tl tr := by
  induction N generalizing tl tr with
  | null => exact he
  | node L R b ihL ihR =>
    have hm := midpoint_spec tl tr
    simp only [free] at hf
    simp only [canon]
    constructor
    · rintro ⟨h1, h2⟩
      exact absurd (h2 tl (le_refl _) h1) (he tl (le_refl _) h1)
    · intro _
      refine ⟨hf.1, ihL _ _ hf.2.1 ?_, ihR _ _ hf.2.2 ?_⟩
      · intro t a b; exact he t a (by omega)
      · intro t a b; exact he t (by omega) b

theorem free_of_canon (x : Int) (P : Int → Prop) (N : segtree) (tl tr : Int)
    (hc : canon x P N tl tr) (he : ∀ t, tl ≤ t → t ≤ tr → ¬ P t) : free x N := by
  induction N generalizing tl tr with
  | null => trivial
  | node L R b ihL ihR =>
    have hm := midpoint_spec tl tr
    simp only [canon] at hc
    simp only [free]
    have hn : ¬ (tl ≤ tr ∧ ∀ t, tl ≤ t → t ≤ tr → P t) := by
      rintro ⟨h1, h2⟩
      exact he tl (le_refl _) h1 (h2 tl (le_refl _) h1)
    obtain ⟨h1, h2, h3⟩ := hc.2 hn
    refine ⟨h1, ihL _ _ h2 ?_, ihR _ _ h3 ?_⟩
    · intro t a b; exact he t a (by omega)
    · intro t a b; exact he t (by omega) b

theorem free_ensure (x : Int) (N : segtree) (h : free x N) : free x (ensure N) := by
  cases N with
  | null => simp [ensure, free]
  | node L R b => exact h

theorem sorted_ensure (N : segtree) (h : sorted N) : sorted (ensure N) := by
  cases N with
  | null => simp [ensure, sorted]
  | node L R b => exact h

theorem canon_ensure (x : Int) (P : Int → Prop) (N : segtree) (tl tr : Int)
    (hc : canon x P N tl tr) : canon x P (ensure N) tl tr := by
  cases N with
  | null => exact canon_of_free x P _ tl tr (by simp [ensure, free]) hc
  | node L R b => exact hc

/-- On the path towards a time of the range, the key of a canonical tree is found exactly
when the time is in the stored set. -/
theorem on_path_iff (x : Int) (P : Int → Prop) (N : segtree) (tl tr t : Int)
    (hc : canon x P N tl tr) (h1 : tl ≤ t) (h2 : t ≤ tr) :
    on_path x t N tl tr ↔ P t := by
  induction N generalizing tl tr with
  | null => simp only [on_path, false_iff]; exact hc t h1 h2
  | node L R b ihL ihR =>
    have hm := midpoint_spec tl tr
    simp only [canon] at hc
    simp only [on_path]
    by_cases hcov : tl ≤ tr ∧ ∀ t, tl ≤ t → t ≤ tr → P t
    · have := hc.1 hcov
      simp [this.1, hcov.2 t h1 h2]
    · obtain ⟨a, b', c⟩ := hc.2 hcov
      by_cases ht : t ≤ midpoint tl tr
      · simp only [ht, if_true, a, false_or]
        exact ihL _ _ b' h1 ht
      · simp only [ht, if_false, a, false_or]
        exact ihR _ _ c (by omega) h2

theorem add_free (x y : Int) (hy : y ≠ x) :
    ∀ (k : Nat) (N N' : segtree) (l r tl tr : Int),
      add k N l r x tl tr = some N' → free y N → free y N' := by
  intro k
  induction k with
  | zero => intro N N' l r tl tr h; simp [add] at h
  | succ k ih =>
    intro N N' l r tl tr h hf
    cases N with
    | null => simp [add] at h
    | node L R b =>
      simp only [add] at h
      simp only [free] at hf
      split at h
      · simp only [Option.some.injEq] at h
        subst h
        simp only [free, mem_set_insert, not_or]
        exact ⟨⟨hy, hf.1⟩, hf.2⟩
      · split at h
        · simp at h
        · rename_i L' hL
          split at h
          · simp at h
          · rename_i R' hR
            simp only [Option.some.injEq] at h
            subst h
            simp only [free]
            refine ⟨hf.1, ?_, ?_⟩
            · split at hL
              · exact ih _ _ _ _ _ _ hL (free_ensure y L hf.2.1)
              · simp only [Option.some.injEq] at hL; subst hL; exact hf.2.1
            · split at hR
              · exact ih _ _ _ _ _ _ hR (free_ensure y R hf.2.2)
              · simp only [Option.some.injEq] at hR; subst hR; exact hf.2.2

theorem add_sorted (x : Int) :
    ∀ (k : Nat) (N N' : segtree) (l r tl tr : Int),
      add k N l r x tl tr = some N' → sorted N → sorted N' := by
  intro k
  induction k with
  | zero => intro N N' l r tl tr h; simp [add] at h
  | succ k ih =>
    intro N N' l r tl tr h hf
    cases N with
    | null => simp [add] at h
    | node L R b =>
      simp only [add] at h
      simp only [sorted] at hf
      split at h
      · simp only [Option.some.injEq] at h
        subst h
        simp only [sorted]
        exact ⟨(set_insert_sorted b x hf.1).1, hf.2⟩
      · split at h
        · simp at h
        · rename_i L' hL
          split at h
          · simp at h
          · rename_i R' hR
            simp only [Option.some.injEq] at h
            subst h
            simp only [sorted]
            refine ⟨hf.1, ?_, ?_⟩
            · split at hL
              · exact ih _ _ _ _ _ _ hL (sorted_ensure L hf.2.1)
              · simp only [Option.some.injEq] at hL; subst hL; exact hf.2.1
            · split at hR
              · exact ih _ _ _ _ _ _ hR (sorted_ensure R hf.2.2)
              · simp only [Option.some.injEq] at hR; subst hR; exact hf.2.2

/-- The call `add` for the key `x` leaves what the tree stores for another key. -/
theorem add_frame (x y : Int) (hy : y ≠ x) (Q : Int → Prop) :
    ∀ (k : Nat) (N N' : segtree) (l r tl tr : Int),
      add k N l r x tl tr = some N' → canon y Q N tl tr → canon y Q N' tl tr := by
  intro k
  induction k with
  | zero => intro N N' l r tl tr h; simp [add] at h
  | succ k ih =>
    intro N N' l r tl tr h hc
    cases N with
    | null => simp [add] at h
    | node L R b =>
      simp only [add] at h
      simp only [canon] at hc
      split at h
      · simp only [Option.some.injEq] at h
        subst h
        simp only [canon, mem_set_insert, hy, false_or]
        exact hc
      · split at h
        · simp at h
        · rename_i L' hL
          split at h
          · simp at h
          · rename_i R' hR
            simp only [Option.some.injEq] at h
            subst h
            simp only [canon]
            constructor
            · intro hcov
              obtain ⟨a, b', c⟩ := hc.1 hcov
              refine ⟨a, ?_, ?_⟩
              · split at hL
                · exact add_free x y hy _ _ _ _ _ _ _ hL (free_ensure y L b')
                · simp only [Option.some.injEq] at hL; subst hL; exact b'
              · split at hR
                · exact add_free x y hy _ _ _ _ _ _ _ hR (free_ensure y R c)
                · simp only [Option.some.injEq] at hR; subst hR; exact c
            · intro hcov
              obtain ⟨a, b', c⟩ := hc.2 hcov
              refine ⟨a, ?_, ?_⟩
              · split at hL
                · exact ih _ _ _ _ _ _ hL (canon_ensure y Q L _ _ b')
                · simp only [Option.some.injEq] at hL; subst hL; exact b'
              · split at hR
                · exact ih _ _ _ _ _ _ hR (canon_ensure y Q R _ _ c)
                · simp only [Option.some.injEq] at hR; subst hR; exact c

end segtree

namespace segtree

/-- The call `add(l, r, x)` on a canonical tree, for a range of times that the stored
set neither meets nor touches: the call has a result, which stores the set enlarged by
`[l, r]`. -/
theorem add_canon (x : Int) :
    ∀ (k : Nat) (N : segtree) (l r tl tr : Int) (P : Int → Prop),
      N ≠ .null → tl ≤ l → l ≤ r → r ≤ tr → tr - tl < 2 ^ k → canon x P N tl tr →
      (∀ t, l ≤ t → t ≤ r → ¬ P t) → (l = tl ∨ ¬ P (l - 1)) → (r = tr ∨ ¬ P (r + 1)) →
      ∃ N', add (k + 1) N l r x tl tr = some N' ∧ N' ≠ .null ∧
        canon x (fun t => P t ∨ (l ≤ t ∧ t ≤ r)) N' tl tr := by
  intro k
  induction k with
  | zero =>
    intro N l r tl tr P hN h1 h2 h3 hk hc he hl hr
    cases N with
    | null => exact absurd rfl hN
    | node L R b =>
      simp only [pow_zero] at hk
      have e1 : tl = l := by omega
      have e2 : tr = r := by omega
      subst e1; subst e2
      have e3 : tr = tl := by omega
      subst e3
      refine ⟨.node L R (set_insert b x), by simp [add], by simp, ?_⟩
      simp only [canon] at hc ⊢
      have hn : ¬ (tr ≤ tr ∧ ∀ t, tr ≤ t → t ≤ tr → P t) := by
        rintro ⟨-, h⟩; exact he tr (le_refl _) (le_refl _) (h tr (le_refl _) (le_refl _))
      obtain ⟨a, b', c⟩ := hc.2 hn
      have hm := midpoint_spec tr tr
      constructor
      · intro _
        refine ⟨by simp [mem_set_insert], free_of_canon x P L _ _ b' ?_,
          free_of_canon x P R _ _ c ?_⟩
        · intro t u v; exact he t u (by omega)
        · intro t u v; exact he t (by omega) v
      · intro hcov
        exact absurd ⟨le_refl _, fun t u v => Or.inr ⟨u, v⟩⟩ hcov
  | succ k ih =>
    intro N l r tl tr P hN h1 h2 h3 hk hc he hl hr
    cases N with
    | null => exact absurd rfl hN
    | node L R b =>
      have hm := midpoint_spec tl tr
      have hn : ¬ (tl ≤ tr ∧ ∀ t, tl ≤ t → t ≤ tr → P t) := by
        rintro ⟨-, h⟩; exact he l (le_refl _) h2 (h l h1 (by omega))
      simp only [canon] at hc
      obtain ⟨a, b', c⟩ := hc.2 hn
      by_cases hex : tl = l ∧ tr = r
      · obtain ⟨e1, e2⟩ := hex
        subst e1; subst e2
        refine ⟨.node L R (set_insert b x), by simp [add], by simp, ?_⟩
        simp only [canon]
        constructor
        · intro _
          refine ⟨by simp [mem_set_insert], free_of_canon x P L _ _ b' ?_,
            free_of_canon x P R _ _ c ?_⟩
          · intro t u v; exact he t u (by omega)
          · intro t u v; exact he t (by omega) v
        · intro hcov
          exact absurd ⟨by omega, fun t u v => Or.inr ⟨u, v⟩⟩ hcov
      · have hpow : (2 : Int) ^ (k + 1) = 2 * 2 ^ k := by rw [pow_succ]; ring
        have hlt : tl < tr := by
          by_contra hge
          exact hex ⟨by omega, by omega⟩
        -- the left half
        have hL : ∃ L', (if l ≤ midpoint tl tr then
              add (k + 1) (ensure L) l (min r (midpoint tl tr)) x tl (midpoint tl tr)
             else some L) = some L' ∧
            canon x (fun t => P t ∨ (l ≤ t ∧ t ≤ r)) L' tl (midpoint tl tr) := by
          by_cases hlm : l ≤ midpoint tl tr
          · simp only [hlm, if_true]
            obtain ⟨L', e, -, cL⟩ := ih (ensure L) l (min r (midpoint tl tr)) tl
              (midpoint tl tr) P (ensure_ne_null L) h1 (by omega) (by omega) (by omega)
              (canon_ensure x P L _ _ b') (fun t u v => he t u (by omega)) hl
              (by
                by_cases hrm : r < midpoint tl tr
                · right
                  rw [min_eq_left (by omega)]
                  rcases hr with hr | hr
                  · omega
                  · exact hr
                · left; omega)
            refine ⟨L', e, canon_congr x _ _ L' _ _ ?_ cL⟩
            intro t u v
            constructor
            · rintro (h | h)
              · exact Or.inl h
              · exact Or.inr ⟨h.1, by omega⟩
            · rintro (h | h)
              · exact Or.inl h
              · exact Or.inr ⟨h.1, by omega⟩
          · simp only [hlm, if_false]
            refine ⟨L, rfl, canon_congr x _ _ L _ _ ?_ b'⟩
            intro t u v
            constructor
            · exact Or.inl
            · rintro (h | h)
              · exact h
              · omega
        -- the right half
        have hR : ∃ R', (if r > midpoint tl tr then
              add (k + 1) (ensure R) (max l (midpoint tl tr + 1)) r x (midpoint tl tr + 1) tr
             else some R) = some R' ∧
            canon x (fun t => P t ∨ (l ≤ t ∧ t ≤ r)) R' (midpoint tl tr + 1) tr := by
          by_cases hrm : r > midpoint tl tr
          · simp only [hrm, if_true]
            obtain ⟨R', e, -, cR⟩ := ih (ensure R) (max l (midpoint tl tr + 1)) r
              (midpoint tl tr + 1) tr P (ensure_ne_null R) (by omega) (by omega) h3
              (by omega) (canon_ensure x P R _ _ c) (fun t u v => he t (by omega) v)
              (by
                by_cases hlm : midpoint tl tr + 1 < l
                · right
                  rw [max_eq_left (by omega)]
                  rcases hl with hl | hl
                  · omega
                  · exact hl
                · left; omega)
              hr
            refine ⟨R', e, canon_congr x _ _ R' _ _ ?_ cR⟩
            intro t u v
            constructor
            · rintro (h | h)
              · exact Or.inl h
              · exact Or.inr ⟨by omega, h.2⟩
            · rintro (h | h)
              · exact Or.inl h
              · exact Or.inr ⟨by omega, h.2⟩
          · simp only [hrm, if_false]
            refine ⟨R, rfl, canon_congr x _ _ R _ _ ?_ c⟩
            intro t u v
            constructor
            · exact Or.inl
            · rintro (h | h)
              · exact h
              · omega
        obtain ⟨L', eL, cL⟩ := hL
        obtain ⟨R', eR, cR⟩ := hR
        refine ⟨.node L' R' b, ?_, by simp, ?_⟩
        · simp only [add, hex, if_false, eL, eR]
        · simp only [canon]
          constructor
          · rintro ⟨-, hcov⟩
            exfalso
            by_cases e1 : l = tl
            · have e2 : r ≠ tr := fun e => hex ⟨e1.symm, e.symm⟩
              rcases hr with hr | hr
              · exact e2 hr
              · rcases hcov (r + 1) (by omega) (by omega) with h | h
                · exact hr h
                · omega
            · rcases hl with hl | hl
              · exact e1 hl
              · rcases hcov (l - 1) (by omega) (by omega) with h | h
                · exact hl h
                · omega
          · intro _
            exact ⟨a, cL, cR⟩

theorem remove_free (x y : Int) :
    ∀ (k : Nat) (N N' : segtree) (l r tl tr : Int),
      remove k N l r x tl tr = some N' → free y N → free y N' := by
  intro k
  induction k with
  | zero => intro N N' l r tl tr h; simp [remove] at h
  | succ k ih =>
    intro N N' l r tl tr h hf
    cases N with
    | null => simp [remove] at h
    | node L R b =>
      simp only [remove] at h
      simp only [free] at hf
      split at h
      · simp only [Option.some.injEq] at h
        subst h
        simp only [free, mem_set_erase, not_and]
        exact ⟨fun _ => hf.1, hf.2⟩
      · split at h
        · simp at h
        · rename_i L' hL
          split at h
          · simp at h
          · rename_i R' hR
            simp only [Option.some.injEq] at h
            subst h
            simp only [free]
            refine ⟨hf.1, ?_, ?_⟩
            · split at hL
              · exact ih _ _ _ _ _ _ hL hf.2.1
              · simp only [Option.some.injEq] at hL; subst hL; exact hf.2.1
            · split at hR
              · exact ih _ _ _ _ _ _ hR hf.2.2
              · simp only [Option.some.injEq] at hR; subst hR; exact hf.2.2

theorem remove_sorted (x : Int) :
    ∀ (k : Nat) (N N' : segtree) (l r tl tr : Int),
      remove k N l r x tl tr = some N' → sorted N → sorted N' := by
  intro k
  induction k with
  | zero => intro N N' l r tl tr h; simp [remove] at h
  | succ k ih =>
    intro N N' l r tl tr h hf
    cases N with
    | null => simp [remove] at h
    | node L R b =>
      simp only [remove] at h
      simp only [sorted] at hf
      split at h
      · simp only [Option.some.injEq] at h
        subst h
        simp only [sorted]
        exact ⟨List.Pairwise.filter _ hf.1, hf.2⟩
      · split at h
        · simp at h
        · rename_i L' hL
          split at h
          · simp at h
          · rename_i R' hR
            simp only [Option.some.injEq] at h
            subst h
            simp only [sorted]
            refine ⟨hf.1, ?_, ?_⟩
            · split at hL
              · exact ih _ _ _ _ _ _ hL hf.2.1
              · simp only [Option.some.injEq] at hL; subst hL; exact hf.2.1
            · split at hR
              · exact ih _ _ _ _ _ _ hR hf.2.2
              · simp only [Option.some.injEq] at hR; subst hR; exact hf.2.2

/-- The call `remove` for the key `x` leaves what the tree stores for another key. -/
theorem remove_frame (x y : Int) (hy : y ≠ x) (Q : Int → Prop) :
    ∀ (k : Nat) (N N' : segtree) (l r tl tr : Int),
      remove k N l r x tl tr = some N' → canon y Q N tl tr → canon y Q N' tl tr := by
  intro k
  induction k with
  | zero => intro N N' l r tl tr h; simp [remove] at h
  | succ k ih =>
    intro N N' l r tl tr h hc
    cases N with
    | null => simp [remove] at h
    | node L R b =>
      simp only [remove] at h
      simp only [canon] at hc
      split at h
      · simp only [Option.some.injEq] at h
        subst h
        simp only [canon, mem_set_erase, ne_eq, hy, not_false_eq_true, true_and]
        exact hc
      · split at h
        · simp at h
        · rename_i L' hL
          split at h
          · simp at h
          · rename_i R' hR
            simp only [Option.some.injEq] at h
            subst h
            simp only [canon]
            constructor
            · intro hcov
              obtain ⟨a, b', c⟩ := hc.1 hcov
              refine ⟨a, ?_, ?_⟩
              · split at hL
                · exact remove_free x y _ _ _ _ _ _ _ hL b'
                · simp only [Option.some.injEq] at hL; subst hL; exact b'
              · split at hR
                · exact remove_free x y _ _ _ _ _ _ _ hR c
                · simp only [Option.some.injEq] at hR; subst hR; exact c
            · intro hcov
              obtain ⟨a, b', c⟩ := hc.2 hcov
              refine ⟨a, ?_, ?_⟩
              · split at hL
                · exact ih _ _ _ _ _ _ hL b'
                · simp only [Option.some.injEq] at hL; subst hL; exact b'
              · split at hR
                · exact ih _ _ _ _ _ _ hR c
                · simp only [Option.some.injEq] at hR; subst hR; exact c

/-- The call `remove(l, r, x)` on a canonical tree, for a range of times that is a whole
run of the stored set: the call has a result (no null pointer is dereferenced), which
stores the set without `[l, r]`. -/
theorem remove_canon (x : Int) :
    ∀ (k : Nat) (N : segtree) (l r tl tr : Int) (P : Int → Prop),
      tl ≤ l → l ≤ r → r ≤ tr → tr - tl < 2 ^ k → canon x P N tl tr →
      (∀ t, l ≤ t → t ≤ r → P t) → (l = tl ∨ ¬ P (l - 1)) → (r = tr ∨ ¬ P (r + 1)) →
      ∃ N', remove (k + 1) N l r x tl tr = some N' ∧ N' ≠ .null ∧
        canon x (fun t => P t ∧ ¬ (l ≤ t ∧ t ≤ r)) N' tl tr := by
  intro k
  induction k with
  | zero =>
    intro N l r tl tr P h1 h2 h3 hk hc he hl hr
    simp only [pow_zero] at hk
    have e1 : tl = l := by omega
    have e2 : tr = r := by omega
    subst e1; subst e2
    cases N with
    | null => exact absurd (he tl (le_refl _) h2) (hc tl (le_refl _) h2)
    | node L R b =>
      refine ⟨.node L R (set_erase b x), by simp [remove], by simp, ?_⟩
      simp only [canon] at hc
      obtain ⟨a, b', c⟩ := hc.1 ⟨h2, he⟩
      apply canon_of_free
      · simp only [free, mem_set_erase]
        exact ⟨by simp, b', c⟩
      · intro t u v h; exact h.2 ⟨u, v⟩
  | succ k ih =>
    intro N l r tl tr P h1 h2 h3 hk hc he hl hr
    cases N with
    | null => exact absurd (he l (le_refl _) h2) (hc l h1 (by omega))
    | node L R b =>
      have hm := midpoint_spec tl tr
      simp only [canon] at hc
      by_cases hex : tl = l ∧ tr = r
      · obtain ⟨e1, e2⟩ := hex
        subst e1; subst e2
        refine ⟨.node L R (set_erase b x), by simp [remove], by simp, ?_⟩
        obtain ⟨a, b', c⟩ := hc.1 ⟨by omega, he⟩
        apply canon_of_free
        · simp only [free, mem_set_erase]
          exact ⟨by simp, b', c⟩
        · intro t u v h; exact h.2 ⟨u, v⟩
      · have hpow : (2 : Int) ^ (k + 1) = 2 * 2 ^ k := by rw [pow_succ]; ring
        have hlt : tl < tr := by
          by_contra hge
          exact hex ⟨by omega, by omega⟩
        have hn : ¬ (tl ≤ tr ∧ ∀ t, tl ≤ t → t ≤ tr → P t) := by
          rintro ⟨-, hcov⟩
          by_cases e1 : l = tl
          · have e2 : r ≠ tr := fun e => hex ⟨e1.symm, e.symm⟩
            rcases hr with hr | hr
            · exact e2 hr
            · exact hr (hcov (r + 1) (by omega) (by omega))
          · rcases hl with hl | hl
            · exact e1 hl
            · exact hl (hcov (l - 1) (by omega) (by omega))
        obtain ⟨a, b', c⟩ := hc.2 hn
        have hL : ∃ L', (if l ≤ midpoint tl tr then
              remove (k + 1) L l (min r (midpoint tl tr)) x tl (midpoint tl tr)
             else some L) = some L' ∧
            canon x (fun t => P t ∧ ¬ (l ≤ t ∧ t ≤ r)) L' tl (midpoint tl tr) := by
          by_cases hlm : l ≤ midpoint tl tr
          · simp only [hlm, if_true]
            obtain ⟨L', e, -, cL⟩ := ih L l (min r (midpoint tl tr)) tl
              (midpoint tl tr) P h1 (by omega) (by omega) (by omega)
              b' (fun t u v => he t u (by omega)) hl
              (by
                by_cases hrm : r < midpoint tl tr
                · right
                  rw [min_eq_left (by omega)]
                  rcases hr with hr | hr
                  · omega
                  · exact hr
                · left; omega)
            refine ⟨L', e, canon_congr x _ _ L' _ _ ?_ cL⟩
            intro t u v
            constructor
            · rintro ⟨h, h'⟩
              exact ⟨h, fun hh => h' ⟨hh.1, by omega⟩⟩
            · rintro ⟨h, h'⟩
              exact ⟨h, fun hh => h' ⟨hh.1, by omega⟩⟩
          · simp only [hlm, if_false]
            refine ⟨L, rfl, canon_congr x _ _ L _ _ ?_ b'⟩
            intro t u v
            constructor
            · intro h; exact ⟨h, by omega⟩
            · exact fun h => h.1
        have hR : ∃ R', (if r > midpoint tl tr then
              remove (k + 1) R (max l (midpoint tl tr + 1)) r x (midpoint tl tr + 1) tr
             else some R) = some R' ∧
            canon x (fun t => P t ∧ ¬ (l ≤ t ∧ t ≤ r)) R' (midpoint tl tr + 1) tr := by
          by_cases hrm : r > midpoint tl tr
          · simp only [hrm, if_true]
            obtain ⟨R', e, -, cR⟩ := ih R (max l (midpoint tl tr + 1)) r
              (midpoint tl tr + 1) tr P (by omega) (by omega) h3
              (by omega) c (fun t u v => he t (by omega) v)
              (by
                by_cases hlm : midpoint tl tr + 1 < l
                · right
                  rw [max_eq_left (by omega)]
                  rcases hl with hl | hl
                  · omega
                  · exact hl
                · left; omega)
              hr
            refine ⟨R', e, canon_congr x _ _ R' _ _ ?_ cR⟩
            intro t u v
            constructor
            · rintro ⟨h, h'⟩
              exact ⟨h, fun hh => h' ⟨by omega, hh.2⟩⟩
            · rintro ⟨h, h'⟩
              exact ⟨h, fun hh => h' ⟨by omega, hh.2⟩⟩
          · simp only [hrm, if_false]
            refine ⟨R, rfl, canon_congr x _ _ R _ _ ?_ c⟩
            intro t u v
            constructor
            · intro h; exact ⟨h, by omega⟩
            · exact fun h => h.1
        obtain ⟨L', eL, cL⟩ := hL
        obtain ⟨R', eR, cR⟩ := hR
        refine ⟨.node L' R' b, ?_, by simp, ?_⟩
        · simp only [remove, hex, if_false, eL, eR]
        · simp only [canon]
          constructor
          · rintro ⟨-, hcov⟩
            exact absurd ⟨le_refl _, h2⟩ (hcov l h1 (by omega)).2
          · intro _
            exact ⟨a, cL, cR⟩

end segtree

namespace segtree

theorem find_sorted (p : Int → Bool) (b : List Int) (hb : b.Pairwise (fun a c => a < c)) :
    match b.find? p with
    | some y => y ∈ b ∧ p y = true ∧ ∀ z ∈ b, p z = true → y ≤ z
    | none => ∀ z ∈ b, p z = false := by
  induction b with
  | nil => simp
  | cons a b ih =>
    simp only [List.pairwise_cons] at hb
    simp only [List.find?_cons]
    cases hp : p a with
    | true =>
      refine ⟨by simp, hp, ?_⟩
      intro z hz _
      rcases List.mem_cons.mp hz with h | h
      · omega
      · exact le_of_lt (hb.1 z h)
    | false =>
      have := ih hb.2
      simp only
      cases hf : b.find? p with
      | none =>
        simp only [hf] at this
        intro z hz
        rcases List.mem_cons.mp hz with h | h
        · rw [h]; exact hp
        · exact this z h
      | some y =>
        simp only [hf] at this
        refine ⟨List.mem_cons_of_mem _ this.1, this.2.1, ?_⟩
        intro z hz hpz
        rcases List.mem_cons.mp hz with h | h
        · rw [h, hp] at hpz; simp at hpz
        · exact this.2.2 z h hpz

/-- The loop of `lower_bound` returns the least of the start value and of the keys
`>= x` held on the path towards `t`. -/
theorem lower_bound_path (N : segtree) (t x : Int) (hs : sorted N) :
    ∀ (tl tr ans : Int),
      lower_bound N t x tl tr ans ≤ ans ∧
      (lower_bound N t x tl tr ans = ans ∨
        (on_path (lower_bound N t x tl tr ans) t N tl tr ∧
          x ≤ lower_bound N t x tl tr ans)) ∧
      ∀ y, on_path y t N tl tr → x ≤ y → lower_bound N t x tl tr ans ≤ y := by
  induction N with
  | null => intro tl tr ans; simp [lower_bound, on_path]
  | node L R b ihL ihR =>
    intro tl tr ans
    simp only [sorted] at hs
    have hf := find_sorted (fun y => decide (x ≤ y)) b hs.1
    have key : ∀ (C : segtree) (cl cr : Int) (ans' : Int),
        ans' = (match b.find? (fun y => decide (x ≤ y)) with
                | some y => min ans y
                | none => ans) →
        (∀ (ans : Int),
          lower_bound C t x cl cr ans ≤ ans ∧
          (lower_bound C t x cl cr ans = ans ∨
            (on_path (lower_bound C t x cl cr ans) t C cl cr ∧
              x ≤ lower_bound C t x cl cr ans)) ∧
          ∀ y, on_path y t C cl cr → x ≤ y → lower_bound C t x cl cr ans ≤ y) →
        lower_bound C t x cl cr ans' ≤ ans ∧
        (lower_bound C t x cl cr ans' = ans ∨
          ((lower_bound C t x cl cr ans' ∈ b ∨
            on_path (lower_bound C t x cl cr ans') t C cl cr) ∧
            x ≤ lower_bound C t x cl cr ans')) ∧
        ∀ y, (y ∈ b ∨ on_path y t C cl cr) → x ≤ y → lower_bound C t x cl cr ans' ≤ y := by
      intro C cl cr ans' hans ih
      obtain ⟨i1, i2, i3⟩ := ih ans'
      cases hfind : b.find? (fun y => decide (x ≤ y)) with
      | none =>
        simp only [hfind] at hf hans
        subst hans
        refine ⟨i1, ?_, ?_⟩
        · rcases i2 with h | h
          · exact Or.inl h
          · exact Or.inr ⟨Or.inr h.1, h.2⟩
        · intro y hy hxy
          rcases hy with h | h
          · have := hf y h
            simp only [decide_eq_false_iff_not] at this
            exact absurd hxy this
          · exact i3 y h hxy
      | some y₀ =>
        simp only [hfind, decide_eq_true_eq] at hf hans
        obtain ⟨f1, f2, f3⟩ := hf
        have hle : ans' ≤ ans ∧ ans' ≤ y₀ ∧ (ans' = ans ∨ ans' = y₀) := by
          rw [hans]; exact ⟨min_le_left _ _, min_le_right _ _, min_choice _ _⟩
        refine ⟨by omega, ?_, ?_⟩
        · rcases i2 with h | h
          · rcases hle.2.2 with h' | h'
            · left; omega
            · right
              rw [h, h']
              exact ⟨Or.inl f1, f2⟩
          · exact Or.inr ⟨Or.inr h.1, h.2⟩
        · intro y hy hxy
          rcases hy with h | h
          · have := f3 y h hxy
            omega
          · exact i3 y h hxy
    by_cases ht : t ≤ midpoint tl tr
    · have := key L tl (midpoint tl tr) _ rfl (fun a => ihL hs.2.1 _ _ a)
      simp only [lower_bound, on_path, ht, if_true]
      exact this
    · have := key R (midpoint tl tr + 1) tr _ rfl (fun a => ihR hs.2.2 _ _ a)
      simp only [lower_bound, on_path, ht, if_false]
      exact this

/-- The loop of `upper_bound` returns the least of the start value and of the keys
`> x` held on the path towards `t`. -/
theorem upper_bound_path (N : segtree) (t x : Int) (hs : sorted N) :
    ∀ (tl tr ans : Int),
      upper_bound N t x tl tr ans ≤ ans ∧
      (upper_bound N t x tl tr ans = ans ∨
        (on_path (upper_bound N t x tl tr ans) t N tl tr ∧
          x < upper_bound N t x tl tr ans)) ∧
      ∀ y, on_path y t N tl tr → x < y → upper_bound N t x tl tr ans ≤ y := by
  induction N with
  | null => intro tl tr ans; simp [upper_bound, on_path]
  | node L R b ihL ihR =>
    intro tl tr ans
    simp only [sorted] at hs
    have hf := find_sorted (fun y => decide (x < y)) b hs.1
    have key : ∀ (C : segtree) (cl cr : Int) (ans' : Int),
        ans' = (match b.find? (fun y => decide (x < y)) with
                | some y => min ans y
                | none => ans) →
        (∀ (ans : Int),
          upper_bound C t x cl cr ans ≤ ans ∧
          (upper_bound C t x cl cr ans = ans ∨
            (on_path (upper_bound C t x cl cr ans) t C cl cr ∧
              x < upper_bound C t x cl cr ans)) ∧
          ∀ y, on_path y t C cl cr → x < y → upper_bound C t x cl cr ans ≤ y) →
        upper_bound C t x cl cr ans' ≤ ans ∧
        (upper_bound C t x cl cr ans' = ans ∨
          ((upper_bound C t x cl cr ans' ∈ b ∨
            on_path (upper_bound C t x cl cr ans') t C cl cr) ∧
            x < upper_bound C t x cl cr ans')) ∧
        ∀ y, (y ∈ b ∨ on_path y t C cl cr) → x < y → upper_bound C t x cl cr ans' ≤ y := by
      intro C cl cr ans' hans ih
      obtain ⟨i1, i2, i3⟩ := ih ans'
      cases hfind : b.find? (fun y => decide (x < y)) with
      | none =>
        simp only [hfind] at hf hans
        subst hans
        refine ⟨i1, ?_, ?_⟩
        · rcases i2 with h | h
          · exact Or.inl h
          · exact Or.inr ⟨Or.inr h.1, h.2⟩
        · intro y hy hxy
          rcases hy with h | h
          · have := hf y h
            simp only [decide_eq_false_iff_not] at this
            exact absurd hxy this
          · exact i3 y h hxy
      | some y₀ =>
        simp only [hfind, decide_eq_true_eq] at hf hans
        obtain ⟨f1, f2, f3⟩ := hf
        have hle : ans' ≤ ans ∧ ans' ≤ y₀ ∧ (ans' = ans ∨ ans' = y₀) := by
          rw [hans]; exact ⟨min_le_left _ _, min_le_right _ _, min_choice _ _⟩
        refine ⟨by omega, ?_, ?_⟩
        · rcases i2 with h | h
          · rcases hle.2.2 with h' | h'
            · left; omega
            · right
              rw [h, h']
              exact ⟨Or.inl f1, f2⟩
          · exact Or.inr ⟨Or.inr h.1, h.2⟩
        · intro y hy hxy
          rcases hy with h | h
          · have := f3 y h hxy
            omega
          · exact i3 y h hxy
    by_cases ht : t ≤ midpoint tl tr
    · have := key L tl (midpoint tl tr) _ rfl (fun a => ihL hs.2.1 _ _ a)
      simp only [upper_bound, on_path, ht, if_true]
      exact this
    · have := key R (midpoint tl tr + 1) tr _ rfl (fun a => ihR hs.2.2 _ _ a)
      simp only [upper_bound, on_path, ht, if_false]
      exact this

end segtree

namespace retroactive_set

/-- For increasing event times, a key is a member at `t` exactly when the number of its
events of time `<= t` is odd. -/
theorem member_at_iff_odd : ∀ (ev : List Int) (t : Int), ev.Pairwise (fun a b => a < b) →
    (member_at ev t = true ↔ (ev.filter (fun e => decide (e ≤ t))).length % 2 = 1)
  | [], t, _ => by simp [member_at]
  | [a], t, _ => by
    simp only [member_at, decide_eq_true_eq, List.filter]
    by_cases h : a ≤ t <;> simp [h]
  | a :: b :: l, t, h => by
    simp only [List.pairwise_cons, List.mem_cons, forall_eq_or_imp] at h
    have ih := member_at_iff_odd l t h.2.2
    simp only [member_at, Bool.or_eq_true, Bool.and_eq_true, decide_eq_true_eq,
      Bool.not_eq_true', decide_eq_false_iff_not, List.filter]
    by_cases hb : b ≤ t
    · have ha : a ≤ t := by omega
      simp only [ha, hb, decide_True, List.length_cons, not_true_eq_false, and_false,
        false_or, ih]
      omega
    · have hl : l.filter (fun e => decide (e ≤ t)) = [] := by
        rw [List.filter_eq_nil_iff]
        intro e he
        have := h.2.1 e he
        simp only [decide_eq_true_eq]
        omega
      have hm : member_at l t = false := by
        cases hh : member_at l t with
        | false => rfl
        | true => rw [hl] at ih; simp [hh] at ih
      by_cases ha : a ≤ t
      · simp [ha, hb, hl, hm]
      · simp [ha, hb, hl, hm]

theorem filter_le_append (ev : List Int) (a t : Int) :
    ((ev ++ [a]).filter (fun e => decide (e ≤ t))).length =
      (ev.filter (fun e => decide (e ≤ t))).length + (if a ≤ t then 1 else 0) := by
  rw [List.filter_append, List.length_append]
  by_cases h : a ≤ t <;> simp [List.filter, h]

theorem filter_le_all (ev : List Int) (t : Int) (h : ∀ e ∈ ev, e ≤ t) :
    (ev.filter (fun e => decide (e ≤ t))).length = ev.length := by
  rw [List.filter_eq_self.mpr]
  intro e he
  simpa using h e he

theorem sorted_append_iff (ev : List Int) (a : Int) :
    (ev ++ [a]).Pairwise (fun a b => a < b) ↔
      ev.Pairwise (fun a b => a < b) ∧ ∀ e ∈ ev, e < a := by
  rw [List.pairwise_append]
  simp

/-- The tree calls of an accepted `insert` at the time `tm` for a key with the events
`ev`: the call has a result, which stores the membership times of `ev ++ [tm]`. -/
theorem tree_insert_step (x : Int) (ev : List Int) (tm : Int) (tree : segtree)
    (hne : tree ≠ .null) (hs : ev.Pairwise (fun a b => a < b)) (heven : ev.length % 2 = 0)
    (hlt : ∀ e ∈ ev, e < tm) (htm : isInt64 tm)
    (hc : segtree.canon x (fun t => member_at ev t = true) tree INT64_MIN INT64_MAX) :
    ∃ t', tree_add tree tm INT64_MAX x = some t' ∧ t' ≠ .null ∧
      segtree.canon x (fun t => member_at (ev ++ [tm]) t = true) t' INT64_MIN INT64_MAX := by
  have hno : ∀ t, tm - 1 ≤ t → ¬ (member_at ev t = true) := by
    intro t ht
    rw [member_at_iff_odd ev t hs, filter_le_all ev t (fun e he => by have := hlt e he; omega)]
    omega
  obtain ⟨t', e, n, c⟩ := segtree.add_canon x 64 tree tm INT64_MAX INT64_MIN INT64_MAX
    (fun t => member_at ev t = true) hne htm.1 htm.2 (le_refl _)
    (by simp only [INT64_MIN, INT64_MAX]; norm_num) hc
    (fun t u _ => hno t (by omega)) (Or.inr (hno _ (le_refl _))) (Or.inl rfl)
  refine ⟨t', e, n, segtree.canon_congr x _ _ t' _ _ ?_ c⟩
  intro t u v
  have hs' : (ev ++ [tm]).Pairwise (fun a b => a < b) :=
    (sorted_append_iff ev tm).mpr ⟨hs, hlt⟩
  rw [member_at_iff_odd _ t hs', member_at_iff_odd ev t hs, filter_le_append]
  by_cases h : tm ≤ t
  · rw [filter_le_all ev t (fun e he => by have := hlt e he; omega)]
    simp only [h, if_true]
    constructor
    · intro _; omega
    · intro _; exact Or.inr ⟨trivial, v⟩
  · simp only [h, if_false, false_and, or_false, add_zero]

/-- The tree call of a `delete_operation` that removes the insert at `tm`, the last event
of the key. -/
theorem tree_undo_insert_step (x : Int) (ev : List Int) (tm : Int) (tree : segtree)
    (hs : (ev ++ [tm]).Pairwise (fun a b => a < b)) (heven : ev.length % 2 = 0)
    (htm : isInt64 tm)
    (hc : segtree.canon x (fun t => member_at (ev ++ [tm]) t = true) tree
      INT64_MIN INT64_MAX) :
    ∃ t', tree_remove tree tm INT64_MAX x = some t' ∧ t' ≠ .null ∧
      segtree.canon x (fun t => member_at ev t = true) t' INT64_MIN INT64_MAX := by
  obtain ⟨hs0, hlt⟩ := (sorted_append_iff ev tm).mp hs
  have hev : ∀ t, member_at (ev ++ [tm]) t = true ↔
      (member_at ev t = true ∧ t < tm) ∨ tm ≤ t := by
    intro t
    rw [member_at_iff_odd _ t hs, member_at_iff_odd ev t hs0, filter_le_append]
    by_cases h : tm ≤ t
    · rw [filter_le_all ev t (fun e he => by have := hlt e he; omega)]
      simp only [h, if_true, or_true, iff_true]
      omega
    · simp only [h, if_false, add_zero, or_false]
      constructor
      · intro hh; exact ⟨hh, by omega⟩
      · exact fun hh => hh.1
  have hno : ∀ t, tm - 1 ≤ t → ¬ (member_at ev t = true) := by
    intro t ht
    rw [member_at_iff_odd ev t hs0, filter_le_all ev t (fun e he => by have := hlt e he; omega)]
    omega
  obtain ⟨t', e, n, c⟩ := segtree.remove_canon x 64 tree tm INT64_MAX INT64_MIN INT64_MAX
    (fun t => member_at (ev ++ [tm]) t = true) htm.1 htm.2 (le_refl _)
    (by simp only [INT64_MIN, INT64_MAX]; norm_num) hc
    (fun t u _ => (hev t).mpr (Or.inr u))
    (Or.inr (by
      beta_reduce
      rw [hev]
      rintro (h | h)
      · exact hno _ (le_refl _) h.1
      · omega))
    (Or.inl rfl)
  refine ⟨t', e, n, segtree.canon_congr x _ _ t' _ _ ?_ c⟩
  intro t u v
  beta_reduce
  rw [hev]
  constructor
  · rintro ⟨h | h, h'⟩
    · exact h.1
    · exact absurd ⟨h, v⟩ h'
  · intro h
    have : t < tm := by
      by_contra hc'
      exact hno t (by omega) h
    exact ⟨Or.inl ⟨h, this⟩, by omega⟩

/-- The facts about the membership times of a key whose last event is the insert at
`prev`, before and after an erase at the later time `tm`. -/
theorem member_at_erase (ev : List Int) (prev tm : Int)
    (hs : (ev ++ [prev]).Pairwise (fun a b => a < b)) (heven : ev.length % 2 = 0)
    (hlt : prev < tm) (t : Int) :
    (member_at (ev ++ [prev]) t = true ↔ (member_at ev t = true ∧ t < prev) ∨ prev ≤ t) ∧
    (member_at (ev ++ [prev] ++ [tm]) t = true ↔
      (member_at ev t = true ∧ t < prev) ∨ (prev ≤ t ∧ t < tm)) ∧
    (prev - 1 ≤ t → ¬ (member_at ev t = true)) := by
  obtain ⟨hs0, hlt0⟩ := (sorted_append_iff ev prev).mp hs
  have hs2 : (ev ++ [prev] ++ [tm]).Pairwise (fun a b => a < b) := by
    rw [sorted_append_iff]
    refine ⟨hs, ?_⟩
    intro e he
    simp only [List.mem_append, List.mem_singleton] at he
    rcases he with he | he
    · have := hlt0 e he; omega
    · omega
  have hno : prev - 1 ≤ t → ¬ (member_at ev t = true) := by
    intro ht
    rw [member_at_iff_odd ev t hs0,
      filter_le_all ev t (fun e he => by have := hlt0 e he; omega)]
    omega
  refine ⟨?_, ?_, hno⟩
  · rw [member_at_iff_odd _ t hs, member_at_iff_odd ev t hs0, filter_le_append]
    by_cases h : prev ≤ t
    · rw [filter_le_all ev t (fun e he => by have := hlt0 e he; omega)]
      simp only [h, if_true, or_true, iff_true]
      omega
    · simp only [h, if_false, add_zero, or_false]
      constructor
      · intro hh; exact ⟨hh, by omega⟩
      · exact fun hh => hh.1
  · rw [member_at_iff_odd _ t hs2, member_at_iff_odd ev t hs0, filter_le_append,
      filter_le_append]
    by_cases h : prev ≤ t
    · rw [filter_le_all ev t (fun e he => by have := hlt0 e he; omega)]
      simp only [h, if_true, true_and]
      by_cases h' : tm ≤ t
      · simp only [h', if_true]
        constructor
        · intro _; omega
        · rintro (hh | hh) <;> omega
      · simp only [h', if_false, add_zero]
        constructor
        · intro _; exact Or.inr (by omega)
        · intro _; omega
    · have h' : ¬ tm ≤ t := by omega
      simp only [h, h', if_false, add_zero, false_and, or_false]
      constructor
      · intro hh; exact ⟨hh, by omega⟩
      · exact fun hh => hh.1

/-- The tree calls of an accepted `erase` at the time `tm` for a key whose last event is
the insert at `prev`. -/
theorem tree_erase_step (x : Int) (ev : List Int) (prev tm : Int) (tree : segtree)
    (hs : (ev ++ [prev]).Pairwise (fun a b => a < b)) (heven : ev.length % 2 = 0)
    (hlt : prev < tm) (hprev : isInt64 prev) (htm : isInt64 tm)
    (hc : segtree.canon x (fun t => member_at (ev ++ [prev]) t = true) tree
      INT64_MIN INT64_MAX) :
    ∃ t₁ t₂, tree_remove tree prev INT64_MAX x = some t₁ ∧
      tree_add t₁ prev (wrap64 (tm - 1)) x = some t₂ ∧ t₂ ≠ .null ∧
      segtree.canon x (fun t => member_at (ev ++ [prev] ++ [tm]) t = true) t₂
        INT64_MIN INT64_MAX := by
  have hm := member_at_erase ev prev tm hs heven hlt
  have hw : wrap64 (tm - 1) = tm - 1 := by
    have h1 := htm.1; have h2 := htm.2; have h3 := hprev.1
    simp only [INT64_MIN, INT64_MAX] at h1 h2 h3
    simp only [wrap64]
    omega
  have b1 := hprev.1; have b2 := hprev.2; have b3 := htm.1; have b4 := htm.2
  obtain ⟨t₁, e₁, n₁, c₁⟩ := segtree.remove_canon x 64 tree prev INT64_MAX INT64_MIN
    INT64_MAX (fun t => member_at (ev ++ [prev]) t = true) hprev.1 hprev.2 (le_refl _)
    (by simp only [INT64_MIN, INT64_MAX]; norm_num) hc
    (fun t u _ => ((hm t).1).mpr (Or.inr u))
    (Or.inr (by
      beta_reduce
      rw [(hm (prev - 1)).1]
      rintro (h | h)
      · exact (hm (prev - 1)).2.2 (le_refl _) h.1
      · omega))
    (Or.inl rfl)
  obtain ⟨t₂, e₂, n₂, c₂⟩ := segtree.add_canon x 64 t₁ prev (tm - 1) INT64_MIN INT64_MAX
    _ n₁ hprev.1 (by omega) (by omega)
    (by simp only [INT64_MIN, INT64_MAX]; norm_num) c₁
    (fun t u v h => h.2 ⟨u, by omega⟩)
    (Or.inr (by
      rintro ⟨h, -⟩
      rw [(hm (prev - 1)).1] at h
      rcases h with h | h
      · exact (hm (prev - 1)).2.2 (le_refl _) h.1
      · omega))
    (Or.inr (by
      rintro ⟨-, h⟩
      exact h ⟨by omega, by omega⟩))
  refine ⟨t₁, t₂, e₁, by rw [hw]; exact e₂, n₂, segtree.canon_congr x _ _ t₂ _ _ ?_ c₂⟩
  intro t u v
  beta_reduce
  rw [(hm t).1, (hm t).2.1]
  constructor
  · rintro (⟨h | h, h'⟩ | h)
    · exact Or.inl h
    · exact absurd ⟨h, v⟩ h'
    · exact Or.inr ⟨h.1, by omega⟩
  · rintro (h | h)
    · exact Or.inl ⟨Or.inl h, by omega⟩
    · exact Or.inr ⟨h.1, by omega⟩

/-- The tree calls of a `delete_operation` that removes the erase at `tm`, the last event
of the key, whose previous event is the insert at `prev`. -/
theorem tree_undo_erase_step (x : Int) (ev : List Int) (prev tm : Int) (tree : segtree)
    (hs : (ev ++ [prev]).Pairwise (fun a b => a < b)) (heven : ev.length % 2 = 0)
    (hlt : prev < tm) (hprev : isInt64 prev) (htm : isInt64 tm)
    (hc : segtree.canon x (fun t => member_at (ev ++ [prev] ++ [tm]) t = true) tree
      INT64_MIN INT64_MAX) :
    ∃ t₁ t₂, tree_remove tree prev (wrap64 (tm - 1)) x = some t₁ ∧
      tree_add t₁ prev INT64_MAX x = some t₂ ∧ t₂ ≠ .null ∧
      segtree.canon x (fun t => member_at (ev ++ [prev]) t = true) t₂
        INT64_MIN INT64_MAX := by
  have hm := member_at_erase ev prev tm hs heven hlt
  have hw : wrap64 (tm - 1) = tm - 1 := by
    have h1 := htm.1; have h2 := htm.2; have h3 := hprev.1
    simp only [INT64_MIN, INT64_MAX] at h1 h2 h3
    simp only [wrap64]
    omega
  have b1 := hprev.1; have b2 := hprev.2; have b3 := htm.1; have b4 := htm.2
  obtain ⟨t₁, e₁, n₁, c₁⟩ := segtree.remove_canon x 64 tree prev (tm - 1) INT64_MIN
    INT64_MAX (fun t => member_at (ev ++ [prev] ++ [tm]) t = true) hprev.1 (by omega)
    (by omega) (by simp only [INT64_MIN, INT64_MAX]; norm_num) hc
    (fun t u v => ((hm t).2.1).mpr (Or.inr ⟨u, by omega⟩))
    (Or.inr (by
      beta_reduce
      rw [(hm (prev - 1)).2.1]
      rintro (h | h)
      · exact (hm (prev - 1)).2.2 (le_refl _) h.1
      · omega))
    (Or.inr (by
      beta_reduce
      rw [(hm (tm - 1 + 1)).2.1]
      rintro (h | h) <;> omega))
  obtain ⟨t₂, e₂, n₂, c₂⟩ := segtree.add_canon x 64 t₁ prev INT64_MAX INT64_MIN INT64_MAX
    _ n₁ hprev.1 hprev.2 (le_refl _)
    (by simp only [INT64_MIN, INT64_MAX]; norm_num) c₁
    (fun t u v h => by
      have h1 := h.1
      rw [(hm t).2.1] at h1
      rcases h1 with h1 | h1
      · omega
      · exact h.2 ⟨u, by omega⟩)
    (Or.inr (by
      rintro ⟨h, -⟩
      rw [(hm (prev - 1)).2.1] at h
      rcases h with h | h
      · exact (hm (prev - 1)).2.2 (le_refl _) h.1
      · omega))
    (Or.inl rfl)
  refine ⟨t₁, t₂, by rw [hw]; exact e₁, e₂, n₂, segtree.canon_congr x _ _ t₂ _ _ ?_ c₂⟩
  intro t u v
  beta_reduce
  rw [(hm t).1, (hm t).2.1]
  constructor
  · rintro (⟨h | h, h'⟩ | h)
    · exact Or.inl h
    · exact Or.inr h.1
    · exact Or.inr h.1
  · rintro (h | h)
    · exact Or.inl ⟨Or.inl h, by omega⟩
    · exact Or.inr ⟨h, v⟩

end retroactive_set

namespace retroactive_set

open retroactive_unordered_multiset (seq_find seq_assign seq_erase)

theorem oset_events_assign (s : retroactive_set) (x : Int) (l : List Int)
    (ops : List (Int × Int)) (tr : segtree) (y : Int) :
    events { operations := ops, sequences := seq_assign s.sequences x l, tree := tr } y
      = if y = x then l else s.events y := by
  unfold events
  simp only [retroactive_unordered_multiset.seq_find_assign]
  split <;> rfl

theorem oset_events_touch (s : retroactive_set) (x y : Int) :
    events { s with sequences := seq_assign s.sequences x (s.events x) } y = s.events y := by
  rw [oset_events_assign]
  split
  · rename_i h; rw [h]
  · rfl

theorem oset_inv_empty (T_max : Int) : inv T_max empty_set := by
  refine ⟨?_, ?_, by simp [empty_set], by simp [empty_set, segtree.sorted], ?_⟩
  · intro x; simp [events, empty_set, seq_find]
  · intro tm x h; simp [empty_set, map_find] at h
  · intro x
    apply segtree.canon_of_free
    · simp [empty_set, segtree.free]
    · intro t _ _
      simp [events, empty_set, seq_find, member_at]

/-- The consistency of a set depends on its log, its event times and its tree only. -/
theorem oset_inv_congr (T_max : Int) (s s' : retroactive_set) (hs : inv T_max s)
    (h1 : s'.operations = s.operations) (h2 : ∀ y, s'.events y = s.events y)
    (h3 : s'.tree = s.tree) : inv T_max s' := by
  unfold inv
  simp only [h1, h2, h3]
  exact hs

/-- The state after an accepted update at the unused time `tm`, later than all events of
the key, is consistent when the new tree stores the new membership times of the key and
what it stored for the other keys. -/
theorem oset_inv_push (T_max : Int) (s : retroactive_set) (hs : inv T_max s) (x tm : Int)
    (tree' : segtree) (hx : x ≤ T_max) (htm : isInt64 tm)
    (hu : map_find s.operations tm = none) (hlt : ∀ e ∈ s.events x, e < tm)
    (hne : tree' ≠ .null) (hso : tree'.sorted)
    (hcx : segtree.canon x (fun t => member_at (s.events x ++ [tm]) t = true) tree'
      INT64_MIN INT64_MAX)
    (hfr : ∀ y, y ≠ x → ∀ Q, segtree.canon y Q s.tree INT64_MIN INT64_MAX →
      segtree.canon y Q tree' INT64_MIN INT64_MAX) :
    inv T_max { operations := map_assign s.operations tm x, tree := tree',
                sequences := seq_assign s.sequences x (s.events x ++ [tm]) } := by
  obtain ⟨i1, i2, -, -, i5⟩ := hs
  refine ⟨?_, ?_, hne, hso, ?_⟩
  · intro y
    rw [oset_events_assign]
    by_cases hy : y = x
    · subst hy
      simp only [if_true]
      refine ⟨(sorted_append_iff _ _).mpr ⟨(i1 y).1, hlt⟩, ?_⟩
      intro e he
      simp only [List.mem_append, List.mem_singleton] at he
      rw [map_find_assign]
      rcases he with he | he
      · refine ⟨((i1 y).2 e he).1, ?_⟩
        split
        · rfl
        · exact ((i1 y).2 e he).2
      · subst he
        exact ⟨htm, by simp⟩
    · simp only [hy, if_false]
      refine ⟨(i1 y).1, ?_⟩
      intro e he
      have h1 := (i1 y).2 e he
      have : e ≠ tm := by
        intro hc; rw [hc, hu] at h1; simp at h1
      rw [map_find_assign]
      simp [this, h1]
  · intro tm' y h
    rw [map_find_assign] at h
    rw [oset_events_assign]
    by_cases ht : tm' = tm
    · simp only [ht, if_true, Option.some.injEq] at h
      subst h
      simp [ht, hx]
    · simp only [ht, if_false] at h
      have := i2 tm' y h
      refine ⟨?_, this.2⟩
      split
      · rename_i hyx
        subst hyx
        exact List.mem_append_left _ this.1
      · exact this.1
  · intro y
    by_cases hy : y = x
    · subst hy
      simp only [oset_events_assign, if_true]
      exact hcx
    · simp only [oset_events_assign, hy, if_false]
      exact hfr y hy _ (i5 y)

/-- The state after the removal of the last event `tm` of the key `x` is consistent when
the new tree stores the new membership times of the key and what it stored for the other
keys. -/
theorem oset_inv_pop (T_max : Int) (s : retroactive_set) (hs : inv T_max s) (x tm : Int)
    (ev : List Int) (tree' : segtree)
    (hu : map_find s.operations tm = some x) (hev : s.events x = ev ++ [tm])
    (hne : tree' ≠ .null) (hso : tree'.sorted)
    (hcx : segtree.canon x (fun t => member_at ev t = true) tree' INT64_MIN INT64_MAX)
    (hfr : ∀ y, y ≠ x → ∀ Q, segtree.canon y Q s.tree INT64_MIN INT64_MAX →
      segtree.canon y Q tree' INT64_MIN INT64_MAX) :
    inv T_max { operations := map_erase s.operations tm, tree := tree',
                sequences := seq_assign s.sequences x ev } := by
  obtain ⟨i1, i2, -, -, i5⟩ := hs
  have hsx := (i1 x).1
  rw [hev, sorted_append_iff] at hsx
  refine ⟨?_, ?_, hne, hso, ?_⟩
  · intro y
    rw [oset_events_assign]
    by_cases hy : y = x
    · subst hy
      simp only [if_true]
      refine ⟨hsx.1, ?_⟩
      intro e he
      have h1 := (i1 y).2 e (by rw [hev]; exact List.mem_append_left _ he)
      have h2 := hsx.2 e he
      rw [map_find_erase, if_neg (by omega)]
      exact h1
    · simp only [hy, if_false]
      refine ⟨(i1 y).1, ?_⟩
      intro e he
      have h1 := (i1 y).2 e he
      have : e ≠ tm := by
        intro hc; rw [hc, hu] at h1
        simp only [Option.some.injEq] at h1
        exact hy h1.2.symm
      rw [map_find_erase, if_neg this]
      exact h1
  · intro tm' y h
    rw [map_find_erase] at h
    rw [oset_events_assign]
    by_cases ht : tm' = tm
    · simp [ht] at h
    · simp only [ht, if_false] at h
      have := i2 tm' y h
      refine ⟨?_, this.2⟩
      split
      · rename_i hyx
        subst hyx
        have h1 := this.1
        rw [hev] at h1
        simp only [List.mem_append, List.mem_singleton] at h1
        rcases h1 with h1 | h1
        · exact h1
        · exact absurd h1 ht
      · exact this.1
  · intro y
    by_cases hy : y = x
    · subst hy
      simp only [oset_events_assign, if_true]
      exact hcx
    · simp only [oset_events_assign, hy, if_false]
      exact hfr y hy _ (i5 y)

end retroactive_set

namespace retroactive_set

open retroactive_unordered_multiset (seq_find seq_assign seq_erase)

theorem last_decomp (l : List Int) (h : l ≠ []) :
    (∃ ev, l = ev ++ [l.getLast?.getD 0]) ∧ l.getLast? = some (l.getLast?.getD 0) ∧
    l.getLast?.getD 0 ∈ l ∧ l.isEmpty = false := by
  rcases List.eq_nil_or_concat l with h' | ⟨ev, a, h'⟩
  · exact absurd h' h
  · rw [List.concat_eq_append] at h'
    subst h'
    simp

/-- In a consistent set, a time that is not logged and not before the last event of a key
is later than all events of the key. -/
theorem oset_later (T_max : Int) (s : retroactive_set) (hs : inv T_max s) (x tm : Int)
    (hu : map_find s.operations tm = none)
    (hl : (s.events x).isEmpty = false → (s.events x).getLast?.getD 0 ≤ tm) :
    ∀ e ∈ s.events x, e < tm := by
  intro e he
  have hne : s.events x ≠ [] := List.ne_nil_of_mem he
  obtain ⟨-, -, hmem, hemp⟩ := last_decomp _ hne
  have h1 := partially_retroactive_set.pset_last_max _ (hs.1 x).1 e he
  have h2 := hl hemp
  have h3 := ((hs.1 x).2 _ hmem).2
  have h4 : (s.events x).getLast?.getD 0 ≠ tm := by
    intro hc; rw [hc, hu] at h3; simp at h3
  omega

/-- The retroactive `insert` on a consistent set: the call returns, the set stays
consistent, the call is accepted iff the time is not logged, the key has an even number of
events and the time is later than the last of them; a rejected call leaves the log, the
events and the tree, an accepted call logs the key and appends the time to its events. -/
theorem oset_insert_spec (T_max : Int) (s : retroactive_set) (hs : inv T_max s)
    (x tm : Int) (hx : x ≤ T_max) (htm : isInt64 tm) :
    ∃ r, s.insert x tm = some r ∧ inv T_max r.2 ∧
      (r.1 = true ↔ map_find s.operations tm = none ∧ (s.events x).length % 2 = 0 ∧
        ∀ e ∈ (s.events x).getLast?, e < tm) ∧
      (r.1 = false → r.2.operations = s.operations ∧ (∀ y, r.2.events y = s.events y) ∧
        r.2.tree = s.tree) ∧
      (r.1 = true → r.2.operations = map_assign s.operations tm x ∧
        ∀ y, r.2.events y = if y = x then s.events x ++ [tm] else s.events y) := by
  unfold insert
  cases hu : map_find s.operations tm with
  | some y =>
    exact ⟨(false, s), by simp, hs, by simp, by simp, by simp⟩
  | none =>
    simp only [Option.isSome_none, Bool.false_eq_true, if_false]
    by_cases hc : ((s.events x).length % 2 != 0 ||
        (!(s.events x).isEmpty && decide ((s.events x).getLast?.getD 0 > tm))) = true
    · -- rejected by the test of the events
      simp only [hc, if_true]
      refine ⟨_, rfl, ?_, ?_, ?_, by simp⟩
      · exact oset_inv_congr T_max s _ hs rfl (oset_events_touch s x) rfl
      · simp only [Bool.false_eq_true, true_and, false_iff, not_and]
        simp only [Bool.or_eq_true, bne_iff_ne, ne_eq, Bool.and_eq_true, Bool.not_eq_true',
          decide_eq_true_eq] at hc
        intro h hall
        rcases hc with hc | hc
        · exact hc h
        · have hne : s.events x ≠ [] := by
            intro h0; rw [h0] at hc; simp at hc
          have := hall _ (last_decomp _ hne).2.1
          omega
      · intro _
        exact ⟨rfl, oset_events_touch s x, rfl⟩
    · -- accepted
      have hc' := hc
      simp only [Bool.or_eq_true, bne_iff_ne, ne_eq, Bool.and_eq_true, Bool.not_eq_true',
        decide_eq_true_eq, not_or, not_and, not_lt, not_not] at hc'
      have hlt := oset_later T_max s hs x tm hu hc'.2
      obtain ⟨t', e, n, c⟩ := tree_insert_step x (s.events x) tm s.tree hs.2.2.1 (hs.1 x).1
        hc'.1 hlt htm (hs.2.2.2.2 x)
      simp only [hc, if_false, e]
      refine ⟨_, rfl, ?_, ?_, by simp, ?_⟩
      · exact oset_inv_push T_max s hs x tm t' hx htm hu hlt n
          (segtree.add_sorted x _ _ _ _ _ _ _ e hs.2.2.2.1) c
          (fun y hy Q hQ => segtree.add_frame x y hy Q _ _ _ _ _ _ _ e hQ)
      · simp only [true_iff, true_and]
        refine ⟨hc'.1, fun e he => hlt e ?_⟩
        exact List.mem_of_getLast?_eq_some he
      · intro _
        refine ⟨rfl, fun y => ?_⟩
        rw [oset_events_assign]

/-- The retroactive `erase` on a consistent set: the call returns, the set stays
consistent, the call is accepted iff the time is not logged, the key has an odd number of
events and the last of them is not later than the time; a rejected call leaves the log,
the events and the tree, an accepted call logs the key and appends the time to its
events. -/
theorem oset_erase_spec (T_max : Int) (s : retroactive_set) (hs : inv T_max s)
    (x tm : Int) (hx : x ≤ T_max) (htm : isInt64 tm) :
    ∃ r, s.erase x tm = some r ∧ inv T_max r.2 ∧
      (r.1 = true ↔ map_find s.operations tm = none ∧ (s.events x).length % 2 = 1 ∧
        ∀ e ∈ (s.events x).getLast?, e ≤ tm) ∧
      (r.1 = false → r.2.operations = s.operations ∧ (∀ y, r.2.events y = s.events y) ∧
        r.2.tree = s.tree) ∧
      (r.1 = true → r.2.operations = map_assign s.operations tm x ∧
        ∀ y, r.2.events y = if y = x then s.events x ++ [tm] else s.events y) := by
  unfold erase
  cases hu : map_find s.operations tm with
  | some y =>
    exact ⟨(false, s), by simp, hs, by simp, by simp, by simp⟩
  | none =>
    simp only [Option.isSome_none, Bool.false_eq_true, if_false]
    by_cases hc : ((s.events x).length % 2 == 0 ||
        decide ((s.events x).getLast?.getD 0 > tm)) = true
    · -- rejected by the test of the events
      simp only [hc, if_true]
      refine ⟨_, rfl, ?_, ?_, ?_, by simp⟩
      · exact oset_inv_congr T_max s _ hs rfl (oset_events_touch s x) rfl
      · simp only [Bool.false_eq_true, true_and, false_iff, not_and]
        simp only [Bool.or_eq_true, beq_iff_eq, decide_eq_true_eq] at hc
        intro h hall
        rcases hc with hc | hc
        · omega
        · have hne : s.events x ≠ [] := by
            intro h0; rw [h0] at h; simp at h
          have := hall _ (last_decomp _ hne).2.1
          omega
      · intro _
        exact ⟨rfl, oset_events_touch s x, rfl⟩
    · -- accepted
      have hc' := hc
      simp only [Bool.or_eq_true, beq_iff_eq, decide_eq_true_eq, not_or, not_lt] at hc'
      have hne : s.events x ≠ [] := by
        intro h0; rw [h0] at hc'; simp at hc'
      obtain ⟨⟨ev, hev⟩, hlast, hmem, hemp⟩ := last_decomp _ hne
      have hlen : ev.length % 2 = 0 := by
        have := congrArg List.length hev
        simp only [List.length_append, List.length_singleton] at this
        omega
      have hlt := oset_later T_max s hs x tm hu (fun _ => hc'.2)
      have hso : (ev ++ [(s.events x).getLast?.getD 0]).Pairwise (fun a b => a < b) := by
        rw [← hev]; exact (hs.1 x).1
      obtain ⟨t₁, t₂, e₁, e₂, n, c⟩ := tree_erase_step x ev ((s.events x).getLast?.getD 0) tm
        s.tree hso hlen (hlt _ hmem) ((hs.1 x).2 _ hmem).1 htm
        (by rw [← hev]; exact hs.2.2.2.2 x)
      simp only [hc, if_false, e₁, e₂]
      refine ⟨_, rfl, ?_, ?_, by simp, ?_⟩
      · exact oset_inv_push T_max s hs x tm t₂ hx htm hu hlt n
          (segtree.add_sorted x _ _ _ _ _ _ _ e₂
            (segtree.remove_sorted x _ _ _ _ _ _ _ e₁ hs.2.2.2.1))
          (by rw [hev]; exact c)
          (fun y hy Q hQ => segtree.add_frame x y hy Q _ _ _ _ _ _ _ e₂
            (segtree.remove_frame x y hy Q _ _ _ _ _ _ _ e₁ hQ))
      · simp only [true_iff, true_and]
        refine ⟨by omega, fun e he => ?_⟩
        have := hlt e (List.mem_of_getLast?_eq_some he)
        omega
      · intro _
        refine ⟨rfl, fun y => ?_⟩
        rw [oset_events_assign]

end retroactive_set

namespace retroactive_set

open retroactive_unordered_multiset (seq_find seq_assign seq_erase)

/-- The function `delete_operation` on a consistent set: the call returns, the set stays
consistent, the call is accepted iff the time is logged and is the last event of the
logged key; a rejected call leaves the log, the events and the tree, an accepted call
removes the time from the log and from the events of the key. -/
theorem oset_delete_operation_spec (T_max : Int) (s : retroactive_set) (hs : inv T_max s)
    (tm : Int) :
    ∃ r, s.delete_operation tm = some r ∧ inv T_max r.2 ∧
      (r.1 = true ↔
        ∃ x, map_find s.operations tm = some x ∧ (s.events x).getLast? = some tm) ∧
      (r.1 = false → r.2.operations = s.operations ∧ (∀ y, r.2.events y = s.events y) ∧
        r.2.tree = s.tree) ∧
      (r.1 = true → r.2.operations = map_erase s.operations tm ∧
        ∀ x, map_find s.operations tm = some x →
          ∀ y, r.2.events y = if y = x then (s.events x).dropLast else s.events y) := by
  unfold delete_operation
  cases hu : map_find s.operations tm with
  | none =>
    refine ⟨(false, s), rfl, hs, ?_, ?_, ?_⟩
    · simp
    · intro _; exact ⟨rfl, fun _ => rfl, rfl⟩
    · intro h; exact absurd h Bool.false_ne_true
  | some x =>
    have hin := (hs.2.1 tm x hu).1
    have hne : s.events x ≠ [] := List.ne_nil_of_mem hin
    obtain ⟨⟨ev, hev⟩, hlast, hmem, hemp⟩ := last_decomp _ hne
    generalize (s.events x).getLast?.getD 0 = b at hev hlast hmem
    simp only [hlast]
    by_cases hb : (b != tm) = true
    · simp only [hb, if_true]
      refine ⟨_, rfl, ?_, ?_, ?_, by simp⟩
      · exact oset_inv_congr T_max s _ hs rfl (oset_events_touch s x) rfl
      · simp only [Bool.false_eq_true, Option.some.injEq, exists_eq_left', false_iff, hlast]
        simpa using hb
      · intro _
        exact ⟨rfl, oset_events_touch s x, rfl⟩
    · have hb' : tm = b := by
        simp only [bne_iff_ne, ne_eq, not_not] at hb; exact hb.symm
      subst hb'
      have hdrop : (s.events x).dropLast = ev := by rw [hev]; simp
      have hsx := (hs.1 x).1
      rw [hev, sorted_append_iff] at hsx
      have htm : isInt64 tm := ((hs.1 x).2 tm hin).1
      have hcx := hs.2.2.2.2 x
      rw [hev] at hcx
      have hfin : ∀ (t : segtree), t ≠ .null → t.sorted →
          segtree.canon x (fun t => member_at ev t = true) t INT64_MIN INT64_MAX →
          (∀ y, y ≠ x → ∀ Q, segtree.canon y Q s.tree INT64_MIN INT64_MAX →
            segtree.canon y Q t INT64_MIN INT64_MAX) →
          ∃ r, some (true, ({ operations := map_erase s.operations tm, tree := t,
                              sequences := seq_assign s.sequences x ev } :
                retroactive_set)) = some r ∧
            inv T_max r.2 ∧
            (r.1 = true ↔ ∃ x_1, some x = some x_1 ∧
              (s.events x_1).getLast? = some tm) ∧
            (r.1 = false → r.2.operations = s.operations ∧
              (∀ y, r.2.events y = s.events y) ∧ r.2.tree = s.tree) ∧
            (r.1 = true → r.2.operations = map_erase s.operations tm ∧
              ∀ x_1, some x = some x_1 →
                ∀ y, r.2.events y =
                  if y = x_1 then (s.events x_1).dropLast else s.events y) := by
        intro t n so c fr
        refine ⟨_, rfl, oset_inv_pop T_max s hs x tm ev t hu hev n so c fr, ?_, by simp, ?_⟩
        · exact ⟨fun _ => ⟨x, rfl, hlast⟩, fun _ => rfl⟩
        · intro _
          refine ⟨rfl, ?_⟩
          intro x' hx' y
          simp only [Option.some.injEq] at hx'
          subst hx'
          rw [oset_events_assign, hdrop]
      simp only [hb, Bool.false_eq_true, if_false, hdrop]
      by_cases hodd : (ev.length % 2 != 0) = true
      · have hodd' : ev.length % 2 = 1 := by
          simp only [bne_iff_ne, ne_eq] at hodd; omega
        have hne' : ev ≠ [] := by
          intro h0; rw [h0] at hodd'; simp at hodd'
        obtain ⟨⟨ev₀, hev₀⟩, -, hmem', -⟩ := last_decomp _ hne'
        have hlen : ev₀.length % 2 = 0 := by
          have := congrArg List.length hev₀
          simp only [List.length_append, List.length_singleton] at this
          omega
        obtain ⟨t₁, t₂, e₁, e₂, n, c⟩ := tree_undo_erase_step x ev₀ (ev.getLast?.getD 0) tm
          s.tree (by rw [← hev₀]; exact hsx.1) hlen (hsx.2 _ hmem')
          ((hs.1 x).2 _ (by rw [hev]; exact List.mem_append_left _ hmem')).1 htm
          (by rw [← hev₀]; exact hcx)
        simp only [hodd, if_true, e₁, e₂, Bool.false_eq_true, if_false]
        exact hfin t₂ n
          (segtree.add_sorted x _ _ _ _ _ _ _ e₂
            (segtree.remove_sorted x _ _ _ _ _ _ _ e₁ hs.2.2.2.1))
          (by rw [hev₀]; exact c)
          (fun y hy Q hQ => segtree.add_frame x y hy Q _ _ _ _ _ _ _ e₂
            (segtree.remove_frame x y hy Q _ _ _ _ _ _ _ e₁ hQ))
      · have heven : ev.length % 2 = 0 := by
          simp only [bne_iff_ne, ne_eq, not_not] at hodd; exact hodd
        obtain ⟨t₁, e₁, n, c⟩ := tree_undo_insert_step x ev tm s.tree
          ((sorted_append_iff _ _).mpr hsx) heven htm hcx
        simp only [hodd, Bool.false_eq_true, if_false, e₁]
        exact hfin t₁ n (segtree.remove_sorted x _ _ _ _ _ _ _ e₁ hs.2.2.2.1) c
          (fun y hy Q hQ => segtree.remove_frame x y hy Q _ _ _ _ _ _ _ e₁ hQ)

/-- Every reachable set is consistent. -/
theorem oset_inv_of_reachable (T_max : Int) (s : retroactive_set) (h : reachable T_max s) :
    inv T_max s := by
  induction h with
  | empty => exact oset_inv_empty T_max
  | step s c r _ hc hr ih =>
    cases c with
    | insert x tm =>
      obtain ⟨r', e, i, -⟩ := oset_insert_spec T_max s ih x tm hc.1 hc.2
      simp only [call, e, Option.map_some', Option.some.injEq] at hr
      rw [← hr]; exact i
    | erase x tm =>
      obtain ⟨r', e, i, -⟩ := oset_erase_spec T_max s ih x tm hc.1 hc.2
      simp only [call, e, Option.map_some', Option.some.injEq] at hr
      rw [← hr]; exact i
    | delete_operation tm =>
      obtain ⟨r', e, i, -⟩ := oset_delete_operation_spec T_max s ih tm
      simp only [call, e, Option.map_some', Option.some.injEq] at hr
      rw [← hr]; exact i
    | lower_bound x tm =>
      simp only [call, Option.some.injEq] at hr
      rw [← hr]; exact ih
    | upper_bound x tm =>
      simp only [call, Option.some.injEq] at hr
      rw [← hr]; exact ih
    | find x tm =>
      simp only [call, Option.some.injEq] at hr
      rw [← hr]; exact ih
    | insert_now x =>
      have ht : isInt64 s.get_last_time := by
        unfold get_last_time; split
        · decide
        · exact isInt64_wrap64 _
      obtain ⟨r', e, i, -⟩ := oset_insert_spec T_max s ih x _ hc ht
      simp only [call, e, Option.map_some', Option.some.injEq] at hr
      rw [← hr]; exact i
    | erase_now x =>
      have ht : isInt64 s.get_last_time := by
        unfold get_last_time; split
        · decide
        · exact isInt64_wrap64 _
      obtain ⟨r', e, i, -⟩ := oset_erase_spec T_max s ih x _ hc ht
      simp only [call, e, Option.map_some', Option.some.injEq] at hr
      rw [← hr]; exact i
    | clear =>
      simp only [call, Option.some.injEq] at hr
      rw [← hr]; exact oset_inv_empty T_max

/-- Every call with arguments of the right types has a result on a reachable set. -/
theorem oset_call_defined (T_max : Int) (s : retroactive_set) (h : reachable T_max s)
    (c : set_call) (hc : call_in_range T_max c) : ∃ r, s.call T_max c = some r := by
  have ih := oset_inv_of_reachable T_max s h
  cases c with
  | insert x tm =>
    obtain ⟨r', e, -⟩ := oset_insert_spec T_max s ih x tm hc.1 hc.2
    exact ⟨(.flag r'.1, r'.2), by simp only [call, e, Option.map_some']⟩
  | erase x tm =>
    obtain ⟨r', e, -⟩ := oset_erase_spec T_max s ih x tm hc.1 hc.2
    exact ⟨(.flag r'.1, r'.2), by simp only [call, e, Option.map_some']⟩
  | delete_operation tm =>
    obtain ⟨r', e, -⟩ := oset_delete_operation_spec T_max s ih tm
    exact ⟨(.flag r'.1, r'.2), by simp only [call, e, Option.map_some']⟩
  | lower_bound x tm => exact ⟨_, rfl⟩
  | upper_bound x tm => exact ⟨_, rfl⟩
  | find x tm => exact ⟨_, rfl⟩
  | insert_now x =>
    have ht : isInt64 s.get_last_time := by
      unfold get_last_time; split
      · decide
      · exact isInt64_wrap64 _
    obtain ⟨r', e, -⟩ := oset_insert_spec T_max s ih x _ hc ht
    exact ⟨(.flag r'.1, r'.2), by simp only [call, e, Option.map_some']⟩
  | erase_now x =>
    have ht : isInt64 s.get_last_time := by
      unfold get_last_time; split
      · decide
      · exact isInt64_wrap64 _
    obtain ⟨r', e, -⟩ := oset_erase_spec T_max s ih x _ hc ht
    exact ⟨(.flag r'.1, r'.2), by simp only [call, e, Option.map_some']⟩
  | clear => exact ⟨_, rfl⟩

/-- The set after a call with arguments of the right types on a reachable set is
reachable. -/
theorem oset_reachable_after (T_max : Int) (s : retroactive_set) (h : reachable T_max s)
    (c : set_call) (hc : call_in_range T_max c) : reachable T_max (after T_max s c) := by
  unfold after
  cases hr : s.call T_max c with
  | none => exact h
  | some r => exact reachable.step s c r h hc hr

end retroactive_set

namespace retroactive_set

open retroactive_unordered_multiset (seq_find seq_assign seq_erase)

theorem member_at_nil (t : Int) : member_at [] t = false := rfl

/-- A key that is a member at some time of a consistent set is at most `T_max`. -/
theorem oset_member_le (T_max : Int) (s : retroactive_set) (hs : inv T_max s) (y t : Int)
    (h : member_at (s.events y) t = true) : y ≤ T_max := by
  cases hev : s.events y with
  | nil => rw [hev] at h; simp [member_at] at h
  | cons e l =>
    have he : e ∈ s.events y := by rw [hev]; simp
    exact (hs.2.1 e y ((hs.1 y).2 e he).2).2

/-- In a consistent set, some bucket on the path towards `t` holds `y` exactly when `y`
is a member at `t`. -/
theorem oset_on_path (T_max : Int) (s : retroactive_set) (hs : inv T_max s) (y t : Int)
    (ht : isInt64 t) :
    segtree.on_path y t s.tree INT64_MIN INT64_MAX ↔ member_at (s.events y) t = true :=
  segtree.on_path_iff y _ s.tree INT64_MIN INT64_MAX t (hs.2.2.2.2 y) ht.1 ht.2

/-- The bound queries of a consistent set. -/
theorem oset_bounds_spec (T_max : Int) (s : retroactive_set) (hs : inv T_max s)
    (x t : Int) (ht : isInt64 t) :
    ((x ≤ lower_bound T_max s x t ∧
        member_at (s.events (lower_bound T_max s x t)) t = true ∧
        ∀ y, x ≤ y → member_at (s.events y) t = true → lower_bound T_max s x t ≤ y) ∨
      ((∀ y, x ≤ y → member_at (s.events y) t = false) ∧ lower_bound T_max s x t = T_max)) ∧
    ((x < upper_bound T_max s x t ∧
        member_at (s.events (upper_bound T_max s x t)) t = true ∧
        ∀ y, x < y → member_at (s.events y) t = true → upper_bound T_max s x t ≤ y) ∨
      ((∀ y, x < y → member_at (s.events y) t = false) ∧
        upper_bound T_max s x t = T_max)) := by
  constructor
  · obtain ⟨p1, p2, p3⟩ := segtree.lower_bound_path s.tree t x hs.2.2.2.1
      INT64_MIN INT64_MAX T_max
    have hmin : ∀ y, x ≤ y → member_at (s.events y) t = true →
        lower_bound T_max s x t ≤ y :=
      fun y hxy hy => p3 y ((oset_on_path T_max s hs y t ht).mpr hy) hxy
    by_cases hex : ∃ y, x ≤ y ∧ member_at (s.events y) t = true
    · left
      obtain ⟨y₀, h1, h2⟩ := hex
      rcases p2 with h | h
      · have h3 := hmin y₀ h1 h2
        have h4 := oset_member_le T_max s hs y₀ t h2
        have h5 : lower_bound T_max s x t = y₀ := by
          unfold lower_bound at h3 ⊢; omega
        rw [h5]
        exact ⟨h1, h2, fun y hxy hy => by rw [← h5]; exact hmin y hxy hy⟩
      · exact ⟨h.2, (oset_on_path T_max s hs _ t ht).mp h.1, hmin⟩
    · right
      have hnone : ∀ y, x ≤ y → member_at (s.events y) t = false := by
        intro y hxy
        cases hm : member_at (s.events y) t with
        | false => rfl
        | true => exact absurd ⟨y, hxy, hm⟩ hex
      refine ⟨hnone, ?_⟩
      rcases p2 with h | h
      · exact h
      · have := hnone _ h.2
        rw [(oset_on_path T_max s hs _ t ht).mp h.1] at this
        exact absurd this (by decide)
  · obtain ⟨p1, p2, p3⟩ := segtree.upper_bound_path s.tree t x hs.2.2.2.1
      INT64_MIN INT64_MAX T_max
    have hmin : ∀ y, x < y → member_at (s.events y) t = true →
        upper_bound T_max s x t ≤ y :=
      fun y hxy hy => p3 y ((oset_on_path T_max s hs y t ht).mpr hy) hxy
    by_cases hex : ∃ y, x < y ∧ member_at (s.events y) t = true
    · left
      obtain ⟨y₀, h1, h2⟩ := hex
      rcases p2 with h | h
      · have h3 := hmin y₀ h1 h2
        have h4 := oset_member_le T_max s hs y₀ t h2
        have h5 : upper_bound T_max s x t = y₀ := by
          unfold upper_bound at h3 ⊢; omega
        rw [h5]
        exact ⟨h1, h2, fun y hxy hy => by rw [← h5]; exact hmin y hxy hy⟩
      · exact ⟨h.2, (oset_on_path T_max s hs _ t ht).mp h.1, hmin⟩
    · right
      have hnone : ∀ y, x < y → member_at (s.events y) t = false := by
        intro y hxy
        cases hm : member_at (s.events y) t with
        | false => rfl
        | true => exact absurd ⟨y, hxy, hm⟩ hex
      refine ⟨hnone, ?_⟩
      rcases p2 with h | h
      · exact h
      · have := hnone _ h.2
        rw [(oset_on_path T_max s hs _ t ht).mp h.1] at this
        exact absurd this (by decide)

/-- Below the largest key value, `find` is membership: for a consistent set, a key
`x < T_max` and a 64-bit time `t`, find(x, t) returns true iff `x` is a member at `t`. -/
theorem oset_find_below_max (T_max : Int) (s : retroactive_set) (hs : inv T_max s)
    (x t : Int) (ht : isInt64 t) (hx : x < T_max) :
    find T_max s x t = true ↔ member_at (s.events x) t = true := by
  have h := (oset_bounds_spec T_max s hs x t ht).1
  unfold find
  simp only [beq_iff_eq]
  constructor
  · intro he
    rcases h with h | h
    · rw [he] at h; exact h.2.1
    · omega
  · intro hm
    rcases h with h | h
    · have := h.2.2 x (le_refl _) hm
      omega
    · have := h.1 x (le_refl _)
      rw [hm] at this
      exact absurd this (by decide)

theorem reachable_scenario : reachable 2147483647 scenario :=
  oset_reachable_after _ _
    (oset_reachable_after _ _
      (oset_reachable_after _ _ reachable.empty (.insert 5 10) ⟨by decide, by decide⟩)
      (.insert 3 20) ⟨by decide, by decide⟩)
    (.erase 5 30) ⟨by decide, by decide⟩

/-- C11: for every reachable set, every key x and every 64-bit time t, lower_bound(x, t)
returns the smallest key `y >= x` that is a member at time t, and upper_bound(x, t) the
smallest such member `y > x`; each returns the largest value of the key type when there is
no such member. -/
theorem C11_bound_queries (T_max : Int) (s : retroactive_set) (h : reachable T_max s)
    (x t : Int) (ht : isInt64 t) :
    ((x ≤ lower_bound T_max s x t ∧
        member_at (s.events (lower_bound T_max s x t)) t = true ∧
        ∀ y, x ≤ y → member_at (s.events y) t = true → lower_bound T_max s x t ≤ y) ∨
      ((∀ y, x ≤ y → member_at (s.events y) t = false) ∧ lower_bound T_max s x t = T_max)) ∧
    ((x < upper_bound T_max s x t ∧
        member_at (s.events (upper_bound T_max s x t)) t = true ∧
        ∀ y, x < y → member_at (s.events y) t = true → upper_bound T_max s x t ≤ y) ∨
      ((∀ y, x < y → member_at (s.events y) t = false) ∧
        upper_bound T_max s x t = T_max)) :=
  oset_bounds_spec T_max s (oset_inv_of_reachable T_max s h) x t ht

set_option maxRecDepth 100000 in
/-- C11 at the historical query scenario: after insert(5)@10, insert(3)@20, erase(5)@30
the set is reachable, lower_bound(4, 25) = 5, lower_bound(4, 35) is the largest key value,
upper_bound(3, 25) = 5, and the queries at key 4 and time 25 are as the claim says. -/
theorem C11_bound_queries_witness :
    reachable 2147483647 scenario ∧ isInt64 25 ∧
    lower_bound 2147483647 scenario 4 25 = 5 ∧
    lower_bound 2147483647 scenario 4 35 = 2147483647 ∧
    upper_bound 2147483647 scenario 3 25 = 5 ∧
    (((4 : Int) ≤ lower_bound 2147483647 scenario 4 25 ∧
        member_at (scenario.events (lower_bound 2147483647 scenario 4 25)) 25 = true ∧
        ∀ y, 4 ≤ y → member_at (scenario.events y) 25 = true →
          lower_bound 2147483647 scenario 4 25 ≤ y) ∨
      ((∀ y, 4 ≤ y → member_at (scenario.events y) 25 = false) ∧
        lower_bound 2147483647 scenario 4 25 = 2147483647)) :=
  ⟨reachable_scenario, by decide, by decide!, by decide!, by decide!,
    (C11_bound_queries 2147483647 scenario reachable_scenario 4 25 (by decide)).1⟩

/-- C12 (find fails on the code for the largest key value): on the empty set, in which
no operation is logged and no key is a member at any time, find(T_max, t) returns true
for every time t, because `lower_bound` returns `T_max` when it finds no member. -/
theorem C12_find_true_for_largest_key_on_empty_set (T_max t : Int) :
    find T_max empty_set T_max t = true ∧
    empty_set.operations = [] ∧
    member_at (empty_set.events T_max) t = false := by
  refine ⟨?_, rfl, rfl⟩
  simp only [find, lower_bound, empty_set, segtree.lower_bound, List.find?_nil, beq_iff_eq]
  split <;> rfl

end retroactive_set

namespace retroactive_set

open retroactive_unordered_multiset (seq_find seq_assign seq_erase)

/-- C13: for every reachable set, key x and 64-bit time t, insert(x, t) returns, and it
returns true iff t is not in the log, the event sequence of x has even length and t is
greater than the last event time of x, if there is one; erase(x, t) returns, and it
returns true iff t is not in the log, the event sequence of x has odd length and the last
event time of x is `<= t`. On false the log, the event times of every key and the tree
with all its buckets are unchanged. -/
theorem C13_update_admission (T_max : Int) (s : retroactive_set) (h : reachable T_max s)
    (x t : Int) (hx : x ≤ T_max) (ht : isInt64 t) :
    (∃ r, s.insert x t = some r ∧
      (r.1 = true ↔ map_find s.operations t = none ∧ (s.events x).length % 2 = 0 ∧
        ∀ e ∈ (s.events x).getLast?, e < t) ∧
      (r.1 = false → r.2.operations = s.operations ∧ (∀ y, r.2.events y = s.events y) ∧
        r.2.tree = s.tree)) ∧
    (∃ r, s.erase x t = some r ∧
      (r.1 = true ↔ map_find s.operations t = none ∧ (s.events x).length % 2 = 1 ∧
        ∀ e ∈ (s.events x).getLast?, e ≤ t) ∧
      (r.1 = false → r.2.operations = s.operations ∧ (∀ y, r.2.events y = s.events y) ∧
        r.2.tree = s.tree)) := by
  have hs := oset_inv_of_reachable T_max s h
  obtain ⟨r₁, e₁, -, a₁, b₁, -⟩ := oset_insert_spec T_max s hs x t hx ht
  obtain ⟨r₂, e₂, -, a₂, b₂, -⟩ := oset_erase_spec T_max s hs x t hx ht
  exact ⟨⟨r₁, e₁, a₁, b₁⟩, ⟨r₂, e₂, a₂, b₂⟩⟩

set_option maxRecDepth 100000 in
/-- C13 at the scenario set (insert(5)@10, insert(3)@20, erase(5)@30) with the calls
insert(3, 40) and erase(3, 40): the insert is rejected, key 3 having one event, and the
erase is accepted. -/
theorem C13_update_admission_witness :
    reachable 2147483647 scenario ∧ (3 : Int) ≤ 2147483647 ∧ isInt64 40 ∧
    (scenario.insert 3 40).map Prod.fst = some false ∧
    (scenario.erase 3 40).map Prod.fst = some true ∧
    ((∃ r, scenario.insert 3 40 = some r ∧
      (r.1 = true ↔ map_find scenario.operations 40 = none ∧
        (scenario.events 3).length % 2 = 0 ∧ ∀ e ∈ (scenario.events 3).getLast?, e < 40) ∧
      (r.1 = false → r.2.operations = scenario.operations ∧
        (∀ y, r.2.events y = scenario.events y) ∧ r.2.tree = scenario.tree)) ∧
    (∃ r, scenario.erase 3 40 = some r ∧
      (r.1 = true ↔ map_find scenario.operations 40 = none ∧
        (scenario.events 3).length % 2 = 1 ∧ ∀ e ∈ (scenario.events 3).getLast?, e ≤ 40) ∧
      (r.1 = false → r.2.operations = scenario.operations ∧
        (∀ y, r.2.events y = scenario.events y) ∧ r.2.tree = scenario.tree))) :=
  ⟨reachable_scenario, by decide, by decide, by decide!, by decide!,
    C13_update_admission 2147483647 scenario reachable_scenario 3 40 (by decide)
      (by decide)⟩

/-- C15: for every reachable set and time t, delete_operation(t) returns, and it returns
true iff an operation is logged at t and t is the last event time of the key of that
operation. On success the log entry and the last event of the key are removed, the result
is consistent, and for every key y and 64-bit time t' the tree holds y on the path towards
t' (and, for y below the largest key value, find(y, t') returns true) iff y is a member at
t' by the remaining events; after the deletion of an insert the key is not a member from
t onward, after the deletion of an erase it is a member from its previous insert time
onward. On false the log, the events and the tree are unchanged. -/
theorem C15_delete_operation (T_max : Int) (s : retroactive_set) (h : reachable T_max s)
    (t : Int) :
    ∃ r, s.delete_operation t = some r ∧
      (r.1 = true ↔
        ∃ x, map_find s.operations t = some x ∧ (s.events x).getLast? = some t) ∧
      (r.1 = true →
        r.2.operations = map_erase s.operations t ∧
        (∀ x, map_find s.operations t = some x →
          (∀ y, r.2.events y = if y = x then (s.events x).dropLast else s.events y) ∧
          ((s.events x).length % 2 = 1 →
            ∀ t', t ≤ t' → member_at (r.2.events x) t' = false) ∧
          ((s.events x).length % 2 = 0 →
            ∀ prev ∈ (s.events x).dropLast.getLast?,
              ∀ t', prev ≤ t' → member_at (r.2.events x) t' = true)) ∧
        (∀ y t', isInt64 t' →
          (segtree.on_path y t' r.2.tree INT64_MIN INT64_MAX ↔
            member_at (r.2.events y) t' = true) ∧
          (y < T_max → (find T_max r.2 y t' = true ↔ member_at (r.2.events y) t' = true)))) ∧
      (r.1 = false → r.2.operations = s.operations ∧ (∀ y, r.2.events y = s.events y) ∧
        r.2.tree = s.tree) := by
  have hs := oset_inv_of_reachable T_max s h
  obtain ⟨r, e, i, a, b, c⟩ := oset_delete_operation_spec T_max s hs t
  refine ⟨r, e, a, ?_, b⟩
  intro hr
  obtain ⟨c1, c2⟩ := c hr
  refine ⟨c1, ?_, ?_⟩
  · intro x hx
    have hev := c2 x hx
    have hex : r.2.events x = (s.events x).dropLast := by simpa using hev x
    obtain ⟨x', hx', hlast⟩ := a.mp hr
    rw [hx] at hx'
    simp only [Option.some.injEq] at hx'
    subst hx'
    have hne : s.events x ≠ [] := by
      intro h0; rw [h0] at hlast; simp at hlast
    obtain ⟨⟨ev, hev'⟩, -, -, -⟩ := last_decomp _ hne
    rw [hlast, Option.getD_some] at hev'
    have hso := (hs.1 x).1
    rw [hev', sorted_append_iff] at hso
    have hdrop : (s.events x).dropLast = ev := by rw [hev']; simp
    have hlen : (s.events x).length = ev.length + 1 := by rw [hev']; simp
    refine ⟨hev, ?_, ?_⟩
    · intro hodd t' ht'
      rw [hex, hdrop]
      cases hm : member_at ev t' with
      | false => rfl
      | true =>
        rw [member_at_iff_odd ev t' hso.1,
          filter_le_all ev t' (fun e he => by have := hso.2 e he; omega)] at hm
        omega
    · intro heven prev hprev t' ht'
      rw [hex, hdrop]
      rw [hdrop] at hprev
      have hne' : ev ≠ [] := by
        intro h0; rw [h0] at hprev; simp at hprev
      have hmem := List.mem_of_getLast?_eq_some hprev
      rw [member_at_iff_odd ev t' hso.1,
        filter_le_all ev t' (fun e he => by
          have := partially_retroactive_set.pset_last_max ev hso.1 e he
          rw [Option.mem_def.mp hprev] at this
          simp only [Option.getD_some] at this
          omega)]
      omega
  · intro y t' ht'
    exact ⟨oset_on_path T_max r.2 i y t' ht', oset_find_below_max T_max r.2 i y t' ht'⟩

set_option maxRecDepth 100000 in
/-- C15 at the scenario set (insert(5)@10, insert(3)@20, erase(5)@30): the call
delete_operation(30) is accepted, and delete_operation(10) is rejected, 10 not being the
last event of key 5. -/
theorem C15_delete_operation_witness :
    reachable 2147483647 scenario ∧
    (scenario.delete_operation 30).map Prod.fst = some true ∧
    (scenario.delete_operation 10).map Prod.fst = some false ∧
    ∃ r, scenario.delete_operation 30 = some r ∧
      (r.1 = true ↔
        ∃ x, map_find scenario.operations 30 = some x ∧
          (scenario.events x).getLast? = some 30) :=
  have h := C15_delete_operation 2147483647 scenario reachable_scenario 30
  ⟨reachable_scenario, by decide!, by decide!, h.choose, h.choose_spec.1, h.choose_spec.2.1⟩

end retroactive_set

theorem map_assign_erase_self {T : Type} (m : List (Int × T)) (k : Int) (v : T)
    (hs : (m.map Prod.fst).Pairwise (· < ·)) (hf : map_find m k = some v) :
    map_assign (map_erase m k) k v = m := by
  induction m with
  | nil => simp [map_find] at hf
  | cons e m ih =>
    obtain ⟨k₀, v₀⟩ := e
    simp only [List.map_cons, List.pairwise_cons] at hs
    simp only [map_find] at hf
    by_cases hk : k₀ = k
    · subst hk
      simp only [if_true, Option.some.injEq] at hf
      subst hf
      have hno : map_erase m k₀ = m := by
        unfold map_erase
        rw [List.filter_eq_self]
        intro a ha
        have := hs.1 a.1 (List.mem_map_of_mem _ ha)
        simp only [ne_eq, decide_not, Bool.not_eq_true', decide_eq_false_iff_not]
        omega
      have : map_erase ((k₀, v₀) :: m) k₀ = m := by
        unfold map_erase at hno ⊢
        rw [List.filter_cons_of_neg (by simp)]
        exact hno
      rw [this]
      cases m with
      | nil => simp [map_assign]
      | cons e' m' =>
        obtain ⟨k₁, v₁⟩ := e'
        have := hs.1 k₁ (by simp)
        simp [map_assign, this]
    · simp only [hk, if_false] at hf
      have hlt : k₀ < k := by
        have hmem : k ∈ m.map Prod.fst := by
          rw [← map_find_isSome_iff]; simp [hf]
        exact hs.1 k hmem
      have : map_erase ((k₀, v₀) :: m) k = (k₀, v₀) :: map_erase m k := by
        unfold map_erase
        rw [List.filter_cons_of_pos (by simpa using hk)]
      rw [this]
      simp only [map_assign]
      rw [if_neg (by omega), if_neg (by omega), ih hs.2 hf]

theorem set_insert_erase_self (s : List Int) (k : Int) (hs : s.Pairwise (· < ·))
    (hk : k ∈ s) : set_insert (set_erase s k) k = s := by
  induction s with
  | nil => simp at hk
  | cons a s ih =>
    simp only [List.pairwise_cons] at hs
    by_cases ha : a = k
    · subst ha
      have hno : set_erase s a = s := by
        unfold set_erase
        rw [List.filter_eq_self]
        intro b hb
        have := hs.1 b hb
        simp only [ne_eq, decide_not, Bool.not_eq_true', decide_eq_false_iff_not]
        omega
      have : set_erase (a :: s) a = s := by
        unfold set_erase at hno ⊢
        rw [List.filter_cons_of_neg (by simp)]
        exact hno
      rw [this]
      cases s with
      | nil => simp [set_insert]
      | cons b s' =>
        have := hs.1 b (by simp)
        simp [set_insert, this]
    · have hk' : k ∈ s := by
        rcases List.mem_cons.mp hk with h | h
        · exact absurd h.symm ha
        · exact h
      have hlt : a < k := hs.1 k hk'
      have : set_erase (a :: s) k = a :: set_erase s k := by
        unfold set_erase
        rw [List.filter_cons_of_pos (by simpa using ha)]
      rw [this]
      simp only [set_insert]
      rw [if_neg (by omega), if_neg (by omega), ih hs.2 hk']

namespace deque_events

variable {T : Type}

/-- Away from the smallest time, an accepted `delete_operation` of a push followed by the
same push (payload, time and side) gives back the logs and the three sequences. -/
theorem round_trip_push (v : deque_events T) (hv : v.inv) (tm : Int) (ht : above_min tm)
    (x : T) (hx : map_find v.operations tm = some x) (back_op : Bool)
    (hside : (tm, true) ∈ (if back_op then v.ur else v.ul))
    (hd : (v.delete_operation tm).1 = true) :
    (v.delete_operation tm).2.insert_push_operation x tm back_op = (true, v) := by
  obtain ⟨h1, h2, h3, h4, h5, h6, h7, h8, h9, h10⟩ := hv
  have hp : (map_find v.operations tm).isSome = true := by simp [hx]
  have hm : (tm, true) ∈ v.balance_tree := (h5 tm).mpr hp
  have hval := ((inv_delete_operation v ⟨h1, h2, h3, h4, h5, h6, h7, h8, h9, h10⟩ tm ht).2.2.mp
    hd).2
  have hnp : tm ∉ v.pop_operations := by
    intro hc
    have := events.unique_at_time _ tm true false h1 hm ((h6 tm).mpr hc)
    exact absurd this (by decide)
  have hdel : v.delete_operation tm =
      (true, { v with balance_tree := events.erase v.balance_tree tm,
                      ul := events.erase v.ul tm, ur := events.erase v.ur tm,
                      operations := map_erase v.operations tm }) := by
    unfold delete_operation
    simp only [hp, if_true, check_valid, ge_iff_le, hval, decide_True, Bool.not_true,
      Bool.false_eq_true, if_false]
  rw [hdel]
  unfold insert_push_operation
  have hu : time_used { v with balance_tree := events.erase v.balance_tree tm,
                               ul := events.erase v.ul tm, ur := events.erase v.ur tm,
                               operations := map_erase v.operations tm } tm = false := by
    simp [time_used, map_find_erase, hnp]
  simp only [hu, Bool.false_eq_true, if_false, check_valid, ge_iff_le,
    events.insert_erase _ tm true h1 hm ht, h4, decide_True, Bool.not_true,
    map_assign_erase_self _ tm x h9 hx]
  cases back_op with
  | true =>
    simp only [if_true] at hside ⊢
    have hul : events.erase v.ul tm = v.ul :=
      events.erase_unused _ tm (events.sorted_of_strictly_sorted _ h2)
        (fun e he hc => h8 e he (tm, true) hside hc) ht
    rw [events.insert_erase _ tm true h3 hside ht, hul]
  | false =>
    simp only [Bool.false_eq_true, if_false] at hside ⊢
    have hur : events.erase v.ur tm = v.ur :=
      events.erase_unused _ tm (events.sorted_of_strictly_sorted _ h3)
        (fun e he hc => h8 (tm, true) hside e he hc.symm) ht
    rw [events.insert_erase _ tm true h2 hside ht, hur]

/-- Away from the smallest time, an accepted `delete_operation` of a pop followed by the
same pop (time and side) gives back the logs and the three sequences. -/
theorem round_trip_pop (v : deque_events T) (hv : v.inv) (tm : Int) (ht : above_min tm)
    (hx : tm ∈ v.pop_operations) (back_op : Bool)
    (hside : (tm, false) ∈ (if back_op then v.ur else v.ul))
    (hd : (v.delete_operation tm).1 = true) :
    (v.delete_operation tm).2.insert_pop_operation tm back_op = (true, v) := by
  obtain ⟨h1, h2, h3, h4, h5, h6, h7, h8, h9, h10⟩ := hv
  have hm : (tm, false) ∈ v.balance_tree := (h6 tm).mpr hx
  have hval := ((inv_delete_operation v ⟨h1, h2, h3, h4, h5, h6, h7, h8, h9, h10⟩ tm ht).2.2.mp
    hd).2
  have hnp : (map_find v.operations tm).isSome = false := by
    cases hc : (map_find v.operations tm).isSome with
    | false => rfl
    | true =>
      have := events.unique_at_time _ tm true false h1 ((h5 tm).mpr hc) hm
      exact absurd this (by decide)
  have hdel : v.delete_operation tm =
      (true, { v with balance_tree := events.erase v.balance_tree tm,
                      ul := events.erase v.ul tm, ur := events.erase v.ur tm,
                      pop_operations := set_erase v.pop_operations tm }) := by
    unfold delete_operation
    simp only [hnp, Bool.false_eq_true, if_false, hx, if_true, check_valid, ge_iff_le, hval,
      decide_True, Bool.not_true]
  rw [hdel]
  unfold insert_pop_operation
  have hu : time_used { v with balance_tree := events.erase v.balance_tree tm,
                               ul := events.erase v.ul tm, ur := events.erase v.ur tm,
                               pop_operations := set_erase v.pop_operations tm } tm
      = false := by
    simp [time_used, hnp, mem_set_erase]
  simp only [hu, Bool.false_eq_true, if_false, check_valid, ge_iff_le,
    events.insert_erase _ tm false h1 hm ht, h4, decide_True, Bool.not_true,
    set_insert_erase_self _ tm h10 hx]
  cases back_op with
  | true =>
    simp only [if_true] at hside ⊢
    have hul : events.erase v.ul tm = v.ul :=
      events.erase_unused _ tm (events.sorted_of_strictly_sorted _ h2)
        (fun e he hc => h8 e he (tm, false) hside hc) ht
    rw [events.insert_erase _ tm false h3 hside ht, hul]
  | false =>
    simp only [Bool.false_eq_true, if_false] at hside ⊢
    have hur : events.erase v.ur tm = v.ur :=
      events.erase_unused _ tm (events.sorted_of_strictly_sorted _ h3)
        (fun e he hc => h8 (tm, false) hside e he hc.symm) ht
    rw [events.insert_erase _ tm false h2 hside ht, hur]

end deque_events

namespace retroactive_deque

variable {T : Type}

/-- The round trip of P-2 away from the smallest time: in a deque reached by update calls
above the smallest 64-bit value, after an accepted `delete_operation(tm)` the re-issued
push (same payload and side) or pop (same side) is accepted and gives back the logs and
the three event sequences. -/
theorem round_trip_above_min [Inhabited T] (d : retroactive_deque T)
    (h : reachable_above_min d) (tm : Int) (ht : above_min tm) (p p₁ p₂ : Nat)
    (back_op : Bool) (hd : (d.delete_operation tm p).1 = true) :
    (∀ x, map_find d.operations tm = some x →
      (tm, true) ∈ (if back_op then d.ur.inorder else d.ul.inorder) →
      ((d.delete_operation tm p).2.insert_push_operation x tm back_op p₁ p₂).1 = true ∧
      ((d.delete_operation tm p).2.insert_push_operation x tm back_op p₁ p₂).2.view
        = d.view) ∧
    (tm ∈ d.pop_operations →
      (tm, false) ∈ (if back_op then d.ur.inorder else d.ul.inorder) →
      ((d.delete_operation tm p).2.insert_pop_operation tm back_op p₁ p₂).1 = true ∧
      ((d.delete_operation tm p).2.insert_pop_operation tm back_op p₁ p₂).2.view
        = d.view) := by
  obtain ⟨hw, hv⟩ := inv_of_reachable d h
  obtain ⟨w1, c1, c2⟩ := delete_operation_view d tm p hw
  rw [c1] at hd
  constructor
  · intro x hx hside
    obtain ⟨-, a1, a2⟩ := insert_push_operation_view (d.delete_operation tm p).2 x tm back_op
      p₁ p₂ w1
    have := deque_events.round_trip_push d.view hv tm ht x hx back_op
      (by cases back_op <;> exact hside) hd
    rw [a1, a2, c2, this]
    exact ⟨rfl, rfl⟩
  · intro hx hside
    obtain ⟨-, a1, a2⟩ := insert_pop_operation_view (d.delete_operation tm p).2 tm back_op
      p₁ p₂ w1
    have := deque_events.round_trip_pop d.view hv tm ht hx back_op
      (by cases back_op <;> exact hside) hd
    rw [a1, a2, c2, this]
    exact ⟨rfl, rfl⟩

end retroactive_deque

namespace treap

/-- Away from the smallest time `treap::erase` removes exactly the events of time `tm`:
for a well-formed treap and a time above the smallest 64-bit value, the in-order sequence
after the call is the sequence without the events of time `tm` (unchanged when there is
none). -/
theorem erase_removes_above_min (t : treap) (tm : Int) (h : wf t) (ht : above_min tm) :
    inorder (erase t tm) = (inorder t).filter (fun e => decide (e.1 ≠ tm)) ∧
    ((∀ e ∈ inorder t, e.1 ≠ tm) → inorder (erase t tm) = inorder t) := by
  have he := (erase_spec t tm h).2
  have hd := events.sorted_decomp (inorder t) tm h.2
  have key : events.erase (inorder t) tm =
      (inorder t).filter (fun e => decide (e.1 ≠ tm)) := by
    rw [events.erase_eq _ _ ht]
    have hf : ∀ l : List (Int × Bool), events.sorted l →
        l.filter (fun e => decide (e.1 < tm)) ++ l.filter (fun e => decide (tm < e.1)) =
          l.filter (fun e => decide (e.1 ≠ tm)) := by
      intro l
      induction l with
      | nil => intro _; rfl
      | cons e l ih =>
        intro hs
        simp only [events.sorted, List.pairwise_cons] at hs
        have ih := ih hs.2
        rcases lt_trichotomy e.1 tm with hlt | heq | hgt
        · rw [List.filter_cons_of_pos (by simpa using hlt),
            List.filter_cons_of_neg (by simp only [decide_eq_true_eq]; omega),
            List.filter_cons_of_pos (by simp only [decide_eq_true_eq]; omega),
            List.cons_append, ih]
        · rw [List.filter_cons_of_neg (by simp only [decide_eq_true_eq]; omega),
            List.filter_cons_of_neg (by simp only [decide_eq_true_eq]; omega),
            List.filter_cons_of_neg (by simp only [decide_eq_true_eq]; omega), ih]
        · have hnil : l.filter (fun e => decide (e.1 < tm)) = [] := by
            rw [List.filter_eq_nil_iff]
            intro a ha
            have := hs.1 a ha
            simp only [decide_eq_true_eq]; omega
          rw [hnil] at ih
          rw [List.filter_cons_of_neg (by simp only [decide_eq_true_eq]; omega), hnil,
            List.filter_cons_of_pos (by simpa using hgt),
            List.filter_cons_of_pos (by simp only [decide_eq_true_eq]; omega),
            List.nil_append]
          rw [List.nil_append] at ih
          rw [ih]
    exact hf _ h.2
  rw [he, key]
  refine ⟨rfl, fun hu => ?_⟩
  rw [List.filter_eq_self]
  intro e he'
  simpa using hu e he'

/-- C24: for every treap T in time order and every x, split(T, x) returns (L, R) where the
in-order sequence of L is that of the nodes of T with `tm <= x` and the in-order sequence
of R that of the nodes with `tm > x`, both in time order; the in-order sequence of
merge(L, R) is that of L followed by that of R, in time order when L and R are and no time
of L is above a time of R; and merging the two halves of a split gives the in-order
sequence of T. -/
theorem C24_split_and_merge (t l r : treap) (x : Int) (h : events.sorted (inorder t)) :
    inorder (split t x).1 = (inorder t).filter (fun e => decide (e.1 ≤ x)) ∧
    inorder (split t x).2 = (inorder t).filter (fun e => decide (x < e.1)) ∧
    events.sorted (inorder (split t x).1) ∧ events.sorted (inorder (split t x).2) ∧
    inorder (merge l r) = inorder l ++ inorder r ∧
    (events.sorted (inorder l) → events.sorted (inorder r) →
      (∀ a ∈ inorder l, ∀ b ∈ inorder r, a.1 ≤ b.1) → events.sorted (inorder (merge l r))) ∧
    inorder (merge (split t x).1 (split t x).2) = inorder t := by
  obtain ⟨s1, s2⟩ := inorder_split t x h
  refine ⟨s1, s2, ?_, ?_, inorder_merge l r, ?_, ?_⟩
  · rw [s1]; exact sorted_filter _ _ h
  · rw [s2]; exact sorted_filter _ _ h
  · intro hl hr hlr
    rw [inorder_merge, sorted_append]
    exact ⟨hl, hr, hlr⟩
  · rw [inorder_merge, inorder_split_append]

/-- C24 at the treap built by the inserts of +1 at time 1, -1 at time 2 and +1 at time 3,
split at time 2, and the merge of two one-node treaps. -/
theorem C24_split_and_merge_witness :
    events.sorted (inorder (insert (insert (insert null 1 true 7) 2 false 3) 3 true 5)) ∧
    inorder (split (insert (insert (insert null 1 true 7) 2 false 3) 3 true 5) 2).1
      = [(1, true), (2, false)] ∧
    inorder (split (insert (insert (insert null 1 true 7) 2 false 3) 3 true 5) 2).2
      = [(3, true)] ∧
    inorder (merge (new_node 1 true 4) (new_node 2 false 9)) = [(1, true), (2, false)] ∧
    inorder (split (insert (insert (insert null 1 true 7) 2 false 3) 3 true 5) 2).1 =
      (inorder (insert (insert (insert null 1 true 7) 2 false 3) 3 true 5)).filter
        (fun e => decide (e.1 ≤ 2)) :=
  ⟨by unfold events.sorted; decide, by decide, by decide, by decide,
    (C24_split_and_merge (insert (insert (insert null 1 true 7) 2 false 3) 3 true 5)
      (new_node 1 true 4) (new_node 2 false 9) 2 (by unfold events.sorted; decide)).1⟩

/-- C25 (erase fails on the code at the smallest time): the treap with the single node of
time INT64_MIN has pairwise distinct times and a node of time INT64_MIN, and
erase(T, INT64_MIN) leaves its in-order sequence unchanged: the second split is at
`tm - 1`, which wraps to the largest time, so the dropped middle part is empty. -/
theorem C25_erase_at_smallest_time_removes_nothing (p : Nat) (ins : Bool) :
    inorder (new_node INT64_MIN ins p) = [(INT64_MIN, ins)] ∧
    wrap64 (INT64_MIN - 1) = INT64_MAX ∧
    inorder (erase (new_node INT64_MIN ins p) INT64_MIN) = [(INT64_MIN, ins)] := by
  refine ⟨rfl, by decide, ?_⟩
  cases ins <;> simp [erase, split, new_node, merge, merge.go, inorder, recalc, INT64_MIN,
    wrap64, isNull]

end treap

namespace events

theorem sums_of_prefixes_cons (e : Int × Bool) (l : List (Int × Bool)) :
    sums_of_prefixes (e :: l) =
      treap.sign e.2 :: (sums_of_prefixes l).map (fun v => treap.sign e.2 + v) := by
  simp only [sums_of_prefixes, List.length_cons, List.range_succ_eq_map, List.map_cons,
    List.map_map, List.take_succ_cons, List.take_zero]
  congr 1
  simp [balance]

theorem sums_of_suffixes_cons (e : Int × Bool) (l : List (Int × Bool)) :
    sums_of_suffixes (e :: l) = balance (e :: l) :: sums_of_suffixes l := by
  simp only [sums_of_suffixes, List.length_cons, List.range_succ_eq_map, List.map_cons,
    List.map_map, List.drop_zero]
  congr 1

theorem sums_of_prefixes_concat (a : List (Int × Bool)) (e : Int × Bool) :
    sums_of_prefixes (a ++ [e]) = sums_of_prefixes a ++ [balance (a ++ [e])] := by
  induction a with
  | nil => simp [sums_of_prefixes]
  | cons x a ih =>
    rw [List.cons_append, sums_of_prefixes_cons, ih, sums_of_prefixes_cons]
    simp [balance_cons]

/-- The sums of the suffixes of a sequence are the sums of the prefixes of the reversed
sequence. -/
theorem mem_sums_of_suffixes (l : List (Int × Bool)) (v : Int) :
    v ∈ sums_of_suffixes l ↔ v ∈ sums_of_prefixes l.reverse := by
  induction l with
  | nil => simp [sums_of_suffixes, sums_of_prefixes]
  | cons e l ih =>
    rw [sums_of_suffixes_cons, List.reverse_cons, sums_of_prefixes_concat, List.mem_cons,
      List.mem_append, List.mem_singleton, ih, ← List.reverse_cons, balance_reverse]
    exact or_comm

/-- The function `min_pref` is the minimum of the sums of the non-empty prefixes. -/
theorem is_min_min_pref (l : List (Int × Bool)) (h : l ≠ []) :
    is_min (min_pref l) (sums_of_prefixes l) := by
  induction l with
  | nil => exact absurd rfl h
  | cons e l ih =>
    rw [sums_of_prefixes_cons]
    simp only [min_pref]
    by_cases hl : l = []
    · subst hl
      simp [is_min, min_pref, sums_of_prefixes]
    · obtain ⟨h1, h2⟩ := ih hl
      constructor
      · by_cases hc : 0 ≤ min_pref l
        · rw [min_eq_left hc]; simp
        · rw [min_eq_right (by omega)]
          exact List.mem_cons_of_mem _ (List.mem_map_of_mem _ h1)
      · intro v hv
        have hm1 := min_le_left 0 (min_pref l)
        have hm2 := min_le_right 0 (min_pref l)
        rcases List.mem_cons.mp hv with hv | hv
        · omega
        · obtain ⟨w, hw, rfl⟩ := List.mem_map.mp hv
          have := h2 w hw
          omega

/-- The function `max_pref` is the maximum of the sums of the non-empty prefixes. -/
theorem is_max_max_pref (l : List (Int × Bool)) (h : l ≠ []) :
    is_max (max_pref l) (sums_of_prefixes l) := by
  induction l with
  | nil => exact absurd rfl h
  | cons e l ih =>
    rw [sums_of_prefixes_cons]
    simp only [max_pref]
    by_cases hl : l = []
    · subst hl
      simp [is_max, max_pref, sums_of_prefixes]
    · obtain ⟨h1, h2⟩ := ih hl
      constructor
      · by_cases hc : max_pref l ≤ 0
        · rw [max_eq_left hc]; simp
        · rw [max_eq_right (by omega)]
          exact List.mem_cons_of_mem _ (List.mem_map_of_mem _ h1)
      · intro v hv
        have hm1 := le_max_left 0 (max_pref l)
        have hm2 := le_max_right 0 (max_pref l)
        rcases List.mem_cons.mp hv with hv | hv
        · omega
        · obtain ⟨w, hw, rfl⟩ := List.mem_map.mp hv
          have := h2 w hw
          omega

theorem is_min_min_suff (l : List (Int × Bool)) (h : l ≠ []) :
    is_min (min_suff l) (sums_of_suffixes l) := by
  obtain ⟨h1, h2⟩ := is_min_min_pref l.reverse (by simpa using h)
  exact ⟨(mem_sums_of_suffixes l _).mpr h1,
    fun v hv => h2 v ((mem_sums_of_suffixes l v).mp hv)⟩

theorem is_max_max_suff (l : List (Int × Bool)) (h : l ≠ []) :
    is_max (max_suff l) (sums_of_suffixes l) := by
  obtain ⟨h1, h2⟩ := is_max_max_pref l.reverse (by simpa using h)
  exact ⟨(mem_sums_of_suffixes l _).mpr h1,
    fun v hv => h2 v ((mem_sums_of_suffixes l v).mp hv)⟩

/-- The scan `first_reaching`: it returns the time of the first event at which the
running sum is `k`, an event of sign `+1` when `k >= 1`, and `INT64_MAX` when no running
sum is `k`. -/
theorem first_reaching_spec (l : List (Int × Bool)) (k : Int) :
    (∃ a e b, l = a ++ e :: b ∧ balance (a ++ [e]) = k ∧ k ∉ sums_of_prefixes a ∧
      first_reaching l k = e.1 ∧ (1 ≤ k → e.2 = true)) ∨
    (k ∉ sums_of_prefixes l ∧ first_reaching l k = INT64_MAX) := by
  induction l generalizing k with
  | nil => right; simp [sums_of_prefixes, first_reaching]
  | cons e l ih =>
    have hs := sign_cases e.2
    by_cases hk : treap.sign e.2 = k
    · left
      refine ⟨[], e, l, rfl, by simp [balance, hk], by simp [sums_of_prefixes],
        by simp [first_reaching, hk], ?_⟩
      intro h1
      cases he : e.2 with
      | true => rfl
      | false => rw [he] at hk; simp [treap.sign] at hk; omega
    · rcases ih (k - treap.sign e.2) with ⟨a, e', b, h1, h2, h3, h4, h5⟩ | ⟨h1, h2⟩
      · left
        refine ⟨e :: a, e', b, by rw [h1]; rfl, ?_, ?_, ?_, ?_⟩
        · rw [List.cons_append, balance_cons]; omega
        · rw [sums_of_prefixes_cons]
          simp only [List.mem_cons, List.mem_map, not_or, not_exists, not_and]
          refine ⟨fun h => hk h.symm, fun v hv hc => h3 ?_⟩
          have : v = k - treap.sign e.2 := by omega
          rw [← this]; exact hv
        · simp only [first_reaching, hk, if_false]; exact h4
        · intro hk1
          apply h5
          rcases hs with hs | hs <;> omega
      · right
        constructor
        · rw [sums_of_prefixes_cons]
          simp only [List.mem_cons, List.mem_map, not_or, not_exists, not_and]
          refine ⟨fun h => hk h.symm, fun v hv hc => h1 ?_⟩
          have : v = k - treap.sign e.2 := by omega
          rw [← this]; exact hv
        · simp only [first_reaching, hk, if_false]; exact h2

/-- The function `kth`: it returns the time of the last event from which the sum through
the end of the sequence is `k`, an event of sign `+1` when `k >= 1`, and `INT64_MAX` when
no suffix has the sum `k`. -/
theorem kth_spec (l : List (Int × Bool)) (k : Int) :
    (∃ a e b, l = a ++ e :: b ∧ balance (e :: b) = k ∧ k ∉ sums_of_suffixes b ∧
      kth l k = e.1 ∧ (1 ≤ k → e.2 = true)) ∨
    (k ∉ sums_of_suffixes l ∧ kth l k = INT64_MAX) := by
  unfold kth
  rcases first_reaching_spec l.reverse k with ⟨a, e, b, h1, h2, h3, h4, h5⟩ | ⟨h1, h2⟩
  · left
    refine ⟨b.reverse, e, a.reverse, ?_, ?_, ?_, h4, h5⟩
    · have := congrArg List.reverse h1
      simpa using this
    · rw [← h2, ← balance_reverse (a ++ [e])]; simp
    · rw [mem_sums_of_suffixes, List.reverse_reverse]; exact h3
  · right
    exact ⟨by rw [mem_sums_of_suffixes]; exact h1, h2⟩

end events

namespace treap

theorem aggOK_of_produced (t : treap) (h : produced t) : aggOK t := by
  induction h with
  | null => simp [aggOK]
  | insert t tm ins p _ ih =>
    obtain ⟨a1, a2⟩ := aggOK_split t tm ih
    exact aggOK_merge _ _ (aggOK_merge _ _ a1 (aggOK_new_node tm ins p)) a2
  | erase t tm _ ih =>
    obtain ⟨a1, a2⟩ := aggOK_split t tm ih
    obtain ⟨a3, _⟩ := aggOK_split (split t tm).1 (wrap64 (tm - 1)) a1
    exact aggOK_merge _ _ a3 a2
  | split_left t x _ ih => exact (aggOK_split t x ih).1
  | split_right t x _ ih => exact (aggOK_split t x ih).2
  | merge l r _ _ ihl ihr => exact aggOK_merge l r ihl ihr

theorem aggregates_as_specified_of_aggOK (t : treap) (h : aggOK t) :
    aggregates_as_specified t := by
  induction t with
  | null => trivial
  | node L R p ins tm b mp ms xs ihL ihR =>
    simp only [aggOK] at h
    obtain ⟨hL, hR, h1, h2, h3, h4⟩ := h
    have hne : inorder L ++ (tm, ins) :: inorder R ≠ [] := by simp
    simp only [aggregates_as_specified]
    refine ⟨ihL hL, ihR hR, h1, ?_, ?_, ?_⟩
    · rw [h2]; exact events.is_min_min_pref _ hne
    · rw [h3]; exact events.is_min_min_suff _ hne
    · rw [h4]; exact events.is_max_max_suff _ hne

/-- C22: in every treap produced from the empty tree by treap insert, erase, split and
merge, the stored fields of every node are, over the in-order sequence of signed values of
its subtree: balance the sum of the sequence, min_pref the minimum of the sums of its
non-empty prefixes, min_suff the minimum and max_suff the maximum of the sums of its
non-empty suffixes. -/
theorem C22_aggregates_of_produced_treaps (t : treap) (h : produced t) :
    aggregates_as_specified t :=
  aggregates_as_specified_of_aggOK t (aggOK_of_produced t h)

/-- C22 at the treap built by the inserts of +1 at time 1 and -1 at time 2 followed by
the erase at time 1. -/
theorem C22_aggregates_of_produced_treaps_witness :
    produced (erase (insert (insert null 1 true 7) 2 false 3) 1) ∧
    aggregates_as_specified (erase (insert (insert null 1 true 7) 2 false 3) 1) :=
  have h : produced (erase (insert (insert null 1 true 7) 2 false 3) 1) :=
    produced.erase _ _ (produced.insert _ _ _ _ (produced.insert _ _ _ _ produced.null))
  ⟨h, C22_aggregates_of_produced_treaps _ h⟩

/-- The function `get_kth` on a treap with correct aggregates, on its in-order sequence:
it returns the time of the latest node from which the sum of the signed values through
the last node is `k`, a node of sign `+1` when `k >= 1`, and `INT64_MAX` when there is no
such node. -/
theorem get_kth_spec (t : treap) (h : aggOK t) (k : Int) :
    (∃ a e b, inorder t = a ++ e :: b ∧ events.balance (e :: b) = k ∧
      k ∉ events.sums_of_suffixes b ∧ get_kth t k = e.1 ∧ (1 ≤ k → e.2 = true)) ∨
    (k ∉ events.sums_of_suffixes (inorder t) ∧ get_kth t k = INT64_MAX) := by
  rw [get_kth_eq t h k]
  exact events.kth_spec (inorder t) k

/-- C23 (the "iff" fails): the treap with the single node +1 at time INT64_MAX has correct
aggregates, the sum of the signed values from its node through the last node is 1, and
get_kth(T, 1) returns INT64_MAX. -/
theorem C23_returns_max_though_node_exists :
    aggOK (new_node INT64_MAX true 1) ∧
    inorder (new_node INT64_MAX true 1) = [(INT64_MAX, true)] ∧
    events.balance [(INT64_MAX, true)] = 1 ∧
    get_kth (new_node INT64_MAX true 1) 1 = INT64_MAX := by
  refine ⟨aggOK_new_node _ _ _, rfl, by decide, ?_⟩
  simp [get_kth, new_node, isNull, get_balance, sign]

/-- C23 (amended): for every treap with correct aggregates and every integer k, if some
node has the property that the sum of the signed values from that node through the last
node equals k, then get_kth(T, k) returns the time of the latest such node in the in-order
sequence, and that node is a +1 node when `k >= 1`; if no node has the property,
get_kth(T, k) returns INT64_MAX. -/
theorem C23_get_kth_finds_latest_node (t : treap) (h : aggOK t) (k : Int) :
    (∃ a e b, inorder t = a ++ e :: b ∧ events.balance (e :: b) = k ∧
      k ∉ events.sums_of_suffixes b ∧ get_kth t k = e.1 ∧ (1 ≤ k → e.2 = true)) ∨
    (k ∉ events.sums_of_suffixes (inorder t) ∧ get_kth t k = INT64_MAX) :=
  get_kth_spec t h k

/-- C23 (amended) at the treap built by the inserts of +1 at time 1, +1 at time 2 and -1
at time 3, with k = 1: the latest node from which the signed values sum to 1 is the node
of time 1. -/
theorem C23_get_kth_finds_latest_node_witness :
    aggOK (insert (insert (insert null 1 true 7) 2 true 3) 3 false 5) ∧
    get_kth (insert (insert (insert null 1 true 7) 2 true 3) 3 false 5) 1 = 1 ∧
    ((∃ a e b, inorder (insert (insert (insert null 1 true 7) 2 true 3) 3 false 5)
        = a ++ e :: b ∧ events.balance (e :: b) = 1 ∧
      (1 : Int) ∉ events.sums_of_suffixes b ∧
      get_kth (insert (insert (insert null 1 true 7) 2 true 3) 3 false 5) 1 = e.1 ∧
      ((1 : Int) ≤ 1 → e.2 = true)) ∨
    ((1 : Int) ∉ events.sums_of_suffixes
        (inorder (insert (insert (insert null 1 true 7) 2 true 3) 3 false 5)) ∧
      get_kth (insert (insert (insert null 1 true 7) 2 true 3) 3 false 5) 1 = INT64_MAX)) :=
  have h : aggOK (insert (insert (insert null 1 true 7) 2 true 3) 3 false 5) :=
    aggOK_of_produced _
      (produced.insert _ _ _ _ (produced.insert _ _ _ _ (produced.insert _ _ _ _
        produced.null)))
  ⟨h, by decide, C23_get_kth_finds_latest_node _ h 1⟩

end treap

namespace treap

theorem eq_null_of_isNull (t : treap) (h : t.isNull = true) : t = null := by
  cases t with
  | null => rfl
  | node _ _ _ _ _ _ _ _ _ => simp [isNull] at h

/-- The function `treap::copy` from a node that is not null gives a tree equal to the
source. -/
theorem copy_of_ne_null (t : treap) (h : t.isNull = false) : copy t = some t := by
  induction t with
  | null => simp [isNull] at h
  | node L R p ins tm b mp ms xs ihL ihR =>
    have hL : (if L.isNull then some null else copy L) = some L := by
      cases hl : L.isNull with
      | true => rw [eq_null_of_isNull L hl]; rfl
      | false => simp [ihL hl]
    have hR : (if R.isNull then some null else copy R) = some R := by
      cases hr : R.isNull with
      | true => rw [eq_null_of_isNull R hr]; rfl
      | false => simp [ihR hr]
    simp only [copy, hL, hR]

end treap

namespace retroactive_deque

variable {T : Type}

/-- The copy constructor and the copy assignment from another deque whose three trees hold
an event each give a deque with the logs and the trees of the source, which compares equal
to it; the assignment of a deque to itself is undefined. -/
theorem copy_of_three_nonempty_trees [DecidableEq T] (d other : retroactive_deque T)
    (h₁ : other.ul.isNull = false) (h₂ : other.ur.isNull = false)
    (h₃ : other.balance_tree.isNull = false) :
    copy_construct other = some other ∧ copy_assign d other false = some other ∧
    equal other other = true ∧ copy_assign d d true = none := by
  have e : copy_construct other = some other := by
    simp only [copy_construct, treap.copy_of_ne_null _ h₁, treap.copy_of_ne_null _ h₂,
      treap.copy_of_ne_null _ h₃]
  exact ⟨e, by simp [copy_assign, e], by simp [equal], rfl⟩

/-- C21 (the copy fails on the code): the copy constructor and the copy assignment from
the empty deque, whose three trees are null, dereference a null pointer in
`treap::copy`; so do they from the deque after the accepted insert_push_back(7, 1),
whose left tree is null; and the assignment of any deque to itself reads the
uninitialised fields of a fresh node. -/
theorem C21_copy_of_empty_deque_undefined (d : retroactive_deque Int) (p₁ p₂ : Nat) :
    copy_construct (empty_deque : retroactive_deque Int) = none ∧
    copy_assign d (empty_deque : retroactive_deque Int) false = none ∧
    copy_assign d d true = none ∧
    ((empty_deque : retroactive_deque Int).insert_push_back 7 1 p₁ p₂).1 = true ∧
    ((empty_deque : retroactive_deque Int).insert_push_back 7 1 p₁ p₂).2.ul = .null ∧
    copy_construct ((empty_deque : retroactive_deque Int).insert_push_back 7 1 p₁ p₂).2
      = none := by
  obtain ⟨-, a, b⟩ := insert_push_operation_view (empty_deque : retroactive_deque Int) 7 1
    true p₁ p₂ wf_empty
  rw [view_empty] at a b
  have h1 : ((empty_deque : retroactive_deque Int).insert_push_back 7 1 p₁ p₂).1 = true := by
    unfold insert_push_back
    rw [a]
    decide
  have h2 : ((empty_deque : retroactive_deque Int).insert_push_back 7 1 p₁ p₂).2.ul
      = .null := by
    unfold insert_push_back
    apply treap.eq_null_of_isNull
    rw [treap.isNull_iff]
    have h' := congrArg deque_events.ul b
    simp only [view] at h'
    rw [h']
    decide
  refine ⟨rfl, rfl, rfl, h1, h2, ?_⟩
  simp only [copy_construct, h2, treap.copy]

end retroactive_deque

namespace retroactive_deque

/-- The queries `back` and `front` on a deque with well-formed trees leave the pop-time
set and the three event sequences as they were, and leave the push log as it was or add
one entry with the default payload at a time that was not in the push log. -/
theorem queries_change_only_the_push_log {T : Type} [Inhabited T] (d : retroactive_deque T)
    (h : d.wf) (t : Int) :
    ((d.back t).2.pop_operations = d.pop_operations ∧
      (d.back t).2.ul.inorder = d.ul.inorder ∧ (d.back t).2.ur.inorder = d.ur.inorder ∧
      (d.back t).2.balance_tree.inorder = d.balance_tree.inorder ∧
      ((d.back t).2.operations = d.operations ∨
        ∃ k, map_find d.operations k = none ∧
          (d.back t).2.operations = map_assign d.operations k default)) ∧
    ((d.front t).2.pop_operations = d.pop_operations ∧
      (d.front t).2.ul.inorder = d.ul.inorder ∧ (d.front t).2.ur.inorder = d.ur.inorder ∧
      (d.front t).2.balance_tree.inorder = d.balance_tree.inorder ∧
      ((d.front t).2.operations = d.operations ∨
        ∃ k, map_find d.operations k = none ∧
          (d.front t).2.operations = map_assign d.operations k default)) := by
  have key : ∀ (m : List (Int × T)) (k : Int),
      (map_index m k).2 = m ∨ ∃ k', map_find m k' = none ∧
        (map_index m k).2 = map_assign m k' default := by
    intro m k
    unfold map_index
    cases hf : map_find m k with
    | some v => exact Or.inl rfl
    | none => exact Or.inr ⟨k, hf, rfl⟩
  constructor
  · obtain ⟨-, -, e⟩ := back_view d t h
    have e1 := congrArg deque_events.pop_operations e
    have e2 := congrArg deque_events.ul e
    have e3 := congrArg deque_events.ur e
    have e4 := congrArg deque_events.balance_tree e
    have e5 := congrArg deque_events.operations e
    simp only [view, deque_events.back] at e1 e2 e3 e4 e5
    refine ⟨e1, e2, e3, e4, ?_⟩
    rw [e5]
    exact key _ _
  · obtain ⟨-, -, e⟩ := front_view d t h
    have e1 := congrArg deque_events.pop_operations e
    have e2 := congrArg deque_events.ul e
    have e3 := congrArg deque_events.ur e
    have e4 := congrArg deque_events.balance_tree e
    have e5 := congrArg deque_events.operations e
    simp only [view, deque_events.front] at e1 e2 e3 e4 e5
    refine ⟨e1, e2, e3, e4, ?_⟩
    rw [e5]
    exact key _ _

/-- C29 (the queries write to the push log on the code): on the empty deque back(t) and
front(t) return the default payload and leave the push log with one entry, at the time
INT64_MAX: `get_kth` returns INT64_MAX for the null tree and `operations[..]` inserts the
missing key. -/
theorem C29_query_on_empty_deque_adds_log_entry (t : Int) :
    (empty_deque : retroactive_deque Int).operations = [] ∧
    ((empty_deque : retroactive_deque Int).back t).1 = 0 ∧
    ((empty_deque : retroactive_deque Int).back t).2.operations = [(INT64_MAX, 0)] ∧
    ((empty_deque : retroactive_deque Int).front t).1 = 0 ∧
    ((empty_deque : retroactive_deque Int).front t).2.operations = [(INT64_MAX, 0)] := by
  simp only [empty_deque, back, front, treap.split, treap.get_max_suff, treap.get_min_pref,
    treap.get_balance, treap.get_kth]
  decide

end retroactive_deque

namespace segtree

theorem sar1_eq (x : Int) : sar1 x = x / 2 := by
  unfold sar1
  rw [Int.shiftRight_eq_div_pow]
  norm_num

theorem to_unsigned_cast (x : Int) :
    ((to_unsigned x : Nat) : Int) = x % 18446744073709551616 := by
  unfold to_unsigned
  exact Int.toNat_of_nonneg (Int.emod_nonneg _ (by norm_num))

theorem to_unsigned_mod_two (x : Int) : (to_unsigned x % 2 : Nat) = (x % 2).toNat := by
  have h := to_unsigned_cast x
  have h2 : ((to_unsigned x % 2 : Nat) : Int) = x % 2 := by
    rw [Int.natCast_mod, h]
    omega
  omega

theorem and_mod_two (a b : Nat) :
    (a &&& b) % 2 = if a % 2 = 1 ∧ b % 2 = 1 then 1 else 0 := by
  have h := Nat.testBit_and a b 0
  simp only [Nat.testBit_zero] at h
  rw [Bool.eq_iff_iff] at h
  simp only [decide_eq_true_eq, Bool.and_eq_true] at h
  by_cases hc : a % 2 = 1 ∧ b % 2 = 1
  · rw [if_pos hc]; exact h.mpr hc
  · rw [if_neg hc]
    have := mt h.mp hc
    omega

/-- The value of `tl & tr & 1LL`: 1 when both values are odd, 0 otherwise. -/
theorem and64_one (tl tr : Int) :
    and64 (and64 tl tr) 1 = if tl % 2 = 1 ∧ tr % 2 = 1 then 1 else 0 := by
  have hlt : to_unsigned tl &&& to_unsigned tr < 18446744073709551616 := by
    have h1 : to_unsigned tl < 18446744073709551616 := by
      have := to_unsigned_cast tl
      omega
    exact lt_of_le_of_lt Nat.and_le_left h1
  have hin : to_unsigned (and64 tl tr) = to_unsigned tl &&& to_unsigned tr := by
    have h := to_unsigned_cast (and64 tl tr)
    have : and64 tl tr % 18446744073709551616 =
        ((to_unsigned tl &&& to_unsigned tr : Nat) : Int) := by
      unfold and64 wrap64
      simp only [Int.ofNat_eq_coe]
      omega
    omega
  have hone : to_unsigned 1 = 1 := by decide
  have hpar := and_mod_two (to_unsigned tl) (to_unsigned tr)
  have p1 := to_unsigned_mod_two tl
  have p2 := to_unsigned_mod_two tr
  have hdef : and64 (and64 tl tr) 1 =
      wrap64 (Int.ofNat (to_unsigned (and64 tl tr) &&& to_unsigned 1)) := rfl
  rw [hdef, hin, hone, Nat.and_one_is_mod, hpar]
  by_cases h1 : tl % 2 = 1 <;> by_cases h2 : tr % 2 = 1
  · have a1 : to_unsigned tl % 2 = 1 := by omega
    have a2 : to_unsigned tr % 2 = 1 := by omega
    simp [h1, h2, a1, a2, wrap64]
  · have a2 : ¬ to_unsigned tr % 2 = 1 := by omega
    simp [h1, h2, a2, wrap64]
  · have a1 : ¬ to_unsigned tl % 2 = 1 := by omega
    simp [h1, h2, a1, wrap64]
  · have a1 : ¬ to_unsigned tl % 2 = 1 := by omega
    simp [h1, h2, a1, wrap64]

/-- C27: for all 64-bit signed integers `tl <= tr`, the value of
`(tl >> 1) + (tr >> 1) + (tl & tr & 1)`, with the arithmetic right shift and 64-bit
additions, is the floor of `(tl + tr) / 2` over the integers (the midpoint used by the
tree functions); the shifted values, their sum and the final sum are in the 64-bit range
before any reduction; `tl <= mid <= tr`, and `mid < tr` whenever `tl < tr`, so both child
ranges `[tl, mid]` and `[mid + 1, tr]` have fewer times than `[tl, tr]`. -/
theorem C27_midpoint (tl tr : Int) (hl : isInt64 tl) (hr : isInt64 tr) (h : tl ≤ tr) :
    midpoint_bits tl tr = (tl + tr) / 2 ∧
    2 * midpoint_bits tl tr ≤ tl + tr ∧ tl + tr < 2 * midpoint_bits tl tr + 2 ∧
    midpoint_bits tl tr = midpoint tl tr ∧
    isInt64 (sar1 tl) ∧ isInt64 (sar1 tr) ∧ isInt64 (sar1 tl + sar1 tr) ∧
    isInt64 (sar1 tl + sar1 tr + and64 (and64 tl tr) 1) ∧
    tl ≤ midpoint_bits tl tr ∧ midpoint_bits tl tr ≤ tr ∧
    (tl < tr → midpoint_bits tl tr < tr ∧
      midpoint_bits tl tr - tl < tr - tl ∧ tr - (midpoint_bits tl tr + 1) < tr - tl) := by
  obtain ⟨l1, l2⟩ := hl
  obtain ⟨r1, r2⟩ := hr
  simp only [INT64_MIN, INT64_MAX] at l1 l2 r1 r2
  have hb := and64_one tl tr
  have hm : midpoint_bits tl tr = (tl + tr) / 2 := by
    unfold midpoint_bits
    rw [hb, sar1_eq, sar1_eq]
    unfold wrap64
    split <;> omega
  have hmid : midpoint tl tr = (tl + tr) / 2 := by
    unfold midpoint
    split <;> omega
  rw [hm]
  refine ⟨rfl, by omega, by omega, hmid.symm, ?_, ?_, ?_, ?_, by omega, by omega, ?_⟩
  · rw [sar1_eq]; simp only [isInt64, INT64_MIN, INT64_MAX]; omega
  · rw [sar1_eq]; simp only [isInt64, INT64_MIN, INT64_MAX]; omega
  · rw [sar1_eq, sar1_eq]; simp only [isInt64, INT64_MIN, INT64_MAX]; omega
  · rw [sar1_eq, sar1_eq, hb]; simp only [isInt64, INT64_MIN, INT64_MAX]
    split <;> omega
  · intro hlt; omega

/-- C27 at the whole range of the root, `tl = INT64_MIN` and `tr = INT64_MAX`: the
midpoint is -1. -/
theorem C27_midpoint_witness :
    isInt64 INT64_MIN ∧ isInt64 INT64_MAX ∧ INT64_MIN ≤ INT64_MAX ∧
    midpoint_bits INT64_MIN INT64_MAX = -1 ∧
    midpoint_bits INT64_MIN INT64_MAX = (INT64_MIN + INT64_MAX) / 2 :=
  ⟨by decide, by decide, by decide, by decide,
    (C27_midpoint INT64_MIN INT64_MAX (by decide) (by decide) (by decide)).1⟩

end segtree

namespace retroactive_set

theorem live_iff_member_at : ∀ (ev : List Int) (t : Int), t ≤ INT64_MAX →
    (live ev t ↔ member_at ev t = true)
  | [], t, _ => by simp [live, live_intervals, member_at]
  | [a], t, h => by simp [live, live_intervals, member_at, h]
  | a :: b :: l, t, h => by
    have ih := live_iff_member_at l t h
    simp only [live, live_intervals, List.mem_cons, exists_eq_or_imp, member_at,
      Bool.or_eq_true, Bool.and_eq_true, decide_eq_true_eq, Bool.not_eq_true',
      decide_eq_false_iff_not] at ih ⊢
    rw [ih]
    constructor
    · rintro (h1 | h1)
      · exact Or.inl ⟨h1.1, by omega⟩
      · exact Or.inr h1
    · rintro (h1 | h1)
      · exact Or.inl ⟨h1.1, by omega⟩
      · exact Or.inr h1

/-- C26: in every reachable set, for every key x and every 64-bit time t, x is in the
bucket of at least one node on the path from the root towards t iff x is live at t, where
x with the strictly increasing event times e0, e1, e2, ... is live exactly on the
intervals `[e0, e1 - 1]`, `[e2, e3 - 1]`, ..., the last one extending to the largest time
when the number of events is odd. -/
theorem C26_path_holds_live_keys (T_max : Int) (s : retroactive_set)
    (h : reachable T_max s) (x t : Int) (ht : isInt64 t) :
    (s.events x).Pairwise (fun a b => a < b) ∧
    (segtree.on_path x t s.tree INT64_MIN INT64_MAX ↔ live (s.events x) t) := by
  have hs := oset_inv_of_reachable T_max s h
  refine ⟨(hs.1 x).1, ?_⟩
  rw [oset_on_path T_max s hs x t ht, live_iff_member_at _ t ht.2]

set_option maxRecDepth 100000 in
/-- C26 at the scenario set (insert(5)@10, insert(3)@20, erase(5)@30), key 5: the key is
live on `[10, 29]`, and it is on the path towards the time 25. -/
theorem C26_path_holds_live_keys_witness :
    reachable 2147483647 scenario ∧ isInt64 25 ∧
    live_intervals (scenario.events 5) = [(10, 29)] ∧
    (segtree.on_path 5 25 scenario.tree INT64_MIN INT64_MAX ↔
      live (scenario.events 5) 25) :=
  ⟨reachable_scenario, by decide, by decide,
    (C26_path_holds_live_keys 2147483647 scenario reachable_scenario 5 25 (by decide)).2⟩

end retroactive_set

namespace retroactive_deque

variable {T : Type}

theorem mirror_insert_push_operation (d : retroactive_deque T) (x : T) (tm : Int)
    (back_op : Bool) (p₁ p₂ : Nat) :
    d.mirror.insert_push_operation x tm (!back_op) p₁ p₂ =
      ((d.insert_push_operation x tm back_op p₁ p₂).1,
       (d.insert_push_operation x tm back_op p₁ p₂).2.mirror) := by
  simp only [insert_push_operation, mirror, time_used, check_valid]
  cases hu : ((map_find d.operations tm).isSome || decide (tm ∈ d.pop_operations))
  · cases hv : (!decide (treap.get_min_pref (treap.insert d.balance_tree tm true p₁) ≥ 0))
    · cases back_op <;> simp
    · simp
  · simp

theorem mirror_insert_pop_operation (d : retroactive_deque T) (tm : Int)
    (back_op : Bool) (p₁ p₂ : Nat) :
    d.mirror.insert_pop_operation tm (!back_op) p₁ p₂ =
      ((d.insert_pop_operation tm back_op p₁ p₂).1,
       (d.insert_pop_operation tm back_op p₁ p₂).2.mirror) := by
  simp only [insert_pop_operation, mirror, time_used, check_valid]
  cases hu : ((map_find d.operations tm).isSome || decide (tm ∈ d.pop_operations))
  · cases hv : (!decide (treap.get_min_pref (treap.insert d.balance_tree tm false p₁) ≥ 0))
    · cases back_op <;> simp
    · simp
  · simp

theorem mirror_delete_operation (d : retroactive_deque T) (tm : Int) (p₁ : Nat) :
    d.mirror.delete_operation tm p₁ =
      ((d.delete_operation tm p₁).1, (d.delete_operation tm p₁).2.mirror) := by
  simp only [delete_operation, mirror, check_valid]
  cases ho : (map_find d.operations tm).isSome
  · by_cases hp : tm ∈ d.pop_operations
    · cases hv : (!decide (treap.get_min_pref (treap.erase d.balance_tree tm) ≥ 0))
      · simp [hp]
      · simp [hp]
    · simp [hp]
  · cases hv : (!decide (treap.get_min_pref (treap.erase d.balance_tree tm) ≥ 0))
    · simp
    · simp

theorem mirror_back [Inhabited T] (d : retroactive_deque T) (tm : Int) :
    d.mirror.front tm = ((d.back tm).1, (d.back tm).2.mirror) ∧
    d.mirror.back tm = ((d.front tm).1, (d.front tm).2.mirror) := by
  constructor
  · simp only [front, back, mirror]
  · simp only [front, back, mirror]

/-- A call on the mirror image with the sides exchanged returns what the call returns and
leaves the mirror image of the deque that the call leaves. -/
theorem call_mirror [Inhabited T] (d : retroactive_deque T) (c : deque_call T) :
    d.mirror.call c.mirror = ((d.call c).1, (d.call c).2.mirror) := by
  have hg : d.mirror.get_last_time = d.get_last_time := rfl
  cases c with
  | insert_push_back x tm p₁ p₂ =>
    have := mirror_insert_push_operation d x tm true p₁ p₂
    simp only [Bool.not_true] at this
    simp [call, deque_call.mirror, insert_push_back, insert_push_front, this]
  | insert_push_front x tm p₁ p₂ =>
    have := mirror_insert_push_operation d x tm false p₁ p₂
    simp only [Bool.not_false] at this
    simp [call, deque_call.mirror, insert_push_back, insert_push_front, this]
  | insert_pop_back tm p₁ p₂ =>
    have := mirror_insert_pop_operation d tm true p₁ p₂
    simp only [Bool.not_true] at this
    simp [call, deque_call.mirror, insert_pop_back, insert_pop_front, this]
  | insert_pop_front tm p₁ p₂ =>
    have := mirror_insert_pop_operation d tm false p₁ p₂
    simp only [Bool.not_false] at this
    simp [call, deque_call.mirror, insert_pop_back, insert_pop_front, this]
  | delete_operation tm p₁ =>
    simp [call, deque_call.mirror, mirror_delete_operation]
  | push_back x p₁ p₂ =>
    have := mirror_insert_push_operation d x d.get_last_time true p₁ p₂
    simp only [Bool.not_true] at this
    simp [call, deque_call.mirror, push_back, push_front, insert_push_back,
      insert_push_front, hg, this]
  | push_front x p₁ p₂ =>
    have := mirror_insert_push_operation d x d.get_last_time false p₁ p₂
    simp only [Bool.not_false] at this
    simp [call, deque_call.mirror, push_back, push_front, insert_push_back,
      insert_push_front, hg, this]
  | pop_back p₁ p₂ =>
    have := mirror_insert_pop_operation d d.get_last_time true p₁ p₂
    simp only [Bool.not_true] at this
    simp [call, deque_call.mirror, pop_back, pop_front, insert_pop_back,
      insert_pop_front, hg, this]
  | pop_front p₁ p₂ =>
    have := mirror_insert_pop_operation d d.get_last_time false p₁ p₂
    simp only [Bool.not_false] at this
    simp [call, deque_call.mirror, pop_back, pop_front, insert_pop_back,
      insert_pop_front, hg, this]
  | clear => simp [call, deque_call.mirror, clear, mirror, empty_deque]
  | back tm => simp [call, deque_call.mirror, (mirror_back d tm).1]
  | front tm => simp [call, deque_call.mirror, (mirror_back d tm).2]
  | size => simp [call, deque_call.mirror, size, mirror]
  | empty => simp [call, deque_call.mirror, empty, size, mirror]

/-- The mirrored history returns the results of the history and leads to the mirror image
of its deque. -/
theorem run_mirror [Inhabited T] (d : retroactive_deque T) (cs : List (deque_call T)) :
    d.mirror.run (cs.map deque_call.mirror) = ((d.run cs).1, (d.run cs).2.mirror) := by
  induction cs generalizing d with
  | nil => rfl
  | cons c cs ih =>
    simp only [List.map_cons, run, call_mirror, ih]

/-- On the in-order sequences a call does not depend on its priorities. -/
theorem call_without_priorities [Inhabited T] (v : deque_events T) (c : deque_call T) :
    v.call c.without_priorities = v.call c := by
  cases c <;> rfl

/-- On the in-order sequences two histories that differ in their priorities only return
the same results and lead to the same state. -/
theorem run_without_priorities [Inhabited T] (v : deque_events T)
    (cs cs₂ : List (deque_call T))
    (h : cs₂.map deque_call.without_priorities = cs.map deque_call.without_priorities) :
    v.run cs₂ = v.run cs := by
  induction cs generalizing v cs₂ with
  | nil =>
    cases cs₂ with
    | nil => rfl
    | cons c₂ cs₂ => simp at h
  | cons c cs ih =>
    cases cs₂ with
    | nil => simp at h
    | cons c₂ cs₂ =>
      simp only [List.map_cons, List.cons.injEq] at h
      have hc : v.call c₂ = v.call c := by
        rw [← call_without_priorities v c₂, ← call_without_priorities v c, h.1]
      simp only [deque_events.run, hc, ih _ cs₂ h.2]

/-- C28: let D be the deque reached from the empty deque by a sequence of calls and
mirror(D) a deque reached by the same calls with the sides exchanged (every push_front
turned into push_back, every pop_front into pop_back and vice versa, every front query
into back and vice versa, at the same times with the same payloads), whatever the
priorities of the two runs. Then for every time t, front on D at t returns the value that
back returns on mirror(D) at t, and back on D at t the value that front returns on
mirror(D) at t; the logs and the in-order sequences of mirror(D) are those of D with the
two sides exchanged. -/
theorem C28_front_back_mirror_symmetry [Inhabited T] (cs cs₂ : List (deque_call T))
    (h : cs₂.map deque_call.without_priorities =
      (cs.map deque_call.mirror).map deque_call.without_priorities) (t : Int) :
    (((empty_deque : retroactive_deque T).run cs).2.front t).1 =
      (((empty_deque : retroactive_deque T).run cs₂).2.back t).1 ∧
    (((empty_deque : retroactive_deque T).run cs).2.back t).1 =
      (((empty_deque : retroactive_deque T).run cs₂).2.front t).1 ∧
    ((empty_deque : retroactive_deque T).run cs₂).2.view =
      ((empty_deque : retroactive_deque T).run cs).2.mirror.view := by
  have hm := run_mirror (empty_deque : retroactive_deque T) cs
  have he : (empty_deque : retroactive_deque T).mirror = empty_deque := rfl
  rw [he] at hm
  obtain ⟨w₂, -, v₂⟩ := run_view (empty_deque : retroactive_deque T) cs₂ wf_empty
  obtain ⟨wm, -, vm⟩ := run_view (empty_deque : retroactive_deque T)
    (cs.map deque_call.mirror) wf_empty
  have hv : ((empty_deque : retroactive_deque T).run cs₂).2.view =
      ((empty_deque : retroactive_deque T).run cs).2.mirror.view := by
    rw [v₂, run_without_priorities _ _ _ h, ← vm, hm]
  rw [hm] at wm
  have hb := mirror_back ((empty_deque : retroactive_deque T).run cs).2 t
  have b₂ := (back_view _ t w₂).2.1
  have f₂ := (front_view _ t w₂).2.1
  have bm := (back_view _ t wm).2.1
  have fm := (front_view _ t wm).2.1
  rw [hb.2] at bm
  rw [hb.1] at fm
  simp only at bm fm
  refine ⟨?_, ?_, hv⟩
  · rw [b₂, hv, ← bm]
  · rw [f₂, hv, ← fm]

/-- C28 on the history insert_push_back(7, 1), insert_push_front(8, 2), insert_pop_back(3)
and its mirror image run with other priorities, at the time 5: front on the first deque
and back on the second both return 8. -/
theorem C28_front_back_mirror_symmetry_witness :
    (((empty_deque : retroactive_deque Int).run
        [.insert_push_back 7 1 1 2, .insert_push_front 8 2 3 4,
         .insert_pop_back 3 5 6]).2.front 5).1 = 8 ∧
    (((empty_deque : retroactive_deque Int).run
        [.insert_push_back 7 1 1 2, .insert_push_front 8 2 3 4,
         .insert_pop_back 3 5 6]).2.front 5).1 =
      (((empty_deque : retroactive_deque Int).run
        [.insert_push_front 7 1 9 8, .insert_push_back 8 2 7 6,
         .insert_pop_front 3 5 4]).2.back 5).1 :=
  ⟨by decide!, (C28_front_back_mirror_symmetry
      [.insert_push_back 7 1 1 2, .insert_push_front 8 2 3 4, .insert_pop_back 3 5 6]
      [.insert_push_front 7 1 9 8, .insert_push_back 8 2 7 6, .insert_pop_front 3 5 4]
      rfl 5).1⟩

/-- A query of the history that is kept on its side: after insert_push_back(7, 1) and
insert_pop_back(2), back(3) adds the entry of time INT64_MAX to the push log, and
insert_push_back(9, INT64_MAX) is rejected; after insert_push_front(7, 1) and
insert_pop_front(2), back(3) reads the entry of time 1 and adds none, and
insert_push_front(9, INT64_MAX) is accepted; then front(INT64_MAX) on the first deque
returns 7 and back(INT64_MAX) on the second returns 9. The entry comes from
`operations[..]`, which inserts the missing key. -/
theorem query_kept_on_its_side_breaks_symmetry :
    ((empty_deque : retroactive_deque Int).run
        [.insert_push_back 7 1 1 2, .insert_pop_back 2 3 4, .back 3,
         .insert_push_back 9 INT64_MAX 5 6, .front INT64_MAX]).1 =
      [.flag true, .flag true, .value 0, .flag false, .value 7] ∧
    ((empty_deque : retroactive_deque Int).run
        [.insert_push_front 7 1 1 2, .insert_pop_front 2 3 4, .back 3,
         .insert_push_front 9 INT64_MAX 5 6, .back INT64_MAX]).1 =
      [.flag true, .flag true, .value 7, .flag true, .value 9] := by
  decide!

end retroactive_deque

namespace events

/-- The sums of the prefixes take every value between their minimum and their maximum. -/
theorem mem_sums_of_prefixes_of_between (l : List (Int × Bool)) (k : Int) (h : l ≠ [])
    (h1 : min_pref l ≤ k) (h2 : k ≤ max_pref l) : k ∈ sums_of_prefixes l := by
  induction l generalizing k with
  | nil => exact absurd rfl h
  | cons e l ih =>
    rw [sums_of_prefixes_cons]
    simp only [min_pref, max_pref] at h1 h2
    by_cases hk : k = treap.sign e.2
    · rw [hk]; simp
    · apply List.mem_cons_of_mem
      rw [List.mem_map]
      refine ⟨k - treap.sign e.2, ?_, by omega⟩
      by_cases hl : l = []
      · subst hl
        simp only [min_pref, max_pref] at h1 h2
        omega
      · have a1 := min_pref_le_one l hl
        have a2 := max_pref_ge_neg_one l hl
        apply ih _ hl <;> omega

/-- A value `k >= 1` between the least and the largest sum of the suffixes is the sum
from an event of sign `+1` through the end, which `kth` finds. -/
theorem kth_mem (l : List (Int × Bool)) (k : Int) (h : l ≠ [])
    (h1 : min_suff l ≤ k) (h2 : k ≤ max_suff l) (hk : 1 ≤ k) : (kth l k, true) ∈ l := by
  have hm : k ∈ sums_of_suffixes l := by
    rw [mem_sums_of_suffixes]
    exact mem_sums_of_prefixes_of_between _ k (by simpa using h) h1 h2
  rcases kth_spec l k with ⟨a, e, b, e1, -, -, e4, e5⟩ | ⟨n, -⟩
  · rw [e4, ← e5 hk, e1]
    simp
  · exact absurd hm n

theorem min_suff_le_one (l : List (Int × Bool)) (h : l ≠ []) : min_suff l ≤ 1 :=
  min_pref_le_one _ (by simpa using h)

/-- The selection of the deque queries on two sequences of which the first is tested
first: when the sum of all signed values is at least 1, the selected time is that of an
event of sign `+1` of one of the two sequences. -/
theorem query_key_mem (first other : List (Int × Bool))
    (h : 1 ≤ balance other + balance first) :
    (if max_suff first > max 0 (-min_pref other) then (kth first 1, true) ∈ first
     else (kth other (balance other + balance first), true) ∈ other) := by
  have hA := max_suff_add_min_pref other
  have hB := max_suff_add_min_pref first
  split
  · rename_i hc
    have hne : first ≠ [] := by
      intro h0; rw [h0] at hc; simp [max_suff, max_pref] at hc
    exact kth_mem first 1 hne (min_suff_le_one first hne) (by omega) (le_refl _)
  · rename_i hc
    have hne : other ≠ [] := by
      intro h0
      rw [h0] at hc h
      simp only [min_pref, balance_nil, neg_zero, max_self, zero_add] at hc h
      omega
    exact kth_mem other _ hne (by have := min_suff_le_one other hne; omega) (by omega) h

end events

namespace deque_events

variable {T : Type}

/-- The events of one sign with time `<= t` on the two sides are as many as the logged
times `<= t` of that sign. -/
theorem count_upto (v : deque_events T) (hv : v.inv) (b : Bool) (f : Int × Bool → Bool)
    (hf : ∀ e, f e = true ↔ e.2 = b) (logged : List Int) (hn : logged.Nodup)
    (hl : ∀ tm, (tm, b) ∈ v.balance_tree ↔ tm ∈ logged) (t : Int) :
    ((upto v.ul t).filter f).length + ((upto v.ur t).filter f).length =
      (logged.filter (fun p => decide (p ≤ t))).length := by
  obtain ⟨-, h2, h3, -, -, -, h7, h8, -, -⟩ := hv
  have s2 : events.strictly_sorted (upto v.ul t) := List.Pairwise.filter _ h2
  have s3 : events.strictly_sorted (upto v.ur t) := List.Pairwise.filter _ h3
  have n1 := events.nodup_times _ s2 f
  have n2 := events.nodup_times _ s3 f
  have hd : List.Disjoint (((upto v.ul t).filter f).map Prod.fst)
      (((upto v.ur t).filter f).map Prod.fst) := by
    intro a ha hb
    simp only [List.mem_map, List.mem_filter, upto] at ha hb
    obtain ⟨e1, ⟨⟨m1, -⟩, -⟩, r1⟩ := ha
    obtain ⟨e2, ⟨⟨m2, -⟩, -⟩, r2⟩ := hb
    exact h8 e1 m1 e2 m2 (by rw [r1, r2])
  have hp : (((upto v.ul t).filter f).map Prod.fst ++
      ((upto v.ur t).filter f).map Prod.fst).Perm
      (logged.filter (fun p => decide (p ≤ t))) := by
    apply (List.perm_ext_iff_of_nodup (List.Nodup.append n1 n2 hd) (hn.filter _)).mpr
    intro a
    simp only [List.mem_append, List.mem_map, List.mem_filter, upto, decide_eq_true_eq]
    rw [← hl a, h7]
    constructor
    · rintro (⟨⟨t1, b1⟩, ⟨⟨m, ht⟩, hb⟩, rfl⟩ | ⟨⟨t1, b1⟩, ⟨⟨m, ht⟩, hb⟩, rfl⟩)
      · rw [hf] at hb
        simp only at hb ht
        subst hb
        exact ⟨Or.inl m, ht⟩
      · rw [hf] at hb
        simp only at hb ht
        subst hb
        exact ⟨Or.inr m, ht⟩
    · rintro ⟨m | m, ht⟩
      · exact Or.inl ⟨(a, b), ⟨⟨m, ht⟩, (hf _).mpr rfl⟩, rfl⟩
      · exact Or.inr ⟨(a, b), ⟨⟨m, ht⟩, (hf _).mpr rfl⟩, rfl⟩
  have := hp.length_eq
  simpa using this

end deque_events

namespace retroactive_deque

variable {T : Type} [Inhabited T]

omit [Inhabited T] in
/-- The number of logged pushes minus the number of logged pops with time `<= t` is the
sum of the signed values of the events with time `<= t` of the two sides. -/
theorem size_at_eq (d : retroactive_deque T) (hv : d.view.inv) (t : Int) :
    d.size_at t = events.balance (deque_events.upto d.view.ul t) +
      events.balance (deque_events.upto d.view.ur t) := by
  have n1 : (d.operations.map Prod.fst).Nodup :=
    List.Pairwise.imp (fun h => ne_of_lt h) hv.2.2.2.2.2.2.2.2.1
  have n2 : d.pop_operations.Nodup :=
    List.Pairwise.imp (fun h => ne_of_lt h) hv.2.2.2.2.2.2.2.2.2
  have c1 := deque_events.count_upto d.view hv true (fun e => e.2) (by simp)
    (d.operations.map Prod.fst) n1
    (fun tm => by rw [hv.2.2.2.2.1, map_find_isSome_iff]; rfl) t
  have c2 := deque_events.count_upto d.view hv false (fun e => !e.2) (by simp)
    d.pop_operations n2 hv.2.2.2.2.2.1 t
  have e : ((d.operations.map Prod.fst).filter (fun p => decide (p ≤ t))).length =
      (d.operations.filter (fun e => decide (e.1 ≤ t))).length := by
    rw [List.filter_map, List.length_map]; rfl
  rw [events.balance_eq_counts, events.balance_eq_counts, size_at]
  omega

omit [Inhabited T] in
/-- The `get_kth` calls of the two queries, computed on the in-order sequences. -/
theorem query_key_view (d : retroactive_deque T) (tm : Int) (h : d.wf) :
    d.back_key tm =
      (if events.max_suff (deque_events.upto d.view.ur tm) >
          max 0 (-events.min_pref (deque_events.upto d.view.ul tm))
       then events.kth (deque_events.upto d.view.ur tm) 1
       else events.kth (deque_events.upto d.view.ul tm)
        (events.balance (deque_events.upto d.view.ul tm) +
          events.balance (deque_events.upto d.view.ur tm))) ∧
    d.front_key tm =
      (if events.max_suff (deque_events.upto d.view.ul tm) >
          max 0 (-events.min_pref (deque_events.upto d.view.ur tm))
       then events.kth (deque_events.upto d.view.ul tm) 1
       else events.kth (deque_events.upto d.view.ur tm)
        (events.balance (deque_events.upto d.view.ur tm) +
          events.balance (deque_events.upto d.view.ul tm))) := by
  obtain ⟨hl, hr, hb⟩ := h
  obtain ⟨al1, -⟩ := treap.aggOK_split d.ul tm hl.1
  obtain ⟨ar1, -⟩ := treap.aggOK_split d.ur tm hr.1
  obtain ⟨sl1, -⟩ := treap.inorder_split d.ul tm hl.2
  obtain ⟨sr1, -⟩ := treap.inorder_split d.ur tm hr.2
  simp only [back_key, front_key, treap.get_max_suff_eq _ ar1, treap.get_max_suff_eq _ al1,
    treap.get_min_pref_eq _ al1, treap.get_min_pref_eq _ ar1,
    treap.get_kth_eq _ ar1, treap.get_kth_eq _ al1, treap.get_balance_eq _ al1,
    treap.get_balance_eq _ ar1, sl1, sr1, deque_events.upto, view]
  exact ⟨trivial, trivial⟩

/-- The value and the log after a query, from the key of its `get_kth` call. -/
theorem query_of_key (d : retroactive_deque T) (tm : Int) :
    (d.back tm).1 = (map_index d.operations (d.back_key tm)).1 ∧
    (d.back tm).2.operations = (map_index d.operations (d.back_key tm)).2 ∧
    (d.front tm).1 = (map_index d.operations (d.front_key tm)).1 ∧
    (d.front tm).2.operations = (map_index d.operations (d.front_key tm)).2 :=
  ⟨rfl, rfl, rfl, rfl⟩

/-- A time that is the time of an event of sign `+1` with time `<= t` of a side is logged,
and the lookup returns its payload without changing the log. -/
theorem logged_of_side_event (d : retroactive_deque T) (hv : d.view.inv) (t key : Int)
    (h : (key, true) ∈ deque_events.upto d.view.ul t ∨
      (key, true) ∈ deque_events.upto d.view.ur t) :
    key ≤ t ∧ ((key, true) ∈ d.ul.inorder ∨ (key, true) ∈ d.ur.inorder) ∧
    map_find d.operations key = some (map_index d.operations key).1 ∧
    (map_index d.operations key).2 = d.operations := by
  have hm : ((key, true) ∈ d.view.ul ∨ (key, true) ∈ d.view.ur) ∧ key ≤ t := by
    simp only [deque_events.upto, List.mem_filter, decide_eq_true_eq] at h
    rcases h with ⟨m, ht⟩ | ⟨m, ht⟩
    · exact ⟨Or.inl m, ht⟩
    · exact ⟨Or.inr m, ht⟩
  have hb : (key, true) ∈ d.view.balance_tree := (hv.2.2.2.2.2.2.1 _).mpr hm.1
  have hs : (map_find d.operations key).isSome = true := (hv.2.2.2.2.1 key).mp hb
  obtain ⟨x, hx⟩ := Option.isSome_iff_exists.mp hs
  refine ⟨hm.2, hm.1, ?_, ?_⟩ <;> simp [map_index, hx]

/-- The key of a push at the largest time: after insert_push_back of 7 at the time
INT64_MAX on the empty deque, one push and no pop are logged with time `<= INT64_MAX`, and
the `get_kth` calls of back(INT64_MAX) and of front(INT64_MAX) return INT64_MAX as the
time of the node of that push; both queries return its payload 7. -/
theorem query_key_of_push_at_largest_time :
    reachable_above_min
      ((empty_deque : retroactive_deque Int).call (.insert_push_back 7 INT64_MAX 1 2)).2 ∧
    ((empty_deque : retroactive_deque Int).call
      (.insert_push_back 7 INT64_MAX 1 2)).2.size_at INT64_MAX = 1 ∧
    ((empty_deque : retroactive_deque Int).call
      (.insert_push_back 7 INT64_MAX 1 2)).2.back_key INT64_MAX = INT64_MAX ∧
    ((empty_deque : retroactive_deque Int).call
      (.insert_push_back 7 INT64_MAX 1 2)).2.front_key INT64_MAX = INT64_MAX ∧
    (((empty_deque : retroactive_deque Int).call
      (.insert_push_back 7 INT64_MAX 1 2)).2.back INT64_MAX).1 = 7 ∧
    (((empty_deque : retroactive_deque Int).call
      (.insert_push_back 7 INT64_MAX 1 2)).2.front INT64_MAX).1 = 7 :=
  ⟨reachable_above_min.step empty_deque (.insert_push_back 7 INT64_MAX 1 2)
      reachable_above_min.empty (show isInt64 INT64_MAX by decide),
    by decide!, by decide!, by decide!, by decide!, by decide!⟩

/-- The queries away from the smallest time: in every deque reached from the empty deque
by update calls whose times are above the smallest 64-bit value, for every time t at which
the number of logged pushes with time `<= t` minus the number of logged pops with time
`<= t` is at least 1, the `get_kth` call made by back(t) and the one made by front(t)
return a time `<= t` that is the time of a +1 node of UL or of UR and a key of the push
log, and back(t) and front(t) return the payload logged at that time and leave the push
log unchanged. -/
theorem query_key_is_logged_push_above_min (d : retroactive_deque T)
    (h : reachable_above_min d) (t : Int) (hs : 1 ≤ d.size_at t) :
    (d.back_key t ≤ t ∧
      ((d.back_key t, true) ∈ d.ul.inorder ∨ (d.back_key t, true) ∈ d.ur.inorder) ∧
      map_find d.operations (d.back_key t) = some (d.back t).1 ∧
      (d.back t).2.operations = d.operations) ∧
    (d.front_key t ≤ t ∧
      ((d.front_key t, true) ∈ d.ul.inorder ∨ (d.front_key t, true) ∈ d.ur.inorder) ∧
      map_find d.operations (d.front_key t) = some (d.front t).1 ∧
      (d.front t).2.operations = d.operations) := by
  obtain ⟨hw, hv⟩ := inv_of_reachable d h
  obtain ⟨kb, kf⟩ := query_key_view d t hw
  obtain ⟨q1, q2, q3, q4⟩ := query_of_key d t
  have hbal := size_at_eq d hv t
  have mb := events.query_key_mem (deque_events.upto d.view.ur t)
    (deque_events.upto d.view.ul t) (by omega)
  have mf := events.query_key_mem (deque_events.upto d.view.ul t)
    (deque_events.upto d.view.ur t) (by omega)
  have hb : (d.back_key t, true) ∈ deque_events.upto d.view.ul t ∨
      (d.back_key t, true) ∈ deque_events.upto d.view.ur t := by
    rw [kb]
    split
    · rename_i c; rw [if_pos c] at mb; exact Or.inr mb
    · rename_i c; rw [if_neg c] at mb; exact Or.inl mb
  have hf : (d.front_key t, true) ∈ deque_events.upto d.view.ul t ∨
      (d.front_key t, true) ∈ deque_events.upto d.view.ur t := by
    rw [kf]
    split
    · rename_i c; rw [if_pos c] at mf; exact Or.inl mf
    · rename_i c; rw [if_neg c] at mf; exact Or.inr mf
  rw [q1, q2, q3, q4]
  exact ⟨logged_of_side_event d hv t _ hb, logged_of_side_event d hv t _ hf⟩

/-- The queries away from the smallest time, on the deque with the pushes of 7 at time 10
and of 8 at time 20 and the query time 15: the payload that back(15) returns is the one
logged at time 10. -/
theorem query_key_is_logged_push_above_min_example :
    reachable_above_min
      (((empty_deque : retroactive_deque Int).call (.insert_push_back 7 10 1 2)).2.call
        (.insert_push_back 8 20 3 4)).2 ∧
    (1 : Int) ≤ (((empty_deque : retroactive_deque Int).call
        (.insert_push_back 7 10 1 2)).2.call (.insert_push_back 8 20 3 4)).2.size_at 15 ∧
    map_find (((empty_deque : retroactive_deque Int).call
        (.insert_push_back 7 10 1 2)).2.call (.insert_push_back 8 20 3 4)).2.operations 10 =
      some ((((empty_deque : retroactive_deque Int).call
        (.insert_push_back 7 10 1 2)).2.call (.insert_push_back 8 20 3 4)).2.back 15).1 :=
  have h₁ : reachable_above_min
      ((empty_deque : retroactive_deque Int).call (.insert_push_back 7 10 1 2)).2 :=
    reachable_above_min.step empty_deque (.insert_push_back 7 10 1 2)
      reachable_above_min.empty (show isInt64 10 by decide)
  have h₂ : reachable_above_min
      (((empty_deque : retroactive_deque Int).call (.insert_push_back 7 10 1 2)).2.call
        (.insert_push_back 8 20 3 4)).2 :=
    reachable_above_min.step _ (.insert_push_back 8 20 3 4) h₁ (show isInt64 20 by decide)
  ⟨h₂, by decide!, (query_key_is_logged_push_above_min _ h₂ 15 (by decide!)).1.2.2.1⟩

/-- C30 (the queries select a time that is not logged, on the code): after
insert_push_back(7, INT64_MIN), delete_operation(INT64_MIN) and insert_push_back(8, 5),
which all return true, the push log is the single entry (5, 8) and no pop is logged, so
one push minus no pop is logged with time `<= 5`; the `get_kth` call of front(5) returns
the smallest time, the time of the node of the deleted push, which is not a key of the
push log, and front(5) returns the default payload 0, not the logged payload 8
(`treap::erase` splits at `tm - 1`, which wraps to the largest time, so the node stays
in the right tree). And after back(0) on the empty deque the push log holds the entry of
time INT64_MAX and the trees hold no node, so one push minus no pop is logged with time
`<= INT64_MAX`, and the `get_kth` calls of back(INT64_MAX) and of front(INT64_MAX) return
INT64_MAX as the not-found value (`operations[..]` inserted the missing key). -/
theorem C30_queries_select_unlogged_time (p₁ p₂ p₃ p₄ p₅ : Nat) :
    (((empty_deque : retroactive_deque Int).run
        [.insert_push_back 7 INT64_MIN p₁ p₂, .delete_operation INT64_MIN p₃,
         .insert_push_back 8 5 p₄ p₅, .front 5]).1 =
      [.flag true, .flag true, .flag true, .value 0] ∧
     ((empty_deque : retroactive_deque Int).run
        [.insert_push_back 7 INT64_MIN p₁ p₂, .delete_operation INT64_MIN p₃,
         .insert_push_back 8 5 p₄ p₅]).2.operations = [(5, 8)] ∧
     ((empty_deque : retroactive_deque Int).run
        [.insert_push_back 7 INT64_MIN p₁ p₂, .delete_operation INT64_MIN p₃,
         .insert_push_back 8 5 p₄ p₅]).2.pop_operations = [] ∧
     ((empty_deque : retroactive_deque Int).run
        [.insert_push_back 7 INT64_MIN p₁ p₂, .delete_operation INT64_MIN p₃,
         .insert_push_back 8 5 p₄ p₅]).2.size_at 5 = 1 ∧
     ((empty_deque : retroactive_deque Int).run
        [.insert_push_back 7 INT64_MIN p₁ p₂, .delete_operation INT64_MIN p₃,
         .insert_push_back 8 5 p₄ p₅]).2.front_key 5 = INT64_MIN ∧
     map_find ((empty_deque : retroactive_deque Int).run
        [.insert_push_back 7 INT64_MIN p₁ p₂, .delete_operation INT64_MIN p₃,
         .insert_push_back 8 5 p₄ p₅]).2.operations INT64_MIN = none) ∧
    (((empty_deque : retroactive_deque Int).back 0).2.operations = [(INT64_MAX, 0)] ∧
     ((empty_deque : retroactive_deque Int).back 0).2.pop_operations = [] ∧
     ((empty_deque : retroactive_deque Int).back 0).2.size_at INT64_MAX = 1 ∧
     ((empty_deque : retroactive_deque Int).back 0).2.ul.inorder = [] ∧
     ((empty_deque : retroactive_deque Int).back 0).2.ur.inorder = [] ∧
     ((empty_deque : retroactive_deque Int).back 0).2.back_key INT64_MAX = INT64_MAX ∧
     ((empty_deque : retroactive_deque Int).back 0).2.front_key INT64_MAX = INT64_MAX) := by
  obtain ⟨-, r, -⟩ := run_view (empty_deque : retroactive_deque Int)
    [.insert_push_back 7 INT64_MIN p₁ p₂, .delete_operation INT64_MIN p₃,
     .insert_push_back 8 5 p₄ p₅, .front 5] wf_empty
  obtain ⟨hw, -, v⟩ := run_view (empty_deque : retroactive_deque Int)
    [.insert_push_back 7 INT64_MIN p₁ p₂, .delete_operation INT64_MIN p₃,
     .insert_push_back 8 5 p₄ p₅] wf_empty
  have hv : ((empty_deque : retroactive_deque Int).run
      [.insert_push_back 7 INT64_MIN p₁ p₂, .delete_operation INT64_MIN p₃,
       .insert_push_back 8 5 p₄ p₅]).2.view =
      { operations := [(5, 8)], pop_operations := [], ul := [],
        ur := [(INT64_MIN, true), (5, true)],
        balance_tree := [(INT64_MIN, true), (5, true)] } := by
    rw [v, view_empty]
    simp only [deque_events.run, deque_events.call]
    decide!
  have ho := congrArg deque_events.operations hv
  have hp := congrArg deque_events.pop_operations hv
  simp only [view] at ho hp
  have hk := (query_key_view _ 5 hw).2
  rw [hv] at hk
  refine ⟨⟨?_, ho, hp, ?_, ?_, ?_⟩, by decide!⟩
  · rw [r, view_empty]
    simp only [deque_events.run, deque_events.call]
    decide!
  · unfold size_at
    rw [ho, hp]
    decide
  · rw [hk]
    decide!
  · rw [ho]
    decide

end retroactive_deque

/-! # Independence from the treap priorities -/

namespace retroactive_unordered_multiset

variable {T : Type} [DecidableEq T]

/-- On the in-order sequences a multiset call does not depend on its priority. -/
theorem ms_call_without_priorities (v : multiset_events T) (c : multiset_call T) :
    v.call c.without_priorities = v.call c := by
  cases c <;> rfl

/-- On the in-order sequences two multiset histories that differ in their priorities only
return the same results and lead to the same state. -/
theorem ms_run_without_priorities (v : multiset_events T) (cs cs₂ : List (multiset_call T))
    (h : cs₂.map multiset_call.without_priorities =
      cs.map multiset_call.without_priorities) :
    v.run cs₂ = v.run cs := by
  induction cs generalizing v cs₂ with
  | nil =>
    cases cs₂ with
    | nil => rfl
    | cons c₂ cs₂ => simp at h
  | cons c cs ih =>
    cases cs₂ with
    | nil => simp at h
    | cons c₂ cs₂ =>
      simp only [List.map_cons, List.cons.injEq] at h
      have hc : v.call c₂ = v.call c := by
        rw [← ms_call_without_priorities v c₂, ← ms_call_without_priorities v c, h.1]
      simp only [multiset_events.run, hc]
      cases v.call c with
      | none => rfl
      | some r => simp only [ih _ cs₂ h.2]

/-- The results of a multiset history, from the run on the in-order sequences. -/
theorem ms_run_results (cs : List (multiset_call T)) :
    ((empty_multiset : retroactive_unordered_multiset T).run cs).map Prod.fst =
      ((multiset_events.empty_multiset : multiset_events T).run cs).map Prod.fst := by
  have h := (ms_run_view (empty_multiset : retroactive_unordered_multiset T) cs
    wf_empty_multiset).2
  rw [view_empty_multiset] at h
  rw [← h, Option.map_map]
  rfl

end retroactive_unordered_multiset

namespace retroactive_deque

variable {T : Type}

/-- C32: for every sequence of public calls on the deque and every sequence of public
calls on the multiset, from the empty container, two runs that differ only in the
priorities given to the treap nodes return the same list of results (success flags,
synthesized times, size, find, front, back); for the multiset, the two runs are also
undefined together, where delete_operation dereferences `sequences.end()`. -/
theorem C32_results_independent_of_priorities [Inhabited T] [DecidableEq T]
    (cs cs₂ : List (deque_call T)) (ms ms₂ : List (multiset_call T))
    (h : cs₂.map deque_call.without_priorities = cs.map deque_call.without_priorities)
    (hm : ms₂.map multiset_call.without_priorities =
      ms.map multiset_call.without_priorities) :
    ((empty_deque : retroactive_deque T).run cs₂).1 =
      ((empty_deque : retroactive_deque T).run cs).1 ∧
    ((empty_deque : retroactive_deque T).run cs₂).2.view =
      ((empty_deque : retroactive_deque T).run cs).2.view ∧
    ((retroactive_unordered_multiset.empty_multiset :
        retroactive_unordered_multiset T).run ms₂).map Prod.fst =
      ((retroactive_unordered_multiset.empty_multiset :
        retroactive_unordered_multiset T).run ms).map Prod.fst := by
  obtain ⟨-, r₂, v₂⟩ := run_view (empty_deque : retroactive_deque T) cs₂ wf_empty
  obtain ⟨-, r₁, v₁⟩ := run_view (empty_deque : retroactive_deque T) cs wf_empty
  refine ⟨?_, ?_, ?_⟩
  · rw [r₂, r₁, run_without_priorities _ _ _ h]
  · rw [v₂, v₁, run_without_priorities _ _ _ h]
  · rw [retroactive_unordered_multiset.ms_run_results,
      retroactive_unordered_multiset.ms_run_results,
      retroactive_unordered_multiset.ms_run_without_priorities _ _ _ hm]

/-- C32 on a deque history and a multiset history, each run with two assignments of
priorities: the results are those listed. -/
theorem C32_results_independent_of_priorities_witness :
    ((empty_deque : retroactive_deque Int).run
        [.insert_push_back 7 10 1 2, .insert_push_front 8 20 3 4, .insert_pop_back 30 5 6,
         .size, .front 40, .back 15]).1 =
      [.flag true, .flag true, .flag true, .count 1, .value 8, .value 7] ∧
    ((empty_deque : retroactive_deque Int).run
        [.insert_push_back 7 10 9 9, .insert_push_front 8 20 8 1, .insert_pop_back 30 0 7,
         .size, .front 40, .back 15]).1 =
      ((empty_deque : retroactive_deque Int).run
        [.insert_push_back 7 10 1 2, .insert_push_front 8 20 3 4, .insert_pop_back 30 5 6,
         .size, .front 40, .back 15]).1 ∧
    ((retroactive_unordered_multiset.empty_multiset :
        retroactive_unordered_multiset Int).run
        [.insert 7 10 5, .erase 7 20 1, .find 7 15, .find 7 25]).map Prod.fst =
      ((retroactive_unordered_multiset.empty_multiset :
        retroactive_unordered_multiset Int).run
        [.insert 7 10 1, .erase 7 20 2, .find 7 15, .find 7 25]).map Prod.fst :=
  ⟨by decide!,
    (C32_results_independent_of_priorities
      [.insert_push_back 7 10 1 2, .insert_push_front 8 20 3 4, .insert_pop_back 30 5 6,
       .size, .front 40, .back 15]
      [.insert_push_back 7 10 9 9, .insert_push_front 8 20 8 1, .insert_pop_back 30 0 7,
       .size, .front 40, .back 15]
      [.insert 7 10 1, .erase 7 20 2, .find 7 15, .find 7 25]
      [.insert 7 10 5, .erase 7 20 1, .find 7 15, .find 7 25] rfl rfl).1,
    (C32_results_independent_of_priorities
      [.insert_push_back 7 10 1 2, .insert_push_front 8 20 3 4, .insert_pop_back 30 5 6,
       .size, .front 40, .back 15]
      [.insert_push_back 7 10 9 9, .insert_push_front 8 20 8 1, .insert_pop_back 30 0 7,
       .size, .front 40, .back 15]
      [.insert 7 10 1, .erase 7 20 2, .find 7 15, .find 7 25]
      [.insert 7 10 5, .erase 7 20 1, .find 7 15, .find 7 25] rfl rfl).2.2⟩

end retroactive_deque

/-! # The comparison of deques -/

namespace retroactive_deque

/-- The comparison `operator==` reads the two logs only. -/
theorem equal_iff {T : Type} [DecidableEq T] (x y : retroactive_deque T) :
    equal x y = true ↔
      x.operations = y.operations ∧ x.pop_operations = y.pop_operations := by
  simp [equal]

/-- Two deques reached by update calls above the smallest time that compare equal return
the same `size()`, when fewer than 2^64 pushes are logged. -/
theorem equal_size_above_min {T : Type} [Inhabited T] [DecidableEq T]
    (a b : retroactive_deque T) (ha : reachable_above_min a) (hb : reachable_above_min b)
    (hlen : a.operations.length < 18446744073709551616) (h : equal a b = true) :
    a.size = b.size := by
  obtain ⟨h1, h2⟩ := (equal_iff a b).mp h
  have sa := (size_eq_pushes_minus_pops a ha hlen).2
  have sb := (size_eq_pushes_minus_pops b hb (by rw [← h1]; exact hlen)).2
  rw [sa, sb, h1, h2]

/-- C31 (equal deques answer differently on the code): the deque A after
insert_push_back(1, 10), insert_push_front(2, 20) and the deque B after
insert_push_back(1, 10), insert_push_back(2, 20) compare equal and both have size 2, but
front() returns 2 on A and 1 on B, and back() returns 1 on A and 2 on B: `operator==`
compares the push log and the pop-time set, which do not record the side of an
operation. Also, the deque after insert_push_back(7, INT64_MIN) and
delete_operation(INT64_MIN) compares equal to the empty deque, and its size() is 1 where
the empty deque has size 0, because `treap::erase` removes nothing at the smallest
time. -/
theorem C31_equal_deques_answer_differently (p₁ p₂ p₃ p₄ q₁ q₂ q₃ q₄ r₁ r₂ r₃ : Nat) :
    (equal
        ((empty_deque : retroactive_deque Int).run
          [.insert_push_back 1 10 p₁ p₂, .insert_push_front 2 20 p₃ p₄]).2
        ((empty_deque : retroactive_deque Int).run
          [.insert_push_back 1 10 q₁ q₂, .insert_push_back 2 20 q₃ q₄]).2 = true ∧
     ((empty_deque : retroactive_deque Int).run
        [.insert_push_back 1 10 p₁ p₂, .insert_push_front 2 20 p₃ p₄,
         .size, .front INT64_MAX, .back INT64_MAX]).1 =
      [.flag true, .flag true, .count 2, .value 2, .value 1] ∧
     ((empty_deque : retroactive_deque Int).run
        [.insert_push_back 1 10 q₁ q₂, .insert_push_back 2 20 q₃ q₄,
         .size, .front INT64_MAX, .back INT64_MAX]).1 =
      [.flag true, .flag true, .count 2, .value 1, .value 2]) ∧
    (equal
        ((empty_deque : retroactive_deque Int).run
          [.insert_push_back 7 INT64_MIN r₁ r₂, .delete_operation INT64_MIN r₃]).2
        (empty_deque : retroactive_deque Int) = true ∧
     ((empty_deque : retroactive_deque Int).run
        [.insert_push_back 7 INT64_MIN r₁ r₂, .delete_operation INT64_MIN r₃, .size]).1 =
      [.flag true, .flag true, .count 1] ∧
     (empty_deque : retroactive_deque Int).size = 0) := by
  obtain ⟨-, -, va⟩ := run_view (empty_deque : retroactive_deque Int)
    [.insert_push_back 1 10 p₁ p₂, .insert_push_front 2 20 p₃ p₄] wf_empty
  obtain ⟨-, -, vb⟩ := run_view (empty_deque : retroactive_deque Int)
    [.insert_push_back 1 10 q₁ q₂, .insert_push_back 2 20 q₃ q₄] wf_empty
  obtain ⟨-, -, vc⟩ := run_view (empty_deque : retroactive_deque Int)
    [.insert_push_back 7 INT64_MIN r₁ r₂, .delete_operation INT64_MIN r₃] wf_empty
  obtain ⟨-, ra, -⟩ := run_view (empty_deque : retroactive_deque Int)
    [.insert_push_back 1 10 p₁ p₂, .insert_push_front 2 20 p₃ p₄,
     .size, .front INT64_MAX, .back INT64_MAX] wf_empty
  obtain ⟨-, rb, -⟩ := run_view (empty_deque : retroactive_deque Int)
    [.insert_push_back 1 10 q₁ q₂, .insert_push_back 2 20 q₃ q₄,
     .size, .front INT64_MAX, .back INT64_MAX] wf_empty
  obtain ⟨-, rc, -⟩ := run_view (empty_deque : retroactive_deque Int)
    [.insert_push_back 7 INT64_MIN r₁ r₂, .delete_operation INT64_MIN r₃, .size] wf_empty
  have ea : ∀ x y : retroactive_deque Int, equal x y =
      (x.view.operations == y.view.operations &&
        x.view.pop_operations == y.view.pop_operations) := fun _ _ => rfl
  rw [ea, ea, va, vb, vc, ra, rb, rc, view_empty]
  simp only [deque_events.run, deque_events.call]
  decide!

end retroactive_deque

/-! # The deque used as a FIFO queue -/

namespace events

/-- Two sequences in strictly increasing order of time with the same events are equal. -/
theorem strictly_sorted_ext (l₁ l₂ : List (Int × Bool)) (h₁ : strictly_sorted l₁)
    (h₂ : strictly_sorted l₂) (h : ∀ e, e ∈ l₁ ↔ e ∈ l₂) : l₁ = l₂ := by
  haveI : IsAntisymm (Int × Bool) (fun a b => a.1 < b.1) :=
    ⟨fun a b h1 h2 => absurd h1 (not_lt.mpr (le_of_lt h2))⟩
  have n₁ : l₁.Nodup := List.Pairwise.imp (fun {a b} hab e => by rw [e] at hab; exact lt_irrefl _ hab) h₁
  have n₂ : l₂.Nodup := List.Pairwise.imp (fun {a b} hab e => by rw [e] at hab; exact lt_irrefl _ hab) h₂
  exact List.eq_of_perm_of_sorted ((List.perm_ext_iff_of_nodup n₁ n₂).mpr h) h₁ h₂

/-- Two lists of times in increasing order without repetition and with the same members are
equal. -/
theorem sorted_times_ext (l₁ l₂ : List Int) (h₁ : l₁.Sorted (· ≤ ·)) (h₂ : l₂.Sorted (· ≤ ·))
    (n₁ : l₁.Nodup) (n₂ : l₂.Nodup) (h : ∀ a, a ∈ l₁ ↔ a ∈ l₂) : l₁ = l₂ :=
  List.eq_of_perm_of_sorted ((List.perm_ext_iff_of_nodup n₁ n₂).mpr h) h₁ h₂

theorem balance_all_true (l : List (Int × Bool)) (h : ∀ e ∈ l, e.2 = true) :
    balance l = l.length := by
  induction l with
  | nil => rfl
  | cons e l ih =>
    have he : e.2 = true := h e (by simp)
    rw [balance_cons, ih (fun x hx => h x (List.mem_cons_of_mem _ hx)), he]
    simp only [treap.sign, if_true, List.length_cons]
    push_cast; ring

theorem balance_all_false (l : List (Int × Bool)) (h : ∀ e ∈ l, e.2 = false) :
    balance l = -(l.length : Int) := by
  induction l with
  | nil => rfl
  | cons e l ih =>
    have he : e.2 = false := h e (by simp)
    rw [balance_cons, ih (fun x hx => h x (List.mem_cons_of_mem _ hx)), he]
    simp only [treap.sign, Bool.false_eq_true, if_false, List.length_cons]
    push_cast; ring

theorem min_pref_all_true (l : List (Int × Bool)) (h : ∀ e ∈ l, e.2 = true) :
    0 ≤ min_pref l := by
  induction l with
  | nil => simp [min_pref]
  | cons e l ih =>
    have he : e.2 = true := h e (by simp)
    have := ih (fun x hx => h x (List.mem_cons_of_mem _ hx))
    simp only [min_pref, he, treap.sign, if_true]
    omega

theorem min_pref_all_false (l : List (Int × Bool)) (h : ∀ e ∈ l, e.2 = false) :
    min_pref l = -(l.length : Int) := by
  induction l with
  | nil => simp [min_pref]
  | cons e l ih =>
    have he : e.2 = false := h e (by simp)
    have := ih (fun x hx => h x (List.mem_cons_of_mem _ hx))
    simp only [min_pref, he, treap.sign, Bool.false_eq_true, if_false, List.length_cons]
    push_cast
    omega

/-- Scanning a sequence of events of sign `+1`: the running sum equals `n + 1` first at
the event of index `n`. -/
theorem first_reaching_all_true (r : List (Int × Bool)) (h : ∀ e ∈ r, e.2 = true) (n : Nat)
    (e : Int × Bool) (hn : r.get? n = some e) : first_reaching r (n + 1) = e.1 := by
  induction r generalizing n with
  | nil => simp at hn
  | cons a r ih =>
    have ha : a.2 = true := h a (by simp)
    cases n with
    | zero =>
      simp only [List.get?_cons_zero, Option.some.injEq] at hn
      subst hn
      simp [first_reaching, ha, treap.sign]
    | succ n =>
      simp only [List.get?_cons_succ] at hn
      have := ih (fun x hx => h x (List.mem_cons_of_mem _ hx)) n hn
      simp only [first_reaching, ha, treap.sign, if_true]
      have hne : ¬ (1 : Int) = ((n + 1 : Nat) : Int) + 1 := by omega
      rw [if_neg hne]
      have e2 : (((n + 1 : Nat) : Int) + 1 - 1) = ((n : Nat) : Int) + 1 := by push_cast; ring
      rw [e2]
      exact this

/-- The function `kth` on a sequence of events of sign `+1`: the event that has `n` events
after it is found with `k = n + 1`. -/
theorem kth_all_true (a : List (Int × Bool)) (e : Int × Bool) (b : List (Int × Bool))
    (h : ∀ x ∈ a ++ e :: b, x.2 = true) : kth (a ++ e :: b) (b.length + 1) = e.1 := by
  unfold kth
  apply first_reaching_all_true _ (fun x hx => h x (List.mem_reverse.mp hx)) b.length e
  have hr : (a ++ e :: b).reverse = b.reverse ++ e :: a.reverse := by simp
  rw [hr, List.get?_eq_getElem?, List.getElem?_append_right (by simp)]
  simp

end events

namespace retroactive_deque

variable {T : Type}

/-- The replay of a sequence of `push_back` and `pop_front` updates in which no pop meets
an empty queue: the payloads of the pushes in order, without as many of the oldest as
there are pops. -/
theorem plain_replay_fifo (E : List (Int × Bool)) (g : Int → plain_update T) (pay : Int → T)
    (hg : ∀ e ∈ E, g e.1 = if e.2 = true then .push_back (pay e.1) else .pop_front)
    (h : 0 ≤ events.min_pref E) :
    plain_replay (E.map (fun e => g e.1)) =
      ((E.filter (fun e => e.2)).map (fun e => pay e.1)).drop
        (E.filter (fun e => !e.2)).length := by
  induction E using List.reverseRecOn with
  | nil => rfl
  | append_singleton E e ih =>
    have hE := events.valid_prefix E [e] h
    have ih := ih (fun x hx => hg x (List.mem_append_left _ hx)) hE
    have hstep : plain_replay ((E ++ [e]).map (fun e => g e.1)) =
        plain_apply (plain_replay (E.map (fun e => g e.1))) (g e.1) := by
      simp [plain_replay, List.foldl_append]
    have hb := events.balance_nonneg E hE
    rw [events.balance_eq_counts] at hb
    rw [hstep, ih, hg e (by simp)]
    cases he : e.2 with
    | true =>
      simp only [if_true, plain_apply, List.filter_append, List.filter_cons, he,
        List.filter_nil, Bool.not_true, Bool.false_eq_true, if_false, List.append_nil,
        List.map_append, List.map_cons, List.map_nil]
      rw [List.drop_append_of_le_length]
      simp only [List.length_map]
      omega
    | false =>
      simp only [Bool.false_eq_true, if_false, plain_apply, List.filter_append,
        List.filter_cons, he, List.filter_nil, Bool.not_false, if_true, List.append_nil,
        List.length_append, List.length_cons, List.length_nil]
      rw [List.tail_drop]

variable [Inhabited T]

omit [Inhabited T] in
/-- The logged times up to `t` in increasing order are the times of the events of the
balance sequence up to `t`. -/
theorem logged_times_eq (d : retroactive_deque T) (hv : d.view.inv) (t : Int) :
    d.logged_times t = (deque_events.upto d.view.balance_tree t).map Prod.fst := by
  obtain ⟨h1, -, -, -, h5, h6, -, -, h9, h10⟩ := hv
  have hops : d.view.operations = d.operations := rfl
  have hpops : d.view.pop_operations = d.pop_operations := rfl
  rw [hops] at h5 h9
  rw [hpops] at h6 h10
  have hlt : (d.view.balance_tree.map Prod.fst).Pairwise (· < ·) := by
    rw [List.pairwise_map]; exact h1
  have nb : (d.view.balance_tree.map Prod.fst).Nodup :=
    List.Pairwise.imp (fun h => ne_of_lt h) hlt
  have sb : (d.view.balance_tree.map Prod.fst).Sorted (· ≤ ·) :=
    List.Pairwise.imp (fun h => le_of_lt h) hlt
  have n1 : (d.operations.map Prod.fst).Nodup := List.Pairwise.imp (fun h => ne_of_lt h) h9
  have n2 : d.pop_operations.Nodup := List.Pairwise.imp (fun h => ne_of_lt h) h10
  have hpush : ∀ tm, tm ∈ d.operations.map Prod.fst ↔ (tm, true) ∈ d.view.balance_tree := by
    intro tm; rw [h5, map_find_isSome_iff]
  have hd : List.Disjoint (d.operations.map Prod.fst) d.pop_operations := by
    intro a ha hb
    have e := events.unique_at_time _ a true false h1 ((hpush a).mp ha) ((h6 a).mpr hb)
    exact Bool.noConfusion e
  have nl : (d.operations.map Prod.fst ++ d.pop_operations).Nodup := List.Nodup.append n1 n2 hd
  have hperm := List.perm_insertionSort (fun a b : Int => a ≤ b)
    (d.operations.map Prod.fst ++ d.pop_operations)
  have hsort : ((d.operations.map Prod.fst ++ d.pop_operations).insertionSort
      (fun a b => a ≤ b)) = d.view.balance_tree.map Prod.fst := by
    apply events.sorted_times_ext _ _ (List.sorted_insertionSort _ _) sb
      (hperm.nodup_iff.mpr nl) nb
    intro a
    rw [hperm.mem_iff, List.mem_append, hpush, ← h6]
    simp only [List.mem_map]
    constructor
    · rintro (h | h)
      · exact ⟨_, h, rfl⟩
      · exact ⟨_, h, rfl⟩
    · rintro ⟨⟨tm, b⟩, hm, rfl⟩
      cases b
      · exact Or.inr hm
      · exact Or.inl hm
  unfold logged_times
  rw [hsort, List.filter_map]
  rfl

omit [Inhabited T] in
/-- The update logged at the time of an event of the balance sequence: `push_back` of the
payload that a lookup of the time returns for an event of sign `+1`, `pop_front` for an
event of sign `-1`. -/
theorem fifo_update_of_event [Inhabited T] (d : retroactive_deque T) (hv : d.view.inv)
    (e : Int × Bool) (he : e ∈ d.view.balance_tree) :
    d.fifo_update e.1 =
      if e.2 = true then .push_back (map_index d.operations e.1).1 else .pop_front := by
  obtain ⟨h1, -, -, -, h5, -, -, -, -, -⟩ := hv
  have hops : d.view.operations = d.operations := rfl
  rw [hops] at h5
  obtain ⟨tm, b⟩ := e
  cases b with
  | true =>
    have hs := (h5 tm).mp he
    obtain ⟨x, hx⟩ := Option.isSome_iff_exists.mp hs
    simp [fifo_update, map_index, hx]
  | false =>
    have hn : map_find d.operations tm = none := by
      cases hf : map_find d.operations tm with
      | none => rfl
      | some x =>
        have hb := (h5 tm).mpr (by rw [hf]; rfl)
        exact Bool.noConfusion (events.unique_at_time _ tm true false h1 hb he)
    simp [fifo_update, hn]

omit [Inhabited T] in
/-- In a FIFO history the events of sign `+1` of the balance sequence up to `t` are the
events of the right sequence up to `t`, and those of sign `-1` the events of the left
sequence up to `t`. -/
theorem fifo_sides (d : retroactive_deque T) (hv : d.view.inv) (hf : d.fifo_history)
    (t : Int) :
    (deque_events.upto d.view.balance_tree t).filter (fun e => e.2) =
      deque_events.upto d.view.ur t ∧
    (deque_events.upto d.view.balance_tree t).filter (fun e => !e.2) =
      deque_events.upto d.view.ul t := by
  obtain ⟨h1, h2, h3, -, -, -, h7, -, -, -⟩ := hv
  obtain ⟨fl, fr⟩ := hf
  have hul : d.view.ul = d.ul.inorder := rfl
  have hur : d.view.ur = d.ur.inorder := rfl
  rw [← hul] at fl
  rw [← hur] at fr
  constructor
  · apply events.strictly_sorted_ext
    · exact List.Pairwise.filter _ (List.Pairwise.filter _ h1)
    · exact List.Pairwise.filter _ h3
    · intro e
      simp only [deque_events.upto, List.mem_filter, decide_eq_true_eq, h7]
      constructor
      · rintro ⟨⟨hm | hm, ht⟩, hb⟩
        · rw [fl e hm] at hb; exact absurd hb Bool.false_ne_true
        · exact ⟨hm, ht⟩
      · rintro ⟨hm, ht⟩
        exact ⟨⟨Or.inr hm, ht⟩, fr e hm⟩
  · apply events.strictly_sorted_ext
    · exact List.Pairwise.filter _ (List.Pairwise.filter _ h1)
    · exact List.Pairwise.filter _ h2
    · intro e
      simp only [deque_events.upto, List.mem_filter, decide_eq_true_eq, h7,
        Bool.not_eq_true']
      constructor
      · rintro ⟨⟨hm | hm, ht⟩, hb⟩
        · exact ⟨hm, ht⟩
        · rw [fr e hm] at hb; exact absurd hb.symm Bool.false_ne_true
      · rintro ⟨hm, ht⟩
        exact ⟨⟨Or.inl hm, ht⟩, fl e hm⟩

end retroactive_deque

namespace retroactive_deque

variable {T : Type} [Inhabited T]

omit [Inhabited T] in
/-- The replayed FIFO queue at `t`, from the side sequences: the payloads that a lookup
returns at the times of the right sequence up to `t`, without as many of the oldest as
the left sequence up to `t` has events. -/
theorem fifo_replay_eq [Inhabited T] (d : retroactive_deque T) (hv : d.view.inv)
    (hf : d.fifo_history) (t : Int) :
    d.fifo_replay t =
      ((deque_events.upto d.view.ur t).map
        (fun e => (map_index d.operations e.1).1)).drop
        (deque_events.upto d.view.ul t).length := by
  have hs : events.sorted d.view.balance_tree := events.sorted_of_strictly_sorted _ hv.1
  have hpre : 0 ≤ events.min_pref (deque_events.upto d.view.balance_tree t) := by
    have h0 : 0 ≤ events.min_pref d.view.balance_tree := hv.2.2.2.1
    rw [← events.filter_le_append_filter_gt d.view.balance_tree t hs] at h0
    exact events.valid_prefix _ _ h0
  have hr := plain_replay_fifo (deque_events.upto d.view.balance_tree t) d.fifo_update
    (fun tm => (map_index d.operations tm).1)
    (fun e he => fifo_update_of_event d hv e (List.mem_of_mem_filter he)) hpre
  obtain ⟨s1, s2⟩ := fifo_sides d hv hf t
  rw [s1, s2] at hr
  unfold fifo_replay
  rw [logged_times_eq d hv t, List.map_map]
  exact hr

/-- The deque used as a FIFO queue, away from the smallest time: in every deque reached by
update calls above the smallest 64-bit value whose left tree holds pops only and whose
right tree holds pushes only, at every time t at which the replayed queue is not empty,
front(t) returns the first and back(t) the last element of the queue replayed from the
logs, and the payload that back(t) returns is logged at the largest time `<= t` of the
push log. -/
theorem fifo_queries_above_min (d : retroactive_deque T) (h : reachable_above_min d)
    (hf : d.fifo_history) (t : Int) (hne : d.fifo_replay t ≠ []) :
    (d.fifo_replay t).head? = some (d.front t).1 ∧
    (d.fifo_replay t).getLast? = some (d.back t).1 ∧
    map_find d.operations (d.back_key t) = some (d.back t).1 ∧ d.back_key t ≤ t ∧
    ∀ e ∈ d.operations, e.1 ≤ t → e.1 ≤ d.back_key t := by
  obtain ⟨hw, hv⟩ := inv_of_reachable d h
  obtain ⟨kb, kf⟩ := query_key_view d t hw
  obtain ⟨q1, -, q3, -⟩ := query_of_key d t
  have hrep := fifo_replay_eq d hv hf t
  have hul : d.view.ul = d.ul.inorder := rfl
  have hur : d.view.ur = d.ur.inorder := rfl
  have allF : ∀ e ∈ deque_events.upto d.view.ul t, e.2 = false := fun e he =>
    hf.1 e (List.mem_of_mem_filter he)
  have allT : ∀ e ∈ deque_events.upto d.view.ur t, e.2 = true := fun e he =>
    hf.2 e (List.mem_of_mem_filter he)
  have sr : events.strictly_sorted (deque_events.upto d.view.ur t) :=
    List.Pairwise.filter _ hv.2.2.1
  generalize hL : deque_events.upto d.view.ul t = ul1 at *
  generalize hR : deque_events.upto d.view.ur t = ur1 at *
  rw [hrep] at hne ⊢
  have hk : ul1.length < ur1.length := by
    by_contra hc
    apply hne
    apply List.drop_eq_nil_of_le
    simp only [List.length_map]
    omega
  have bF := events.balance_all_false ul1 allF
  have bT := events.balance_all_true ur1 allT
  have mF := events.min_pref_all_false ul1 allF
  have mT := events.min_pref_all_true ur1 allT
  have aF := events.max_suff_add_min_pref ul1
  have aT := events.max_suff_add_min_pref ur1
  -- the key of front
  have hdrop : ur1.drop ul1.length ≠ [] := by
    intro h0
    rw [List.drop_eq_nil_iff] at h0
    omega
  obtain ⟨e, b, hd⟩ := List.exists_cons_of_ne_nil hdrop
  have hsplit : ur1 = ur1.take ul1.length ++ e :: b := by
    rw [← hd, List.take_append_drop]
  have hblen : (b.length : Int) + 1 = ur1.length - ul1.length := by
    have := congrArg List.length hd
    simp only [List.length_drop, List.length_cons] at this
    omega
  have hfk : d.front_key t = e.1 := by
    rw [kf, if_neg (by omega)]
    have hkk : events.balance ur1 + events.balance ul1 = (b.length : Int) + 1 := by omega
    rw [hkk]
    conv_lhs => rw [hsplit]
    exact events.kth_all_true _ e b (by rw [← hsplit]; exact allT)
  -- the key of back
  have hne1 : ur1 ≠ [] := by
    intro h0; rw [h0] at hk; simp at hk
  obtain ⟨a₁, e₁, hlast⟩ : ∃ a₁ e₁, ur1 = a₁ ++ [e₁] := by
    rcases List.eq_nil_or_concat ur1 with h0 | ⟨a₁, e₁, h0⟩
    · exact absurd h0 hne1
    · exact ⟨a₁, e₁, by rw [h0, List.concat_eq_append]⟩
  have hbk : d.back_key t = e₁.1 := by
    have hlen : 1 ≤ ur1.length := by omega
    rw [kb, if_pos (by omega)]
    conv_lhs => rw [hlast]
    have := events.kth_all_true a₁ e₁ [] (by rw [← hlast]; exact allT)
    simpa using this
  have hmem : (d.back_key t, true) ∈ ur1 := by
    have h1 : e₁ ∈ ur1 := by rw [hlast]; simp
    have h2 := allT e₁ h1
    rw [hbk, ← h2]
    exact h1
  obtain ⟨l1, -, l3, -⟩ := logged_of_side_event d hv t (d.back_key t)
    (Or.inr (by rw [hR]; exact hmem))
  refine ⟨?_, ?_, ?_, l1, ?_⟩
  · rw [← List.map_drop, hd, q3, hfk]
    rfl
  · have ha : ul1.length ≤ (a₁.map (fun e => (map_index d.operations e.1).1)).length := by
      have := congrArg List.length hlast
      simp only [List.length_append, List.length_singleton] at this
      simp only [List.length_map]
      omega
    rw [hlast, List.map_append, List.drop_append_of_le_length ha, q1, hbk]
    simp
  · rw [q1]; exact l3
  · intro x hx hxt
    have hsome : (map_find d.operations x.1).isSome = true := by
      rw [map_find_isSome_iff]
      exact List.mem_map_of_mem _ hx
    have hb : (x.1, true) ∈ d.view.balance_tree := (hv.2.2.2.2.1 x.1).mpr hsome
    have hside := (hv.2.2.2.2.2.2.1 _).mp hb
    have hin : (x.1, true) ∈ ur1 := by
      rw [← hR]
      rcases hside with hm | hm
      · exact absurd (hf.1 _ hm) (by simp)
      · simp only [deque_events.upto, List.mem_filter, decide_eq_true_eq]
        exact ⟨hm, hxt⟩
    rw [hbk]
    rw [hlast] at hin sr
    rcases List.mem_append.mp hin with hm | hm
    · unfold events.strictly_sorted at sr
      rw [List.pairwise_append] at sr
      exact le_of_lt (sr.2.2 _ hm e₁ (by simp))
    · simp only [List.mem_singleton] at hm
      rw [← hm]

end retroactive_deque

namespace events

theorem mem_of_mem_erase (l : List (Int × Bool)) (tm : Int) (ev : Int × Bool)
    (h : ev ∈ erase l tm) : ev ∈ l := by
  simp only [erase, List.mem_append, List.mem_filter] at h
  rcases h with h | h
  · exact h.1.1
  · exact h.1

end events

namespace deque_events

variable {T : Type}

theorem fifo_insert_push_back (v : deque_events T) (hv : v.fifo_history) (x : T) (tm : Int) :
    (v.insert_push_operation x tm true).2.fifo_history := by
  simp only [insert_push_operation, if_true]
  split_ifs
  · exact hv
  · exact hv
  · refine ⟨hv.1, fun e he => ?_⟩
    rcases (events.mem_insert _ _ _ _).mp he with h | h
    · rw [h]
    · exact hv.2 e h

theorem fifo_insert_pop_front (v : deque_events T) (hv : v.fifo_history) (tm : Int) :
    (v.insert_pop_operation tm false).2.fifo_history := by
  simp only [insert_pop_operation, Bool.false_eq_true, if_false]
  split_ifs
  · exact hv
  · exact hv
  · refine ⟨fun e he => ?_, hv.2⟩
    rcases (events.mem_insert _ _ _ _).mp he with h | h
    · rw [h]
    · exact hv.1 e h

theorem fifo_delete_operation (v : deque_events T) (hv : v.fifo_history) (tm : Int) :
    (v.delete_operation tm).2.fifo_history := by
  have key : fifo_history
      ({ v with ul := events.erase v.ul tm, ur := events.erase v.ur tm } : deque_events T) :=
    ⟨fun e he => hv.1 e (events.mem_of_mem_erase _ _ _ he),
      fun e he => hv.2 e (events.mem_of_mem_erase _ _ _ he)⟩
  simp only [delete_operation]
  split_ifs
  · exact hv
  · exact key
  · exact hv
  · exact key
  · exact hv

/-- A call of a FIFO queue keeps pops only on the left and pushes only on the right. -/
theorem fifo_call [Inhabited T] (v : deque_events T) (hv : v.fifo_history)
    (c : deque_call T) (hc : c.fifo) : (v.call c).2.fifo_history := by
  cases c with
  | insert_push_back x tm p₁ p₂ => exact fifo_insert_push_back v hv x tm
  | insert_push_front x tm p₁ p₂ => exact absurd hc id
  | insert_pop_back tm p₁ p₂ => exact absurd hc id
  | insert_pop_front tm p₁ p₂ => exact fifo_insert_pop_front v hv tm
  | delete_operation tm p₁ => exact fifo_delete_operation v hv tm
  | push_back x p₁ p₂ => exact fifo_insert_push_back v hv x _
  | push_front x p₁ p₂ => exact absurd hc id
  | pop_back p₁ p₂ => exact absurd hc id
  | pop_front p₁ p₂ => exact fifo_insert_pop_front v hv _
  | clear => exact ⟨fun e he => by simp [call, empty_deque] at he,
      fun e he => by simp [call, empty_deque] at he⟩
  | back tm => exact hv
  | front tm => exact hv
  | size => exact hv
  | empty => exact hv

theorem fifo_run [Inhabited T] (v : deque_events T) (hv : v.fifo_history)
    (cs : List (deque_call T)) (hc : ∀ c ∈ cs, c.fifo) : (v.run cs).2.fifo_history := by
  induction cs generalizing v with
  | nil => exact hv
  | cons c cs ih =>
    exact ih _ (fifo_call v hv c (hc c (by simp))) (fun c' h' => hc c' (List.mem_cons_of_mem _ h'))

end deque_events

namespace retroactive_deque

/-- Every deque reached from the empty deque by calls of a FIFO queue (pushes at the back,
pops at the front, deletions, clear and queries) holds pops only in its left tree and
pushes only in its right tree. -/
theorem fifo_history_of_fifo_calls {T : Type} [Inhabited T] (cs : List (deque_call T))
    (hc : ∀ c ∈ cs, c.fifo) : ((empty_deque : retroactive_deque T).run cs).2.fifo_history := by
  obtain ⟨-, -, v⟩ := run_view (empty_deque : retroactive_deque T) cs wf_empty
  have h := deque_events.fifo_run (empty_deque : retroactive_deque T).view
    ⟨fun e he => by simp [view_empty, deque_events.empty_deque] at he,
      fun e he => by simp [view_empty, deque_events.empty_deque] at he⟩ cs hc
  rw [← v] at h
  exact h

end retroactive_deque

namespace retroactive_deque

/-- The general theorem on the deque after insert_push_back(7, 10), insert_push_back(8, 20),
insert_pop_front(15) and insert_push_back(9, 30), at the time 25: the replayed queue is
[8], and front(25) and back(25) return 8. -/
theorem fifo_queries_above_min_example :
    reachable_above_min ((empty_deque : retroactive_deque Int).run
      [.insert_push_back 7 10 1 2, .insert_push_back 8 20 3 4, .insert_pop_front 15 5 6,
       .insert_push_back 9 30 7 8]).2 ∧
    ((empty_deque : retroactive_deque Int).run
      [.insert_push_back 7 10 1 2, .insert_push_back 8 20 3 4, .insert_pop_front 15 5 6,
       .insert_push_back 9 30 7 8]).2.fifo_replay 25 = [8] ∧
    (((empty_deque : retroactive_deque Int).run
      [.insert_push_back 7 10 1 2, .insert_push_back 8 20 3 4, .insert_pop_front 15 5 6,
       .insert_push_back 9 30 7 8]).2.front 25).1 = 8 ∧
    (((empty_deque : retroactive_deque Int).run
      [.insert_push_back 7 10 1 2, .insert_push_back 8 20 3 4, .insert_pop_front 15 5 6,
       .insert_push_back 9 30 7 8]).2.back 25).1 = 8 := by
  have h₁ : reachable_above_min
      ((empty_deque : retroactive_deque Int).call (.insert_push_back 7 10 1 2)).2 :=
    reachable_above_min.step empty_deque _ reachable_above_min.empty
      (show isInt64 10 by decide)
  have h₂ := reachable_above_min.step _ (.insert_push_back 8 20 3 4) h₁
    (show isInt64 20 by decide)
  have h₃ := reachable_above_min.step _ (.insert_pop_front 15 5 6) h₂
    (show above_min 15 by decide)
  have h₄ : reachable_above_min ((empty_deque : retroactive_deque Int).run
      [.insert_push_back 7 10 1 2, .insert_push_back 8 20 3 4, .insert_pop_front 15 5 6,
       .insert_push_back 9 30 7 8]).2 :=
    reachable_above_min.step _ (.insert_push_back 9 30 7 8) h₃ (show isInt64 30 by decide)
  have hr : ((empty_deque : retroactive_deque Int).run
      [.insert_push_back 7 10 1 2, .insert_push_back 8 20 3 4, .insert_pop_front 15 5 6,
       .insert_push_back 9 30 7 8]).2.fifo_replay 25 = [8] := by decide!
  have hq := fifo_queries_above_min _ h₄ (by unfold fifo_history; decide!) 25
    (by rw [hr]; simp)
  rw [hr] at hq
  simp only [List.head?_cons, List.getLast?_singleton, Option.some.injEq] at hq
  exact ⟨h₄, hr, hq.1.symm, hq.2.1.symm⟩

/-- C33 (front is wrong on the code after a delete at the smallest time): the calls
insert_push_back(7, INT64_MIN), delete_operation(INT64_MIN) and insert_push_back(8, 5)
all return true and leave the push log with the single entry (5, 8), no logged pop, no
event in the left tree and pushes only in the right tree; the queue replayed from the
logs at time 5 is [8], and back(5) returns 8, but front(5) returns the default payload 0.
`treap::erase` splits at `tm - 1`, which wraps to the largest time, so the node of the
deleted push stays in the right tree and `get_kth` selects it. -/
theorem C33_front_of_fifo_queue_after_failed_erase (p₁ p₂ p₃ p₄ p₅ : Nat) :
    ((empty_deque : retroactive_deque Int).run
        [.insert_push_back 7 INT64_MIN p₁ p₂, .delete_operation INT64_MIN p₃,
         .insert_push_back 8 5 p₄ p₅, .back 5, .front 5]).1 =
      [.flag true, .flag true, .flag true, .value 8, .value 0] ∧
    ((empty_deque : retroactive_deque Int).run
        [.insert_push_back 7 INT64_MIN p₁ p₂, .delete_operation INT64_MIN p₃,
         .insert_push_back 8 5 p₄ p₅]).2.view =
      { operations := [(5, 8)], pop_operations := [], ul := [],
        ur := [(INT64_MIN, true), (5, true)],
        balance_tree := [(INT64_MIN, true), (5, true)] } ∧
    ((empty_deque : retroactive_deque Int).run
        [.insert_push_back 7 INT64_MIN p₁ p₂, .delete_operation INT64_MIN p₃,
         .insert_push_back 8 5 p₄ p₅]).2.fifo_history ∧
    ((empty_deque : retroactive_deque Int).run
        [.insert_push_back 7 INT64_MIN p₁ p₂, .delete_operation INT64_MIN p₃,
         .insert_push_back 8 5 p₄ p₅]).2.fifo_replay 5 = [8] := by
  obtain ⟨-, r, -⟩ := run_view (empty_deque : retroactive_deque Int)
    [.insert_push_back 7 INT64_MIN p₁ p₂, .delete_operation INT64_MIN p₃,
     .insert_push_back 8 5 p₄ p₅, .back 5, .front 5] wf_empty
  obtain ⟨-, -, v⟩ := run_view (empty_deque : retroactive_deque Int)
    [.insert_push_back 7 INT64_MIN p₁ p₂, .delete_operation INT64_MIN p₃,
     .insert_push_back 8 5 p₄ p₅] wf_empty
  have hv : ((empty_deque : retroactive_deque Int).run
      [.insert_push_back 7 INT64_MIN p₁ p₂, .delete_operation INT64_MIN p₃,
       .insert_push_back 8 5 p₄ p₅]).2.view =
      { operations := [(5, 8)], pop_operations := [], ul := [],
        ur := [(INT64_MIN, true), (5, true)],
        balance_tree := [(INT64_MIN, true), (5, true)] } := by
    rw [v, view_empty]
    simp only [deque_events.run, deque_events.call]
    decide!
  have ho := congrArg deque_events.operations hv
  have hp := congrArg deque_events.pop_operations hv
  have hl := congrArg deque_events.ul hv
  have hr := congrArg deque_events.ur hv
  simp only [view] at ho hp hl hr
  refine ⟨?_, hv, ?_, ?_⟩
  · rw [r, view_empty]
    simp only [deque_events.run, deque_events.call]
    decide!
  · unfold fifo_history
    rw [hl, hr]
    decide
  · unfold fifo_replay logged_times fifo_update
    rw [ho, hp]
    decide!

end retroactive_deque

namespace retroactive_deque

/-- Two deques with well-formed treaps, the same logs and the same three in-order
sequences return the same `size()`, `front(t)` and `back(t)` at every time. -/
theorem same_view_same_answers {T : Type} [Inhabited T] (a b : retroactive_deque T)
    (ha : a.wf) (hb : b.wf) (h : a.view = b.view) (t : Int) :
    a.size = b.size ∧ (a.front t).1 = (b.front t).1 ∧ (a.back t).1 = (b.back t).1 := by
  rw [size_view a ha, size_view b hb, (front_view a t ha).2.1, (front_view b t hb).2.1,
    (back_view a t ha).2.1, (back_view b t hb).2.1, h]
  exact ⟨rfl, rfl, rfl⟩

end retroactive_deque
